import Mathlib

/-! PHEAP: intrusive pairing heap with a parent pointer (PHEAP_V2.h)

Shallow embedding of the pointer code.  A pointer is `Option Nat` (`none` is
`NULL`), the caller's node storage is a map from addresses to link records, and
every C function becomes a function on that map.  Loops take a fuel argument and
dereferencing `NULL` or running out of fuel yields `none`.

The comparator of a heap is a function of two node addresses, exactly as the C
prototype `int (*)(const PH_NODE *, const PH_NODE *)`: the keys live in the
caller's part of the record and are not touched by the heap code.
-/

set_option autoImplicit false

namespace PHeap

/-! ## Data model -/

/-- Intrusive link record `struct ph_node` of PHEAP_V2.h. -/
structure PH_NODE where
  ph_list : Option Nat
  ph_child : Option Nat
  ph_parent : Option Nat
deriving DecidableEq, Repr

/-- Node storage: address to link record. -/
abbrev Mem := Nat → PH_NODE

/-- Heap header `struct ph_heap`: root pointer and comparator. -/
structure PH_HEAP where
  ph_root : Option Nat
  ph_cmp : Nat → Nat → Int

/-- A zero-initialised node (`memset(..., 0, ...)`). -/
def zeroNode : PH_NODE := ⟨none, none, none⟩

/-- Store `node->ph_list = v`. -/
def setList (m : Mem) (a : Nat) (v : Option Nat) : Mem :=
  fun i => if i = a then { m i with ph_list := v } else m i

/-- Store `node->ph_child = v`. -/
def setChild (m : Mem) (a : Nat) (v : Option Nat) : Mem :=
  fun i => if i = a then { m i with ph_child := v } else m i

/-- Store `node->ph_parent = v`. -/
def setParent (m : Mem) (a : Nat) (v : Option Nat) : Mem :=
  fun i => if i = a then { m i with ph_parent := v } else m i

/-- The guarded store `if(p) p->ph_parent = v`. -/
def setParentOpt (m : Mem) (p : Option Nat) (v : Option Nat) : Mem :=
  match p with
  | some t => setParent m t v
  | none => m

/-- Default `PH_ISGREATER(heap, A, B)`: `cmp(A, B) < 0`. -/
def PH_ISGREATER (heap : PH_HEAP) (A B : Nat) : Bool :=
  decide (heap.ph_cmp A B < 0)

/-! ## Operations of PHEAP_V2.h -/

/-- Function `ph_push`: default push, the node is expected to be initialised. -/
def ph_push (heap : PH_HEAP) (mem : Mem) (node : Nat) : PH_HEAP × Mem :=
  match heap.ph_root with
  | some root =>
    if PH_ISGREATER heap root node then
      let child := (mem root).ph_child
      let mem1 :=
        match child with
        | some c => setParent (setList mem node (some c)) c (some node)
        | none => mem
      let mem2 := setChild mem1 root (some node)
      let mem3 := setParent mem2 node (some root)
      (heap, mem3)
    else
      let mem1 := setChild mem node (some root)
      let mem2 := setParent mem1 root (some node)
      ({ heap with ph_root := some node }, mem2)
  | none => ({ heap with ph_root := some node }, mem)

/-- Function `ph_push_raw`: push that initialises the link fields it relies on. -/
def ph_push_raw (heap : PH_HEAP) (mem : Mem) (node : Nat) : PH_HEAP × Mem :=
  match heap.ph_root with
  | some root =>
    if PH_ISGREATER heap root node then
      let child := (mem root).ph_child
      let mem1 := setList mem node child
      let mem2 := setParentOpt mem1 child (some node)
      let mem3 := setChild mem2 root (some node)
      let mem4 := setParent mem3 node (some root)
      let mem5 := setChild mem4 node none
      (heap, mem5)
    else
      let mem1 := setParent mem root (some node)
      let mem2 := setList mem1 root none
      let mem3 := setChild mem2 node (some root)
      ({ heap with ph_root := some node }, mem3)
  | none => ({ heap with ph_root := some node }, setChild mem node none)

/-- First loop of `__ph_extract_list`: pair up the sibling list left to right,
pushing each paired result on the auxiliary list `list`. -/
def extract_pass1 (heap : PH_HEAP) : Nat → Mem → Option Nat → Nat → Option (Mem × Option Nat × Nat)
  | 0, _, _, _ => none
  | fuel + 1, mem, list, root =>
    match (mem root).ph_list with
    | none => some (mem, list, root)
    | some B =>
      let C := (mem B).ph_list
      let sw := PH_ISGREATER heap B root
      let mem1 := if sw then setParent mem root (some B) else mem
      let B1 := if sw then root else B
      let root1 := if sw then B else root
      let tmp := (mem1 root1).ph_child
      let mem2 := setParentOpt mem1 tmp (some B1)
      let mem3 := setList mem2 B1 tmp
      let mem4 := setChild mem3 root1 (some B1)
      match C with
      | none => some (mem4, list, root1)
      | some c => extract_pass1 heap fuel (setList mem4 root1 list) (some root1) c

/-- Second loop of `__ph_extract_list`: fold the auxiliary list into `root`. -/
def extract_pass2 (heap : PH_HEAP) : Nat → Mem → Option Nat → Nat → Option (Mem × Nat)
  | 0, _, _, _ => none
  | fuel + 1, mem, list, root =>
    match list with
    | none => some (mem, root)
    | some l =>
      let C := (mem l).ph_list
      let sw := PH_ISGREATER heap l root
      let root1 := if sw then l else root
      let list1 := if sw then root else l
      let tmp := (mem root1).ph_child
      let mem1 := setParentOpt mem tmp (some list1)
      let mem2 := setList mem1 list1 tmp
      let mem3 := setChild mem2 root1 (some list1)
      let mem4 := setParent mem3 list1 (some root1)
      extract_pass2 heap fuel mem4 C root1

/-- Function `__ph_extract_list`: two pass pairing merge of the sibling list at `root`. -/
def __ph_extract_list (fuel : Nat) (heap : PH_HEAP) (mem : Mem) (root : Nat) : Option (Mem × Nat) :=
  match extract_pass1 heap fuel mem none root with
  | none => none
  | some (mem1, list, root1) => extract_pass2 heap fuel mem1 list root1

/-- Function `__ph_pop`: new root after removing `root` (the header is not written). -/
def __ph_pop (fuel : Nat) (heap : PH_HEAP) (mem : Mem) (root : Nat) : Option (Mem × Option Nat) :=
  match (mem root).ph_child with
  | some c =>
    match __ph_extract_list fuel heap mem c with
    | some (mem1, r) => some (mem1, some r)
    | none => none
  | none => some (mem, none)

/-- Function `ph_pop`: replace the root by the next top element; no-op when empty. -/
def ph_pop (fuel : Nat) (heap : PH_HEAP) (mem : Mem) : Option (PH_HEAP × Mem) :=
  match heap.ph_root with
  | some root =>
    match (mem root).ph_child with
    | some c =>
      match __ph_extract_list fuel heap mem c with
      | some (mem1, r) => some ({ heap with ph_root := some r }, mem1)
      | none => none
    | none => some ({ heap with ph_root := none }, mem)
  | none => some (heap, mem)

/-- Target of `PH_NODE **pptr` in `ph_remove_at`. -/
inductive Slot where
  | root : Slot
  | child (a : Nat) : Slot
  | list (a : Nat) : Slot
deriving DecidableEq, Repr

/-- Store `*pptr = v`. -/
def writeSlot (heap : PH_HEAP) (mem : Mem) (s : Slot) (v : Option Nat) : PH_HEAP × Mem :=
  match s with
  | Slot.root => ({ heap with ph_root := v }, mem)
  | Slot.child a => (heap, setChild mem a v)
  | Slot.list a => (heap, setList mem a v)

/-- Function `ph_remove_at`: remove any node from the queue. -/
def ph_remove_at (fuel : Nat) (heap : PH_HEAP) (mem : Mem) (node : Nat) : Option (PH_HEAP × Mem) :=
  let loc : Option (Slot × Option Nat × Option Nat) :=
    if heap.ph_root ≠ some node then
      match (mem node).ph_parent with
      | some parent =>
        some (if (mem parent).ph_child = some node then Slot.child parent else Slot.list parent,
              (mem node).ph_list, some parent)
      | none => none
    else some (Slot.root, none, none)
  match loc with
  | none => none
  | some (pptr, list, parent) =>
    match (mem node).ph_child with
    | some child =>
      match __ph_extract_list fuel heap mem child with
      | none => none
      | some (mem1, child1) =>
        let mem2 := setParent mem1 child1 parent
        let (heap3, mem3) := writeSlot heap mem2 pptr (some child1)
        let mem4 := setParentOpt mem3 list (some child1)
        some (writeSlot heap3 mem4 (Slot.list child1) list)
    | none =>
      let mem1 := setParentOpt mem list parent
      some (writeSlot heap mem1 pptr list)

/-- Function `__ph_decrease_root` of PHEAP_V2.h. -/
def __ph_decrease_root (fuel : Nat) (heap : PH_HEAP) (mem : Mem) (root : Nat) : Option (Mem × Nat) :=
  let mem1 := setList mem root (mem root).ph_child
  let mem2 := setChild mem1 root none
  __ph_extract_list fuel heap mem2 root

/-- Function `ph_decrease_root`: reconnect the root after an update; the heap must not
be empty. -/
def ph_decrease_root (fuel : Nat) (heap : PH_HEAP) (mem : Mem) : Option (PH_HEAP × Mem) :=
  match heap.ph_root with
  | none => none
  | some root =>
    match __ph_decrease_root fuel heap mem root with
    | none => none
    | some (mem1, r) => some ({ heap with ph_root := some r }, mem1)

/-- Function `ph_decrease_at`: update any element of the heap. -/
def ph_decrease_at (fuel : Nat) (heap : PH_HEAP) (mem : Mem) (node : Nat) : Option (PH_HEAP × Mem) :=
  match ph_remove_at fuel heap mem node with
  | none => none
  | some (heap1, mem1) => some (ph_push_raw heap1 mem1 node)

/-- Inner `while((list = node->ph_list))` loop of `__ph_destroy_subheap`. -/
def destroy_rotate : Nat → Mem → Nat → Option (Mem × Nat)
  | 0, _, _ => none
  | fuel + 1, mem, node =>
    match (mem node).ph_list with
    | some list =>
      let mem1 := setList mem node (mem list).ph_child
      let mem2 := setChild mem1 list (some node)
      destroy_rotate fuel mem2 list
    | none => some (mem, node)

/-- Function `__ph_destroy_subheap`: the `do ... while(node)` loop; the third component
accumulates the nodes handed to `PH_DESTROY`, in call order. -/
def __ph_destroy_subheap : Nat → Mem → Nat → List Nat → Option (Mem × List Nat)
  | 0, _, _, _ => none
  | fuel + 1, mem, node, log =>
    match destroy_rotate (fuel + 1) mem node with
    | none => none
    | some (mem1, node1) =>
      match (mem1 node1).ph_child with
      | some next => __ph_destroy_subheap fuel mem1 next (log ++ [node1])
      | none => some (mem1, log ++ [node1])

/-- Function `ph_destroy_heap`: front end of `__ph_destroy_subheap`. -/
def ph_destroy_heap (fuel : Nat) (heap : PH_HEAP) (mem : Mem) : Option (PH_HEAP × Mem × List Nat) :=
  match heap.ph_root with
  | none => some (heap, mem, [])
  | some root =>
    match __ph_destroy_subheap fuel (setList mem root none) root [] with
    | none => none
    | some (mem1, log) => some ({ heap with ph_root := none }, mem1, log)

/-- Function `__ph_merge` of PHEAP_V2.h. -/
def __ph_merge (heap : PH_HEAP) (mem : Mem) (root1 root2 : Nat) : Mem × Nat :=
  let sw := PH_ISGREATER heap root2 root1
  let r1 := if sw then root2 else root1
  let r2 := if sw then root1 else root2
  let child := (mem r1).ph_child
  let mem1 := setParentOpt mem child (some r2)
  let mem2 := setList mem1 r2 child
  let mem3 := setChild mem2 r1 (some r2)
  let mem4 := setParent mem3 r2 (some r1)
  (mem4, r1)

/-- Function `ph_merge_heaps`: merge `src` into `dst` with the comparator of `dst`. -/
def ph_merge_heaps (dst src : PH_HEAP) (mem : Mem) : PH_HEAP × PH_HEAP × Mem :=
  match src.ph_root with
  | none => (dst, src, mem)
  | some root =>
    let src1 := { src with ph_root := none }
    match dst.ph_root with
    | some ptr =>
      let (mem1, r) := __ph_merge dst mem root ptr
      ({ dst with ph_root := some r }, src1, mem1)
    | none => ({ dst with ph_root := some root }, src1, mem)

/-- Function `ph_move_at`: transfer the position of `src` to `dst`. -/
def ph_move_at (heap : PH_HEAP) (mem : Mem) (dst src : Nat) : Option (PH_HEAP × Mem) :=
  let r : Option (PH_HEAP × Mem) :=
    if heap.ph_root ≠ some src then
      match (mem src).ph_parent with
      | none => none
      | some tmp =>
        let mem1 := setParent mem dst (some tmp)
        let mem2 :=
          if (mem1 tmp).ph_child = some src then setChild mem1 tmp (some dst)
          else setList mem1 tmp (some dst)
        let tmp2 := (mem2 src).ph_list
        let mem3 := setList mem2 dst tmp2
        let mem4 := setParentOpt mem3 tmp2 (some dst)
        some (heap, mem4)
    else some ({ heap with ph_root := some dst }, mem)
  match r with
  | none => none
  | some (heap1, mem5) =>
    let tmp := (mem5 src).ph_child
    let mem6 := setChild mem5 dst tmp
    let mem7 := setParentOpt mem6 tmp (some dst)
    some (heap1, mem7)

/-! ## Abstract forests -/

/-- Leftmost-child / next-sibling forest of node addresses: `node a kids rest`
is the tree rooted at `a` with child list `kids`, followed by the sibling
list `rest`. -/
inductive Forest where
  | nil : Forest
  | node (a : Nat) (kids : Forest) (rest : Forest) : Forest
deriving DecidableEq, Repr

/-- Addresses of a forest, in preorder. -/
def Forest.nodes : Forest → List Nat
  | .nil => []
  | .node a c s => a :: (c.nodes ++ s.nodes)

/-- Address of the first tree of a forest. -/
def Forest.head : Forest → Option Nat
  | .nil => none
  | .node a _ _ => some a

/-- The `ph_child` / `ph_list` edges from pointer `p` spell out forest `t`. -/
def Shape (m : Mem) : Option Nat → Forest → Prop
  | p, .nil => p = none
  | p, .node a c s => p = some a ∧ Shape m (m a).ph_child c ∧ Shape m (m a).ph_list s

/-- Every node of `t` has as `ph_parent` the node whose `ph_child` or
`ph_list` field points to it; `prev` is that node for the first tree. -/
def Back (m : Mem) : Option Nat → Forest → Prop
  | _, .nil => True
  | prev, .node a c s => (m a).ph_parent = prev ∧ Back m (some a) c ∧ Back m (some a) s

/-- Heap order below a bound: every tree root of the forest has key at least
`lb`, and recursively every child list is bounded by its parent key. -/
def HeapOrd (key : Nat → Int) : Int → Forest → Prop
  | _, .nil => True
  | lb, .node a c s => lb ≤ key a ∧ HeapOrd key (key a) c ∧ HeapOrd key lb s

instance Shape.dec (m : Mem) : (p : Option Nat) → (t : Forest) → Decidable (Shape m p t)
  | p, .nil => by unfold Shape; infer_instance
  | p, .node a c s => by
      unfold Shape
      exact @instDecidableAnd _ _ _ (@instDecidableAnd _ _ (Shape.dec m _ c) (Shape.dec m _ s))

instance Back.dec (m : Mem) : (p : Option Nat) → (t : Forest) → Decidable (Back m p t)
  | p, .nil => by unfold Back; infer_instance
  | p, .node a c s => by
      unfold Back
      exact @instDecidableAnd _ _ _ (@instDecidableAnd _ _ (Back.dec m _ c) (Back.dec m _ s))

instance HeapOrd.dec (key : Nat → Int) : (lb : Int) → (t : Forest) → Decidable (HeapOrd key lb t)
  | lb, .nil => by unfold HeapOrd; infer_instance
  | lb, .node a c s => by
      unfold HeapOrd
      exact @instDecidableAnd _ _ _ (@instDecidableAnd _ _ (HeapOrd.dec key _ c) (HeapOrd.dec key _ s))

/-- The tree rooted at `r` has child list `c`; the `ph_list` and `ph_parent`
fields of `r` itself are not constrained. -/
def TreeAt (m : Mem) (r : Nat) (c : Forest) : Prop :=
  Shape m (m r).ph_child c ∧ Back m (some r) c

instance (m : Mem) (r : Nat) (c : Forest) : Decidable (TreeAt m r c) := by
  unfold TreeAt; infer_instance

/-- The comparator orders nodes by `key`: `PH_ISGREATER(A, B)` holds exactly
when `A` has the strictly smaller key, which makes the heap a min-queue. -/
def CmpOK (heap : PH_HEAP) (key : Nat → Int) : Prop :=
  ∀ a b, heap.ph_cmp a b < 0 ↔ key a < key b

/-- Well-formed non-empty heap with root `r` and child forest `c`. -/
def HeapRep (key : Nat → Int) (heap : PH_HEAP) (m : Mem) (r : Nat) (c : Forest) : Prop :=
  heap.ph_root = some r ∧ TreeAt m r c ∧ (r :: c.nodes).Nodup ∧ HeapOrd key (key r) c

instance (key : Nat → Int) (heap : PH_HEAP) (m : Mem) (r : Nat) (c : Forest) :
    Decidable (HeapRep key heap m r c) := by
  unfold HeapRep; infer_instance

/-- Pairing of the trees `(a, ca)` and `(b, cb)` as done with `root = a`,
`B = b`: `b` wins only with a strictly smaller key. -/
def link (key : Nat → Int) (a : Nat) (ca : Forest) (b : Nat) (cb : Forest) : Nat × Forest :=
  if key b < key a then (b, .node a ca cb) else (a, .node b cb ca)

/-- First pass: pair the trees of the list `node a ca s` left to right, pushing
finished pairs on `stk`; returns the stack and the last tree. -/
def pass1 (key : Nat → Int) :
    List (Nat × Forest) → Nat → Forest → Forest → List (Nat × Forest) × Nat × Forest
  | stk, a, ca, .nil => (stk, a, ca)
  | stk, a, ca, .node b cb .nil => (stk, link key a ca b cb)
  | stk, a, ca, .node b cb (.node c cc s) => pass1 key (link key a ca b cb :: stk) c cc s

/-- Second pass: fold the stack into the accumulated tree. -/
def pass2 (key : Nat → Int) (stk : List (Nat × Forest)) (r : Nat) (cr : Forest) : Nat × Forest :=
  stk.foldl (fun acc e => link key acc.1 acc.2 e.1 e.2) (r, cr)

/-- Two pass pairing merge of the sibling list `node a ca s`. -/
def twoPass (key : Nat → Int) (a : Nat) (ca : Forest) (s : Forest) : Nat × Forest :=
  let p := pass1 key [] a ca s
  pass2 key p.1 p.2.1 p.2.2

/-- The three stores that hang the tree at `l` under `w` as its first child:
`tmp = w->ph_child; if(tmp) tmp->ph_parent = l; l->ph_list = tmp;
w->ph_child = l`. -/
def linkMem (m : Mem) (w l : Nat) : Mem :=
  setChild (setList (setParentOpt m (m w).ph_child (some l)) l (m w).ph_child) w (some l)

/-- Nodes held by a stack of trees. -/
def stkNodes : List (Nat × Forest) → List Nat
  | [] => []
  | e :: rest => (e.1 :: e.2.nodes) ++ stkNodes rest

/-- The auxiliary list of `__ph_extract_list`: trees chained through `ph_list`. -/
def AuxRep (m : Mem) : Option Nat → List (Nat × Forest) → Prop
  | p, [] => p = none
  | p, e :: rest => p = some e.1 ∧ TreeAt m e.1 e.2 ∧ AuxRep m (m e.1).ph_list rest

/-- Every tree on the stack is heap ordered with root key at least `lb`. -/
def StkOrd (key : Nat → Int) (lb : Int) (stk : List (Nat × Forest)) : Prop :=
  ∀ e ∈ stk, lb ≤ key e.1 ∧ HeapOrd key (key e.1) e.2

/-! ## The sort consumer (pheap_sort.c) and full extraction -/

/-- Push the nodes of a list in order with `ph_push`. -/
def push_all (heap : PH_HEAP) (mem : Mem) : List Nat → PH_HEAP × Mem
  | [] => (heap, mem)
  | n :: rest => push_all (ph_push heap mem n).1 (ph_push heap mem n).2 rest

/-- Function `insert_data`: `for(i = 0; i <= n; ++i) ph_push(heap, ptr + i)`. -/
def insert_data (heap : PH_HEAP) (mem : Mem) (ptr : Nat) (n : Int) : PH_HEAP × Mem :=
  push_all heap mem ((List.range (n + 1).toNat).map (fun i => ptr + i))

/-- The `do ... while((root = __ph_pop(heap, root)))` loop of `sort_data`; the
last component collects the nodes whose key is printed. -/
def sort_loop : Nat → PH_HEAP → Mem → Nat → List Nat → Option (Mem × List Nat)
  | 0, _, _, _, _ => none
  | fuel + 1, heap, mem, root, out =>
    match __ph_pop fuel heap mem root with
    | none => none
    | some (mem1, some r) => sort_loop fuel heap mem1 r (out ++ [root])
    | some (mem1, none) => some (mem1, out ++ [root])

/-- Function `sort_data`: print the root key and pop until the heap is exhausted. -/
def sort_data (fuel : Nat) (heap : PH_HEAP) (mem : Mem) : Option (PH_HEAP × Mem × List Nat) :=
  match heap.ph_root with
  | none => some (heap, mem, [])
  | some root =>
    match sort_loop fuel heap mem root [] with
    | none => none
    | some (mem1, out) => some ({ heap with ph_root := none }, mem1, out)

/-- Full extraction: read the root, call `ph_pop`, repeat until the root is
empty; returns the roots read, in order. -/
def pop_all : Nat → PH_HEAP → Mem → Option (PH_HEAP × Mem × List Nat)
  | 0, _, _ => none
  | fuel + 1, heap, mem =>
    match heap.ph_root with
    | none => some (heap, mem, [])
    | some r =>
      match ph_pop fuel heap mem with
      | none => none
      | some (h1, m1) =>
        match pop_all fuel h1 m1 with
        | none => none
        | some (h2, m2, out) => some (h2, m2, r :: out)

/-- Abstract extraction order of the heap with root `r` and children `c`;
the first argument bounds the number of pops. -/
def popSeq (key : Nat → Int) : Nat → Nat → Forest → List Nat
  | 0, r, _ => [r]
  | _ + 1, r, .nil => [r]
  | n + 1, r, .node a ca s => r :: popSeq key n (twoPass key a ca s).1 (twoPass key a ca s).2

/-! ## Concrete comparator and sample inputs -/

/-- Value of an integer expression stored in a 32-bit `int`. -/
def wrapInt32 (x : Int) : Int := (x + 2147483648) % 4294967296 - 2147483648

/-- Comparator `ph_cmp` of pheap_sort.c: `a->key - b->key`, computed in `int`. -/
def ph_cmp (key : Nat → Int) (a b : Nat) : Int := wrapInt32 (key a - key b)

/-- Keys stored in an array of nodes; addresses past the array read as 0. -/
def keysOf (ks : List Int) (a : Nat) : Int := ks.getD a 0

/-- An all-zero node store. -/
def zeroMem : Mem := fun _ => zeroNode

/-- The interleaving push 1, push 3, push 2, pop, push 0 on nodes 0..3,
followed by `pops` further calls of `ph_pop`. -/
def interleaved_run (pops : Nat) : Option (PH_HEAP × Mem) :=
  let key := keysOf [1, 3, 2, 0]
  let s0 : PH_HEAP × Mem := (⟨none, ph_cmp key⟩, zeroMem)
  let s1 := ph_push s0.1 s0.2 0
  let s2 := ph_push s1.1 s1.2 1
  let s3 := ph_push s2.1 s2.2 2
  match ph_pop 8 s3.1 s3.2 with
  | none => none
  | some s4 =>
    let s5 := ph_push s4.1 s4.2 3
    (List.range pops).foldl
      (fun acc _ => match acc with
        | none => none
        | some s => ph_pop 8 s.1 s.2) (some s5)

/-- Keys of the merge example: heap A holds 3, 7, 1 in nodes 0..2 and heap B
holds 5, 2, 9 in nodes 3..5. -/
def mergeKey : Nat → Int := keysOf [3, 7, 1, 5, 2, 9]

/-- Heap A of the merge example, built with `ph_push`. -/
def mergeA : PH_HEAP × Mem := push_all ⟨none, ph_cmp mergeKey⟩ zeroMem [0, 1, 2]

/-- Heap B of the merge example, built in the same node store. -/
def mergeB : PH_HEAP × Mem := push_all ⟨none, ph_cmp mergeKey⟩ mergeA.2 [3, 4, 5]

/-- Keys of the removal example: 4, 8, 2, 6 in nodes 0..3. -/
def removeKey : Nat → Int := keysOf [4, 8, 2, 6]

/-- Heap of the removal example, built with `ph_push`. -/
def removeDemo : PH_HEAP × Mem := push_all ⟨none, ph_cmp removeKey⟩ zeroMem [0, 1, 2, 3]

/-- Keys of the decrease example before the update: 10, 20, 30 in nodes 0..2. -/
def decKey : Nat → Int := keysOf [10, 20, 30]

/-- Keys of the decrease example after node 2 was lowered from 30 to 5. -/
def decKey2 : Nat → Int := keysOf [10, 20, 5]

/-- Heap of the decrease example, built with `ph_push` under the old keys. -/
def decDemo : PH_HEAP × Mem := push_all ⟨none, ph_cmp decKey⟩ zeroMem [0, 1, 2]

/-- Keys of the replacement example: 4, 8, 2, 6 in nodes 0..3 and a spare
node 4 that also carries 8. -/
def moveKey : Nat → Int := keysOf [4, 8, 2, 6, 8]

/-- Heap of the replacement example built with `ph_push` from nodes 0..3; the
spare node 4 holds stale links. -/
def moveDemo : PH_HEAP × Mem :=
  ((push_all ⟨none, ph_cmp moveKey⟩ zeroMem [0, 1, 2, 3]).1,
    fun i => if i = 4 then ⟨some 7, some 8, some 9⟩
      else (push_all ⟨none, ph_cmp moveKey⟩ zeroMem [0, 1, 2, 3]).2 i)

/-- A two node heap (root 0 with child 1) and a spare node 2 with stale links. -/
def moveRootDemo : PH_HEAP × Mem :=
  (⟨some 0, ph_cmp (keysOf [1, 2, 1])⟩,
    fun i => if i = 0 then ⟨none, some 1, none⟩ else if i = 1 then ⟨none, none, some 0⟩
      else ⟨some 7, some 8, some 9⟩)

/-! ## Abstract counterparts of destruction, removal and replacement -/

/-- Effect of the rotation loop of `__ph_destroy_subheap` on the tree at `a`
with children `c` and sibling list `s`: every sibling in turn becomes the top
node, taking the previous top as first child. -/
def rotAbs : Nat → Forest → Forest → Nat × Forest
  | a, c, .nil => (a, c)
  | a, c, .node l lc ls => rotAbs l (.node a c lc) ls

/-- Number of nodes of a forest. -/
def Forest.size (t : Forest) : Nat := t.nodes.length

/-- Forest after `ph_remove_at` of the non-root node `x`: the two pass pairing
of the children of `x` takes its place in the sibling list, or its next
sibling does when `x` has no children. -/
def removeF (key : Nat → Int) (x : Nat) : Forest → Forest
  | .nil => .nil
  | .node a c s =>
    if a = x then
      match c with
      | .nil => s
      | .node b cb sb => .node (twoPass key b cb sb).1 (twoPass key b cb sb).2 s
    else .node a (removeF key x c) (removeF key x s)

/-- Heap (root and child forest) after `ph_remove_at` of member `x`; `none`
is the empty heap. -/
def removeHeap (key : Nat → Int) (x : Nat) (r : Nat) (c : Forest) : Option (Nat × Forest) :=
  if r = x then
    match c with
    | .nil => none
    | .node b cb sb => some (twoPass key b cb sb)
  else some (r, removeF key x c)

/-- The pointer field of holder `h` that a sub-forest hangs from: its
`ph_child` field or its `ph_list` field. -/
def slotOf (m : Mem) (h : Nat) (isChild : Bool) : Option Nat :=
  if isChild then (m h).ph_child else (m h).ph_list

/-- Store into the `ph_child` or the `ph_list` field of holder `h`. -/
def setSlot (m : Mem) (h : Nat) (isChild : Bool) (v : Option Nat) : Mem :=
  if isChild then setChild m h v else setList m h v

/-- Renaming that puts `d` in the place of `x`. -/
def swapIn (x d : Nat) (a : Nat) : Nat := if a = x then d else a

/-- Forest with every address renamed by `f`. -/
def mapF (f : Nat → Nat) : Forest → Forest
  | .nil => .nil
  | .node a c s => .node (f a) (mapF f c) (mapF f s)

/-- Linkage handed over by `ph_move_at` from a non-root `x` to `d`: the three
link fields of `d` mirror those of `x`, the pointer of the predecessor that
referred to `x` refers to `d`, and the first child and next sibling of `x`
name `d` in their parent field. -/
def MoveFacts (m m' : Mem) (x d : Nat) : Prop :=
  (m' d).ph_child = (m x).ph_child ∧ (m' d).ph_list = (m x).ph_list ∧
  (m' d).ph_parent = (m x).ph_parent ∧
  (∃ p, (m x).ph_parent = some p ∧
    (if (m p).ph_child = some x then (m' p).ph_child = some d else (m' p).ph_list = some d)) ∧
  (∀ y, (m x).ph_child = some y → (m' y).ph_parent = some d) ∧
  (∀ y, (m x).ph_list = some y → (m' y).ph_parent = some d)

/-! ## Sequences of operations on several heaps -/

/-- Node `x` is reachable from pointer `p` by `ph_child` and `ph_list` edges. -/
inductive Reach (m : Mem) : Option Nat → Nat → Prop where
  | here (a : Nat) : Reach m (some a) a
  | child (a x : Nat) : Reach m (m a).ph_child x → Reach m (some a) x
  | list (a x : Nat) : Reach m (m a).ph_list x → Reach m (some a) x

/-- Node `x` is a member of the heap with root pointer `root`: it is the root
or reachable from the root's first child (the root's own `ph_list` is not
followed). -/
def Member (m : Mem) (root : Option Nat) (x : Nat) : Prop :=
  ∃ r, root = some r ∧ (x = r ∨ Reach m (m r).ph_child x)

/-- The caller's world: node links, the keys stored in the nodes and the root
pointers of the heap headers, indexed by heap. -/
structure World where
  mem : Mem
  key : Nat → Int
  roots : Nat → Option Nat

/-- A call of the public interface; `decrease_at` and `decrease_root` carry
the new key that the caller stores immediately before the call. -/
inductive Op where
  | push_raw (i n : Nat)
  | pop (i : Nat)
  | remove_at (i x : Nat)
  | decrease_at (i x : Nat) (k : Int)
  | decrease_root (i : Nat) (k : Int)
  | merge_heaps (dst src : Nat)
  | move_at (i d x : Nat)

/-- Header of heap `i`; `C key` is the comparator reading the current keys. -/
def heapOf (C : (Nat → Int) → Nat → Nat → Int) (w : World) (i : Nat) : PH_HEAP :=
  ⟨w.roots i, C w.key⟩

/-- Root table with entry `i` replaced. -/
def setRoot (roots : Nat → Option Nat) (i : Nat) (v : Option Nat) : Nat → Option Nat :=
  fun j => if j = i then v else roots j

/-- Key store with the key of `x` replaced. -/
def setKey (key : Nat → Int) (x : Nat) (k : Int) : Nat → Int :=
  fun a => if a = x then k else key a

/-- Execution of one call. -/
def step (C : (Nat → Int) → Nat → Nat → Int) (fuel : Nat) (w : World) : Op → Option World
  | .push_raw i n =>
    some ⟨(ph_push_raw (heapOf C w i) w.mem n).2, w.key,
      setRoot w.roots i (ph_push_raw (heapOf C w i) w.mem n).1.ph_root⟩
  | .pop i =>
    (ph_pop fuel (heapOf C w i) w.mem).map
      (fun r => ⟨r.2, w.key, setRoot w.roots i r.1.ph_root⟩)
  | .remove_at i x =>
    (ph_remove_at fuel (heapOf C w i) w.mem x).map
      (fun r => ⟨r.2, w.key, setRoot w.roots i r.1.ph_root⟩)
  | .decrease_at i x k =>
    (ph_decrease_at fuel ⟨w.roots i, C (setKey w.key x k)⟩ w.mem x).map
      (fun r => ⟨r.2, setKey w.key x k, setRoot w.roots i r.1.ph_root⟩)
  | .decrease_root i k =>
    match w.roots i with
    | none => none
    | some r =>
      (ph_decrease_root fuel ⟨w.roots i, C (setKey w.key r k)⟩ w.mem).map
        (fun s => ⟨s.2, setKey w.key r k, setRoot w.roots i s.1.ph_root⟩)
  | .merge_heaps dst src =>
    some ⟨(ph_merge_heaps (heapOf C w dst) (heapOf C w src) w.mem).2.2, w.key,
      setRoot (setRoot w.roots dst (ph_merge_heaps (heapOf C w dst) (heapOf C w src) w.mem).1.ph_root)
        src (ph_merge_heaps (heapOf C w dst) (heapOf C w src) w.mem).2.1.ph_root⟩
  | .move_at i d x =>
    (ph_move_at (heapOf C w i) w.mem d x).map
      (fun r => ⟨r.2, w.key, setRoot w.roots i r.1.ph_root⟩)

/-- Precondition of a call. -/
def Pre (w : World) : Op → Prop
  | .push_raw _ n => ∀ j, ¬ Member w.mem (w.roots j) n
  | .pop _ => True
  | .remove_at i x => Member w.mem (w.roots i) x
  | .decrease_at i x _ => Member w.mem (w.roots i) x
  | .decrease_root i _ => w.roots i ≠ none
  | .merge_heaps dst src => dst ≠ src
  | .move_at i d x =>
    Member w.mem (w.roots i) x ∧ (∀ j, ¬ Member w.mem (w.roots j) d) ∧ w.key d = w.key x

/-- Worlds reachable from empty heaps by calls that respect their
preconditions and return. -/
inductive Reachable (C : (Nat → Int) → Nat → Nat → Int) : World → Prop where
  | init (m : Mem) (key : Nat → Int) : Reachable C ⟨m, key, fun _ => none⟩
  | step (w w' : World) (op : Op) (fuel : Nat) :
      Reachable C w → Pre w op → step C fuel w op = some w' → Reachable C w'

/-- Members recorded by a ghost heap. -/
def nodesOf : Option (Nat × Forest) → List Nat
  | none => []
  | some p => p.1 :: p.2.nodes

/-- The ghost forests `G` describe the world: every heap is empty or
well-formed with the recorded tree, and distinct heaps share no node. -/
def GhostOK (C : (Nat → Int) → Nat → Nat → Int) (w : World)
    (G : Nat → Option (Nat × Forest)) : Prop :=
  (∀ i, match G i with
    | none => w.roots i = none
    | some p => HeapRep w.key (heapOf C w i) w.mem p.1 p.2) ∧
  (∀ i j, i ≠ j → ∀ y ∈ nodesOf (G i), y ∉ nodesOf (G j))

/-- The comparator family `C` orders nodes by the keys it is given. -/
def CmpFamOK (C : (Nat → Int) → Nat → Nat → Int) : Prop :=
  ∀ (key : Nat → Int) (a b : Nat), C key a b < 0 ↔ key a < key b

/-- Comparator of pheap_sort.c without overflow: the key difference. -/
def diffCmp (key : Nat → Int) (a b : Nat) : Int := key a - key b

/-- Sample run, first world: node 0 (key 5) pushed on heap 0 of an all-zero
store. -/
def demoWorld1 : World :=
  ⟨(ph_push_raw ⟨none, diffCmp (keysOf [5, 3])⟩ zeroMem 0).2, keysOf [5, 3],
    setRoot (fun _ => none) 0 (ph_push_raw ⟨none, diffCmp (keysOf [5, 3])⟩ zeroMem 0).1.ph_root⟩

/-- Sample run, second world: the key of the root is set to 7 and
`ph_decrease_root` is called on heap 0. -/
def demoWorld2 : World :=
  match step diffCmp 3 demoWorld1 (.decrease_root 0 7) with
  | some w => w
  | none => demoWorld1

/-! ## Calls on an empty heap -/

/-- The two calls that are allowed on an empty heap without a guard. -/
inductive EmptyOp where
  | pop : EmptyOp
  | destroy : EmptyOp
deriving DecidableEq, Repr

/-- Run a sequence of `ph_pop` / `ph_destroy_heap` calls; the last component
collects the nodes handed to `PH_DESTROY`, in call order. -/
def run_empty (fuel : Nat) : List EmptyOp → PH_HEAP → Mem → List Nat → Option (PH_HEAP × Mem × List Nat)
  | [], heap, mem, log => some (heap, mem, log)
  | .pop :: rest, heap, mem, log =>
    match ph_pop fuel heap mem with
    | none => none
    | some (heap1, mem1) => run_empty fuel rest heap1 mem1 log
  | .destroy :: rest, heap, mem, log =>
    match ph_destroy_heap fuel heap mem with
    | none => none
    | some (heap1, mem1, log1) => run_empty fuel rest heap1 mem1 (log ++ log1)

/-! ## `__ph_extract_list` with a record of the predicate evaluations -/

/-- First loop of `__ph_extract_list`, recording every evaluation
`PH_ISGREATER(heap, B, root)` as the pair `(B, root)`. -/
def extract_pass1_log (heap : PH_HEAP) :
    Nat → Mem → Option Nat → Nat → List (Nat × Nat) →
      Option (Mem × Option Nat × Nat × List (Nat × Nat))
  | 0, _, _, _, _ => none
  | fuel + 1, mem, list, root, log =>
    match (mem root).ph_list with
    | none => some (mem, list, root, log)
    | some B =>
      let C := (mem B).ph_list
      let sw := PH_ISGREATER heap B root
      let log1 := log ++ [(B, root)]
      let mem1 := if sw then setParent mem root (some B) else mem
      let B1 := if sw then root else B
      let root1 := if sw then B else root
      let tmp := (mem1 root1).ph_child
      let mem2 := setParentOpt mem1 tmp (some B1)
      let mem3 := setList mem2 B1 tmp
      let mem4 := setChild mem3 root1 (some B1)
      match C with
      | none => some (mem4, list, root1, log1)
      | some c => extract_pass1_log heap fuel (setList mem4 root1 list) (some root1) c log1

/-- Second loop of `__ph_extract_list`, recording every evaluation
`PH_ISGREATER(heap, list, root)` as the pair `(list, root)`. -/
def extract_pass2_log (heap : PH_HEAP) :
    Nat → Mem → Option Nat → Nat → List (Nat × Nat) → Option (Mem × Nat × List (Nat × Nat))
  | 0, _, _, _, _ => none
  | fuel + 1, mem, list, root, log =>
    match list with
    | none => some (mem, root, log)
    | some l =>
      let C := (mem l).ph_list
      let sw := PH_ISGREATER heap l root
      let log1 := log ++ [(l, root)]
      let root1 := if sw then l else root
      let list1 := if sw then root else l
      let tmp := (mem root1).ph_child
      let mem1 := setParentOpt mem tmp (some list1)
      let mem2 := setList mem1 list1 tmp
      let mem3 := setChild mem2 root1 (some list1)
      let mem4 := setParent mem3 list1 (some root1)
      extract_pass2_log heap fuel mem4 C root1 log1

/-- Function `__ph_extract_list` together with the record of its predicate
evaluations. -/
def __ph_extract_list_log (fuel : Nat) (heap : PH_HEAP) (mem : Mem) (root : Nat) :
    Option (Mem × Nat × List (Nat × Nat)) :=
  match extract_pass1_log heap fuel mem none root [] with
  | none => none
  | some (mem1, list, root1, log) => extract_pass2_log heap fuel mem1 list root1 log

/-! ## Reference definition of the two pass pairing merge -/

/-- The trees of a sibling list, each as its root and child forest. -/
def Forest.trees : Forest → List (Nat × Forest)
  | .nil => []
  | .node a c s => (a, c) :: s.trees

/-- Reference pairing `link(a, b)`: the tree rooted at `b` with `a` prepended
to the children of `b` when `b` strictly precedes `a`, and otherwise (ties
included) the tree rooted at `a` with `b` prepended to the children of `a`. -/
def refLink (key : Nat → Int) (a b : Nat × Forest) : Nat × Forest :=
  if key b.1 < key a.1 then (b.1, .node a.1 a.2 b.2) else (a.1, .node b.1 b.2 a.2)

/-- The paired trees `p_1, p_2, ...` with `p_i = link(t_{2i-1}, t_{2i})`. -/
def refPairs (key : Nat → Int) : List (Nat × Forest) → List (Nat × Forest)
  | t1 :: t2 :: rest => refLink key t1 t2 :: refPairs key rest
  | _ => []

/-- Reference result for the trees `t_1 .. t_n`: `foldl link acc [p_k, ..., p_1]`
with `k = n/2 - 1`, `acc = p_{n/2}` for even `n` and `k = (n-1)/2`,
`acc = t_n` for odd `n`; there is no result for `n = 0`. -/
def refExtract (key : Nat → Int) (ts : List (Nat × Forest)) : Option (Nat × Forest) :=
  let n := ts.length
  let p := refPairs key ts
  let k := if n % 2 = 0 then n / 2 - 1 else (n - 1) / 2
  let acc := if n % 2 = 0 then p[n / 2 - 1]? else ts[n - 1]?
  acc.map (fun acc0 => ((p.take k).reverse).foldl (refLink key) acc0)

/-- The nodes chained through `ph_list` from pointer `p` are exactly `l`. -/
def Chain (m : Mem) : Option Nat → List Nat → Prop
  | p, [] => p = none
  | p, a :: l => p = some a ∧ Chain m (m a).ph_list l

/-! ## The variant without a parent pointer (PHEAP_V1.h)

The heap header, the comparator prototype and `PH_ISGREATER` are declared by
the same text in both files, so `PH_HEAP` and `PH_ISGREATER` are shared. -/

namespace V1

/-- Intrusive link record `struct ph_node` of PHEAP_V1.h. -/
structure PH_NODE where
  ph_list : Option Nat
  ph_child : Option Nat
deriving DecidableEq, Repr

/-- Node storage of the parent-free variant. -/
abbrev Mem := Nat → PH_NODE

/-- Store `node->ph_list = v`. -/
def setList (m : Mem) (a : Nat) (v : Option Nat) : Mem :=
  fun i => if i = a then { m i with ph_list := v } else m i

/-- Store `node->ph_child = v`. -/
def setChild (m : Mem) (a : Nat) (v : Option Nat) : Mem :=
  fun i => if i = a then { m i with ph_child := v } else m i

/-- Function `__ph_push` of PHEAP_V1.h. -/
def __ph_push (heap : PH_HEAP) (mem : Mem) (root node : Nat) : Mem × Nat :=
  if PH_ISGREATER heap root node then
    let mem1 := setList mem node (mem root).ph_child
    let mem2 := setChild mem1 root (some node)
    (mem2, root)
  else
    (setChild mem node (some root), node)

/-- Function `ph_push` of PHEAP_V1.h. -/
def ph_push (heap : PH_HEAP) (mem : Mem) (node : Nat) : PH_HEAP × Mem :=
  match heap.ph_root with
  | some root =>
    ({ heap with ph_root := some (__ph_push heap mem root node).2 },
      (__ph_push heap mem root node).1)
  | none => ({ heap with ph_root := some node }, mem)

/-- Function `__ph_push_raw` of PHEAP_V1.h. -/
def __ph_push_raw (heap : PH_HEAP) (mem : Mem) (root node : Nat) : Mem × Nat :=
  if PH_ISGREATER heap root node then
    let mem1 := setList mem node (mem root).ph_child
    let mem2 := setChild mem1 root (some node)
    let mem3 := setChild mem2 node none
    (mem3, root)
  else
    let mem1 := setList mem root none
    let mem2 := setChild mem1 node (some root)
    (mem2, node)

/-- Function `ph_push_raw` of PHEAP_V1.h. -/
def ph_push_raw (heap : PH_HEAP) (mem : Mem) (node : Nat) : PH_HEAP × Mem :=
  match heap.ph_root with
  | none => ({ heap with ph_root := some node }, setChild mem node none)
  | some root =>
    ({ heap with ph_root := some (__ph_push_raw heap mem root node).2 },
      (__ph_push_raw heap mem root node).1)

/-- First loop of `__ph_extract_list` of PHEAP_V1.h. -/
def extract_pass1 (heap : PH_HEAP) : Nat → Mem → Option Nat → Nat → Option (Mem × Option Nat × Nat)
  | 0, _, _, _ => none
  | fuel + 1, mem, list, root =>
    match (mem root).ph_list with
    | none => some (mem, list, root)
    | some B =>
      let C := (mem B).ph_list
      let sw := PH_ISGREATER heap B root
      let B1 := if sw then root else B
      let root1 := if sw then B else root
      let mem1 := setList mem B1 (mem root1).ph_child
      let mem2 := setChild mem1 root1 (some B1)
      match C with
      | none => some (mem2, list, root1)
      | some c => extract_pass1 heap fuel (setList mem2 root1 list) (some root1) c

/-- Second loop of `__ph_extract_list` of PHEAP_V1.h. -/
def extract_pass2 (heap : PH_HEAP) : Nat → Mem → Option Nat → Nat → Option (Mem × Nat)
  | 0, _, _, _ => none
  | fuel + 1, mem, list, root =>
    match list with
    | none => some (mem, root)
    | some l =>
      let C := (mem l).ph_list
      let sw := PH_ISGREATER heap l root
      let root1 := if sw then l else root
      let list1 := if sw then root else l
      let mem1 := setList mem list1 (mem root1).ph_child
      let mem2 := setChild mem1 root1 (some list1)
      extract_pass2 heap fuel mem2 C root1

/-- Function `__ph_extract_list` of PHEAP_V1.h. -/
def __ph_extract_list (fuel : Nat) (heap : PH_HEAP) (mem : Mem) (root : Nat) : Option (Mem × Nat) :=
  match extract_pass1 heap fuel mem none root with
  | none => none
  | some (mem1, list, root1) => extract_pass2 heap fuel mem1 list root1

/-- Function `ph_pop` of PHEAP_V1.h. -/
def ph_pop (fuel : Nat) (heap : PH_HEAP) (mem : Mem) : Option (PH_HEAP × Mem) :=
  match heap.ph_root with
  | some root =>
    match (mem root).ph_child with
    | some c =>
      match __ph_extract_list fuel heap mem c with
      | some (mem1, r) => some ({ heap with ph_root := some r }, mem1)
      | none => none
    | none => some ({ heap with ph_root := none }, mem)
  | none => some (heap, mem)

/-- Function `__ph_decrease_root` of PHEAP_V1.h. -/
def __ph_decrease_root (fuel : Nat) (heap : PH_HEAP) (mem : Mem) (root : Nat) : Option (Mem × Nat) :=
  let mem1 := setList mem root (mem root).ph_child
  let mem2 := setChild mem1 root none
  __ph_extract_list fuel heap mem2 root

/-- Function `ph_decrease_root` of PHEAP_V1.h; the heap must not be empty. -/
def ph_decrease_root (fuel : Nat) (heap : PH_HEAP) (mem : Mem) : Option (PH_HEAP × Mem) :=
  match heap.ph_root with
  | none => none
  | some root =>
    match __ph_decrease_root fuel heap mem root with
    | none => none
    | some (mem1, r) => some ({ heap with ph_root := some r }, mem1)

/-- Inner `while((list = node->ph_list))` loop of `__ph_destroy_subheap`. -/
def destroy_rotate : Nat → Mem → Nat → Option (Mem × Nat)
  | 0, _, _ => none
  | fuel + 1, mem, node =>
    match (mem node).ph_list with
    | some list =>
      let mem1 := setList mem node (mem list).ph_child
      let mem2 := setChild mem1 list (some node)
      destroy_rotate fuel mem2 list
    | none => some (mem, node)

/-- Function `__ph_destroy_subheap` of PHEAP_V1.h; the last component
accumulates the nodes handed to `PH_DESTROY`, in call order. -/
def __ph_destroy_subheap : Nat → Mem → Nat → List Nat → Option (Mem × List Nat)
  | 0, _, _, _ => none
  | fuel + 1, mem, node, log =>
    match destroy_rotate (fuel + 1) mem node with
    | none => none
    | some (mem1, node1) =>
      match (mem1 node1).ph_child with
      | some next => __ph_destroy_subheap fuel mem1 next (log ++ [node1])
      | none => some (mem1, log ++ [node1])

/-- Function `ph_destroy_heap` of PHEAP_V1.h. -/
def ph_destroy_heap (fuel : Nat) (heap : PH_HEAP) (mem : Mem) : Option (PH_HEAP × Mem × List Nat) :=
  match heap.ph_root with
  | none => some (heap, mem, [])
  | some root =>
    match __ph_destroy_subheap fuel (setList mem root none) root [] with
    | none => none
    | some (mem1, log) => some ({ heap with ph_root := none }, mem1, log)

/-- Function `__ph_merge` of PHEAP_V1.h. -/
def __ph_merge (heap : PH_HEAP) (mem : Mem) (root1 root2 : Nat) : Mem × Nat :=
  let sw := PH_ISGREATER heap root2 root1
  let r1 := if sw then root2 else root1
  let r2 := if sw then root1 else root2
  let mem1 := setList mem r2 (mem r1).ph_child
  let mem2 := setChild mem1 r1 (some r2)
  (mem2, r1)

/-- Function `ph_merge_heaps` of PHEAP_V1.h. -/
def ph_merge_heaps (dst src : PH_HEAP) (mem : Mem) : PH_HEAP × PH_HEAP × Mem :=
  match src.ph_root with
  | none => (dst, src, mem)
  | some root =>
    let src1 := { src with ph_root := none }
    match dst.ph_root with
    | some ptr =>
      ({ dst with ph_root := some (__ph_merge dst mem root ptr).2 }, src1,
        (__ph_merge dst mem root ptr).1)
    | none => ({ dst with ph_root := some root }, src1, mem)

end V1

/-- A node store of PHEAP_V2.h with the parent fields forgotten. -/
def forget (m : Mem) : V1.Mem := fun i => ⟨(m i).ph_list, (m i).ph_child⟩

/-! ## Structural parent and predecessor -/

/-- Node `x` is on the sibling list that starts at pointer `p`: it is reached
from `p` by `ph_list` edges only. -/
inductive OnList (m : Mem) : Option Nat → Nat → Prop where
  | here (a : Nat) : OnList m (some a) a
  | next (a x : Nat) : OnList m (m a).ph_list x → OnList m (some a) x

/-- Node `p` is the structural parent of `x`: `x` is on the child list of `p`. -/
def ChildOf (m : Mem) (p x : Nat) : Prop := OnList m (m p).ph_child x

/-- What the parent field of a child `x` of `sp` holds: `sp` itself when `x`
is the first child, and otherwise the previous sibling `q`, a child of `sp`
different from `sp`. -/
def StructPar (m : Mem) (sp x : Nat) : Prop :=
  ChildOf m sp x ∧
  ((m sp).ph_child = some x → (m x).ph_parent = some sp) ∧
  ((m sp).ph_child ≠ some x →
    ∃ q, q ≠ sp ∧ ChildOf m sp q ∧ (m q).ph_list = some x ∧ (m x).ph_parent = some q)

/-- Every non-root member of the heap at `root` has a structural parent among
the members, and its parent field is as described by `StructPar`. -/
def ParentFieldOK (m : Mem) (root : Option Nat) : Prop :=
  ∀ n, Member m root n → root ≠ some n → ∃ sp, Member m root sp ∧ StructPar m sp n

/-- Node `p` is the predecessor named by the parent field of the non-root
member `n`: the pointer chosen by the test `parent->ph_child == node` (the
child field of `p` when it equals `n`, the list field of `p` otherwise)
refers to `n`; the list field is chosen only for a `p` that is not the root; a
`p` other than the root refers to `n` by one of its two fields only; and no
child field of another member and no list field of another non-root member
refers to `n`. -/
def PredOK (m : Mem) (root : Option Nat) (n p : Nat) : Prop :=
  (m n).ph_parent = some p ∧ Member m root p ∧
  ((m p).ph_child = some n ∨ ((m p).ph_list = some n ∧ root ≠ some p)) ∧
  (root ≠ some p → ¬ ((m p).ph_child = some n ∧ (m p).ph_list = some n)) ∧
  (∀ q, Member m root q → (m q).ph_child = some n → q = p) ∧
  (∀ q, Member m root q → root ≠ some q → (m q).ph_list = some n → q = p)

/-- Every non-root member of the heap at `root` has a predecessor. -/
def BackOK (m : Mem) (root : Option Nat) : Prop :=
  ∀ n, Member m root n → root ≠ some n → ∃ p, PredOK m root n p

/-! ## Node stores for the insertion claims -/

/-- The store `m` as it would be had node `n` been zero-initialised and had
the root of `heap` an empty list and parent field. -/
def cleanFor (heap : PH_HEAP) (m : Mem) (n : Nat) : Mem :=
  fun i =>
    if i = n then zeroNode
    else if heap.ph_root = some i then { m i with ph_list := none, ph_parent := none }
    else m i

/-- An all-zero store except for node `n`, which holds the stale links
`list = 7`, `child = 5`, `parent = 9`. -/
def staleMem (n : Nat) : Mem :=
  fun i => if i = n then ⟨some 7, some 5, some 9⟩ else zeroNode

/-- Two nodes with the same key 5, pushed in order with `ph_push`. -/
def tieDemo : PH_HEAP × Mem := push_all ⟨none, ph_cmp (keysOf [5, 5])⟩ zeroMem [0]

/-- Result of `ph_push` of node `n` on the heap `G` (`none` is the empty
heap): the pairing of the single node with the old tree. -/
def pushHeap (key : Nat → Int) (n : Nat) : Option (Nat × Forest) → Nat × Forest
  | none => (n, .nil)
  | some p => link key n .nil p.1 p.2

/-! ## A sample run on one heap -/

/-- Keys 1, 3, 2 in nodes 0, 1, 2; all heaps empty, all links zero. -/
def backWorld0 : World := ⟨zeroMem, keysOf [1, 3, 2], fun _ => none⟩

/-- After `ph_push_raw` of node 0 on heap 0. -/
def backWorld1 : World :=
  ⟨(ph_push_raw (heapOf diffCmp backWorld0 0) backWorld0.mem 0).2, backWorld0.key,
    setRoot backWorld0.roots 0 (ph_push_raw (heapOf diffCmp backWorld0 0) backWorld0.mem 0).1.ph_root⟩

/-- After `ph_push_raw` of node 1. -/
def backWorld2 : World :=
  ⟨(ph_push_raw (heapOf diffCmp backWorld1 0) backWorld1.mem 1).2, backWorld1.key,
    setRoot backWorld1.roots 0 (ph_push_raw (heapOf diffCmp backWorld1 0) backWorld1.mem 1).1.ph_root⟩

/-- After `ph_push_raw` of node 2: root 0 with the child list 2, 1. -/
def backWorld3 : World :=
  ⟨(ph_push_raw (heapOf diffCmp backWorld2 0) backWorld2.mem 2).2, backWorld2.key,
    setRoot backWorld2.roots 0 (ph_push_raw (heapOf diffCmp backWorld2 0) backWorld2.mem 2).1.ph_root⟩

/-- After `ph_pop` on heap 0: root 2 with the single child 1. -/
def backWorld4 : World :=
  match step diffCmp 3 backWorld3 (.pop 0) with
  | some w => w
  | none => backWorld3

/-! ## Sample inputs for the insertion and decrease claims -/

/-- Keys of the decrease example after the root (node 0) was changed from 10
to 25. -/
def rootKey2 : Nat → Int := keysOf [25, 20, 30]

/-- Keys 1, 5, 4, 3 in nodes 0..3: pushing them in order gives root 0 with the
child list 3, 2, 1. -/
def refKey : Nat → Int := keysOf [1, 5, 4, 3]

/-- Heap of the reference example, built with `ph_push`. -/
def refDemo : PH_HEAP × Mem := push_all ⟨none, ph_cmp refKey⟩ zeroMem [0, 1, 2, 3]

/-- A one node heap (root 1, key 3) in a store whose node 0 holds stale links. -/
def rawDemo : PH_HEAP × Mem := (⟨some 1, ph_cmp (keysOf [5, 3])⟩, staleMem 0)

/-! ## The pathfinding consumer (maze_solver.c) -/

namespace Maze

/-- Flag `WALL` of `enum flag`. -/
def WALL : Nat := 1

/-- Flag `VISITED` of `enum flag`. -/
def VISITED : Nat := 2

/-- Flag `TOP` of `enum flag`: the cell is queued. -/
def TOP : Nat := 4

/-- Flag `OPEN` of `enum flag`. -/
def OPEN : Nat := 8

/-- Value of an integer expression stored in an `unsigned int`. -/
def u32 (x : Int) : Nat := (x % 4294967296).toNat

/-- Function `mh`: Manhattan distance, `abs` applied to the unsigned
differences converted to `int`. -/
def mh (point1 point2 : Nat × Nat) : Nat :=
  u32 (wrapInt32 ((wrapInt32 ((point1.1 : Int) - point2.1)).natAbs +
    (wrapInt32 ((point1.2 : Int) - point2.2)).natAbs))

/-- Function `cmp` of maze_solver.c: `(int)p2->fscore - (int)p1->fscore`. -/
def cmp (fscore : Nat → Nat) (p1 p2 : Nat) : Int :=
  wrapInt32 (wrapInt32 (fscore p2) - wrapInt32 (fscore p1))

/-- The `DATA` structure together with the array of cells it points to: the
link fields of the cells are `mem`, cell `i` is `data->ptr + i`. -/
structure DATA where
  ph_root : Option Nat
  mem : Mem
  fscore : Nat → Nat
  distance : Nat → Nat
  from_cell : Nat → Option Nat
  flag : Nat → Nat
  endpoint : Nat × Nat
  dimensions : Nat × Nat

/-- The heap header seen by PHEAP_V2.h: root pointer and `cmp` reading the
current scores. -/
def heapOfData (d : DATA) : PH_HEAP := ⟨d.ph_root, cmp d.fscore⟩

/-- Array update. -/
def upd {α : Type} (f : Nat → α) (i : Nat) (v : α) : Nat → α :=
  fun j => if j = i then v else f j

/-- Tail of `add`: store distance, score and origin, then `ph_push_raw`. -/
def add_store (d : DATA) (current neighbour : Nat) (npoint : Nat × Nat) (distance : Nat) : DATA :=
  let d1 : DATA :=
    { d with
      distance := upd d.distance neighbour distance
      fscore := upd d.fscore neighbour (u32 ((mh d.endpoint npoint : Int) + distance))
      from_cell := upd d.from_cell neighbour (some current) }
  { d1 with
    ph_root := (ph_push_raw (heapOfData d1) d1.mem neighbour).1.ph_root
    mem := (ph_push_raw (heapOfData d1) d1.mem neighbour).2 }

/-- Function `add`: queue the neighbour `npoint` of `current`, or requeue it
with a smaller distance. -/
def add (fuel : Nat) (d : DATA) (current : Nat) (npoint : Nat × Nat) : Option DATA :=
  let neighbour := npoint.1 * d.dimensions.2 + npoint.2
  if d.flag neighbour &&& (WALL ||| VISITED) ≠ 0 then some d
  else
    let distance := u32 ((d.distance current : Int) + 1)
    if d.flag neighbour &&& TOP ≠ 0 then
      if d.distance neighbour ≤ distance then some d
      else
        match ph_remove_at fuel (heapOfData d) d.mem neighbour with
        | none => none
        | some (h1, m1) =>
          some (add_store { d with ph_root := h1.ph_root, mem := m1 } current neighbour npoint
            distance)
    else
      some (add_store { d with flag := upd d.flag neighbour (d.flag neighbour ||| TOP) }
        current neighbour npoint distance)

/-- Function `make_list`: `add` for the left, right, lower and upper
neighbour of `cpoint`, in this order; the coordinates are `unsigned int`. -/
def make_list (fuel : Nat) (d : DATA) (current : Nat) (cpoint : Nat × Nat) : Option DATA :=
  let s1 := if cpoint.2 ≠ 0 then add fuel d current (cpoint.1, cpoint.2 - 1) else some d
  let s2 := s1.bind (fun d1 =>
    if u32 ((cpoint.2 : Int) + 1) < d1.dimensions.2
    then add fuel d1 current (cpoint.1, u32 ((cpoint.2 : Int) + 1))
    else some d1)
  let s3 := s2.bind (fun d2 =>
    if u32 ((cpoint.1 : Int) + 1) < d2.dimensions.1
    then add fuel d2 current (u32 ((cpoint.1 : Int) + 1), cpoint.2)
    else some d2)
  s3.bind (fun d3 =>
    if cpoint.1 ≠ 0 then add fuel d3 current (cpoint.1 - 1, cpoint.2) else some d3)

/-- One iteration of the loop of `astar` with `current = data->ph_root`: the
second component tells whether the loop goes on. -/
def astar_step (fuel : Nat) (d : DATA) (current : Nat) : Option (DATA × Bool) :=
  match __ph_pop fuel (heapOfData d) d.mem current with
  | none => none
  | some (m1, root1) =>
    let d1 : DATA :=
      { d with
        ph_root := root1
        mem := m1
        flag := upd d.flag current ((d.flag current ||| VISITED) &&& (4294967295 - TOP)) }
    let cpoint : Nat × Nat := (current / d1.dimensions.2, current % d1.dimensions.2)
    if cpoint.1 = d1.endpoint.1 ∧ cpoint.2 = d1.endpoint.2 then some (d1, false)
    else (make_list fuel d1 current cpoint).map (fun d2 => (d2, true))

/-- Function `astar`: dequeue the root until the heap is empty or the
endpoint is dequeued. -/
def astar : Nat → DATA → Option DATA
  | 0, _ => none
  | fuel + 1, d =>
    match d.ph_root with
    | none => some d
    | some current =>
      match astar_step fuel d current with
      | none => none
      | some (d1, true) => astar fuel d1
      | some (d1, false) => some d1

/-- The state that `main` hands to `astar` for the maze file with the single
row `" S E"`: four open cells, start cell 1, end cell 3. -/
def rowMaze : DATA :=
  { ph_root := some 1
    mem := zeroMem
    fscore := fun _ => 0
    distance := fun _ => 0
    from_cell := fun _ => none
    flag := fun i => if i < 4 then OPEN else 0
    endpoint := (0, 3)
    dimensions := (1, 4) }

end Maze

/-! ## The sort consumer on extreme keys -/

/-- The keys `INT_MIN` and 1 in nodes 0 and 1. -/
def extremeKey : Nat → Int := keysOf [-2147483648, 1]

/-- Keys of the decrease example after the root (node 0) was raised from 10
to 35. -/
def raisedKey : Nat → Int := keysOf [35, 20, 30]

/-! ## Reads after writes -/

@[simp] theorem setList_list (m : Mem) (a : Nat) (v : Option Nat) (i : Nat) :
    (setList m a v i).ph_list = if i = a then v else (m i).ph_list := by
  unfold setList; split <;> rfl

@[simp] theorem setList_child (m : Mem) (a : Nat) (v : Option Nat) (i : Nat) :
    (setList m a v i).ph_child = (m i).ph_child := by
  unfold setList; split <;> rfl

@[simp] theorem setList_parent (m : Mem) (a : Nat) (v : Option Nat) (i : Nat) :
    (setList m a v i).ph_parent = (m i).ph_parent := by
  unfold setList; split <;> rfl

@[simp] theorem setChild_list (m : Mem) (a : Nat) (v : Option Nat) (i : Nat) :
    (setChild m a v i).ph_list = (m i).ph_list := by
  unfold setChild; split <;> rfl

@[simp] theorem setChild_child (m : Mem) (a : Nat) (v : Option Nat) (i : Nat) :
    (setChild m a v i).ph_child = if i = a then v else (m i).ph_child := by
  unfold setChild; split <;> rfl

@[simp] theorem setChild_parent (m : Mem) (a : Nat) (v : Option Nat) (i : Nat) :
    (setChild m a v i).ph_parent = (m i).ph_parent := by
  unfold setChild; split <;> rfl

@[simp] theorem setParent_list (m : Mem) (a : Nat) (v : Option Nat) (i : Nat) :
    (setParent m a v i).ph_list = (m i).ph_list := by
  unfold setParent; split <;> rfl

@[simp] theorem setParent_child (m : Mem) (a : Nat) (v : Option Nat) (i : Nat) :
    (setParent m a v i).ph_child = (m i).ph_child := by
  unfold setParent; split <;> rfl

@[simp] theorem setParent_parent (m : Mem) (a : Nat) (v : Option Nat) (i : Nat) :
    (setParent m a v i).ph_parent = if i = a then v else (m i).ph_parent := by
  unfold setParent; split <;> rfl

@[simp] theorem setParentOpt_list (m : Mem) (p v : Option Nat) (i : Nat) :
    (setParentOpt m p v i).ph_list = (m i).ph_list := by
  cases p <;> simp [setParentOpt]

@[simp] theorem setParentOpt_child (m : Mem) (p v : Option Nat) (i : Nat) :
    (setParentOpt m p v i).ph_child = (m i).ph_child := by
  cases p <;> simp [setParentOpt]

theorem setParentOpt_parent (m : Mem) (p v : Option Nat) (i : Nat) :
    (setParentOpt m p v i).ph_parent = if p = some i then v else (m i).ph_parent := by
  cases p with
  | none => simp [setParentOpt]
  | some t =>
    simp only [setParentOpt, setParent_parent, Option.some.injEq]
    by_cases h : i = t
    · simp [h]
    · simp [h, Ne.symm h]

theorem setList_of_ne (m : Mem) (a : Nat) (v : Option Nat) (i : Nat) (h : i ≠ a) :
    setList m a v i = m i := by
  simp [setList, h]

theorem setChild_of_ne (m : Mem) (a : Nat) (v : Option Nat) (i : Nat) (h : i ≠ a) :
    setChild m a v i = m i := by
  simp [setChild, h]

theorem setParent_of_ne (m : Mem) (a : Nat) (v : Option Nat) (i : Nat) (h : i ≠ a) :
    setParent m a v i = m i := by
  simp [setParent, h]

theorem setParentOpt_of_ne (m : Mem) (p v : Option Nat) (i : Nat) (h : p ≠ some i) :
    setParentOpt m p v i = m i := by
  cases p with
  | none => rfl
  | some t =>
    have : i ≠ t := fun e => h (by rw [e])
    simp [setParentOpt, setParent, this]

/-! ## Forests: elementary facts -/

theorem Shape_head {m : Mem} {p : Option Nat} {t : Forest} (h : Shape m p t) : p = t.head := by
  cases t with
  | nil => exact h
  | node a c s => exact h.1

theorem head_mem_nodes {t : Forest} {x : Nat} (h : t.head = some x) : x ∈ t.nodes := by
  cases t with
  | nil => simp [Forest.head] at h
  | node a c s =>
    simp only [Forest.head, Option.some.injEq] at h
    simp [Forest.nodes, h]

theorem head_eq_none_iff {t : Forest} : t.head = none ↔ t = .nil := by
  cases t <;> simp [Forest.head]

/-- Agreement of two memories on a forest's nodes in the child and list fields
gives the same shape. -/
theorem Shape_congr {m m' : Mem} (t : Forest) :
    ∀ (p : Option Nat),
      (∀ x ∈ t.nodes, (m' x).ph_child = (m x).ph_child ∧ (m' x).ph_list = (m x).ph_list) →
      (Shape m' p t ↔ Shape m p t) := by
  induction t with
  | nil => intro p _; simp [Shape]
  | node a c s ihc ihs =>
    intro p h
    have ha := h a (by simp [Forest.nodes])
    have hc := ihc (m a).ph_child (fun x hx => h x (by simp [Forest.nodes, hx]))
    have hs := ihs (m a).ph_list (fun x hx => h x (by simp [Forest.nodes, hx]))
    simp only [Shape, ha.1, ha.2, hc, hs]

/-- Agreement on the parent fields of a forest's nodes gives the same back
pointers. -/
theorem Back_congr {m m' : Mem} (t : Forest) :
    ∀ (prev : Option Nat),
      (∀ x ∈ t.nodes, (m' x).ph_parent = (m x).ph_parent) →
      (Back m' prev t ↔ Back m prev t) := by
  induction t with
  | nil => intro p _; simp [Back]
  | node a c s ihc ihs =>
    intro p h
    have ha := h a (by simp [Forest.nodes])
    have hc := ihc (some a) (fun x hx => h x (by simp [Forest.nodes, hx]))
    have hs := ihs (some a) (fun x hx => h x (by simp [Forest.nodes, hx]))
    simp only [Back, ha, hc, hs]

theorem Shape_frame {m m' : Mem} {t : Forest} {p : Option Nat}
    (h : ∀ x ∈ t.nodes, m' x = m x) : Shape m' p t ↔ Shape m p t :=
  Shape_congr t p (fun x hx => by rw [h x hx]; exact ⟨rfl, rfl⟩)

theorem Back_frame {m m' : Mem} {t : Forest} {prev : Option Nat}
    (h : ∀ x ∈ t.nodes, m' x = m x) : Back m' prev t ↔ Back m prev t :=
  Back_congr t prev (fun x hx => by rw [h x hx])

theorem TreeAt_frame {m m' : Mem} {r : Nat} {c : Forest}
    (h : ∀ x ∈ r :: c.nodes, m' x = m x) : TreeAt m' r c ↔ TreeAt m r c := by
  unfold TreeAt
  rw [h r (by simp), Shape_frame (fun x hx => h x (by simp [hx])),
    Back_frame (fun x hx => h x (by simp [hx]))]

@[simp] theorem Shape_setParent (m : Mem) (a : Nat) (v p : Option Nat) (t : Forest) :
    Shape (setParent m a v) p t ↔ Shape m p t :=
  Shape_congr t p (fun x _ => by simp)

@[simp] theorem Shape_setParentOpt (m : Mem) (q v p : Option Nat) (t : Forest) :
    Shape (setParentOpt m q v) p t ↔ Shape m p t :=
  Shape_congr t p (fun x _ => by simp)

@[simp] theorem Back_setList (m : Mem) (a : Nat) (v p : Option Nat) (t : Forest) :
    Back (setList m a v) p t ↔ Back m p t :=
  Back_congr t p (fun x _ => by simp)

@[simp] theorem Back_setChild (m : Mem) (a : Nat) (v p : Option Nat) (t : Forest) :
    Back (setChild m a v) p t ↔ Back m p t :=
  Back_congr t p (fun x _ => by simp)

theorem Shape_setList {m : Mem} {a : Nat} {v p : Option Nat} {t : Forest}
    (h : a ∉ t.nodes) : Shape (setList m a v) p t ↔ Shape m p t :=
  Shape_congr t p (fun x hx => by
    have : x ≠ a := fun e => h (e ▸ hx)
    simp [this])

theorem Shape_setChild {m : Mem} {a : Nat} {v p : Option Nat} {t : Forest}
    (h : a ∉ t.nodes) : Shape (setChild m a v) p t ↔ Shape m p t :=
  Shape_congr t p (fun x hx => by
    have : x ≠ a := fun e => h (e ▸ hx)
    simp [this])

theorem Back_setParent {m : Mem} {a : Nat} {v p : Option Nat} {t : Forest}
    (h : a ∉ t.nodes) : Back (setParent m a v) p t ↔ Back m p t :=
  Back_congr t p (fun x hx => by
    have : x ≠ a := fun e => h (e ▸ hx)
    simp [this])

theorem Back_setParentOpt {m : Mem} {q v p : Option Nat} {t : Forest}
    (h : ∀ x, q = some x → x ∉ t.nodes) : Back (setParentOpt m q v) p t ↔ Back m p t :=
  Back_congr t p (fun x hx => by
    rw [setParentOpt_parent]
    have : q ≠ some x := fun e => h x e hx
    simp [this])

/-- Redirecting the parent field of the first tree of a forest re-anchors the
whole forest at the new predecessor. -/
theorem Back_rehead {m : Mem} {prev q : Option Nat} {t : Forest}
    (hb : Back m prev t) (hn : t.nodes.Nodup) : Back (setParentOpt m t.head q) q t := by
  cases t with
  | nil => simp [Back]
  | node a c s =>
    simp only [Forest.nodes, List.nodup_cons, List.mem_append, not_or] at hn
    simp only [Forest.head, setParentOpt, Back, setParent_parent, if_true]
    exact ⟨trivial, (Back_setParent hn.1.1).2 hb.2.1, (Back_setParent hn.1.2).2 hb.2.2⟩

/-! ## The pointer surgery of one pairing step -/

theorem linkMem_frame {m : Mem} {w l x : Nat}
    (hw : x ≠ w) (hl : x ≠ l) (hh : (m w).ph_child ≠ some x) : linkMem m w l x = m x := by
  unfold linkMem
  rw [setChild_of_ne _ _ _ _ hw, setList_of_ne _ _ _ _ hl, setParentOpt_of_ne _ _ _ _ hh]

theorem linkMem_child_w (m : Mem) (w l : Nat) : (linkMem m w l w).ph_child = some l := by
  simp [linkMem]

theorem linkMem_list_w {m : Mem} {w l : Nat} (h : w ≠ l) :
    (linkMem m w l w).ph_list = (m w).ph_list := by
  simp [linkMem, h]

theorem linkMem_parent_w {m : Mem} {w l : Nat} (h : (m w).ph_child ≠ some w) :
    (linkMem m w l w).ph_parent = (m w).ph_parent := by
  simp [linkMem, setParentOpt_parent, h]

theorem linkMem_parent_l {m : Mem} {w l : Nat} (h : (m w).ph_child ≠ some l) :
    (linkMem m w l l).ph_parent = (m l).ph_parent := by
  simp [linkMem, setParentOpt_parent, h]

/-- After the stores of `linkMem`, the child list of `w` is `l` (with its old
children) followed by the old children of `w`, with all back pointers below
`l` in place. -/
theorem linkMem_shape {m : Mem} {w l : Nat} {cw cl : Forest}
    (hw : TreeAt m w cw) (hl : TreeAt m l cl)
    (hn : (w :: cw.nodes ++ l :: cl.nodes).Nodup) :
    Shape (linkMem m w l) (linkMem m w l w).ph_child (.node l cl cw) ∧
      Back (linkMem m w l) (some l) cl ∧ Back (linkMem m w l) (some l) cw ∧
      (linkMem m w l l).ph_parent = (m l).ph_parent := by
  obtain ⟨hws, hwb⟩ := hw
  obtain ⟨hls, hlb⟩ := hl
  have hhd := Shape_head hws
  simp only [List.cons_append, List.nodup_cons, List.nodup_append, List.mem_append,
    List.mem_cons, not_or, List.disjoint_cons_right] at hn
  obtain ⟨⟨hw_cw, hwl, hw_cl⟩, hcw, ⟨hl_cl, hcl⟩, hl_cw, hdis⟩ := hn
  have hlw : l ≠ w := Ne.symm hwl
  have hhl : (m w).ph_child ≠ some l := by
    rw [hhd]; intro e; exact hl_cw (head_mem_nodes e)
  refine ⟨?_, ?_, ?_, linkMem_parent_l hhl⟩
  · rw [linkMem_child_w]
    refine ⟨rfl, ?_, ?_⟩
    · have e : (linkMem m w l l).ph_child = (m l).ph_child := by simp [linkMem, hlw]
      rw [e]; unfold linkMem
      rw [Shape_setChild hw_cl, Shape_setList hl_cl, Shape_setParentOpt]; exact hls
    · have e : (linkMem m w l l).ph_list = (m w).ph_child := by simp [linkMem, hlw]
      rw [e]; unfold linkMem
      rw [Shape_setChild hw_cw, Shape_setList hl_cw, Shape_setParentOpt]; exact hws
  · unfold linkMem
    rw [Back_setChild, Back_setList, Back_setParentOpt]
    · exact hlb
    · intro x hx hmem
      rw [hhd] at hx
      exact hdis (head_mem_nodes hx) hmem
  · unfold linkMem
    rw [Back_setChild, Back_setList, hhd]
    exact Back_rehead hwb hcw

/-- Pairing step when the loser's parent field already names the winner. -/
theorem linkMem_tree {m : Mem} {w l : Nat} {cw cl : Forest}
    (hw : TreeAt m w cw) (hl : TreeAt m l cl) (hp : (m l).ph_parent = some w)
    (hn : (w :: cw.nodes ++ l :: cl.nodes).Nodup) :
    TreeAt (linkMem m w l) w (.node l cl cw) := by
  obtain ⟨h1, h2, h3, h4⟩ := linkMem_shape hw hl hn
  exact ⟨h1, by rw [h4, hp], h2, h3⟩

/-- Pairing step followed by the store `l->ph_parent = w`. -/
theorem linkMem_tree_setParent {m : Mem} {w l : Nat} {cw cl : Forest}
    (hw : TreeAt m w cw) (hl : TreeAt m l cl)
    (hn : (w :: cw.nodes ++ l :: cl.nodes).Nodup) :
    TreeAt (setParent (linkMem m w l) l (some w)) w (.node l cl cw) := by
  obtain ⟨h1, h2, h3, _⟩ := linkMem_shape hw hl hn
  simp only [List.cons_append, List.nodup_cons, List.nodup_append, List.mem_append,
    List.mem_cons, not_or, List.disjoint_cons_right] at hn
  obtain ⟨⟨_, _, _⟩, _, ⟨hl_cl, _⟩, hl_cw, _⟩ := hn
  refine ⟨?_, ?_, ?_, ?_⟩
  · rw [Shape_setParent, setParent_child]; exact h1
  · simp
  · rw [Back_setParent hl_cl]; exact h2
  · rw [Back_setParent hl_cw]; exact h3

/-! ## Abstract pairing: members and heap order -/

theorem link_perm (key : Nat → Int) (a : Nat) (ca : Forest) (b : Nat) (cb : Forest) :
    ((link key a ca b cb).1 :: (link key a ca b cb).2.nodes).Perm
      (a :: ca.nodes ++ b :: cb.nodes) := by
  unfold link
  split
  · simp only [Forest.nodes, List.cons_append]
    have h1 : (b :: a :: (ca.nodes ++ cb.nodes)).Perm (a :: b :: (ca.nodes ++ cb.nodes)) :=
      List.Perm.swap a b _
    exact h1.trans (List.Perm.cons a (List.perm_middle.symm))
  · simp only [Forest.nodes, List.cons_append]
    refine List.Perm.cons a ?_
    have h1 : (b :: (cb.nodes ++ ca.nodes)).Perm (b :: (ca.nodes ++ cb.nodes)) :=
      List.Perm.cons b List.perm_append_comm
    exact h1.trans List.perm_middle.symm

theorem link_ord {key : Nat → Int} {lb : Int} {a b : Nat} {ca cb : Forest}
    (ha : lb ≤ key a) (hca : HeapOrd key (key a) ca)
    (hb : lb ≤ key b) (hcb : HeapOrd key (key b) cb) :
    lb ≤ key (link key a ca b cb).1 ∧
      HeapOrd key (key (link key a ca b cb).1) (link key a ca b cb).2 := by
  unfold link
  split
  · rename_i h
    exact ⟨hb, le_of_lt h, hca, hcb⟩
  · rename_i h
    exact ⟨ha, not_lt.mp h, hcb, hca⟩

theorem AuxRep_frame {m m' : Mem} (stk : List (Nat × Forest)) :
    ∀ (p : Option Nat), (∀ x ∈ stkNodes stk, m' x = m x) →
      (AuxRep m' p stk ↔ AuxRep m p stk) := by
  induction stk with
  | nil => intro p _; simp [AuxRep]
  | cons e rest ih =>
    intro p h
    have he : m' e.1 = m e.1 := h e.1 (by simp [stkNodes])
    have ht : TreeAt m' e.1 e.2 ↔ TreeAt m e.1 e.2 :=
      TreeAt_frame (fun x hx => h x (by
        simp only [stkNodes, List.mem_append]; exact Or.inl hx))
    have hr := ih (m e.1).ph_list (fun x hx => h x (by
      simp only [stkNodes, List.mem_append]; exact Or.inr hx))
    simp only [AuxRep, he, ht, hr]

/-! ## One iteration of the first loop -/

/-- Memory after pairing `root = a` with `B = b` in the first loop. -/
theorem extract_pass1_step (heap : PH_HEAP) (fuel : Nat) (m : Mem) (list : Option Nat)
    (a b : Nat) (hb : (m a).ph_list = some b) :
    extract_pass1 heap (fuel + 1) m list a =
      (match (m b).ph_list with
       | none =>
         some (if PH_ISGREATER heap b a then linkMem (setParent m a (some b)) b a
               else linkMem m a b, list, if PH_ISGREATER heap b a then b else a)
       | some c =>
         extract_pass1 heap fuel
           (setList (if PH_ISGREATER heap b a then linkMem (setParent m a (some b)) b a
               else linkMem m a b) (if PH_ISGREATER heap b a then b else a) list)
           (some (if PH_ISGREATER heap b a then b else a)) c) := by
  rw [extract_pass1]
  simp only [hb]
  cases hc : (m b).ph_list <;> cases hsw : PH_ISGREATER heap b a <;> simp [linkMem]

theorem isGreater_iff {heap : PH_HEAP} {key : Nat → Int} (hcmp : CmpOK heap key) (a b : Nat) :
    PH_ISGREATER heap a b = true ↔ key a < key b := by
  unfold PH_ISGREATER
  rw [decide_eq_true_iff]
  exact hcmp a b

/-- The stores of one pairing in the first loop realise `link`. -/
theorem pass1_pair {heap : PH_HEAP} {key : Nat → Int} (hcmp : CmpOK heap key)
    {m : Mem} {a b : Nat} {ca cb : Forest}
    (ha : TreeAt m a ca) (hb : TreeAt m b cb) (hp : (m b).ph_parent = some a)
    (hn : (a :: ca.nodes ++ b :: cb.nodes).Nodup) :
    (if PH_ISGREATER heap b a then b else a) = (link key a ca b cb).1 ∧
    TreeAt (if PH_ISGREATER heap b a then linkMem (setParent m a (some b)) b a
               else linkMem m a b) (link key a ca b cb).1 (link key a ca b cb).2 ∧
    (∀ x, x ∉ a :: ca.nodes ++ b :: cb.nodes →
      (if PH_ISGREATER heap b a then linkMem (setParent m a (some b)) b a
               else linkMem m a b) x = m x) := by
  have hn' := hn
  simp only [List.cons_append, List.nodup_cons, List.nodup_append, List.mem_append,
    List.mem_cons, not_or, List.disjoint_cons_right] at hn'
  obtain ⟨⟨ha_ca, hab, ha_cb⟩, hca, ⟨hb_cb, hcb⟩, hb_ca, hdis⟩ := hn'
  by_cases hlt : key b < key a
  · have hsw : PH_ISGREATER heap b a = true := (isGreater_iff hcmp b a).2 hlt
    simp only [hsw, if_true, link, hlt, true_and]
    refine ⟨?_, ?_⟩
    · apply linkMem_tree
      · refine ⟨?_, ?_⟩
        · rw [Shape_setParent, setParent_child]; exact hb.1
        · rw [Back_setParent ha_cb]; exact hb.2
      · refine ⟨?_, ?_⟩
        · rw [Shape_setParent, setParent_child]; exact ha.1
        · rw [Back_setParent ha_ca]; exact ha.2
      · simp
      · have : (b :: cb.nodes ++ a :: ca.nodes).Perm (a :: ca.nodes ++ b :: cb.nodes) :=
          List.perm_append_comm
        exact this.nodup_iff.2 hn
    · intro x hx
      simp only [List.cons_append, List.mem_cons, List.mem_append, not_or] at hx
      obtain ⟨hxa, hxca, hxb, hxcb⟩ := hx
      rw [linkMem_frame hxb hxa, setParent_of_ne _ _ _ _ hxa]
      rw [setParent_child, Shape_head hb.1]
      intro e; exact hxcb (head_mem_nodes e)
  · have hsw : PH_ISGREATER heap b a = false := by
      rw [← Bool.not_eq_true, isGreater_iff hcmp b a]; exact hlt
    simp only [hsw, link, hlt, if_false, Bool.false_eq_true]
    refine ⟨trivial, linkMem_tree ha hb hp hn, ?_⟩
    intro x hx
    simp only [List.cons_append, List.mem_cons, List.mem_append, not_or] at hx
    obtain ⟨hxa, hxca, hxb, hxcb⟩ := hx
    rw [linkMem_frame hxa hxb]
    rw [Shape_head ha.1]
    intro e; exact hxca (head_mem_nodes e)

/-! ## The first loop of `__ph_extract_list` -/

theorem extract_pass1_spec {heap : PH_HEAP} {key : Nat → Int} (hcmp : CmpOK heap key) :
    ∀ (n : Nat) (s : Forest) (fuel : Nat) (m : Mem) (list : Option Nat)
      (stk : List (Nat × Forest)) (a : Nat) (ca : Forest),
      s.nodes.length ≤ n → s.nodes.length < fuel →
      TreeAt m a ca → Shape m (m a).ph_list s → Back m (some a) s →
      AuxRep m list stk →
      (a :: ca.nodes ++ s.nodes ++ stkNodes stk).Nodup →
      ∃ m' list',
        extract_pass1 heap fuel m list a = some (m', list', (pass1 key stk a ca s).2.1) ∧
        TreeAt m' (pass1 key stk a ca s).2.1 (pass1 key stk a ca s).2.2 ∧
        AuxRep m' list' (pass1 key stk a ca s).1 ∧
        (∀ x, x ∉ a :: ca.nodes ++ s.nodes → m' x = m x) := by
  intro n
  induction n using Nat.strong_induction_on with
  | _ n ih =>
  intro s fuel m list stk a ca hlen hfuel ha hs hbk haux hn
  obtain ⟨fuel, rfl⟩ : ∃ k, fuel = k + 1 := ⟨fuel - 1, by omega⟩
  cases s with
  | nil =>
    refine ⟨m, list, ?_, ha, haux, fun _ _ => rfl⟩
    rw [extract_pass1]
    simp only [Shape] at hs
    simp [hs, pass1]
  | node b cb s' =>
    obtain ⟨hab, hsb, hss'⟩ := hs
    obtain ⟨hpb, hbb, hbs'⟩ := hbk
    have hbig : ((a :: ca.nodes ++ b :: cb.nodes) ++ (s'.nodes ++ stkNodes stk)).Nodup := by
      have e : (a :: ca.nodes ++ b :: cb.nodes) ++ (s'.nodes ++ stkNodes stk) =
          a :: ca.nodes ++ (Forest.node b cb s').nodes ++ stkNodes stk := by
        simp [Forest.nodes, List.append_assoc]
      rw [e]; exact hn
    obtain ⟨hnP, hnRS, hdP⟩ := List.nodup_append.1 hbig
    obtain ⟨hw, htree, hfr⟩ := pass1_pair hcmp ha ⟨hsb, hbb⟩ hpb hnP
    have hperm := link_perm key a ca b cb
    rw [extract_pass1_step heap fuel m list a b hab]
    cases s' with
    | nil =>
      simp only [Shape] at hss'
      simp only [hss', pass1, hw]
      refine ⟨_, _, rfl, htree, ?_, ?_⟩
      · rw [AuxRep_frame stk list (fun x hx => hfr x (fun hxP =>
          hdP hxP (List.mem_append_right _ hx)))]
        exact haux
      · intro x hx
        apply hfr
        simpa [Forest.nodes] using hx
    | node c cc s'' =>
      obtain ⟨hbc, hsc, hss''⟩ := hss'
      obtain ⟨hpc, hbc', hbs''⟩ := hbs'
      simp only [hbc, pass1, hw]
      -- the memory entering the next iteration
      generalize hm4 : (if PH_ISGREATER heap b a = true then linkMem (setParent m a (some b)) b a
          else linkMem m a b) = m4 at htree hfr
      have hwP : (link key a ca b cb).1 ∈ a :: ca.nodes ++ b :: cb.nodes :=
        hperm.subset (List.mem_cons_self _ _)
      have hfr5 : ∀ x, x ∉ a :: ca.nodes ++ b :: cb.nodes →
          setList m4 (link key a ca b cb).1 list x = m x := by
        intro x hx
        rw [setList_of_ne _ _ _ _ (fun e => hx (by rw [e]; exact hwP))]
        exact hfr x hx
      have hR : ∀ x ∈ (Forest.node c cc s'').nodes, x ∉ a :: ca.nodes ++ b :: cb.nodes :=
        fun x hx hxP => hdP hxP (List.mem_append_left _ hx)
      have hS : ∀ x ∈ stkNodes stk, x ∉ a :: ca.nodes ++ b :: cb.nodes :=
        fun x hx hxP => hdP hxP (List.mem_append_right _ hx)
      have hWn : ((link key a ca b cb).1 :: (link key a ca b cb).2.nodes).Nodup :=
        hperm.nodup_iff.2 hnP
      obtain ⟨m', list', hrun, ht', haux', hfr'⟩ :=
        ih (n - 1) (by simp [Forest.nodes] at hlen; omega) s'' fuel
          (setList m4 (link key a ca b cb).1 list) (some (link key a ca b cb).1)
          (link key a ca b cb :: stk) c cc
          (by simp [Forest.nodes] at hlen ⊢; omega)
          (by simp [Forest.nodes] at hfuel ⊢; omega)
          (by
            rw [TreeAt_frame (fun x hx => hfr5 x (hR x (by
              simp only [Forest.nodes, List.mem_cons, List.mem_append] at hx ⊢
              tauto)))]
            exact ⟨hsc, hbc'⟩)
          (by
            rw [hfr5 c (hR c (by simp [Forest.nodes])),
              Shape_frame (fun x hx => hfr5 x (hR x (by simp [Forest.nodes, hx])))]
            exact hss'')
          (by
            rw [Back_frame (fun x hx => hfr5 x (hR x (by simp [Forest.nodes, hx])))]
            exact hbs'')
          (by
            refine ⟨rfl, ?_, ?_⟩
            · refine ⟨?_, ?_⟩
              · rw [setList_child, Shape_setList (List.nodup_cons.1 hWn).1]
                exact htree.1
              · rw [Back_setList]; exact htree.2
            · rw [setList_list, if_pos rfl, AuxRep_frame stk list (fun x hx => hfr5 x (hS x hx))]
              exact haux)
          (by
            have hp2 : (c :: cc.nodes ++ s''.nodes ++ stkNodes (link key a ca b cb :: stk)).Perm
                ((a :: ca.nodes ++ b :: cb.nodes) ++
                  ((Forest.node c cc s'').nodes ++ stkNodes stk)) := by
              have e1 : c :: cc.nodes ++ s''.nodes ++ stkNodes (link key a ca b cb :: stk) =
                  (Forest.node c cc s'').nodes ++
                    (((link key a ca b cb).1 :: (link key a ca b cb).2.nodes) ++ stkNodes stk) := by
                simp [Forest.nodes, stkNodes, List.append_assoc]
              rw [e1]
              exact ((List.perm_append_left_iff _).2 (List.Perm.append_right _ hperm)).trans
                (List.perm_append_comm_assoc _ _ _)
            exact hp2.nodup_iff.2 hbig)
      refine ⟨m', list', hrun, ht', haux', ?_⟩
      intro x hx
      have hx1 : x ∉ c :: cc.nodes ++ s''.nodes := by
        intro h; apply hx
        simp only [Forest.nodes, List.cons_append, List.mem_cons, List.mem_append] at h ⊢
        tauto
      have hx2 : x ∉ a :: ca.nodes ++ b :: cb.nodes := by
        intro h; apply hx
        simp only [Forest.nodes, List.cons_append, List.mem_cons, List.mem_append] at h ⊢
        tauto
      rw [hfr' x hx1, hfr5 x hx2]

/-! ## The second loop and the whole of `__ph_extract_list` -/

/-- Induction over a sibling list two trees at a time, as the first loop
consumes it. -/
theorem Forest.pairInduction {P : Forest → Prop} (h0 : P .nil)
    (h1 : ∀ b cb, P (.node b cb .nil))
    (h2 : ∀ b cb c cc s, P s → P (.node b cb (.node c cc s))) : ∀ s, P s := by
  have key : ∀ s, P s ∧ ∀ b cb, P (.node b cb s) := by
    intro s
    induction s with
    | nil => exact ⟨h0, h1⟩
    | node c cc s _ ihs => exact ⟨ihs.2 c cc, fun b cb => h2 b cb c cc s ihs.1⟩
  exact fun s => (key s).1

theorem pass1_perm (key : Nat → Int) (s : Forest) :
    ∀ (stk : List (Nat × Forest)) (a : Nat) (ca : Forest),
      ((pass1 key stk a ca s).2.1 :: (pass1 key stk a ca s).2.2.nodes ++
        stkNodes (pass1 key stk a ca s).1).Perm (a :: ca.nodes ++ s.nodes ++ stkNodes stk) := by
  induction s using Forest.pairInduction with
  | h0 => intro stk a ca; simp [pass1, Forest.nodes]
  | h1 b cb =>
    intro stk a ca
    simp only [pass1, Forest.nodes, List.append_nil]
    exact List.Perm.append_right _ (link_perm key a ca b cb)
  | h2 b cb c cc s ih =>
    intro stk a ca
    simp only [pass1]
    refine (ih _ c cc).trans ?_
    have e1 : c :: cc.nodes ++ s.nodes ++ stkNodes (link key a ca b cb :: stk) =
        (Forest.node c cc s).nodes ++
          (((link key a ca b cb).1 :: (link key a ca b cb).2.nodes) ++ stkNodes stk) := by
      simp [Forest.nodes, stkNodes, List.append_assoc]
    have e2 : a :: ca.nodes ++ (Forest.node b cb (Forest.node c cc s)).nodes ++ stkNodes stk =
        (a :: ca.nodes ++ b :: cb.nodes) ++ ((Forest.node c cc s).nodes ++ stkNodes stk) := by
      simp [Forest.nodes, List.append_assoc]
    rw [e1, e2]
    exact ((List.perm_append_left_iff _).2
      (List.Perm.append_right _ (link_perm key a ca b cb))).trans
        (List.perm_append_comm_assoc _ _ _)

theorem pass1_length (key : Nat → Int) (s : Forest) :
    ∀ (stk : List (Nat × Forest)) (a : Nat) (ca : Forest),
      (pass1 key stk a ca s).1.length ≤ stk.length + s.nodes.length := by
  induction s using Forest.pairInduction with
  | h0 => intro stk a ca; simp [pass1]
  | h1 b cb => intro stk a ca; simp [pass1]
  | h2 b cb c cc s ih =>
    intro stk a ca
    simp only [pass1]
    have := ih (link key a ca b cb :: stk) c cc
    simp only [List.length_cons, Forest.nodes, List.length_append] at this ⊢
    omega

theorem pass1_ord {key : Nat → Int} {lb : Int} (s : Forest) :
    ∀ (stk : List (Nat × Forest)) (a : Nat) (ca : Forest),
      lb ≤ key a → HeapOrd key (key a) ca → HeapOrd key lb s → StkOrd key lb stk →
      lb ≤ key (pass1 key stk a ca s).2.1 ∧
        HeapOrd key (key (pass1 key stk a ca s).2.1) (pass1 key stk a ca s).2.2 ∧
        StkOrd key lb (pass1 key stk a ca s).1 := by
  induction s using Forest.pairInduction with
  | h0 => intro stk a ca ha hca _ hstk; exact ⟨ha, hca, hstk⟩
  | h1 b cb =>
    intro stk a ca ha hca hs hstk
    obtain ⟨hb, hcb, _⟩ := hs
    simp only [pass1]
    exact ⟨(link_ord ha hca hb hcb).1, (link_ord ha hca hb hcb).2, hstk⟩
  | h2 b cb c cc s ih =>
    intro stk a ca ha hca hs hstk
    obtain ⟨hb, hcb, hc, hcc, hs'⟩ := hs
    simp only [pass1]
    refine ih _ c cc hc hcc hs' ?_
    intro e he
    rcases List.mem_cons.1 he with rfl | he
    · exact link_ord ha hca hb hcb
    · exact hstk e he

theorem pass2_perm (key : Nat → Int) (stk : List (Nat × Forest)) :
    ∀ (r : Nat) (cr : Forest),
      ((pass2 key stk r cr).1 :: (pass2 key stk r cr).2.nodes).Perm
        (r :: cr.nodes ++ stkNodes stk) := by
  induction stk with
  | nil => intro r cr; simp [pass2, stkNodes]
  | cons e rest ih =>
    intro r cr
    have h := ih (link key r cr e.1 e.2).1 (link key r cr e.1 e.2).2
    simp only [pass2, List.foldl_cons] at h ⊢
    refine h.trans ?_
    simp only [stkNodes]
    rw [← List.append_assoc]
    exact List.Perm.append_right _ (link_perm key r cr e.1 e.2)

theorem pass2_ord {key : Nat → Int} {lb : Int} (stk : List (Nat × Forest)) :
    ∀ (r : Nat) (cr : Forest),
      lb ≤ key r → HeapOrd key (key r) cr → StkOrd key lb stk →
      lb ≤ key (pass2 key stk r cr).1 ∧
        HeapOrd key (key (pass2 key stk r cr).1) (pass2 key stk r cr).2 := by
  induction stk with
  | nil => intro r cr hr hcr _; exact ⟨hr, hcr⟩
  | cons e rest ih =>
    intro r cr hr hcr hstk
    have he := hstk e (List.mem_cons_self _ _)
    have hl := link_ord hr hcr he.1 he.2
    have h := ih (link key r cr e.1 e.2).1 (link key r cr e.1 e.2).2 hl.1 hl.2
      (fun x hx => hstk x (List.mem_cons_of_mem _ hx))
    simpa only [pass2, List.foldl_cons] using h

theorem twoPass_perm (key : Nat → Int) (a : Nat) (ca s : Forest) :
    ((twoPass key a ca s).1 :: (twoPass key a ca s).2.nodes).Perm (a :: ca.nodes ++ s.nodes) := by
  unfold twoPass
  refine (pass2_perm key _ _ _).trans ?_
  simpa [stkNodes] using pass1_perm key s [] a ca

theorem twoPass_ord {key : Nat → Int} {lb : Int} {a : Nat} {ca s : Forest}
    (h : HeapOrd key lb (.node a ca s)) :
    lb ≤ key (twoPass key a ca s).1 ∧
      HeapOrd key (key (twoPass key a ca s).1) (twoPass key a ca s).2 := by
  obtain ⟨ha, hca, hs⟩ := h
  obtain ⟨h1, h2, h3⟩ := pass1_ord s [] a ca ha hca hs (fun _ he => by simp at he)
  exact pass2_ord _ _ _ h1 h2 h3

/-- One iteration of the second loop, with `list = l`. -/
theorem extract_pass2_step (heap : PH_HEAP) (fuel : Nat) (m : Mem) (l r : Nat) :
    extract_pass2 heap (fuel + 1) m (some l) r =
      extract_pass2 heap fuel
        (if PH_ISGREATER heap l r then setParent (linkMem m l r) r (some l)
         else setParent (linkMem m r l) l (some r))
        (m l).ph_list (if PH_ISGREATER heap l r then l else r) := by
  rw [extract_pass2]
  cases hsw : PH_ISGREATER heap l r <;> simp [linkMem]

theorem pass2_pair {heap : PH_HEAP} {key : Nat → Int} (hcmp : CmpOK heap key)
    {m : Mem} {r l : Nat} {cr cl : Forest}
    (hr : TreeAt m r cr) (hl : TreeAt m l cl)
    (hn : (r :: cr.nodes ++ l :: cl.nodes).Nodup) :
    (if PH_ISGREATER heap l r then l else r) = (link key r cr l cl).1 ∧
    TreeAt (if PH_ISGREATER heap l r then setParent (linkMem m l r) r (some l)
         else setParent (linkMem m r l) l (some r)) (link key r cr l cl).1 (link key r cr l cl).2 ∧
    (∀ x, x ∉ r :: cr.nodes ++ l :: cl.nodes →
      (if PH_ISGREATER heap l r then setParent (linkMem m l r) r (some l)
         else setParent (linkMem m r l) l (some r)) x = m x) := by
  have hn' := hn
  simp only [List.cons_append, List.nodup_cons, List.nodup_append, List.mem_append,
    List.mem_cons, not_or, List.disjoint_cons_right] at hn'
  obtain ⟨⟨hr_cr, hrl, hr_cl⟩, hcr, ⟨hl_cl, hcl⟩, hl_cr, hdis⟩ := hn'
  by_cases hlt : key l < key r
  · have hsw : PH_ISGREATER heap l r = true := (isGreater_iff hcmp l r).2 hlt
    simp only [hsw, if_true, link, hlt, true_and]
    refine ⟨?_, ?_⟩
    · apply linkMem_tree_setParent hl hr
      have : (l :: cl.nodes ++ r :: cr.nodes).Perm (r :: cr.nodes ++ l :: cl.nodes) :=
        List.perm_append_comm
      exact this.nodup_iff.2 hn
    · intro x hx
      simp only [List.cons_append, List.mem_cons, List.mem_append, not_or] at hx
      obtain ⟨hxr, hxcr, hxl, hxcl⟩ := hx
      rw [setParent_of_ne _ _ _ _ hxr, linkMem_frame hxl hxr]
      rw [Shape_head hl.1]
      intro e; exact hxcl (head_mem_nodes e)
  · have hsw : PH_ISGREATER heap l r = false := by
      rw [← Bool.not_eq_true, isGreater_iff hcmp l r]; exact hlt
    simp only [hsw, link, hlt, if_false, Bool.false_eq_true]
    refine ⟨trivial, linkMem_tree_setParent hr hl hn, ?_⟩
    intro x hx
    simp only [List.cons_append, List.mem_cons, List.mem_append, not_or] at hx
    obtain ⟨hxr, hxcr, hxl, hxcl⟩ := hx
    rw [setParent_of_ne _ _ _ _ hxl, linkMem_frame hxr hxl]
    rw [Shape_head hr.1]
    intro e; exact hxcr (head_mem_nodes e)

theorem extract_pass2_spec {heap : PH_HEAP} {key : Nat → Int} (hcmp : CmpOK heap key)
    (stk : List (Nat × Forest)) :
    ∀ (fuel : Nat) (m : Mem) (list : Option Nat) (r : Nat) (cr : Forest),
      stk.length < fuel → TreeAt m r cr → AuxRep m list stk →
      (r :: cr.nodes ++ stkNodes stk).Nodup →
      ∃ m', extract_pass2 heap fuel m list r = some (m', (pass2 key stk r cr).1) ∧
        TreeAt m' (pass2 key stk r cr).1 (pass2 key stk r cr).2 ∧
        (∀ x, x ∉ r :: cr.nodes ++ stkNodes stk → m' x = m x) := by
  induction stk with
  | nil =>
    intro fuel m list r cr hfuel hr haux _
    obtain ⟨fuel, rfl⟩ : ∃ k, fuel = k + 1 := ⟨fuel - 1, by omega⟩
    simp only [AuxRep] at haux
    refine ⟨m, ?_, hr, fun _ _ => rfl⟩
    rw [haux, extract_pass2]
    simp [pass2]
  | cons e rest ih =>
    intro fuel m list r cr hfuel hr haux hn
    obtain ⟨fuel, rfl⟩ : ∃ k, fuel = k + 1 := ⟨fuel - 1, by omega⟩
    obtain ⟨hl, hte, hrest⟩ := haux
    have hbig : ((r :: cr.nodes ++ e.1 :: e.2.nodes) ++ stkNodes rest).Nodup := by
      have e0 : (r :: cr.nodes ++ e.1 :: e.2.nodes) ++ stkNodes rest =
          r :: cr.nodes ++ stkNodes (e :: rest) := by
        simp [stkNodes, List.append_assoc]
      rw [e0]; exact hn
    obtain ⟨hnP, _, hdP⟩ := List.nodup_append.1 hbig
    obtain ⟨hw, htree, hfr⟩ := pass2_pair hcmp hr hte hnP
    have hperm := link_perm key r cr e.1 e.2
    rw [hl, extract_pass2_step, hw]
    generalize (if PH_ISGREATER heap e.1 r = true then setParent (linkMem m e.1 r) r (some e.1)
         else setParent (linkMem m r e.1) e.1 (some r)) = m4 at htree hfr
    obtain ⟨m', hrun, ht', hfr'⟩ := ih fuel m4 (m e.1).ph_list
      (link key r cr e.1 e.2).1 (link key r cr e.1 e.2).2
      (by simp at hfuel; omega) htree
      (by
        rw [AuxRep_frame rest _ (fun x hx => hfr x (fun hxP => hdP hxP hx))]
        exact hrest)
      ((List.Perm.append_right _ hperm).nodup_iff.2 hbig)
    refine ⟨m', ?_, ?_, ?_⟩
    · simpa only [pass2, List.foldl_cons] using hrun
    · simpa only [pass2, List.foldl_cons] using ht'
    · intro x hx
      have hx1 : x ∉ r :: cr.nodes ++ e.1 :: e.2.nodes := by
        intro h; apply hx
        simp only [stkNodes, List.cons_append, List.mem_cons, List.mem_append] at h ⊢
        tauto
      have hx2 : x ∉ (link key r cr e.1 e.2).1 :: (link key r cr e.1 e.2).2.nodes ++
          stkNodes rest := by
        intro h
        rcases List.mem_append.1 h with h | h
        · exact hx1 (hperm.subset h)
        · apply hx
          simp only [stkNodes, List.cons_append, List.mem_cons, List.mem_append]
          tauto
      rw [hfr' x hx2, hfr x hx1]

/-- Refinement of `__ph_extract_list`: on a well-formed sibling list it returns
the two pass pairing of the list and touches only nodes of the list. -/
theorem extract_list_spec {heap : PH_HEAP} {key : Nat → Int} (hcmp : CmpOK heap key)
    {m : Mem} {a : Nat} {ca s : Forest} (fuel : Nat) (hfuel : s.nodes.length < fuel)
    (ha : TreeAt m a ca) (hs : Shape m (m a).ph_list s) (hb : Back m (some a) s)
    (hn : (a :: ca.nodes ++ s.nodes).Nodup) :
    ∃ m', __ph_extract_list fuel heap m a = some (m', (twoPass key a ca s).1) ∧
      TreeAt m' (twoPass key a ca s).1 (twoPass key a ca s).2 ∧
      (∀ x, x ∉ a :: ca.nodes ++ s.nodes → m' x = m x) := by
  obtain ⟨m1, list1, hrun1, ht1, haux1, hfr1⟩ :=
    extract_pass1_spec hcmp s.nodes.length s fuel m none [] a ca (le_refl _) hfuel ha hs hb
      (by simp [AuxRep]) (by simpa [stkNodes] using hn)
  have hp1 := pass1_perm key s [] a ca
  have hlen := pass1_length key s [] a ca
  obtain ⟨m2, hrun2, ht2, hfr2⟩ :=
    extract_pass2_spec hcmp (pass1 key [] a ca s).1 fuel m1 list1 _ _
      (by simp at hlen; omega) ht1 haux1
      (hp1.nodup_iff.2 (by simpa [stkNodes] using hn))
  refine ⟨m2, ?_, ht2, ?_⟩
  · unfold __ph_extract_list
    rw [hrun1]
    exact hrun2
  · intro x hx
    rw [hfr2 x (fun h => hx (by simpa [stkNodes] using hp1.subset h)), hfr1 x hx]

/-! ## `ph_pop` on a well-formed heap -/

theorem HeapOrd_lb {key : Nat → Int} (t : Forest) :
    ∀ (lb : Int), HeapOrd key lb t → ∀ x ∈ t.nodes, lb ≤ key x := by
  induction t with
  | nil => intro lb _ x hx; simp [Forest.nodes] at hx
  | node a c s ihc ihs =>
    intro lb h x hx
    obtain ⟨ha, hc, hs⟩ := h
    simp only [Forest.nodes, List.mem_cons, List.mem_append] at hx
    rcases hx with rfl | hx | hx
    · exact ha
    · exact le_trans ha (ihc _ hc x hx)
    · exact ihs _ hs x hx

theorem HeapOrd_mono {key : Nat → Int} (t : Forest) :
    ∀ (lb lb' : Int), lb' ≤ lb → HeapOrd key lb t → HeapOrd key lb' t := by
  induction t with
  | nil => intro _ _ _ _; trivial
  | node a c s _ ihs =>
    intro lb lb' hle h
    exact ⟨le_trans hle h.1, h.2.1, ihs _ _ hle h.2.2⟩

/-- Refinement of `ph_pop` on a heap whose root has children `node a ca s`. -/
theorem ph_pop_node {heap : PH_HEAP} {key : Nat → Int} (hcmp : CmpOK heap key)
    {m : Mem} {r a : Nat} {ca s : Forest} (fuel : Nat)
    (h : HeapRep key heap m r (.node a ca s)) (hfuel : (Forest.node a ca s).nodes.length ≤ fuel) :
    ∃ m', ph_pop fuel heap m =
        some ({ heap with ph_root := some (twoPass key a ca s).1 }, m') ∧
      HeapRep key { heap with ph_root := some (twoPass key a ca s).1 } m'
        (twoPass key a ca s).1 (twoPass key a ca s).2 ∧
      (∀ x, x ∉ (Forest.node a ca s).nodes → m' x = m x) := by
  obtain ⟨hroot, ⟨hsh, hbk⟩, hnd, hord⟩ := h
  obtain ⟨hra, hsa, hss⟩ := hsh
  obtain ⟨_, hba, hbs⟩ := hbk
  have hnd' : (a :: ca.nodes ++ s.nodes).Nodup := by
    simpa [Forest.nodes] using (List.nodup_cons.1 hnd).2
  obtain ⟨m', hrun, ht, hfr⟩ := extract_list_spec hcmp fuel
    (by simp [Forest.nodes] at hfuel; omega) ⟨hsa, hba⟩ hss hbs hnd'
  have hperm := twoPass_perm key a ca s
  refine ⟨m', ?_, ⟨rfl, ht, hperm.nodup_iff.2 hnd', (twoPass_ord hord).2⟩, ?_⟩
  · unfold ph_pop
    simp only [hroot, hra, hrun]
  · intro x hx
    exact hfr x (by simpa [Forest.nodes] using hx)

theorem ph_pop_nil {heap : PH_HEAP} {key : Nat → Int}
    {m : Mem} {r : Nat} (fuel : Nat) (h : HeapRep key heap m r .nil) :
    ph_pop fuel heap m = some ({ heap with ph_root := none }, m) := by
  obtain ⟨hroot, ⟨hsh, _⟩, _, _⟩ := h
  simp only [Shape] at hsh
  unfold ph_pop
  simp only [hroot, hsh]

/-! ## Full extraction -/

theorem popSeq_perm (key : Nat → Int) :
    ∀ (n : Nat) (r : Nat) (c : Forest), c.nodes.length ≤ n →
      (popSeq key n r c).Perm (r :: c.nodes) := by
  intro n
  induction n with
  | zero =>
    intro r c h
    cases c with
    | nil => simp [popSeq, Forest.nodes]
    | node a ca s => simp [Forest.nodes] at h
  | succ n ih =>
    intro r c h
    cases c with
    | nil => simp [popSeq, Forest.nodes]
    | node a ca s =>
      simp only [popSeq]
      have hp := twoPass_perm key a ca s
      have hlen : (twoPass key a ca s).2.nodes.length ≤ n := by
        have := hp.length_eq
        simp only [Forest.nodes, List.length_cons, List.length_append] at this h
        omega
      refine List.Perm.cons r ((ih _ _ hlen).trans ?_)
      simpa [Forest.nodes] using hp

theorem popSeq_sorted (key : Nat → Int) :
    ∀ (n : Nat) (r : Nat) (c : Forest), c.nodes.length ≤ n → HeapOrd key (key r) c →
      ((popSeq key n r c).map key).Sorted (· ≤ ·) := by
  intro n
  induction n with
  | zero => intro r c _ _; simp [popSeq]
  | succ n ih =>
    intro r c h hord
    cases c with
    | nil => simp [popSeq]
    | node a ca s =>
      simp only [popSeq, List.map_cons, List.sorted_cons]
      have hp := twoPass_perm key a ca s
      have hlen : (twoPass key a ca s).2.nodes.length ≤ n := by
        have := hp.length_eq
        simp only [Forest.nodes, List.length_cons, List.length_append] at this h
        omega
      refine ⟨?_, ih _ _ hlen (twoPass_ord hord).2⟩
      intro k hk
      obtain ⟨x, hx, rfl⟩ := List.mem_map.1 hk
      have hx' : x ∈ (Forest.node a ca s).nodes := by
        have := ((popSeq_perm key n _ _ hlen).trans hp).subset hx
        simpa [Forest.nodes] using this
      exact HeapOrd_lb _ _ hord x hx'

/-- Full extraction of a well-formed heap terminates, leaves the heap empty
and returns the abstract extraction order. -/
theorem pop_all_spec {heap : PH_HEAP} {key : Nat → Int} (hcmp : CmpOK heap key) :
    ∀ (n : Nat) (fuel : Nat) (heap' : PH_HEAP) (m : Mem) (r : Nat) (c : Forest),
      heap'.ph_cmp = heap.ph_cmp → c.nodes.length ≤ n → n + 1 < fuel →
      HeapRep key heap' m r c →
      ∃ m', pop_all fuel heap' m =
          some ({ heap' with ph_root := none }, m', popSeq key n r c) ∧
        (∀ x, x ∉ c.nodes → m' x = m x) := by
  intro n
  induction n with
  | zero =>
    intro fuel heap' m r c _ hlen hfuel h
    obtain ⟨fuel, rfl⟩ : ∃ k, fuel = k + 2 := ⟨fuel - 2, by omega⟩
    have hc : c = .nil := by
      cases c with
      | nil => rfl
      | node a ca s => simp [Forest.nodes] at hlen
    subst hc
    refine ⟨m, ?_, fun _ _ => rfl⟩
    rw [pop_all]
    simp only [h.1, ph_pop_nil _ h]
    rw [pop_all]
    simp [popSeq]
  | succ n ih =>
    intro fuel heap' m r c hc' hlen hfuel h
    obtain ⟨fuel, rfl⟩ : ∃ k, fuel = k + 2 := ⟨fuel - 2, by omega⟩
    cases c with
    | nil =>
      refine ⟨m, ?_, fun _ _ => rfl⟩
      rw [pop_all]
      simp only [h.1, ph_pop_nil _ h]
      rw [pop_all]
      simp [popSeq]
    | node a ca s =>
      have hcmp' : CmpOK heap' key := fun x y => by rw [hc']; exact hcmp x y
      obtain ⟨m1, hrun, hrep, hfr⟩ := ph_pop_node hcmp' (fuel + 1) h
        (by omega)
      have hp := twoPass_perm key a ca s
      have hlen' : (twoPass key a ca s).2.nodes.length ≤ n := by
        have := hp.length_eq
        simp only [Forest.nodes, List.length_cons, List.length_append] at this hlen
        omega
      obtain ⟨m2, hrun2, hfr2⟩ := ih (fuel + 1)
        { heap' with ph_root := some (twoPass key a ca s).1 } m1 _ _ hc' hlen' (by omega) hrep
      refine ⟨m2, ?_, ?_⟩
      · rw [pop_all]
        simp only [h.1, hrun, hrun2, popSeq]
      · intro x hx
        rw [hfr2 x (fun hx2 => hx (by
          have := hp.subset (List.mem_cons_of_mem _ hx2)
          simpa [Forest.nodes] using this)), hfr x hx]

/-! ## `ph_push` and `ph_push_raw` -/

theorem node_ext {a b : PH_NODE} (h1 : a.ph_list = b.ph_list) (h2 : a.ph_child = b.ph_child)
    (h3 : a.ph_parent = b.ph_parent) : a = b := by
  cases a; cases b; simp_all

/-- Abstract result of pushing the single node `n` on the heap `(r, c)`. -/
theorem link_push (key : Nat → Int) (n r : Nat) (c : Forest) :
    link key n .nil r c = if key r < key n then (r, .node n .nil c) else (n, .node r c .nil) := rfl

/-- Memory written by `ph_push` when the root stays: it is the pairing step
with winner `r` and loser `n`, provided `n->ph_list` was empty. -/
theorem ph_push_mem_keep {heap : PH_HEAP} {m : Mem} {r n : Nat} (hroot : heap.ph_root = some r)
    (hgt : PH_ISGREATER heap r n = true) (hl : (m n).ph_list = none)
    (hch : (m r).ph_child ≠ some n) :
    ph_push heap m n = (heap, setParent (linkMem m r n) n (some r)) := by
  unfold ph_push
  simp only [hroot, hgt, if_true]
  congr 1
  funext x
  unfold linkMem
  cases hc : (m r).ph_child with
  | none =>
    apply node_ext
    · by_cases hx : x = n <;> simp [setParentOpt, hx, hl]
    · simp [setParentOpt]
    · simp [setParentOpt]
  | some ch =>
    have hchn : ch ≠ n := fun e => hch (by rw [hc, e])
    apply node_ext
    · simp [setParentOpt]
    · simp [setParentOpt]
    · simp [setParentOpt]

theorem ph_push_rep {heap : PH_HEAP} {key : Nat → Int} (hcmp : CmpOK heap key)
    {m : Mem} {r n : Nat} {c : Forest}
    (h : HeapRep key heap m r c) (hl : (m r).ph_list = none) (hz : m n = zeroNode)
    (hn : n ∉ r :: c.nodes) :
    HeapRep key (ph_push heap m n).1 (ph_push heap m n).2
        (link key n .nil r c).1 (link key n .nil r c).2 ∧
      ((ph_push heap m n).2 (link key n .nil r c).1).ph_list = none ∧
      (ph_push heap m n).1.ph_cmp = heap.ph_cmp ∧
      (∀ x, x ∉ n :: r :: c.nodes → (ph_push heap m n).2 x = m x) := by
  obtain ⟨hroot, ht, hnd, hord⟩ := h
  have hnr : n ≠ r := fun e => hn (by simp [e])
  have hnc : n ∉ c.nodes := fun e => hn (by simp [e])
  have hrc : r ∉ c.nodes := (List.nodup_cons.1 hnd).1
  have hzl : (m n).ph_list = none := by rw [hz]; rfl
  have hzc : (m n).ph_child = none := by rw [hz]; rfl
  have hhd : (m r).ph_child ≠ some n := by
    rw [Shape_head ht.1]; intro e; exact hnc (head_mem_nodes e)
  by_cases hlt : key r < key n
  · have hsw : PH_ISGREATER heap r n = true := (isGreater_iff hcmp r n).2 hlt
    rw [ph_push_mem_keep hroot hsw hzl hhd, link_push]
    simp only [hlt, if_true]
    have hnd2 : (r :: c.nodes ++ n :: Forest.nil.nodes).Nodup := by
      have e : r :: c.nodes ++ n :: Forest.nil.nodes = (r :: c.nodes) ++ [n] := by
        simp [Forest.nodes]
      rw [e]
      exact List.nodup_append.2 ⟨hnd, List.nodup_singleton n, by
        intro x hx hx'; simp only [List.mem_singleton] at hx'; subst hx'; exact hn hx⟩
    have htn : TreeAt m n .nil := ⟨by simp [Shape, hzc], trivial⟩
    refine ⟨⟨hroot, linkMem_tree_setParent ht htn hnd2, ?_, ?_⟩, ?_, trivial, ?_⟩
    · simp only [Forest.nodes, List.nil_append, List.nodup_cons, List.mem_cons, not_or]
      exact ⟨⟨Ne.symm hnr, hrc⟩, hnc, (List.nodup_cons.1 hnd).2⟩
    · exact ⟨le_of_lt hlt, trivial, hord⟩
    · rw [setParent_list, linkMem_list_w (Ne.symm hnr), hl]
    · intro x hx
      simp only [List.mem_cons, not_or] at hx
      rw [setParent_of_ne _ _ _ _ hx.1, linkMem_frame hx.2.1 hx.1]
      rw [Shape_head ht.1]; intro e; exact hx.2.2 (head_mem_nodes e)
  · have hsw : PH_ISGREATER heap r n = false := by
      rw [← Bool.not_eq_true, isGreater_iff hcmp r n]; exact hlt
    have hrun : ph_push heap m n =
        ({ heap with ph_root := some n }, setParent (setChild m n (some r)) r (some n)) := by
      unfold ph_push
      simp only [hroot, hsw, Bool.false_eq_true, if_false]
    rw [hrun, link_push]
    simp only [hlt, if_false]
    refine ⟨⟨rfl, ⟨?_, ?_⟩, ?_, ?_⟩, ?_, trivial, ?_⟩
    · refine ⟨by simp, ?_, ?_⟩
      · rw [Shape_setParent, setParent_child, setChild_child, if_neg (Ne.symm hnr),
          Shape_setChild hnc]
        exact ht.1
      · simp [Shape, hnr, hl]
    · refine ⟨by simp, ?_, trivial⟩
      rw [Back_setParent hrc, Back_setChild]; exact ht.2
    · simp only [Forest.nodes, List.append_nil, List.nodup_cons, List.mem_cons, not_or]
      exact ⟨⟨hnr, hnc⟩, hrc, (List.nodup_cons.1 hnd).2⟩
    · exact ⟨not_lt.mp hlt, hord, trivial⟩
    · simp [hzl]
    · intro x hx
      simp only [List.mem_cons, not_or] at hx
      rw [setParent_of_ne _ _ _ _ hx.2.1, setChild_of_ne _ _ _ _ hx.1]

/-- Memory written by `ph_push_raw` when the root stays. -/
theorem ph_push_raw_mem_keep {heap : PH_HEAP} {m : Mem} {r n : Nat}
    (hroot : heap.ph_root = some r)
    (hgt : PH_ISGREATER heap r n = true) (hne : n ≠ r) (hch : (m r).ph_child ≠ some n) :
    ph_push_raw heap m n = (heap, setParent (linkMem (setChild m n none) r n) n (some r)) := by
  unfold ph_push_raw
  simp only [hroot, hgt, if_true]
  congr 1
  funext x
  unfold linkMem
  have hrn : r ≠ n := Ne.symm hne
  apply node_ext
  · simp [hrn]
  · by_cases hx : x = n
    · subst hx; simp [hne]
    · by_cases hx' : x = r
      · subst hx'; simp [hrn]
      · simp [hx, hx', hrn]
  · simp [setParentOpt_parent, hrn]

theorem ph_push_raw_rep {heap : PH_HEAP} {key : Nat → Int} (hcmp : CmpOK heap key)
    {m : Mem} {r n : Nat} {c : Forest}
    (h : HeapRep key heap m r c) (hn : n ∉ r :: c.nodes) :
    HeapRep key (ph_push_raw heap m n).1 (ph_push_raw heap m n).2
        (link key n .nil r c).1 (link key n .nil r c).2 ∧
      (ph_push_raw heap m n).1.ph_cmp = heap.ph_cmp ∧
      (∀ x, x ∉ n :: r :: c.nodes → (ph_push_raw heap m n).2 x = m x) := by
  obtain ⟨hroot, ht, hnd, hord⟩ := h
  have hnr : n ≠ r := fun e => hn (by simp [e])
  have hnc : n ∉ c.nodes := fun e => hn (by simp [e])
  have hrc : r ∉ c.nodes := (List.nodup_cons.1 hnd).1
  have hhd : (m r).ph_child ≠ some n := by
    rw [Shape_head ht.1]; intro e; exact hnc (head_mem_nodes e)
  by_cases hlt : key r < key n
  · have hsw : PH_ISGREATER heap r n = true := (isGreater_iff hcmp r n).2 hlt
    rw [ph_push_raw_mem_keep hroot hsw hnr hhd, link_push]
    simp only [hlt, if_true]
    have hnd2 : (r :: c.nodes ++ n :: Forest.nil.nodes).Nodup := by
      have e : r :: c.nodes ++ n :: Forest.nil.nodes = (r :: c.nodes) ++ [n] := by
        simp [Forest.nodes]
      rw [e]
      exact List.nodup_append.2 ⟨hnd, List.nodup_singleton n, by
        intro x hx hx'; simp only [List.mem_singleton] at hx'; subst hx'; exact hn hx⟩
    have hfr0 : ∀ x ∈ r :: c.nodes, setChild m n none x = m x := fun x hx =>
      setChild_of_ne _ _ _ _ (fun e => hn (e ▸ hx))
    have ht0 : TreeAt (setChild m n none) r c := (TreeAt_frame hfr0).2 ht
    have htn : TreeAt (setChild m n none) n .nil := ⟨by simp [Shape], trivial⟩
    refine ⟨⟨hroot, linkMem_tree_setParent ht0 htn hnd2, ?_, ?_⟩, trivial, ?_⟩
    · simp only [Forest.nodes, List.nil_append, List.nodup_cons, List.mem_cons, not_or]
      exact ⟨⟨Ne.symm hnr, hrc⟩, hnc, (List.nodup_cons.1 hnd).2⟩
    · exact ⟨le_of_lt hlt, trivial, hord⟩
    · intro x hx
      simp only [List.mem_cons, not_or] at hx
      rw [setParent_of_ne _ _ _ _ hx.1, linkMem_frame hx.2.1 hx.1, setChild_of_ne _ _ _ _ hx.1]
      rw [setChild_child, if_neg (Ne.symm hnr), Shape_head ht.1]
      intro e; exact hx.2.2 (head_mem_nodes e)
  · have hsw : PH_ISGREATER heap r n = false := by
      rw [← Bool.not_eq_true, isGreater_iff hcmp r n]; exact hlt
    have hrun : ph_push_raw heap m n =
        ({ heap with ph_root := some n },
          setChild (setList (setParent m r (some n)) r none) n (some r)) := by
      unfold ph_push_raw
      simp only [hroot, hsw, Bool.false_eq_true, if_false]
    rw [hrun, link_push]
    simp only [hlt, if_false]
    refine ⟨⟨rfl, ⟨?_, ?_⟩, ?_, ?_⟩, trivial, ?_⟩
    · refine ⟨by simp, ?_, ?_⟩
      · rw [Shape_setChild hnc, Shape_setList hrc, Shape_setParent]
        simp only [setChild_child, if_neg (Ne.symm hnr), setList_child, setParent_child]
        exact ht.1
      · simp [Shape, Ne.symm hnr]
    · refine ⟨by simp, ?_, trivial⟩
      rw [Back_setChild, Back_setList, Back_setParent hrc]; exact ht.2
    · simp only [Forest.nodes, List.append_nil, List.nodup_cons, List.mem_cons, not_or]
      exact ⟨⟨hnr, hnc⟩, hrc, (List.nodup_cons.1 hnd).2⟩
    · exact ⟨not_lt.mp hlt, hord, trivial⟩
    · intro x hx
      simp only [List.mem_cons, not_or] at hx
      rw [setChild_of_ne _ _ _ _ hx.1, setList_of_ne _ _ _ _ hx.2.1,
        setParent_of_ne _ _ _ _ hx.2.1]

theorem ph_push_raw_empty {heap : PH_HEAP} (key : Nat → Int) (m : Mem) (n : Nat)
    (hroot : heap.ph_root = none) :
    ph_push_raw heap m n = ({ heap with ph_root := some n }, setChild m n none) ∧
    HeapRep key { heap with ph_root := some n } (setChild m n none) n .nil := by
  refine ⟨?_, rfl, ⟨?_, trivial⟩, ?_, trivial⟩
  · unfold ph_push_raw; simp only [hroot]
  · simp [Shape]
  · simp [Forest.nodes]

theorem ph_push_empty {heap : PH_HEAP} (key : Nat → Int) (m : Mem) (n : Nat)
    (hroot : heap.ph_root = none) (hz : (m n).ph_child = none) :
    ph_push heap m n = ({ heap with ph_root := some n }, m) ∧
    HeapRep key { heap with ph_root := some n } m n .nil := by
  refine ⟨?_, rfl, ⟨?_, trivial⟩, ?_, trivial⟩
  · unfold ph_push; simp only [hroot]
  · simp [Shape, hz]
  · simp [Forest.nodes]

/-! ## Building a heap with `ph_push` and the sort consumer -/

theorem push_all_rep {heap : PH_HEAP} {key : Nat → Int} (hcmp : CmpOK heap key) (ns : List Nat) :
    ∀ (heap' : PH_HEAP) (m : Mem) (r : Nat) (c : Forest),
      heap'.ph_cmp = heap.ph_cmp → HeapRep key heap' m r c → (m r).ph_list = none →
      ns.Nodup → (∀ n ∈ ns, n ∉ r :: c.nodes) → (∀ n ∈ ns, m n = zeroNode) →
      ∃ r' c', HeapRep key (push_all heap' m ns).1 (push_all heap' m ns).2 r' c' ∧
        (r' :: c'.nodes).Perm (r :: c.nodes ++ ns) ∧
        ((push_all heap' m ns).2 r').ph_list = none ∧
        (push_all heap' m ns).1.ph_cmp = heap.ph_cmp := by
  induction ns with
  | nil =>
    intro heap' m r c hc h hl _ _ _
    exact ⟨r, c, h, by simp, hl, hc⟩
  | cons n rest ih =>
    intro heap' m r c hc h hl hnd hfresh hz
    have hcmp' : CmpOK heap' key := fun x y => by rw [hc]; exact hcmp x y
    have hn : n ∉ r :: c.nodes := hfresh n (List.mem_cons_self _ _)
    obtain ⟨hrep, hlist, hcmp1, hfr⟩ := ph_push_rep hcmp' h hl (hz n (List.mem_cons_self _ _)) hn
    have hperm := link_perm key n .nil r c
    have hperm' : ((link key n .nil r c).1 :: (link key n .nil r c).2.nodes).Perm
        (n :: r :: c.nodes) := by simpa [Forest.nodes] using hperm
    obtain ⟨hn_rest, hnd_rest⟩ := List.nodup_cons.1 hnd
    obtain ⟨r', c', hrep', hp', hl', hc'⟩ := ih (ph_push heap' m n).1 (ph_push heap' m n).2 _ _
      (hcmp1.trans hc) hrep hlist hnd_rest
      (by
        intro x hx hmem
        rcases List.mem_cons.1 (hperm'.subset hmem) with rfl | hmem
        · exact hn_rest hx
        · exact hfresh x (List.mem_cons_of_mem _ hx) hmem)
      (by
        intro x hx
        rw [hfr x]
        · exact hz x (List.mem_cons_of_mem _ hx)
        · intro hmem
          rcases List.mem_cons.1 hmem with rfl | hmem
          · exact hn_rest hx
          · exact hfresh x (List.mem_cons_of_mem _ hx) hmem)
    refine ⟨r', c', hrep', hp'.trans ?_, hl', hc'⟩
    have e : r :: c.nodes ++ n :: rest = (r :: c.nodes) ++ ([n] ++ rest) := by simp
    rw [e, ← List.append_assoc]
    refine List.Perm.append_right rest (hperm'.trans ?_)
    have : (n :: (r :: c.nodes)).Perm ((r :: c.nodes) ++ [n]) := by
      simpa using (@List.perm_append_comm _ [n] (r :: c.nodes))
    exact this

/-- Function `__ph_pop` on a tree whose root has children `node a ca s`. -/
theorem ph_pop_raw_node {heap : PH_HEAP} {key : Nat → Int} (hcmp : CmpOK heap key)
    {m : Mem} {r a : Nat} {ca s : Forest} (fuel : Nat)
    (ht : TreeAt m r (.node a ca s)) (hnd : (r :: (Forest.node a ca s).nodes).Nodup)
    (hfuel : (Forest.node a ca s).nodes.length ≤ fuel) :
    ∃ m', __ph_pop fuel heap m r = some (m', some (twoPass key a ca s).1) ∧
      TreeAt m' (twoPass key a ca s).1 (twoPass key a ca s).2 ∧
      (∀ x, x ∉ (Forest.node a ca s).nodes → m' x = m x) := by
  obtain ⟨hsh, hbk⟩ := ht
  obtain ⟨hra, hsa, hss⟩ := hsh
  obtain ⟨_, hba, hbs⟩ := hbk
  have hnd' : (a :: ca.nodes ++ s.nodes).Nodup := by
    simpa [Forest.nodes] using (List.nodup_cons.1 hnd).2
  obtain ⟨m', hrun, ht, hfr⟩ := extract_list_spec hcmp fuel
    (by simp [Forest.nodes] at hfuel; omega) ⟨hsa, hba⟩ hss hbs hnd'
  refine ⟨m', ?_, ht, ?_⟩
  · unfold __ph_pop
    simp only [hra, hrun]
  · intro x hx
    exact hfr x (by simpa [Forest.nodes] using hx)

theorem sort_loop_spec {heap : PH_HEAP} {key : Nat → Int} (hcmp : CmpOK heap key) :
    ∀ (n : Nat) (fuel : Nat) (m : Mem) (r : Nat) (c : Forest) (acc : List Nat),
      c.nodes.length ≤ n → n < fuel → TreeAt m r c → (r :: c.nodes).Nodup →
      ∃ m', sort_loop fuel heap m r acc = some (m', acc ++ popSeq key n r c) := by
  intro n
  induction n with
  | zero =>
    intro fuel m r c acc hlen hfuel ht _
    obtain ⟨fuel, rfl⟩ : ∃ k, fuel = k + 1 := ⟨fuel - 1, by omega⟩
    have hc : c = .nil := by
      cases c with
      | nil => rfl
      | node a ca s => simp [Forest.nodes] at hlen
    subst hc
    have hch : (m r).ph_child = none := ht.1
    exact ⟨m, by simp [sort_loop, __ph_pop, hch, popSeq]⟩
  | succ n ih =>
    intro fuel m r c acc hlen hfuel ht hnd
    obtain ⟨fuel, rfl⟩ : ∃ k, fuel = k + 1 := ⟨fuel - 1, by omega⟩
    cases c with
    | nil =>
      have hch : (m r).ph_child = none := ht.1
      exact ⟨m, by simp [sort_loop, __ph_pop, hch, popSeq]⟩
    | node a ca s =>
      obtain ⟨m1, hrun, ht1, _⟩ := ph_pop_raw_node hcmp fuel ht hnd (by omega)
      have hp := twoPass_perm key a ca s
      have hlen' : (twoPass key a ca s).2.nodes.length ≤ n := by
        have := hp.length_eq
        simp only [Forest.nodes, List.length_cons, List.length_append] at this hlen
        omega
      have hnd1 : ((twoPass key a ca s).1 :: (twoPass key a ca s).2.nodes).Nodup :=
        hp.nodup_iff.2 (by simpa [Forest.nodes] using (List.nodup_cons.1 hnd).2)
      obtain ⟨m2, hrun2⟩ := ih fuel m1 _ _ (acc ++ [r]) hlen' (by omega) ht1 hnd1
      refine ⟨m2, ?_⟩
      rw [sort_loop]
      simp only [hrun, hrun2, popSeq, List.append_assoc, List.singleton_append]

/-! ## The comparator of the sort consumer on small keys -/

theorem wrapInt32_small (x : Int) (h1 : -2147483648 ≤ x) (h2 : x < 2147483648) :
    wrapInt32 x = x := by
  unfold wrapInt32; omega

/-- On keys whose differences fit in `int`, `ph_cmp` orders by key. -/
theorem ph_cmp_ok (key : Nat → Int) (h : ∀ a, -1073741824 ≤ key a ∧ key a < 1073741824) :
    CmpOK ⟨none, ph_cmp key⟩ key := by
  intro a b
  have ha := h a
  have hb := h b
  show wrapInt32 (key a - key b) < 0 ↔ key a < key b
  rw [wrapInt32_small _ (by omega) (by omega)]
  omega

theorem keysOf_sample_bound (a : Nat) :
    -1073741824 ≤ keysOf [3, 1, 2] a ∧ keysOf [3, 1, 2] a < 1073741824 := by
  rcases a with _ | _ | _ | a <;> simp [keysOf]

/-! ## `ph_merge_heaps` -/

theorem ph_merge_eq (heap : PH_HEAP) (m : Mem) (root1 root2 : Nat) :
    __ph_merge heap m root1 root2 =
      (if PH_ISGREATER heap root2 root1 then setParent (linkMem m root2 root1) root1 (some root2)
       else setParent (linkMem m root1 root2) root2 (some root1),
       if PH_ISGREATER heap root2 root1 then root2 else root1) := by
  unfold __ph_merge
  cases PH_ISGREATER heap root2 root1 <;> simp [linkMem]

/-- Refinement of `ph_merge_heaps` on two non-empty heaps with disjoint
members: the result is the pairing of the two root trees, source first. -/
theorem ph_merge_heaps_rep {dst src : PH_HEAP} {key : Nat → Int} (hcmp : CmpOK dst key)
    {m : Mem} {rd rs : Nat} {cd cs : Forest}
    (hd : HeapRep key dst m rd cd) (hs : HeapRep key src m rs cs)
    (hdis : ∀ x ∈ rd :: cd.nodes, x ∉ rs :: cs.nodes) :
    (ph_merge_heaps dst src m).2.1 = { src with ph_root := none } ∧
    (ph_merge_heaps dst src m).1.ph_cmp = dst.ph_cmp ∧
    HeapRep key (ph_merge_heaps dst src m).1 (ph_merge_heaps dst src m).2.2
      (link key rs cs rd cd).1 (link key rs cs rd cd).2 ∧
    (∀ x, x ∉ rs :: cs.nodes ++ rd :: cd.nodes → (ph_merge_heaps dst src m).2.2 x = m x) := by
  obtain ⟨hrd, htd, hnd, hod⟩ := hd
  obtain ⟨hrs, hts, hns, hos⟩ := hs
  have hnn : (rs :: cs.nodes ++ rd :: cd.nodes).Nodup :=
    List.nodup_append.2 ⟨hns, hnd, fun x hx hx' => hdis x hx' hx⟩
  obtain ⟨hw, htree, hfr⟩ := pass2_pair hcmp hts htd hnn
  have hrun : ph_merge_heaps dst src m =
      ({ dst with ph_root := some (link key rs cs rd cd).1 }, { src with ph_root := none },
        (if PH_ISGREATER dst rd rs then setParent (linkMem m rd rs) rs (some rd)
         else setParent (linkMem m rs rd) rd (some rs))) := by
    unfold ph_merge_heaps
    simp only [hrs, hrd, ph_merge_eq, hw]
  rw [hrun]
  refine ⟨rfl, rfl, ⟨rfl, htree, (link_perm key rs cs rd cd).nodup_iff.2 hnn, ?_⟩, hfr⟩
  unfold link
  split
  · rename_i h
    exact ⟨le_of_lt h, hos, hod⟩
  · rename_i h
    exact ⟨not_lt.mp h, hod, hos⟩

theorem link_merge (key : Nat → Int) (rs rd : Nat) (cs cd : Forest) :
    link key rs cs rd cd =
      (if key rd < key rs then rd else rs,
        if key rd < key rs then Forest.node rs cs cd else Forest.node rd cd cs) := by
  unfold link; split <;> rfl

/-- Full extraction of a well-formed heap: terminates, empties the heap and
yields every member once with keys in nondecreasing order. -/
theorem pop_all_sorted {heap : PH_HEAP} {key : Nat → Int} (hcmp : CmpOK heap key)
    {m : Mem} {r : Nat} {c : Forest} (fuel : Nat) (h : HeapRep key heap m r c)
    (hfuel : c.nodes.length + 1 < fuel) :
    ∃ hf mf out, pop_all fuel heap m = some (hf, mf, out) ∧ hf.ph_root = none ∧
      out.Perm (r :: c.nodes) ∧ (out.map key).Sorted (· ≤ ·) ∧
      out = popSeq key c.nodes.length r c := by
  obtain ⟨mf, hrun, _⟩ := pop_all_spec hcmp c.nodes.length fuel heap m r c rfl (le_refl _) hfuel h
  exact ⟨_, mf, _, hrun, rfl, popSeq_perm key _ r c (le_refl _),
    popSeq_sorted key _ r c (le_refl _) h.2.2.2, rfl⟩

theorem keysOf_bounded (ks : List Int) (lo hi : Int) (h0 : lo ≤ 0 ∧ 0 < hi)
    (h : ∀ k ∈ ks, lo ≤ k ∧ k < hi) (a : Nat) : lo ≤ keysOf ks a ∧ keysOf ks a < hi := by
  unfold keysOf
  by_cases ha : a < ks.length
  · rw [List.getD_eq_getElem _ _ ha]
    exact h _ (List.getElem_mem _)
  · rw [List.getD_eq_default _ _ (by omega)]
    exact h0

/-! ## `ph_destroy_heap` -/

theorem rotAbs_perm (s : Forest) : ∀ (a : Nat) (c : Forest),
    ((rotAbs a c s).1 :: (rotAbs a c s).2.nodes).Perm (a :: c.nodes ++ s.nodes) := by
  induction s with
  | nil => intro a c; simp [rotAbs, Forest.nodes]
  | node l lc ls _ ihs =>
    intro a c
    simp only [rotAbs]
    refine (ihs l (.node a c lc)).trans ?_
    simp only [Forest.nodes, List.cons_append, List.append_assoc]
    have h1 : (l :: a :: (c.nodes ++ (lc.nodes ++ ls.nodes))).Perm
        (a :: l :: (c.nodes ++ (lc.nodes ++ ls.nodes))) := List.Perm.swap a l _
    refine h1.trans (List.Perm.cons a ?_)
    exact List.perm_middle.symm

/-- The rotation loop: after it the current node has an empty `ph_list` and its
child pointer spells out the rotated forest. -/
theorem destroy_rotate_spec (s : Forest) :
    ∀ (fuel : Nat) (m : Mem) (a : Nat) (c : Forest),
      s.nodes.length < fuel →
      Shape m (m a).ph_child c → Shape m (m a).ph_list s →
      (a :: c.nodes ++ s.nodes).Nodup →
      ∃ m', destroy_rotate fuel m a = some (m', (rotAbs a c s).1) ∧
        Shape m' (m' (rotAbs a c s).1).ph_child (rotAbs a c s).2 ∧
        (m' (rotAbs a c s).1).ph_list = none ∧
        (∀ x, x ∉ a :: c.nodes ++ s.nodes → m' x = m x) := by
  induction s with
  | nil =>
    intro fuel m a c hfuel hc hs _
    obtain ⟨fuel, rfl⟩ : ∃ k, fuel = k + 1 := ⟨fuel - 1, by omega⟩
    simp only [Shape] at hs
    refine ⟨m, ?_, hc, hs, fun _ _ => rfl⟩
    rw [destroy_rotate]
    simp [hs, rotAbs]
  | node l lc ls _ ihs =>
    intro fuel m a c hfuel hc hs hn
    obtain ⟨fuel, rfl⟩ : ∃ k, fuel = k + 1 := ⟨fuel - 1, by omega⟩
    obtain ⟨hal, hlc, hls⟩ := hs
    have hn0 := hn
    simp only [Forest.nodes, List.cons_append, List.nodup_cons, List.nodup_append,
      List.mem_append, List.mem_cons, not_or, List.disjoint_cons_right,
      List.disjoint_append_right] at hn
    obtain ⟨⟨ha_c, hal', ha_lc, ha_ls⟩, hcn, ⟨⟨hl_lc, hl_ls⟩, hlcn, hlsn, hd1⟩, hl_c, hd2, hd3⟩ := hn
    have hla : l ≠ a := Ne.symm hal'
    obtain ⟨m', hrun, hsh, hlist, hfr⟩ := ihs fuel
      (setChild (setList m a (m l).ph_child) l (some a)) l (.node a c lc)
      (by simp [Forest.nodes] at hfuel; omega)
      (by
        refine ⟨by simp, ?_, ?_⟩
        · rw [Shape_setChild hl_c, Shape_setList ha_c]
          simpa [hal'] using hc
        · rw [Shape_setChild hl_lc, Shape_setList ha_lc]
          simpa [hal'] using hlc)
      (by
        rw [Shape_setChild hl_ls, Shape_setList ha_ls]
        simpa [hla] using hls)
      (by
        have hp : (l :: (Forest.node a c lc).nodes ++ ls.nodes).Perm
            (a :: c.nodes ++ (Forest.node l lc ls).nodes) := by
          simp only [Forest.nodes, List.cons_append, List.append_assoc]
          exact (List.Perm.swap a l _).trans (List.Perm.cons a List.perm_middle.symm)
        exact hp.nodup_iff.2 hn0)
    refine ⟨m', ?_, hsh, hlist, ?_⟩
    · rw [destroy_rotate]
      simp only [hal, rotAbs]
      exact hrun
    · intro x hx
      simp only [Forest.nodes, List.cons_append, List.mem_cons, List.mem_append, not_or] at hx
      rw [hfr x (by
        simp only [Forest.nodes, List.cons_append, List.mem_cons, List.mem_append, not_or]
        tauto)]
      rw [setChild_of_ne _ _ _ _ hx.2.2.1, setList_of_ne _ _ _ _ hx.1]

/-- The destruction loop hands every node of the tree at `a` (children `c`,
siblings `s`) to the hook exactly once. -/
theorem destroy_subheap_spec :
    ∀ (n : Nat) (fuel : Nat) (m : Mem) (a : Nat) (c s : Forest) (log : List Nat),
      c.nodes.length + s.nodes.length ≤ n → n < fuel →
      Shape m (m a).ph_child c → Shape m (m a).ph_list s →
      (a :: c.nodes ++ s.nodes).Nodup →
      ∃ m' out, __ph_destroy_subheap fuel m a log = some (m', log ++ out) ∧
        out.Perm (a :: c.nodes ++ s.nodes) := by
  intro n
  induction n with
  | zero =>
    intro fuel m a c s log hlen hfuel hc hs _
    obtain ⟨fuel, rfl⟩ : ∃ k, fuel = k + 1 := ⟨fuel - 1, by omega⟩
    have hc0 : c = .nil := by
      cases c with
      | nil => rfl
      | node _ _ _ => simp [Forest.nodes] at hlen
    have hs0 : s = .nil := by
      cases s with
      | nil => rfl
      | node _ _ _ => simp [Forest.nodes] at hlen
    subst hc0 hs0
    simp only [Shape] at hc hs
    refine ⟨m, [a], ?_, by simp [Forest.nodes]⟩
    rw [__ph_destroy_subheap, destroy_rotate]
    simp [hs, hc]
  | succ n ih =>
    intro fuel m a c s log hlen hfuel hc hs hn
    obtain ⟨fuel, rfl⟩ : ∃ k, fuel = k + 1 := ⟨fuel - 1, by omega⟩
    obtain ⟨m1, hrot, hsh, hlist, _⟩ := destroy_rotate_spec s (fuel + 1) m a c (by omega) hc hs hn
    have hperm := rotAbs_perm s a c
    have hn1 := hperm.nodup_iff.2 hn
    have hlen1 := hperm.length_eq
    simp only [List.length_cons, List.length_append] at hlen1
    cases hr : (rotAbs a c s).2 with
    | nil =>
      rw [hr] at hsh
      simp only [Shape] at hsh
      refine ⟨m1, [(rotAbs a c s).1], ?_, ?_⟩
      · rw [__ph_destroy_subheap]
        simp only [hrot, hsh]
      · rw [hr] at hperm
        simpa [Forest.nodes] using hperm
    | node b cb sb =>
      rw [hr] at hsh hn1 hperm hlen1
      obtain ⟨hb, hcb, hsb⟩ := hsh
      have hnb : (b :: cb.nodes ++ sb.nodes).Nodup := by
        simpa [Forest.nodes] using (List.nodup_cons.1 hn1).2
      obtain ⟨m2, out, hrun, hp⟩ := ih fuel m1 b cb sb (log ++ [(rotAbs a c s).1])
        (by simp [Forest.nodes] at hlen1; omega) (by omega) hcb hsb hnb
      refine ⟨m2, (rotAbs a c s).1 :: out, ?_, ?_⟩
      · rw [__ph_destroy_subheap]
        simp only [hrot, hb, hrun, List.append_assoc, List.singleton_append]
      · refine (List.Perm.cons _ hp).trans ?_
        simpa [Forest.nodes] using hperm

/-! ## Abstract removal -/

theorem removeF_not_mem (key : Nat → Int) (x : Nat) (t : Forest) :
    x ∉ t.nodes → removeF key x t = t := by
  induction t with
  | nil => intro _; rfl
  | node a c s ihc ihs =>
    intro h
    simp only [Forest.nodes, List.mem_cons, List.mem_append, not_or] at h
    simp only [removeF, if_neg (Ne.symm h.1), ihc h.2.1, ihs h.2.2]

theorem removeF_perm (key : Nat → Int) (x : Nat) (t : Forest) :
    x ∈ t.nodes → t.nodes.Nodup → (x :: (removeF key x t).nodes).Perm t.nodes := by
  induction t with
  | nil => intro h; simp [Forest.nodes] at h
  | node a c s ihc ihs =>
    intro hx hn
    simp only [Forest.nodes, List.nodup_cons, List.nodup_append, List.mem_append, not_or] at hn
    obtain ⟨⟨ha_c, ha_s⟩, hcn, hsn, hdis⟩ := hn
    by_cases hax : a = x
    · subst hax
      cases c with
      | nil => simp [removeF, Forest.nodes]
      | node b cb sb =>
        simp only [removeF, if_true, Forest.nodes]
        refine List.Perm.cons a ?_
        have hp := twoPass_perm key b cb sb
        have e : (twoPass key b cb sb).1 :: ((twoPass key b cb sb).2.nodes ++ s.nodes) =
            ((twoPass key b cb sb).1 :: (twoPass key b cb sb).2.nodes) ++ s.nodes := rfl
        rw [e]
        exact List.Perm.append_right _ (by simpa using hp)
    · simp only [Forest.nodes, List.mem_cons, List.mem_append] at hx
      simp only [removeF, if_neg hax, Forest.nodes]
      have hxa : x ≠ a := Ne.symm hax
      rcases hx with hx | hx | hx
      · exact absurd hx hxa
      · have hxs : x ∉ s.nodes := fun h => hdis hx h
        rw [removeF_not_mem key x s hxs]
        refine (List.Perm.swap a x _).trans (List.Perm.cons a ?_)
        have := ihc hx hcn
        exact List.Perm.append_right s.nodes this
      · have hxc : x ∉ c.nodes := fun h => hdis h hx
        rw [removeF_not_mem key x c hxc]
        refine (List.Perm.swap a x _).trans (List.Perm.cons a ?_)
        have := ihs hx hsn
        exact List.perm_middle.symm.trans ((List.perm_append_left_iff _).2 this)

theorem HeapOrd_congr {key key' : Nat → Int} (t : Forest) :
    ∀ (lb : Int), (∀ y ∈ t.nodes, key' y = key y) → (HeapOrd key' lb t ↔ HeapOrd key lb t) := by
  induction t with
  | nil => intro _ _; simp [HeapOrd]
  | node a c s ihc ihs =>
    intro lb h
    have ha := h a (by simp [Forest.nodes])
    have hc := ihc (key a) (fun y hy => h y (by simp [Forest.nodes, hy]))
    have hs := ihs lb (fun y hy => h y (by simp [Forest.nodes, hy]))
    simp only [HeapOrd, ha, hc, hs]

/-- Removal keeps the heap order; the keys may have been changed at the removed
node itself, whose key is never looked at. -/
theorem removeF_ord {key key' : Nat → Int} (x : Nat) (hk : ∀ y, y ≠ x → key' y = key y)
    (t : Forest) :
    ∀ (lb : Int), t.nodes.Nodup → HeapOrd key lb t → HeapOrd key' lb (removeF key' x t) := by
  induction t with
  | nil => intro _ _ _; trivial
  | node a c s ihc ihs =>
    intro lb hn ho
    simp only [Forest.nodes, List.nodup_cons, List.nodup_append, List.mem_append, not_or] at hn
    obtain ⟨⟨ha_c, ha_s⟩, hcn, hsn, hdis⟩ := hn
    obtain ⟨hlb, hoc, hos⟩ := ho
    by_cases hax : a = x
    · subst hax
      have hs' : HeapOrd key' lb s :=
        (HeapOrd_congr s lb (fun y hy => hk y (fun e => ha_s (e ▸ hy)))).2 hos
      cases c with
      | nil => simpa [removeF] using hs'
      | node b cb sb =>
        simp only [removeF, if_true]
        have hc' : HeapOrd key' lb (.node b cb sb) :=
          (HeapOrd_congr _ lb (fun y hy => hk y (fun e => ha_c (e ▸ hy)))).2
            (HeapOrd_mono _ _ _ hlb hoc)
        exact ⟨(twoPass_ord hc').1, (twoPass_ord hc').2, hs'⟩
    · simp only [removeF, if_neg hax]
      have hka : key' a = key a := hk a hax
      refine ⟨by rw [hka]; exact hlb, ?_, ihs lb hsn hos⟩
      rw [hka]
      exact ihc (key a) hcn hoc

/-! ## Slots -/

theorem slotOf_setSlot (m : Mem) (h : Nat) (b : Bool) (v : Option Nat) :
    slotOf (setSlot m h b v) h b = v := by
  cases b <;> simp [slotOf, setSlot]

theorem slotOf_setSlot_other (m : Mem) (h : Nat) (b : Bool) (v : Option Nat) :
    slotOf (setSlot m h b v) h (!b) = slotOf m h (!b) := by
  cases b <;> simp [slotOf, setSlot]

theorem setSlot_of_ne (m : Mem) (h : Nat) (b : Bool) (v : Option Nat) (y : Nat) (hy : y ≠ h) :
    setSlot m h b v y = m y := by
  cases b
  · exact setList_of_ne _ _ _ _ hy
  · exact setChild_of_ne _ _ _ _ hy

@[simp] theorem setSlot_parent (m : Mem) (h : Nat) (b : Bool) (v : Option Nat) (y : Nat) :
    (setSlot m h b v y).ph_parent = (m y).ph_parent := by
  cases b <;> simp [setSlot]

theorem Shape_setSlot {m : Mem} {h : Nat} {b : Bool} {v p : Option Nat} {t : Forest}
    (hh : h ∉ t.nodes) : Shape (setSlot m h b v) p t ↔ Shape m p t := by
  cases b
  · exact Shape_setList hh
  · exact Shape_setChild hh

@[simp] theorem Back_setSlot (m : Mem) (h : Nat) (b : Bool) (v p : Option Nat) (t : Forest) :
    Back (setSlot m h b v) p t ↔ Back m p t := by
  cases b <;> simp [setSlot]

theorem slotOf_congr {m m' : Mem} {h : Nat} (b : Bool) (e : m' h = m h) :
    slotOf m' h b = slotOf m h b := by
  unfold slotOf; rw [e]

theorem writeSlot_child (heap : PH_HEAP) (m : Mem) (h : Nat) (b : Bool) (v : Option Nat) :
    writeSlot heap m (if b then Slot.child h else Slot.list h) v = (heap, setSlot m h b v) := by
  cases b <;> rfl

/-! ## `ph_remove_at` below the root -/

/-- Unfolding of `ph_remove_at` for a node that is not the root, whose parent
field is `h` and which hangs from the slot `isChild` of `h`. -/
theorem ph_remove_at_unfold {heap : PH_HEAP} {m : Mem} {x h : Nat} {isChild : Bool} (fuel : Nat)
    (hroot : heap.ph_root ≠ some x) (hpar : (m x).ph_parent = some h)
    (hsel : (m h).ph_child = some x ↔ isChild = true) :
    ph_remove_at fuel heap m x =
      (match (m x).ph_child with
       | some child =>
         match __ph_extract_list fuel heap m child with
         | none => none
         | some (m1, w) =>
           some (heap, setList (setParentOpt (setSlot (setParent m1 w (some h)) h isChild (some w))
             (m x).ph_list (some w)) w (m x).ph_list)
       | none => some (heap, setSlot (setParentOpt m (m x).ph_list (some h)) h isChild
           (m x).ph_list)) := by
  have hs : (if (m h).ph_child = some x then Slot.child h else Slot.list h) =
      (if isChild then Slot.child h else Slot.list h) := by
    cases isChild
    · have : ¬ (m h).ph_child = some x := fun e => by simpa using hsel.1 e
      simp [this]
    · have : (m h).ph_child = some x := hsel.2 rfl
      simp [this]
  unfold ph_remove_at
  simp only [ne_eq, hroot, not_false_eq_true, if_true, hpar, hs]
  cases hc : (m x).ph_child with
  | none => simp only [writeSlot_child]
  | some child =>
    simp only
    cases he : __ph_extract_list fuel heap m child with
    | none => rfl
    | some r =>
      obtain ⟨m1, w⟩ := r
      cases isChild <;> simp [writeSlot, setSlot]

/-- Removal of `x` at the position where it hangs: slot `isChild` of its
predecessor `h`; `c` are the children of `x` and `s` its later siblings. -/
theorem remove_here {heap : PH_HEAP} {key : Nat → Int} (hcmp : CmpOK heap key)
    {m : Mem} {x h : Nat} {isChild : Bool} {c s : Forest} (fuel : Nat)
    (hroot : heap.ph_root ≠ some x)
    (hsel : (m h).ph_child = some x ↔ isChild = true)
    (hpar : (m x).ph_parent = some h)
    (hc : Shape m (m x).ph_child c) (hbc : Back m (some x) c)
    (hs : Shape m (m x).ph_list s) (hbs : Back m (some x) s)
    (hn : (h :: x :: (c.nodes ++ s.nodes)).Nodup) (hfuel : c.nodes.length ≤ fuel) :
    ∃ m', ph_remove_at fuel heap m x = some (heap, m') ∧
      Shape m' (slotOf m' h isChild) (removeF key x (.node x c s)) ∧
      Back m' (some h) (removeF key x (.node x c s)) ∧
      (∀ y, y ∉ h :: x :: (c.nodes ++ s.nodes) → m' y = m y) ∧
      (m' h).ph_parent = (m h).ph_parent ∧
      slotOf m' h (!isChild) = slotOf m h (!isChild) := by
  have hn0 := hn
  simp only [List.nodup_cons, List.nodup_append, List.mem_cons, List.mem_append, not_or] at hn
  obtain ⟨⟨hhx, hh_c, hh_s⟩, ⟨hx_c, hx_s⟩, hcn, hsn, hdis⟩ := hn
  have hlist : (m x).ph_list = s.head := Shape_head hs
  have hs' : Shape m s.head s := hlist ▸ hs
  have hsh_h : s.head ≠ some h := fun e => hh_s (head_mem_nodes e)
  rw [ph_remove_at_unfold fuel hroot hpar hsel, hlist]
  cases c with
  | nil =>
    simp only [Shape] at hc
    simp only [hc, removeF, if_true]
    refine ⟨_, rfl, ?_, ?_, ?_, ?_, ?_⟩
    · rw [slotOf_setSlot, Shape_setSlot hh_s, Shape_setParentOpt]; exact hs'
    · rw [Back_setSlot]; exact Back_rehead hbs hsn
    · intro y hy
      simp only [List.mem_cons, List.mem_append, Forest.nodes, List.not_mem_nil, false_or,
        not_or] at hy
      rw [setSlot_of_ne _ _ _ _ _ hy.1, setParentOpt_of_ne]
      intro e; exact hy.2.2 (head_mem_nodes e)
    · rw [setSlot_parent, setParentOpt_parent, if_neg hsh_h]
    · rw [slotOf_setSlot_other]
      exact slotOf_congr _ (setParentOpt_of_ne _ _ _ _ hsh_h)
  | node b cb sb =>
    obtain ⟨hxb, hcb, hsb⟩ := hc
    obtain ⟨_, hbcb, hbsb⟩ := hbc
    have hcn' : (b :: cb.nodes ++ sb.nodes).Nodup := by simpa [Forest.nodes] using hcn
    obtain ⟨m1, hrun, ht1, hfr1⟩ := extract_list_spec hcmp fuel
      (by simp [Forest.nodes] at hfuel; omega) ⟨hcb, hbcb⟩ hsb hbsb hcn'
    have hperm : ((twoPass key b cb sb).1 :: (twoPass key b cb sb).2.nodes).Perm
        (Forest.node b cb sb).nodes := by
      simpa [Forest.nodes] using twoPass_perm key b cb sb
    simp only [removeF, if_true]
    generalize (twoPass key b cb sb).1 = w at hrun ht1 hperm ⊢
    generalize (twoPass key b cb sb).2 = cw at hrun ht1 hperm ⊢
    have hfr1' : ∀ y, y ∉ (Forest.node b cb sb).nodes → m1 y = m y := fun y hy =>
      hfr1 y (by simpa [Forest.nodes] using hy)
    have hwn : (w :: cw.nodes).Nodup := hperm.nodup_iff.2 hcn
    have hw_cw : w ∉ cw.nodes := (List.nodup_cons.1 hwn).1
    have hwc : w ∈ (Forest.node b cb sb).nodes := hperm.subset (List.mem_cons_self _ _)
    have hcwc : ∀ y ∈ cw.nodes, y ∈ (Forest.node b cb sb).nodes := fun y hy =>
      hperm.subset (List.mem_cons_of_mem _ hy)
    have hwh : w ≠ h := fun e => hh_c (e ▸ hwc)
    have hw_s : w ∉ s.nodes := fun e => hdis hwc e
    have hh_cw : h ∉ cw.nodes := fun e => hh_c (hcwc h e)
    have hsh_w : s.head ≠ some w := fun e => hw_s (head_mem_nodes e)
    have hsh_cw : ∀ y, s.head = some y → y ∉ cw.nodes := fun y e hy =>
      hdis (hcwc y hy) (head_mem_nodes e)
    have hs1 : Shape m1 s.head s :=
      (Shape_frame (fun y hy => hfr1' y (fun hyc => hdis hyc hy))).2 hs'
    have hbs1 : Back m1 (some x) s :=
      (Back_frame (fun y hy => hfr1' y (fun hyc => hdis hyc hy))).2 hbs
    simp only [hxb, hrun]
    refine ⟨_, rfl, ⟨?_, ?_, ?_⟩, ⟨?_, ?_, ?_⟩, ?_, ?_, ?_⟩
    · -- the slot of `h` now holds `w`
      rw [slotOf_congr _ (setList_of_ne _ _ _ _ (Ne.symm hwh))]
      cases isChild <;> simp [slotOf, setSlot]
    · rw [Shape_setList hw_cw, Shape_setParentOpt, Shape_setSlot hh_cw, Shape_setParent]
      have e : (setList (setParentOpt (setSlot (setParent m1 w (some h)) h isChild (some w))
          s.head (some w)) w s.head w).ph_child = (m1 w).ph_child := by
        rw [setList_child, setParentOpt_child]
        have := setSlot_of_ne (setParent m1 w (some h)) h isChild (some w) w hwh
        rw [this, setParent_child]
      rw [e]; exact ht1.1
    · rw [setList_list, if_pos rfl, Shape_setList hw_s, Shape_setParentOpt, Shape_setSlot hh_s,
        Shape_setParent]
      exact hs1
    · rw [setList_parent, setParentOpt_parent, if_neg hsh_w, setSlot_parent, setParent_parent,
        if_pos rfl]
    · rw [Back_setList, Back_setParentOpt hsh_cw, Back_setSlot, Back_setParent hw_cw]
      exact ht1.2
    · rw [Back_setList]
      refine @Back_rehead _ (some x) _ _ ?_ hsn
      rw [Back_setSlot, Back_setParent hw_s]
      exact hbs1
    · intro y hy
      simp only [List.mem_cons, List.mem_append, not_or] at hy
      obtain ⟨hyh, hyx, hyc, hys⟩ := hy
      have hyw : y ≠ w := fun e => hyc (e ▸ hwc)
      rw [setList_of_ne _ _ _ _ hyw, setParentOpt_of_ne _ _ _ _ (fun e => hys (head_mem_nodes e)),
        setSlot_of_ne _ _ _ _ _ hyh, setParent_of_ne _ _ _ _ hyw, hfr1' y hyc]
    · rw [setList_parent, setParentOpt_parent, if_neg hsh_h, setSlot_parent, setParent_parent,
        if_neg (Ne.symm hwh), hfr1' h hh_c]
    · rw [slotOf_congr _ (setList_of_ne _ _ _ _ (Ne.symm hwh)),
        slotOf_congr _ (setParentOpt_of_ne _ _ _ _ hsh_h), slotOf_setSlot_other]
      exact slotOf_congr _ ((setParent_of_ne _ _ _ _ (Ne.symm hwh)).trans (hfr1' h hh_c))

/-- Removal of a node somewhere inside the forest that hangs from slot
`isChild` of holder `h`. -/
theorem remove_sub {heap : PH_HEAP} {key : Nat → Int} (hcmp : CmpOK heap key) (x fuel : Nat)
    (hroot : heap.ph_root ≠ some x) (t : Forest) :
    ∀ (m : Mem) (h : Nat) (isChild : Bool),
      Shape m (slotOf m h isChild) t → Back m (some h) t → x ∈ t.nodes →
      (h :: t.nodes).Nodup →
      (isChild = false → ∀ y ∈ t.nodes, (m h).ph_child ≠ some y) → t.nodes.length ≤ fuel →
      ∃ m', ph_remove_at fuel heap m x = some (heap, m') ∧
        Shape m' (slotOf m' h isChild) (removeF key x t) ∧
        Back m' (some h) (removeF key x t) ∧
        (∀ y, y ∉ h :: t.nodes → m' y = m y) ∧
        (m' h).ph_parent = (m h).ph_parent ∧
        slotOf m' h (!isChild) = slotOf m h (!isChild) := by
  induction t with
  | nil => intro m h b _ _ hx; simp [Forest.nodes] at hx
  | node a c s ihc ihs =>
    intro m h isChild hsh hbk hx hn hsel hfuel
    obtain ⟨hpa, hc, hs⟩ := hsh
    obtain ⟨hpar, hbc, hbs⟩ := hbk
    have hn0 := hn
    simp only [Forest.nodes, List.nodup_cons, List.nodup_append, List.mem_cons, List.mem_append,
      not_or] at hn
    obtain ⟨⟨hha, hh_c, hh_s⟩, ⟨ha_c, ha_s⟩, hcn, hsn, hdis⟩ := hn
    by_cases hax : a = x
    · subst hax
      have hsel' : (m h).ph_child = some a ↔ isChild = true := by
        cases isChild
        · simp only [Bool.false_eq_true, iff_false]
          exact hsel rfl a (by simp [Forest.nodes])
        · simp only [iff_true]
          simpa [slotOf] using hpa
      exact remove_here hcmp fuel hroot hsel' hpar hc hbc hs hbs
        (by simpa [Forest.nodes] using hn0)
        (by simp [Forest.nodes] at hfuel; omega)
    · have hxa : x ≠ a := Ne.symm hax
      simp only [Forest.nodes, List.mem_cons, List.mem_append] at hx
      simp only [removeF, if_neg hax]
      rcases hx with hx | hx | hx
      · exact absurd hx hxa
      · -- `x` lies among the children of `a`
        have hxs : x ∉ s.nodes := fun h' => hdis hx h'
        obtain ⟨m', hrun, hsh', hbk', hfr, hpar', hoth⟩ := ihc m a true
          (by simpa [slotOf] using hc) hbc hx (List.nodup_cons.2 ⟨ha_c, hcn⟩)
          (fun e => by cases e) (by simp [Forest.nodes] at hfuel; omega)
        have hmh : m' h = m h := hfr h (by
          simp only [List.mem_cons, not_or]; exact ⟨hha, hh_c⟩)
        have hfs : ∀ y ∈ s.nodes, m' y = m y := fun y hy => hfr y (by
          simp only [List.mem_cons, not_or]
          exact ⟨fun e => ha_s (e ▸ hy), fun hyc => hdis hyc hy⟩)
        rw [removeF_not_mem key x s hxs]
        refine ⟨m', hrun, ⟨?_, ?_, ?_⟩, ⟨?_, hbk', ?_⟩, ?_, ?_, ?_⟩
        · rw [slotOf_congr _ hmh]; exact hpa
        · simpa [slotOf] using hsh'
        · have e : (m' a).ph_list = (m a).ph_list := by simpa [slotOf] using hoth
          rw [e, Shape_frame hfs]; exact hs
        · rw [hpar', hpar]
        · rw [Back_frame hfs]; exact hbs
        · intro y hy
          simp only [Forest.nodes, List.mem_cons, List.mem_append, not_or] at hy
          exact hfr y (by simp only [List.mem_cons, not_or]; exact ⟨hy.2.1, hy.2.2.1⟩)
        · rw [hmh]
        · exact slotOf_congr _ hmh
      · -- `x` lies among the later siblings of `a`
        have hxc : x ∉ c.nodes := fun h' => hdis h' hx
        obtain ⟨m', hrun, hsh', hbk', hfr, hpar', hoth⟩ := ihs m a false
          (by simpa [slotOf] using hs) hbs hx (List.nodup_cons.2 ⟨ha_s, hsn⟩)
          (fun _ y hy e => hdis (head_mem_nodes ((Shape_head hc).symm.trans e)) hy)
          (by simp [Forest.nodes] at hfuel; omega)
        have hmh : m' h = m h := hfr h (by
          simp only [List.mem_cons, not_or]; exact ⟨hha, hh_s⟩)
        have hfc : ∀ y ∈ c.nodes, m' y = m y := fun y hy => hfr y (by
          simp only [List.mem_cons, not_or]
          exact ⟨fun e => ha_c (e ▸ hy), fun hys => hdis hy hys⟩)
        rw [removeF_not_mem key x c hxc]
        refine ⟨m', hrun, ⟨?_, ?_, ?_⟩, ⟨?_, ?_, hbk'⟩, ?_, ?_, ?_⟩
        · rw [slotOf_congr _ hmh]; exact hpa
        · have e : (m' a).ph_child = (m a).ph_child := by simpa [slotOf] using hoth
          rw [e, Shape_frame hfc]; exact hc
        · simpa [slotOf] using hsh'
        · rw [hpar', hpar]
        · rw [Back_frame hfc]; exact hbc
        · intro y hy
          simp only [Forest.nodes, List.mem_cons, List.mem_append, not_or] at hy
          exact hfr y (by simp only [List.mem_cons, not_or]; exact ⟨hy.2.1, hy.2.2.2⟩)
        · rw [hmh]
        · exact slotOf_congr _ hmh

/-- Structural refinement of `ph_remove_at` for any member of a heap. -/
theorem ph_remove_at_rep {heap : PH_HEAP} {key : Nat → Int} (hcmp : CmpOK heap key)
    {m : Mem} {r x : Nat} {c : Forest} (fuel : Nat)
    (hroot : heap.ph_root = some r) (ht : TreeAt m r c) (hn : (r :: c.nodes).Nodup)
    (hx : x ∈ r :: c.nodes) (hfuel : c.nodes.length ≤ fuel) :
    ∃ heap' m', ph_remove_at fuel heap m x = some (heap', m') ∧
      heap'.ph_cmp = heap.ph_cmp ∧
      heap'.ph_root = (removeHeap key x r c).map (fun p => p.1) ∧
      (∀ p, removeHeap key x r c = some p → TreeAt m' p.1 p.2) ∧
      (∀ y, y ∉ r :: c.nodes → m' y = m y) := by
  obtain ⟨hr_c, hcn⟩ := List.nodup_cons.1 hn
  by_cases hrx : r = x
  · subst hrx
    have hloc : ph_remove_at fuel heap m r =
        (match (m r).ph_child with
         | some child =>
           match __ph_extract_list fuel heap m child with
           | none => none
           | some (m1, w) =>
             some ({ heap with ph_root := some w }, setList (setParent m1 w none) w none)
         | none => some ({ heap with ph_root := none }, m)) := by
      unfold ph_remove_at
      simp only [hroot, ne_eq, not_true_eq_false, if_false]
      cases (m r).ph_child with
      | none => rfl
      | some child =>
        simp only
        cases __ph_extract_list fuel heap m child with
        | none => rfl
        | some p => rfl
    rw [hloc]
    cases c with
    | nil =>
      have hc : (m r).ph_child = none := ht.1
      simp only [hc, removeHeap, if_true]
      exact ⟨_, m, rfl, rfl, rfl, fun p hp => (by cases hp), fun _ _ => rfl⟩
    | node b cb sb =>
      obtain ⟨⟨hrb, hcb, hsb⟩, ⟨_, hbcb, hbsb⟩⟩ := ht
      have hcn' : (b :: cb.nodes ++ sb.nodes).Nodup := by simpa [Forest.nodes] using hcn
      obtain ⟨m1, hrun, ht1, hfr1⟩ := extract_list_spec hcmp fuel
        (by simp [Forest.nodes] at hfuel; omega) ⟨hcb, hbcb⟩ hsb hbsb hcn'
      have hperm := twoPass_perm key b cb sb
      have hw_cw : (twoPass key b cb sb).1 ∉ (twoPass key b cb sb).2.nodes :=
        (List.nodup_cons.1 (hperm.nodup_iff.2 hcn')).1
      simp only [hrb, hrun, removeHeap, if_true]
      refine ⟨_, _, rfl, rfl, rfl, ?_, ?_⟩
      · intro p hp
        simp only [Option.some.injEq] at hp
        subst hp
        refine ⟨?_, ?_⟩
        · rw [setList_child, setParent_child, Shape_setList hw_cw, Shape_setParent]
          exact ht1.1
        · rw [Back_setList, Back_setParent hw_cw]; exact ht1.2
      · intro y hy
        simp only [Forest.nodes, List.mem_cons, List.mem_append, not_or] at hy
        have hyc : y ∉ b :: cb.nodes ++ sb.nodes := by
          simp only [List.cons_append, List.mem_cons, List.mem_append, not_or]
          exact hy.2
        have hyw : y ≠ (twoPass key b cb sb).1 := fun e =>
          hyc (hperm.subset (e ▸ List.mem_cons_self _ _))
        rw [setList_of_ne _ _ _ _ hyw, setParent_of_ne _ _ _ _ hyw, hfr1 y hyc]
  · have hxc : x ∈ c.nodes := by
      rcases List.mem_cons.1 hx with e | e
      · exact absurd e.symm hrx
      · exact e
    have hroot' : heap.ph_root ≠ some x := by
      rw [hroot]; intro e; exact hrx (Option.some.inj e)
    obtain ⟨m', hrun, hsh, hbk, hfr, _, _⟩ := remove_sub hcmp x fuel hroot' c m r true
      (by simpa [slotOf] using ht.1) ht.2 hxc hn (fun e => by cases e) hfuel
    simp only [removeHeap, if_neg hrx]
    refine ⟨heap, m', hrun, rfl, by simpa using hroot, ?_, hfr⟩
    intro p hp
    simp only [Option.some.injEq] at hp
    subst hp
    exact ⟨by simpa [slotOf] using hsh, hbk⟩

theorem removeHeap_perm (key : Nat → Int) {x r : Nat} {c : Forest}
    (hn : (r :: c.nodes).Nodup) (hx : x ∈ r :: c.nodes) :
    (x :: ((removeHeap key x r c).map (fun p => p.1 :: p.2.nodes)).getD []).Perm
      (r :: c.nodes) := by
  obtain ⟨hr_c, hcn⟩ := List.nodup_cons.1 hn
  by_cases hrx : r = x
  · subst hrx
    cases c with
    | nil => simp [removeHeap, Forest.nodes]
    | node b cb sb =>
      simp only [removeHeap, if_true, Option.map_some', Option.getD_some]
      exact List.Perm.cons r (by simpa [Forest.nodes] using twoPass_perm key b cb sb)
  · have hxc : x ∈ c.nodes := by
      rcases List.mem_cons.1 hx with e | e
      · exact absurd e.symm hrx
      · exact e
    simp only [removeHeap, if_neg hrx, Option.map_some', Option.getD_some]
    exact (List.Perm.swap r x _).trans (List.Perm.cons r (removeF_perm key x c hxc hcn))

theorem removeHeap_ord {key key' : Nat → Int} {x r : Nat} {c : Forest}
    (hk : ∀ y, y ≠ x → key' y = key y) (hn : (r :: c.nodes).Nodup)
    (ho : HeapOrd key (key r) c) :
    ∀ p, removeHeap key' x r c = some p → HeapOrd key' (key' p.1) p.2 := by
  obtain ⟨hr_c, hcn⟩ := List.nodup_cons.1 hn
  intro p hp
  by_cases hrx : r = x
  · subst hrx
    cases c with
    | nil => simp [removeHeap] at hp
    | node b cb sb =>
      simp only [removeHeap, if_true, Option.some.injEq] at hp
      subst hp
      have hc' : HeapOrd key' (key r) (.node b cb sb) :=
        (HeapOrd_congr _ _ (fun y hy => hk y (fun e => hr_c (e ▸ hy)))).2 ho
      exact (twoPass_ord hc').2
  · simp only [removeHeap, if_neg hrx, Option.some.injEq] at hp
    subst hp
    rw [hk r hrx]
    exact removeF_ord x hk c (key r) hcn ho

/-! ## `ph_remove_at` and `ph_decrease_at` on well-formed heaps -/

/-- After `ph_remove_at` of member `x` the heap is empty (when `x` was the only
member) or again well-formed on the remaining members.  The keys `key'` in
force during the call may differ from the keys `key` under which the heap was
ordered at the removed node only. -/
theorem ph_remove_at_wf {heap : PH_HEAP} {key key' : Nat → Int} (hcmp : CmpOK heap key')
    {m : Mem} {r x : Nat} {c : Forest} (fuel : Nat)
    (hk : ∀ y, y ≠ x → key' y = key y)
    (hwf : HeapRep key heap m r c) (hx : x ∈ r :: c.nodes) (hfuel : c.nodes.length ≤ fuel) :
    ∃ heap' m', ph_remove_at fuel heap m x = some (heap', m') ∧
      heap'.ph_cmp = heap.ph_cmp ∧
      (∀ y, y ∉ r :: c.nodes → m' y = m y) ∧
      ((heap'.ph_root = none ∧ c = .nil ∧ r = x) ∨
        ∃ r' c', HeapRep key' heap' m' r' c' ∧ (x :: r' :: c'.nodes).Perm (r :: c.nodes)) := by
  obtain ⟨hroot, ht, hn, ho⟩ := hwf
  obtain ⟨heap', m', hrun, hc, hr', ht', hfr⟩ :=
    ph_remove_at_rep hcmp fuel hroot ht hn hx hfuel
  have hperm := removeHeap_perm key' hn hx
  have hord := removeHeap_ord hk hn ho
  refine ⟨heap', m', hrun, hc, hfr, ?_⟩
  cases hrem : removeHeap key' x r c with
  | none =>
    left
    rw [hrem] at hr'
    refine ⟨by simpa using hr', ?_⟩
    unfold removeHeap at hrem
    by_cases hrx : r = x
    · rw [if_pos hrx] at hrem
      cases c with
      | nil => exact ⟨rfl, hrx⟩
      | node b cb sb => simp at hrem
    · rw [if_neg hrx] at hrem; simp at hrem
  | some p =>
    right
    rw [hrem] at hr' hperm
    simp only [Option.map_some', Option.getD_some] at hr' hperm
    exact ⟨p.1, p.2, ⟨hr', ht' p hrem,
      (List.nodup_cons.1 (hperm.nodup_iff.2 hn)).2, hord p hrem⟩, hperm⟩

/-- The call `ph_decrease_at` after the caller changed the key of member `x`:
the heap keeps its members and is well-formed under the new keys. -/
theorem ph_decrease_at_wf {heap : PH_HEAP} {key key' : Nat → Int} (hcmp : CmpOK heap key')
    {m : Mem} {r x : Nat} {c : Forest} (fuel : Nat)
    (hk : ∀ y, y ≠ x → key' y = key y)
    (hwf : HeapRep key heap m r c) (hx : x ∈ r :: c.nodes) (hfuel : c.nodes.length ≤ fuel) :
    ∃ heap' m' r' c', ph_decrease_at fuel heap m x = some (heap', m') ∧
      heap'.ph_cmp = heap.ph_cmp ∧
      (∀ y, y ∉ r :: c.nodes → m' y = m y) ∧
      HeapRep key' heap' m' r' c' ∧ (r' :: c'.nodes).Perm (r :: c.nodes) := by
  obtain ⟨heap1, m1, hrun, hc1, hfr1, hcase⟩ := ph_remove_at_wf hcmp fuel hk hwf hx hfuel
  have hcmp1 : CmpOK heap1 key' := fun a b => by rw [hc1]; exact hcmp a b
  rcases hcase with ⟨hroot1, hcnil, hrx⟩ | ⟨r1, c1, hrep1, hperm1⟩
  · obtain ⟨hpush, hrep⟩ := ph_push_raw_empty key' m1 x hroot1
    subst hcnil hrx
    refine ⟨{ heap1 with ph_root := some r }, setChild m1 r none, r, .nil, ?_, hc1, ?_, hrep,
      List.Perm.refl _⟩
    · unfold ph_decrease_at
      simp only [hrun, hpush]
    · intro y hy
      simp only [Forest.nodes, List.mem_cons, List.not_mem_nil, or_false] at hy
      rw [setChild_of_ne _ _ _ _ hy, hfr1 y (by simpa [Forest.nodes] using hy)]
  · have hn1 := hperm1.nodup_iff.2 hwf.2.2.1
    have hx1 : x ∉ r1 :: c1.nodes := (List.nodup_cons.1 hn1).1
    obtain ⟨hrep, hc2, hfr2⟩ := ph_push_raw_rep hcmp1 hrep1 hx1
    have hlp := link_perm key' x .nil r1 c1
    refine ⟨_, _, _, _, ?_, hc2.trans hc1, ?_, hrep, ?_⟩
    · unfold ph_decrease_at
      simp only [hrun]
    · intro y hy
      have hy1 : y ∉ x :: r1 :: c1.nodes := fun h => hy (hperm1.subset h)
      rw [hfr2 y hy1, hfr1 y hy]
    · have hlp' : ((link key' x .nil r1 c1).1 :: (link key' x .nil r1 c1).2.nodes).Perm
          (x :: r1 :: c1.nodes) := by simpa [Forest.nodes] using hlp
      exact hlp'.trans hperm1

/-! ## Renaming of nodes that keeps the keys -/

theorem mapF_nodes (f : Nat → Nat) (t : Forest) : (mapF f t).nodes = t.nodes.map f := by
  induction t with
  | nil => rfl
  | node a c s ihc ihs => simp [mapF, Forest.nodes, ihc, ihs]

theorem mapF_swapIn_not_mem (x d : Nat) (t : Forest) (h : x ∉ t.nodes) :
    mapF (swapIn x d) t = t := by
  induction t with
  | nil => rfl
  | node a c s ihc ihs =>
    simp only [Forest.nodes, List.mem_cons, List.mem_append, not_or] at h
    simp only [mapF, swapIn, if_neg (Ne.symm h.1), ihc h.2.1, ihs h.2.2]

theorem link_mapF {key : Nat → Int} {f : Nat → Nat} (hk : ∀ a, key (f a) = key a)
    (a : Nat) (ca : Forest) (b : Nat) (cb : Forest) :
    link key (f a) (mapF f ca) (f b) (mapF f cb) =
      (f (link key a ca b cb).1, mapF f (link key a ca b cb).2) := by
  unfold link
  rw [hk a, hk b]
  split <;> rfl

theorem pass1_mapF {key : Nat → Int} {f : Nat → Nat} (hk : ∀ a, key (f a) = key a)
    (s : Forest) : ∀ (stk : List (Nat × Forest)) (a : Nat) (ca : Forest),
      pass1 key (stk.map (fun e => (f e.1, mapF f e.2))) (f a) (mapF f ca) (mapF f s) =
        ((pass1 key stk a ca s).1.map (fun e => (f e.1, mapF f e.2)),
          f (pass1 key stk a ca s).2.1, mapF f (pass1 key stk a ca s).2.2) := by
  induction s using Forest.pairInduction with
  | h0 => intro stk a ca; rfl
  | h1 b cb =>
    intro stk a ca
    simp only [mapF, pass1, link_mapF hk]
  | h2 b cb c cc s ih =>
    intro stk a ca
    simp only [mapF, pass1, link_mapF hk]
    have := ih (link key a ca b cb :: stk) c cc
    simpa only [List.map_cons] using this

theorem pass2_mapF {key : Nat → Int} {f : Nat → Nat} (hk : ∀ a, key (f a) = key a)
    (stk : List (Nat × Forest)) : ∀ (r : Nat) (cr : Forest),
      pass2 key (stk.map (fun e => (f e.1, mapF f e.2))) (f r) (mapF f cr) =
        (f (pass2 key stk r cr).1, mapF f (pass2 key stk r cr).2) := by
  induction stk with
  | nil => intro r cr; rfl
  | cons e rest ih =>
    intro r cr
    simp only [pass2, List.map_cons, List.foldl_cons, link_mapF hk]
    exact ih _ _

theorem twoPass_mapF {key : Nat → Int} {f : Nat → Nat} (hk : ∀ a, key (f a) = key a)
    (a : Nat) (ca s : Forest) :
    twoPass key (f a) (mapF f ca) (mapF f s) =
      (f (twoPass key a ca s).1, mapF f (twoPass key a ca s).2) := by
  unfold twoPass
  have h1 := pass1_mapF hk s [] a ca
  simp only [List.map_nil] at h1
  simp only [h1]
  exact pass2_mapF hk _ _ _

/-- The extraction order commutes with a renaming that keeps the keys. -/
theorem popSeq_mapF {key : Nat → Int} {f : Nat → Nat} (hk : ∀ a, key (f a) = key a) :
    ∀ (n : Nat) (r : Nat) (c : Forest),
      popSeq key n (f r) (mapF f c) = (popSeq key n r c).map f := by
  intro n
  induction n with
  | zero => intro r c; rfl
  | succ n ih =>
    intro r c
    cases c with
    | nil => rfl
    | node a ca s =>
      simp only [mapF, popSeq, twoPass_mapF hk, List.map_cons]
      rw [ih]

theorem HeapOrd_mapF {key : Nat → Int} {f : Nat → Nat} (hk : ∀ a, key (f a) = key a)
    (t : Forest) : ∀ (lb : Int), HeapOrd key lb (mapF f t) ↔ HeapOrd key lb t := by
  induction t with
  | nil => intro _; simp [mapF, HeapOrd]
  | node a c s ihc ihs =>
    intro lb
    simp only [mapF, HeapOrd, hk a, ihc, ihs]

/-! ## `ph_move_at` -/

/-- Unfolding of `ph_move_at` for a source that is not the root. -/
theorem ph_move_at_unfold {heap : PH_HEAP} {m : Mem} {d x h : Nat} {isChild : Bool}
    (hroot : heap.ph_root ≠ some x) (hpar : (m x).ph_parent = some h)
    (hsel : (m h).ph_child = some x ↔ isChild = true) (hxh : x ≠ h) :
    ph_move_at heap m d x =
      some (heap, setParentOpt (setChild (setParentOpt (setList
        (setSlot (setParent m d (some h)) h isChild (some d)) d (m x).ph_list)
          (m x).ph_list (some d)) d (m x).ph_child) (m x).ph_child (some d)) := by
  unfold ph_move_at
  simp only [ne_eq, hroot, not_false_eq_true, if_true, hpar, setParent_child]
  cases isChild
  · have hne : ¬ (m h).ph_child = some x := fun e => by simpa using hsel.1 e
    simp [hne, setSlot, hxh]
  · have he : (m h).ph_child = some x := hsel.2 rfl
    simp [he, setSlot, hxh]

theorem move_here {heap : PH_HEAP} {m : Mem} {x d h : Nat} {isChild : Bool} {c s : Forest}
    (hroot : heap.ph_root ≠ some x)
    (hsel : (m h).ph_child = some x ↔ isChild = true)
    (hpar : (m x).ph_parent = some h)
    (hc : Shape m (m x).ph_child c) (hbc : Back m (some x) c)
    (hs : Shape m (m x).ph_list s) (hbs : Back m (some x) s)
    (hn : (d :: h :: x :: (c.nodes ++ s.nodes)).Nodup) :
    ∃ m', ph_move_at heap m d x = some (heap, m') ∧
      Shape m' (slotOf m' h isChild) (.node d c s) ∧
      Back m' (some h) (.node d c s) ∧
      (∀ y, y ∉ d :: h :: x :: (c.nodes ++ s.nodes) → m' y = m y) ∧
      (m' h).ph_parent = (m h).ph_parent ∧
      slotOf m' h (!isChild) = slotOf m h (!isChild) ∧
      MoveFacts m m' x d := by
  simp only [List.nodup_cons, List.nodup_append, List.mem_cons, List.mem_append, not_or] at hn
  obtain ⟨⟨hdh, hdx, hd_c, hd_s⟩, ⟨hhx, hh_c, hh_s⟩, ⟨hx_c, hx_s⟩, hcn, hsn, hdis⟩ := hn
  have hlist : (m x).ph_list = s.head := Shape_head hs
  have hchild : (m x).ph_child = c.head := Shape_head hc
  have hs' : Shape m s.head s := hlist ▸ hs
  have hc' : Shape m c.head c := hchild ▸ hc
  have hsh_h : s.head ≠ some h := fun e => hh_s (head_mem_nodes e)
  have hch_h : c.head ≠ some h := fun e => hh_c (head_mem_nodes e)
  have hsh_d : s.head ≠ some d := fun e => hd_s (head_mem_nodes e)
  have hch_d : c.head ≠ some d := fun e => hd_c (head_mem_nodes e)
  have hch_s : ∀ y, c.head = some y → y ∉ s.nodes := fun y e hy =>
    hdis (head_mem_nodes e) hy
  have hsh_c : ∀ y, s.head = some y → y ∉ c.nodes := fun y e hy =>
    hdis hy (head_mem_nodes e)
  rw [ph_move_at_unfold hroot hpar hsel (Ne.symm hhx), hlist, hchild]
  have hslot : slotOf (setParentOpt (setChild (setParentOpt (setList
      (setSlot (setParent m d (some h)) h isChild (some d)) d s.head) s.head (some d)) d c.head)
        c.head (some d)) h isChild = some d := by
    cases isChild <;> simp [slotOf, setSlot, Ne.symm hdh]
  have hdpar : (setParentOpt (setChild (setParentOpt (setList
      (setSlot (setParent m d (some h)) h isChild (some d)) d s.head) s.head (some d)) d c.head)
        c.head (some d) d).ph_parent = some h := by
    rw [setParentOpt_parent, if_neg hch_d, setChild_parent, setParentOpt_parent, if_neg hsh_d,
      setList_parent, setSlot_parent, setParent_parent, if_pos rfl]
  refine ⟨_, rfl, ⟨hslot, ?_, ?_⟩, ⟨hdpar, ?_, ?_⟩, ?_, ?_, ?_, ⟨?_, ?_, ?_, ?_, ?_, ?_⟩⟩
  · rw [Shape_setParentOpt, setParentOpt_child, setChild_child, if_pos rfl, Shape_setChild hd_c,
      Shape_setParentOpt, Shape_setList hd_c, Shape_setSlot hh_c, Shape_setParent]
    exact hc'
  · rw [Shape_setParentOpt, setParentOpt_list, setChild_list, setParentOpt_list, setList_list,
      if_pos rfl, Shape_setChild hd_s, Shape_setParentOpt, Shape_setList hd_s,
      Shape_setSlot hh_s, Shape_setParent]
    exact hs'
  · refine @Back_rehead _ (some x) _ _ ?_ hcn
    rw [Back_setChild, Back_setParentOpt hsh_c, Back_setList, Back_setSlot, Back_setParent hd_c]
    exact hbc
  · rw [Back_setParentOpt hch_s, Back_setChild]
    refine @Back_rehead _ (some x) _ _ ?_ hsn
    rw [Back_setList, Back_setSlot, Back_setParent hd_s]
    exact hbs
  · intro y hy
    simp only [List.mem_cons, List.mem_append, not_or] at hy
    obtain ⟨hyd, hyh, hyx, hyc, hys⟩ := hy
    rw [setParentOpt_of_ne _ _ _ _ (fun e => hyc (head_mem_nodes e)),
      setChild_of_ne _ _ _ _ hyd,
      setParentOpt_of_ne _ _ _ _ (fun e => hys (head_mem_nodes e)),
      setList_of_ne _ _ _ _ hyd, setSlot_of_ne _ _ _ _ _ hyh, setParent_of_ne _ _ _ _ hyd]
  · rw [setParentOpt_parent, if_neg hch_h, setChild_parent, setParentOpt_parent, if_neg hsh_h,
      setList_parent, setSlot_parent, setParent_parent, if_neg (Ne.symm hdh)]
  · rw [slotOf_congr _ (setParentOpt_of_ne _ _ _ _ hch_h),
      slotOf_congr _ (setChild_of_ne _ _ _ _ (Ne.symm hdh)),
      slotOf_congr _ (setParentOpt_of_ne _ _ _ _ hsh_h),
      slotOf_congr _ (setList_of_ne _ _ _ _ (Ne.symm hdh)), slotOf_setSlot_other]
    exact slotOf_congr _ (setParent_of_ne _ _ _ _ (Ne.symm hdh))
  · simp [hchild]
  · simp [hlist]
  · rw [hdpar, hpar]
  · refine ⟨h, hpar, ?_⟩
    cases isChild
    · have hne : ¬ (m h).ph_child = some x := fun e => by simpa using hsel.1 e
      rw [if_neg hne]
      simpa [slotOf] using hslot
    · have he : (m h).ph_child = some x := hsel.2 rfl
      rw [if_pos he]
      simpa [slotOf] using hslot
  · intro y hy
    rw [hchild] at hy
    rw [setParentOpt_parent, if_pos hy]
  · intro y hy
    rw [hlist] at hy
    have hyc : c.head ≠ some y := fun e => hch_s y e (head_mem_nodes hy)
    have hyd : y ≠ d := fun e => hsh_d (e ▸ hy)
    rw [setParentOpt_parent, if_neg hyc, setChild_parent, setParentOpt_parent, if_pos hy]

/-- Replacement of a node somewhere inside the forest that hangs from slot
`isChild` of holder `h`. -/
theorem move_sub {heap : PH_HEAP} (x d : Nat) (hroot : heap.ph_root ≠ some x) (t : Forest) :
    ∀ (m : Mem) (h : Nat) (isChild : Bool),
      Shape m (slotOf m h isChild) t → Back m (some h) t → x ∈ t.nodes →
      (d :: h :: t.nodes).Nodup →
      (isChild = false → ∀ y ∈ t.nodes, (m h).ph_child ≠ some y) →
      ∃ m', ph_move_at heap m d x = some (heap, m') ∧
        Shape m' (slotOf m' h isChild) (mapF (swapIn x d) t) ∧
        Back m' (some h) (mapF (swapIn x d) t) ∧
        (∀ y, y ∉ d :: h :: t.nodes → m' y = m y) ∧
        (m' h).ph_parent = (m h).ph_parent ∧
        slotOf m' h (!isChild) = slotOf m h (!isChild) ∧
        MoveFacts m m' x d := by
  induction t with
  | nil => intro m h b _ _ hx; simp [Forest.nodes] at hx
  | node a c s ihc ihs =>
    intro m h isChild hsh hbk hx hn hsel
    obtain ⟨hpa, hc, hs⟩ := hsh
    obtain ⟨hpar, hbc, hbs⟩ := hbk
    have hn0 := hn
    simp only [Forest.nodes, List.nodup_cons, List.nodup_append, List.mem_cons, List.mem_append,
      not_or] at hn
    obtain ⟨⟨hdh, hda, hd_c, hd_s⟩, ⟨hha, hh_c, hh_s⟩, ⟨ha_c, ha_s⟩, hcn, hsn, hdis⟩ := hn
    by_cases hax : a = x
    · subst hax
      have hsel' : (m h).ph_child = some a ↔ isChild = true := by
        cases isChild
        · simp only [Bool.false_eq_true, iff_false]
          exact hsel rfl a (by simp [Forest.nodes])
        · simp only [iff_true]
          simpa [slotOf] using hpa
      have hmap : mapF (swapIn a d) (.node a c s) = .node d c s := by
        simp only [mapF, swapIn, if_true, mapF_swapIn_not_mem a d c ha_c,
          mapF_swapIn_not_mem a d s ha_s]
      rw [hmap]
      exact move_here hroot hsel' hpar hc hbc hs hbs (by simpa [Forest.nodes] using hn0)
    · have hxa : x ≠ a := Ne.symm hax
      simp only [Forest.nodes, List.mem_cons, List.mem_append] at hx
      simp only [mapF, swapIn, if_neg hax]
      rcases hx with hx | hx | hx
      · exact absurd hx hxa
      · have hxs : x ∉ s.nodes := fun h' => hdis hx h'
        obtain ⟨m', hrun, hsh', hbk', hfr, hpar', hoth, hfacts⟩ := ihc m a true
          (by simpa [slotOf] using hc) hbc hx
          (List.nodup_cons.2 ⟨by simp only [List.mem_cons, not_or]; exact ⟨hda, hd_c⟩,
            List.nodup_cons.2 ⟨ha_c, hcn⟩⟩)
          (fun e => by cases e)
        have hmh : m' h = m h := hfr h (by
          simp only [List.mem_cons, not_or]; exact ⟨Ne.symm hdh, hha, hh_c⟩)
        have hfs : ∀ y ∈ s.nodes, m' y = m y := fun y hy => hfr y (by
          simp only [List.mem_cons, not_or]
          exact ⟨fun e => hd_s (e ▸ hy), fun e => ha_s (e ▸ hy), fun hyc => hdis hyc hy⟩)
        have hms : mapF (swapIn x d) s = s := mapF_swapIn_not_mem x d s hxs
        simp only [swapIn] at hms
        rw [hms]
        refine ⟨m', hrun, ⟨?_, ?_, ?_⟩, ⟨?_, hbk', ?_⟩, ?_, ?_, ?_, hfacts⟩
        · rw [slotOf_congr _ hmh]; exact hpa
        · simpa [slotOf] using hsh'
        · have e : (m' a).ph_list = (m a).ph_list := by simpa [slotOf] using hoth
          rw [e, Shape_frame hfs]; exact hs
        · rw [hpar', hpar]
        · rw [Back_frame hfs]; exact hbs
        · intro y hy
          simp only [Forest.nodes, List.mem_cons, List.mem_append, not_or] at hy
          exact hfr y (by
            simp only [List.mem_cons, not_or]; exact ⟨hy.1, hy.2.2.1, hy.2.2.2.1⟩)
        · rw [hmh]
        · exact slotOf_congr _ hmh
      · have hxc : x ∉ c.nodes := fun h' => hdis h' hx
        obtain ⟨m', hrun, hsh', hbk', hfr, hpar', hoth, hfacts⟩ := ihs m a false
          (by simpa [slotOf] using hs) hbs hx
          (List.nodup_cons.2 ⟨by simp only [List.mem_cons, not_or]; exact ⟨hda, hd_s⟩,
            List.nodup_cons.2 ⟨ha_s, hsn⟩⟩)
          (fun _ y hy e => hdis (head_mem_nodes ((Shape_head hc).symm.trans e)) hy)
        have hmh : m' h = m h := hfr h (by
          simp only [List.mem_cons, not_or]; exact ⟨Ne.symm hdh, hha, hh_s⟩)
        have hfc : ∀ y ∈ c.nodes, m' y = m y := fun y hy => hfr y (by
          simp only [List.mem_cons, not_or]
          exact ⟨fun e => hd_c (e ▸ hy), fun e => ha_c (e ▸ hy), fun hys => hdis hy hys⟩)
        have hmc : mapF (swapIn x d) c = c := mapF_swapIn_not_mem x d c hxc
        simp only [swapIn] at hmc
        rw [hmc]
        refine ⟨m', hrun, ⟨?_, ?_, ?_⟩, ⟨?_, ?_, hbk'⟩, ?_, ?_, ?_, hfacts⟩
        · rw [slotOf_congr _ hmh]; exact hpa
        · have e : (m' a).ph_child = (m a).ph_child := by simpa [slotOf] using hoth
          rw [e, Shape_frame hfc]; exact hc
        · simpa [slotOf] using hsh'
        · rw [hpar', hpar]
        · rw [Back_frame hfc]; exact hbc
        · intro y hy
          simp only [Forest.nodes, List.mem_cons, List.mem_append, not_or] at hy
          exact hfr y (by
            simp only [List.mem_cons, not_or]; exact ⟨hy.1, hy.2.2.1, hy.2.2.2.2⟩)
        · rw [hmh]
        · exact slotOf_congr _ hmh

theorem swapIn_injOn {x d : Nat} {l : List Nat} (hd : d ∉ l) :
    ∀ a ∈ l, ∀ b ∈ l, swapIn x d a = swapIn x d b → a = b := by
  intro a ha b hb e
  unfold swapIn at e
  by_cases h1 : a = x <;> by_cases h2 : b = x
  · rw [h1, h2]
  · rw [if_pos h1, if_neg h2] at e; exact absurd (e ▸ hb) hd
  · rw [if_neg h1, if_pos h2] at e; exact absurd (e ▸ ha) hd
  · rw [if_neg h1, if_neg h2] at e; exact e

/-- Refinement of `ph_move_at` on a well-formed heap: `d` takes the place of
member `x`, nothing else changes in the tree. -/
theorem ph_move_at_rep {heap : PH_HEAP} {key : Nat → Int} {m : Mem} {r x d : Nat} {c : Forest}
    (hwf : HeapRep key heap m r c) (hx : x ∈ r :: c.nodes) (hd : d ∉ r :: c.nodes)
    (hkey : key d = key x) :
    ∃ heap' m', ph_move_at heap m d x = some (heap', m') ∧
      heap'.ph_cmp = heap.ph_cmp ∧
      HeapRep key heap' m' (swapIn x d r) (mapF (swapIn x d) c) ∧
      (∀ y, y ∉ d :: r :: c.nodes → m' y = m y) ∧
      (x ≠ r → heap'.ph_root = heap.ph_root ∧ MoveFacts m m' x d) ∧
      (x = r → heap'.ph_root = some d ∧ (m' d).ph_child = (m x).ph_child ∧
        (m' d).ph_list = (m d).ph_list ∧ (m' d).ph_parent = (m d).ph_parent ∧
        ∀ y, (m x).ph_child = some y → (m' y).ph_parent = some d) := by
  obtain ⟨hroot, ht, hn, ho⟩ := hwf
  obtain ⟨hr_c, hcn⟩ := List.nodup_cons.1 hn
  have hk : ∀ a, key (swapIn x d a) = key a := by
    intro a; unfold swapIn; split
    · rename_i h; rw [hkey, h]
    · rfl
  have hnd' : (swapIn x d r :: (mapF (swapIn x d) c).nodes).Nodup := by
    rw [mapF_nodes, ← List.map_cons]
    exact List.Nodup.map_on (swapIn_injOn hd) hn
  have hord' : HeapOrd key (key (swapIn x d r)) (mapF (swapIn x d) c) := by
    rw [hk, HeapOrd_mapF hk]; exact ho
  simp only [List.mem_cons, not_or] at hd
  by_cases hrx : x = r
  · subst hrx
    have hchild : (m x).ph_child = c.head := Shape_head ht.1
    have hch_d : c.head ≠ some d := fun e => hd.2 (head_mem_nodes e)
    have hrun : ph_move_at heap m d x = some ({ heap with ph_root := some d },
        setParentOpt (setChild m d c.head) c.head (some d)) := by
      unfold ph_move_at
      simp only [hroot, ne_eq, not_true_eq_false, if_false, hchild]
    have hmap : mapF (swapIn x d) c = c := mapF_swapIn_not_mem x d c hr_c
    have hsw : swapIn x d x = d := by simp [swapIn]
    rw [hmap, hsw] at hnd' hord' ⊢
    refine ⟨_, _, hrun, rfl, ⟨rfl, ⟨?_, ?_⟩, hnd', hord'⟩, ?_, fun h => absurd rfl h, fun _ =>
      ⟨rfl, by simp [hchild], ?_, ?_, ?_⟩⟩
    · rw [Shape_setParentOpt, setParentOpt_child, setChild_child, if_pos rfl,
        Shape_setChild hd.2]
      exact hchild ▸ ht.1
    · refine @Back_rehead _ (some x) _ _ ?_ hcn
      rw [Back_setChild]; exact ht.2
    · intro y hy
      simp only [List.mem_cons, not_or] at hy
      rw [setParentOpt_of_ne _ _ _ _ (fun e => hy.2.2 (head_mem_nodes e)),
        setChild_of_ne _ _ _ _ hy.1]
    · simp
    · rw [setParentOpt_parent, if_neg hch_d, setChild_parent]
    · intro y hy
      rw [hchild] at hy
      rw [setParentOpt_parent, if_pos hy]
  · have hxc : x ∈ c.nodes := by
      rcases List.mem_cons.1 hx with e | e
      · exact absurd e hrx
      · exact e
    have hroot' : heap.ph_root ≠ some x := by
      rw [hroot]; intro e; exact hrx (Option.some.inj e).symm
    obtain ⟨m', hrun, hsh, hbk, hfr, _, _, hfacts⟩ := move_sub x d hroot' c m r true
      (by simpa [slotOf] using ht.1) ht.2 hxc
      (List.nodup_cons.2 ⟨by simp only [List.mem_cons, not_or]; exact hd, hn⟩)
      (fun e => by cases e)
    have hsw : swapIn x d r = r := by simp [swapIn, Ne.symm hrx]
    rw [hsw] at hnd' hord' ⊢
    exact ⟨heap, m', hrun, rfl, ⟨hroot, ⟨by simpa [slotOf] using hsh, hbk⟩, hnd', hord'⟩, hfr,
      fun _ => ⟨rfl, hfacts⟩, fun h => absurd h hrx⟩

/-! ## More fuel does not change a result -/

theorem extract_pass1_mono (heap : PH_HEAP) :
    ∀ (fuel : Nat) (m : Mem) (list : Option Nat) (root : Nat) (r : Mem × Option Nat × Nat),
      extract_pass1 heap fuel m list root = some r →
      extract_pass1 heap (fuel + 1) m list root = some r := by
  intro fuel
  induction fuel with
  | zero => intro m list root r h; simp [extract_pass1] at h
  | succ fuel ih =>
    intro m list root r h
    rw [extract_pass1] at h ⊢
    cases hB : (m root).ph_list with
    | none => simpa [hB] using h
    | some B =>
      simp only [hB] at h ⊢
      cases hC : (m B).ph_list with
      | none => simpa [hC] using h
      | some c =>
        simp only [hC] at h ⊢
        exact ih _ _ _ _ h

theorem extract_pass2_mono (heap : PH_HEAP) :
    ∀ (fuel : Nat) (m : Mem) (list : Option Nat) (root : Nat) (r : Mem × Nat),
      extract_pass2 heap fuel m list root = some r →
      extract_pass2 heap (fuel + 1) m list root = some r := by
  intro fuel
  induction fuel with
  | zero => intro m list root r h; simp [extract_pass2] at h
  | succ fuel ih =>
    intro m list root r h
    cases list with
    | none => rw [extract_pass2] at h ⊢; exact h
    | some l =>
      rw [extract_pass2] at h ⊢
      exact ih _ _ _ _ h

theorem extract_list_mono (heap : PH_HEAP) (fuel : Nat) (m : Mem) (root : Nat) (r : Mem × Nat)
    (h : __ph_extract_list fuel heap m root = some r) :
    __ph_extract_list (fuel + 1) heap m root = some r := by
  unfold __ph_extract_list at h ⊢
  cases h1 : extract_pass1 heap fuel m none root with
  | none => simp [h1] at h
  | some p =>
    obtain ⟨m1, list, root1⟩ := p
    simp only [h1] at h
    simp only [extract_pass1_mono heap fuel m none root _ h1]
    exact extract_pass2_mono heap fuel m1 list root1 r h

theorem ph_pop_mono (heap : PH_HEAP) (fuel : Nat) (m : Mem) (r : PH_HEAP × Mem)
    (h : ph_pop fuel heap m = some r) : ph_pop (fuel + 1) heap m = some r := by
  unfold ph_pop at h ⊢
  cases hr : heap.ph_root with
  | none => simpa [hr] using h
  | some root =>
    simp only [hr] at h ⊢
    cases hc : (m root).ph_child with
    | none => simpa [hc] using h
    | some c =>
      simp only [hc] at h ⊢
      cases he : __ph_extract_list fuel heap m c with
      | none => simp [he] at h
      | some p =>
        simp only [he] at h
        simp only [extract_list_mono heap fuel m c p he]
        exact h

theorem ph_remove_at_mono (heap : PH_HEAP) (fuel : Nat) (m : Mem) (x : Nat) (r : PH_HEAP × Mem)
    (h : ph_remove_at fuel heap m x = some r) : ph_remove_at (fuel + 1) heap m x = some r := by
  unfold ph_remove_at at h ⊢
  by_cases hr : heap.ph_root = some x
  · simp only [hr, ne_eq, not_true_eq_false, if_false] at h ⊢
    cases hc : (m x).ph_child with
    | none => simpa [hc] using h
    | some c =>
      simp only [hc] at h ⊢
      cases he : __ph_extract_list fuel heap m c with
      | none => simp [he] at h
      | some p =>
        simp only [he] at h
        simp only [extract_list_mono heap fuel m c p he]
        exact h
  · simp only [ne_eq, hr, not_false_eq_true, if_true] at h ⊢
    cases hp : (m x).ph_parent with
    | none => simp [hp] at h
    | some parent =>
      simp only [hp] at h ⊢
      cases hc : (m x).ph_child with
      | none => simpa [hc] using h
      | some c =>
        simp only [hc] at h ⊢
        cases he : __ph_extract_list fuel heap m c with
        | none => simp [he] at h
        | some p =>
          simp only [he] at h
          simp only [extract_list_mono heap fuel m c p he]
          exact h

theorem ph_decrease_at_mono (heap : PH_HEAP) (fuel : Nat) (m : Mem) (x : Nat)
    (r : PH_HEAP × Mem) (h : ph_decrease_at fuel heap m x = some r) :
    ph_decrease_at (fuel + 1) heap m x = some r := by
  unfold ph_decrease_at at h ⊢
  cases he : ph_remove_at fuel heap m x with
  | none => simp [he] at h
  | some p =>
    simp only [he] at h
    simp only [ph_remove_at_mono heap fuel m x p he]
    exact h

theorem ph_decrease_root_mono (heap : PH_HEAP) (fuel : Nat) (m : Mem) (r : PH_HEAP × Mem)
    (h : ph_decrease_root fuel heap m = some r) : ph_decrease_root (fuel + 1) heap m = some r := by
  unfold ph_decrease_root at h ⊢
  cases hr : heap.ph_root with
  | none => simp [hr] at h
  | some root =>
    simp only [hr] at h ⊢
    unfold __ph_decrease_root at h ⊢
    cases he : __ph_extract_list fuel heap
        (setChild (setList m root (m root).ph_child) root none) root with
    | none => simp [he] at h
    | some p =>
      simp only [he] at h
      simp only [extract_list_mono heap fuel _ root p he]
      exact h

theorem step_mono (C : (Nat → Int) → Nat → Nat → Int) (fuel : Nat) (w w' : World) (op : Op)
    (h : step C fuel w op = some w') : step C (fuel + 1) w op = some w' := by
  cases op with
  | push_raw i n => exact h
  | pop i =>
    simp only [step, Option.map_eq_some'] at h ⊢
    obtain ⟨r, hr, e⟩ := h
    exact ⟨r, ph_pop_mono _ _ _ _ hr, e⟩
  | remove_at i x =>
    simp only [step, Option.map_eq_some'] at h ⊢
    obtain ⟨r, hr, e⟩ := h
    exact ⟨r, ph_remove_at_mono _ _ _ _ _ hr, e⟩
  | decrease_at i x k =>
    simp only [step, Option.map_eq_some'] at h ⊢
    obtain ⟨r, hr, e⟩ := h
    exact ⟨r, ph_decrease_at_mono _ _ _ _ _ hr, e⟩
  | decrease_root i k =>
    simp only [step] at h ⊢
    cases hr : w.roots i with
    | none => simp [hr] at h
    | some r =>
      simp only [hr, Option.map_eq_some'] at h ⊢
      obtain ⟨s, hs, e⟩ := h
      exact ⟨s, ph_decrease_root_mono _ _ _ _ hs, e⟩
  | merge_heaps dst src => exact h
  | move_at i d x => exact h

theorem step_mono_le (C : (Nat → Int) → Nat → Nat → Int) (w w' : World) (op : Op) :
    ∀ (fuel fuel' : Nat), fuel ≤ fuel' → step C fuel w op = some w' →
      step C fuel' w op = some w' := by
  intro fuel fuel' hle h
  induction hle with
  | refl => exact h
  | step _ ih => exact step_mono C _ w w' op ih

/-! ## Membership by reachability -/

theorem Reach_mem {m : Mem} {p : Option Nat} {x : Nat} (hr : Reach m p x) :
    ∀ (t : Forest), Shape m p t → x ∈ t.nodes := by
  induction hr with
  | here a =>
    intro t h
    cases t with
    | nil => cases h
    | node b c s =>
      have e : a = b := Option.some.inj h.1
      simp [Forest.nodes, e]
  | child a x _ ih =>
    intro t h
    cases t with
    | nil => cases h
    | node b c s =>
      have e : a = b := Option.some.inj h.1
      subst e
      simp only [Forest.nodes, List.mem_cons, List.mem_append]
      exact Or.inr (Or.inl (ih c h.2.1))
  | list a x _ ih =>
    intro t h
    cases t with
    | nil => cases h
    | node b c s =>
      have e : a = b := Option.some.inj h.1
      subst e
      simp only [Forest.nodes, List.mem_cons, List.mem_append]
      exact Or.inr (Or.inr (ih s h.2.2))

theorem mem_Reach {m : Mem} (t : Forest) :
    ∀ (p : Option Nat) (x : Nat), Shape m p t → x ∈ t.nodes → Reach m p x := by
  induction t with
  | nil => intro p x _ hx; simp [Forest.nodes] at hx
  | node a c s ihc ihs =>
    intro p x h hx
    obtain ⟨hp, hc, hs⟩ := h
    subst hp
    simp only [Forest.nodes, List.mem_cons, List.mem_append] at hx
    rcases hx with rfl | hx | hx
    · exact Reach.here _
    · exact Reach.child _ _ (ihc _ _ hc hx)
    · exact Reach.list _ _ (ihs _ _ hs hx)

/-- In a well-formed heap the members are exactly the nodes of its tree. -/
theorem Member_iff {key : Nat → Int} {heap : PH_HEAP} {m : Mem} {r : Nat} {c : Forest}
    (h : HeapRep key heap m r c) (x : Nat) :
    Member m heap.ph_root x ↔ x ∈ r :: c.nodes := by
  constructor
  · rintro ⟨r', hr', hx⟩
    rw [h.1] at hr'
    have e : r = r' := Option.some.inj hr'
    subst e
    rcases hx with rfl | hx
    · exact List.mem_cons_self _ _
    · exact List.mem_cons_of_mem _ (Reach_mem hx c h.2.1.1)
  · intro hx
    refine ⟨r, h.1, ?_⟩
    rcases List.mem_cons.1 hx with e | e
    · exact Or.inl e
    · exact Or.inr (mem_Reach c _ x h.2.1.1 e)

theorem not_Member_none (m : Mem) (x : Nat) : ¬ Member m none x := by
  rintro ⟨r, hr, _⟩; cases hr

/-! ## `ph_decrease_root` -/

/-- After the caller changed the key of the root, `ph_decrease_root` pairs the
root with its former children: the heap keeps its members and is
well-formed under the new keys. -/
theorem ph_decrease_root_wf {heap : PH_HEAP} {key key' : Nat → Int} (hcmp : CmpOK heap key')
    {m : Mem} {r : Nat} {c : Forest} (fuel : Nat)
    (hk : ∀ y, y ≠ r → key' y = key y)
    (hwf : HeapRep key heap m r c) (hfuel : c.nodes.length < fuel) :
    ∃ m', ph_decrease_root fuel heap m =
        some ({ heap with ph_root := some (twoPass key' r .nil c).1 }, m') ∧
      HeapRep key' { heap with ph_root := some (twoPass key' r .nil c).1 } m'
        (twoPass key' r .nil c).1 (twoPass key' r .nil c).2 ∧
      ((twoPass key' r .nil c).1 :: (twoPass key' r .nil c).2.nodes).Perm (r :: c.nodes) ∧
      (∀ y, y ∉ r :: c.nodes → m' y = m y) := by
  obtain ⟨hroot, ⟨hsh, hbk⟩, hn, ho⟩ := hwf
  obtain ⟨hr_c, hcn⟩ := List.nodup_cons.1 hn
  have hn' : (r :: Forest.nil.nodes ++ c.nodes).Nodup := by simpa [Forest.nodes] using hn
  obtain ⟨m', hrun, ht, hfr⟩ := @extract_list_spec heap key' hcmp
    (setChild (setList m r (m r).ph_child) r none) r .nil c fuel hfuel
    ⟨by simp [Shape], trivial⟩
    (by
      rw [setChild_list, setList_list, if_pos rfl, Shape_setChild hr_c, Shape_setList hr_c]
      exact hsh)
    (by rw [Back_setChild, Back_setList]; exact hbk)
    hn'
  have hperm : ((twoPass key' r .nil c).1 :: (twoPass key' r .nil c).2.nodes).Perm
      (r :: c.nodes) := by
    simpa [Forest.nodes] using twoPass_perm key' r .nil c
  have hord : HeapOrd key' (min (key' r) (key r)) (.node r .nil c) := by
    refine ⟨min_le_left _ _, trivial, ?_⟩
    rw [HeapOrd_congr c _ (fun y hy => hk y (fun e => hr_c (e ▸ hy)))]
    exact HeapOrd_mono c _ _ (min_le_right _ _) ho
  refine ⟨m', ?_, ⟨rfl, ht, hperm.nodup_iff.2 hn, (twoPass_ord hord).2⟩, hperm, ?_⟩
  · unfold ph_decrease_root __ph_decrease_root
    simp only [hroot, hrun]
  · intro y hy
    simp only [List.mem_cons, not_or] at hy
    rw [hfr y (by simpa [Forest.nodes] using hy), setChild_of_ne _ _ _ _ hy.1,
      setList_of_ne _ _ _ _ hy.1]

/-! ## Frames for whole heaps -/

theorem HeapRep_frame {key key' : Nat → Int} {heap heap' : PH_HEAP} {m m' : Mem} {r : Nat}
    {c : Forest} (h : HeapRep key heap m r c) (hroot : heap'.ph_root = heap.ph_root)
    (hm : ∀ y ∈ r :: c.nodes, m' y = m y) (hk : ∀ y ∈ r :: c.nodes, key' y = key y) :
    HeapRep key' heap' m' r c := by
  obtain ⟨h1, h2, h3, h4⟩ := h
  refine ⟨hroot.trans h1, (TreeAt_frame hm).2 h2, h3, ?_⟩
  rw [hk r (List.mem_cons_self _ _),
    HeapOrd_congr c _ (fun y hy => hk y (List.mem_cons_of_mem _ hy))]
  exact h4

/-! ## The ghost description of a world -/

theorem HeapRep_root {key : Nat → Int} {heap heap' : PH_HEAP} {m : Mem} {r : Nat} {c : Forest}
    (hroot : heap'.ph_root = heap.ph_root) (h : HeapRep key heap m r c) :
    HeapRep key heap' m r c :=
  HeapRep_frame h hroot (fun _ _ => rfl) (fun _ _ => rfl)

theorem ghost_none {C : (Nat → Int) → Nat → Nat → Int} {w : World}
    {G : Nat → Option (Nat × Forest)} (hG : GhostOK C w G) {i : Nat} (h : G i = none) :
    w.roots i = none := by
  have := hG.1 i
  rw [h] at this
  exact this

theorem ghost_some {C : (Nat → Int) → Nat → Nat → Int} {w : World}
    {G : Nat → Option (Nat × Forest)} (hG : GhostOK C w G) {i : Nat} {p : Nat × Forest}
    (h : G i = some p) : HeapRep w.key (heapOf C w i) w.mem p.1 p.2 := by
  have := hG.1 i
  rw [h] at this
  exact this

theorem ghost_mk {C : (Nat → Int) → Nat → Nat → Int} {w : World}
    {G : Nat → Option (Nat × Forest)}
    (h1 : ∀ i, G i = none → w.roots i = none)
    (h2 : ∀ i p, G i = some p → HeapRep w.key (heapOf C w i) w.mem p.1 p.2)
    (h3 : ∀ i j, i ≠ j → ∀ y ∈ nodesOf (G i), y ∉ nodesOf (G j)) : GhostOK C w G := by
  refine ⟨fun i => ?_, h3⟩
  cases h : G i with
  | none => exact h1 i h
  | some p => exact h2 i p h

theorem ghost_member {C : (Nat → Int) → Nat → Nat → Int} {w : World}
    {G : Nat → Option (Nat × Forest)} (hG : GhostOK C w G) (i x : Nat) :
    Member w.mem (w.roots i) x ↔ x ∈ nodesOf (G i) := by
  cases h : G i with
  | none =>
    rw [ghost_none hG h]
    simp [nodesOf, not_Member_none]
  | some p => exact Member_iff (ghost_some hG h) x

/-- Re-establishing the ghost description after a call that worked on heap
`i` only. -/
theorem ghost_update {C : (Nat → Int) → Nat → Nat → Int} {w : World}
    {G : Nat → Option (Nat × Forest)} (hG : GhostOK C w G) (i : Nat) (m' : Mem)
    (key' : Nat → Int) (v : Option Nat) (g' : Option (Nat × Forest))
    (hnone : g' = none → v = none)
    (hsome : ∀ p, g' = some p → HeapRep key' ⟨v, C key'⟩ m' p.1 p.2)
    (hnew : ∀ y ∈ nodesOf g', ∀ j, j ≠ i → y ∉ nodesOf (G j))
    (hframe : ∀ j, j ≠ i → ∀ y ∈ nodesOf (G j), m' y = w.mem y ∧ key' y = w.key y) :
    GhostOK C ⟨m', key', setRoot w.roots i v⟩ (fun j => if j = i then g' else G j) := by
  apply ghost_mk
  · intro k hk
    by_cases hki : k = i
    · subst hki
      simp only [if_true] at hk
      simp [setRoot, hnone hk]
    · simp only [if_neg hki] at hk
      simp [setRoot, hki, ghost_none hG hk]
  · intro k p hk
    by_cases hki : k = i
    · subst hki
      simp only [if_true] at hk
      exact HeapRep_root (by simp [heapOf, setRoot]) (hsome p hk)
    · simp only [if_neg hki] at hk
      have hf := hframe k hki
      rw [hk] at hf
      exact HeapRep_frame (ghost_some hG hk) (by simp [heapOf, setRoot, hki])
        (fun y hy => (hf y hy).1) (fun y hy => (hf y hy).2)
  · intro k l hkl y hy hy'
    by_cases hki : k = i
    · subst hki
      simp only [if_true] at hy
      simp only [if_neg (Ne.symm hkl)] at hy'
      exact hnew y hy l (Ne.symm hkl) hy'
    · simp only [if_neg hki] at hy
      by_cases hli : l = i
      · subst hli
        simp only [if_true] at hy'
        exact hnew y hy' k hki hy
      · simp only [if_neg hli] at hy'
        exact hG.2 k l hkl y hy hy'

/-- Re-establishing the ghost description after merging heap `j` into heap
`i`. -/
theorem ghost_update_merge {C : (Nat → Int) → Nat → Nat → Int} {w : World}
    {G : Nat → Option (Nat × Forest)} (hG : GhostOK C w G) (i j : Nat) (hij : i ≠ j)
    (m' : Mem) (v : Option Nat) (g' : Option (Nat × Forest))
    (hnone : g' = none → v = none)
    (hsome : ∀ p, g' = some p → HeapRep w.key ⟨v, C w.key⟩ m' p.1 p.2)
    (hnew : ∀ y ∈ nodesOf g', y ∈ nodesOf (G i) ∨ y ∈ nodesOf (G j))
    (hframe : ∀ k, k ≠ i → k ≠ j → ∀ y ∈ nodesOf (G k), m' y = w.mem y) :
    GhostOK C ⟨m', w.key, setRoot (setRoot w.roots i v) j none⟩
      (fun k => if k = j then none else if k = i then g' else G k) := by
  have hnew' : ∀ y ∈ nodesOf g', ∀ k, k ≠ i → k ≠ j → y ∉ nodesOf (G k) := by
    intro y hy k hki hkj hyk
    rcases hnew y hy with h | h
    · exact hG.2 i k (Ne.symm hki) y h hyk
    · exact hG.2 j k (Ne.symm hkj) y h hyk
  apply ghost_mk
  · intro k hk
    by_cases hkj : k = j
    · subst hkj; simp [setRoot]
    · simp only [if_neg hkj] at hk
      by_cases hki : k = i
      · subst hki
        simp only [if_true] at hk
        simp [setRoot, hkj, hnone hk]
      · simp only [if_neg hki] at hk
        simp [setRoot, hki, hkj, ghost_none hG hk]
  · intro k p hk
    by_cases hkj : k = j
    · subst hkj; simp at hk
    · simp only [if_neg hkj] at hk
      by_cases hki : k = i
      · subst hki
        simp only [if_true] at hk
        exact HeapRep_root (by simp [heapOf, setRoot, hkj]) (hsome p hk)
      · simp only [if_neg hki] at hk
        have hf := hframe k hki hkj
        rw [hk] at hf
        exact HeapRep_frame (ghost_some hG hk) (by simp [heapOf, setRoot, hki, hkj])
          (fun y hy => hf y hy) (fun _ _ => rfl)
  · intro k l hkl y hy hy'
    by_cases hkj : k = j
    · subst hkj; simp [nodesOf] at hy
    · simp only [if_neg hkj] at hy
      by_cases hlj : l = j
      · subst hlj; simp [nodesOf] at hy'
      · simp only [if_neg hlj] at hy'
        by_cases hki : k = i
        · subst hki
          simp only [if_true] at hy
          simp only [if_neg (Ne.symm hkl)] at hy'
          exact hnew' y hy l (Ne.symm hkl) hlj hy'
        · simp only [if_neg hki] at hy
          by_cases hli : l = i
          · subst hli
            simp only [if_true] at hy'
            exact hnew' y hy' k hki hkj hy
          · simp only [if_neg hli] at hy'
            exact hG.2 k l hkl y hy hy'

/-! ## Every call keeps the world well-formed -/

theorem cmpFam_ok {C : (Nat → Int) → Nat → Nat → Int} (hC : CmpFamOK C) (key : Nat → Int)
    (root : Option Nat) : CmpOK ⟨root, C key⟩ key := fun a b => hC key a b

theorem nodesOf_disjoint {C : (Nat → Int) → Nat → Nat → Int} {w : World}
    {G : Nat → Option (Nat × Forest)} (hG : GhostOK C w G) {i j : Nat} (hji : j ≠ i)
    {p : Nat × Forest} (hp : G i = some p) {y : Nat} (hy : y ∈ nodesOf (G j)) :
    y ∉ p.1 :: p.2.nodes := by
  intro h
  have := hG.2 j i hji y hy
  rw [hp] at this
  exact this h

theorem step_push_raw {C : (Nat → Int) → Nat → Nat → Int} (hC : CmpFamOK C) {w : World}
    {G : Nat → Option (Nat × Forest)} (hG : GhostOK C w G) (i n : Nat)
    (hpre : Pre w (.push_raw i n)) (fuel : Nat) :
    ∃ w' G', step C fuel w (.push_raw i n) = some w' ∧ GhostOK C w' G' := by
  have hn : ∀ j, n ∉ nodesOf (G j) := fun j h => hpre j ((ghost_member hG j n).2 h)
  cases hGi : G i with
  | none =>
    obtain ⟨hrun, hrep⟩ := ph_push_raw_empty w.key w.mem n
      (show (heapOf C w i).ph_root = none from ghost_none hG hGi)
    refine ⟨_, _, rfl, ghost_update hG i _ _ _ (some (n, .nil)) (fun h => by cases h) ?_ ?_ ?_⟩
    · intro p hp
      cases hp
      rw [hrun]
      exact HeapRep_root rfl hrep
    · intro y hy j _ hyj
      simp only [nodesOf, Forest.nodes, List.mem_singleton] at hy
      subst hy
      exact hn j hyj
    · intro j _ y hy
      rw [hrun]
      exact ⟨setChild_of_ne _ _ _ _ (fun e => hn j (e ▸ hy)), rfl⟩
  | some p =>
    have hrep0 := ghost_some hG hGi
    have hnp : n ∉ p.1 :: p.2.nodes := by
      have := hn i; rw [hGi] at this; exact this
    obtain ⟨hrep, _, hfr⟩ := ph_push_raw_rep (cmpFam_ok hC _ _) hrep0 hnp
    have hperm := link_perm w.key n .nil p.1 p.2
    refine ⟨_, _, rfl, ghost_update hG i _ _ _
      (some (link w.key n .nil p.1 p.2)) (fun h => by cases h) ?_ ?_ ?_⟩
    · intro q hq
      cases hq
      exact HeapRep_root rfl hrep
    · intro y hy j hji hyj
      have hy' := hperm.subset hy
      simp only [Forest.nodes, List.cons_append, List.nil_append, List.mem_cons] at hy'
      rcases hy' with rfl | hy'
      · exact hn j hyj
      · exact nodesOf_disjoint hG hji hGi hyj (List.mem_cons.2 hy')
    · intro j hji y hy
      refine ⟨hfr y ?_, rfl⟩
      intro h
      rcases List.mem_cons.1 h with e | h
      · exact hn j (e ▸ hy)
      · exact nodesOf_disjoint hG hji hGi hy h

theorem step_pop {C : (Nat → Int) → Nat → Nat → Int} (hC : CmpFamOK C) {w : World}
    {G : Nat → Option (Nat × Forest)} (hG : GhostOK C w G) (i : Nat) :
    ∃ N, ∀ fuel, N ≤ fuel →
      ∃ w' G', step C fuel w (.pop i) = some w' ∧ GhostOK C w' G' := by
  cases hGi : G i with
  | none =>
    have hroot : (heapOf C w i).ph_root = none := ghost_none hG hGi
    have hrun : ∀ fuel, ph_pop fuel (heapOf C w i) w.mem = some (heapOf C w i, w.mem) := by
      intro fuel; unfold ph_pop; simp only [hroot]
    have hstep : ∀ fuel, step C fuel w (.pop i) =
        some ⟨w.mem, w.key, setRoot w.roots i (heapOf C w i).ph_root⟩ := by
      intro fuel; simp only [step, hrun, Option.map_some']
    refine ⟨0, fun fuel _ => ⟨_, _, hstep fuel,
      ghost_update hG i _ _ _ none (fun _ => hroot) (fun p hp => by cases hp) ?_ ?_⟩⟩
    · intro y hy; simp [nodesOf] at hy
    · intro j _ y _; exact ⟨rfl, rfl⟩
  | some p =>
    obtain ⟨r, c⟩ := p
    have hrep0 := ghost_some hG hGi
    cases c with
    | nil =>
      have hrun := fun fuel => ph_pop_nil fuel hrep0
      have hstep : ∀ fuel, step C fuel w (.pop i) =
          some ⟨w.mem, w.key, setRoot w.roots i none⟩ := by
        intro fuel; simp only [step, hrun, Option.map_some']
      refine ⟨0, fun fuel _ => ⟨_, _, hstep fuel,
        ghost_update hG i _ _ _ none (fun _ => rfl) (fun p hp => by cases hp) ?_ ?_⟩⟩
      · intro y hy; simp [nodesOf] at hy
      · intro j _ y _; exact ⟨rfl, rfl⟩
    | node a ca s =>
      refine ⟨(Forest.node a ca s).nodes.length, fun fuel hfuel => ?_⟩
      obtain ⟨m', hrun, hrep, hfr⟩ := ph_pop_node (cmpFam_ok hC _ _) fuel hrep0 hfuel
      have hperm : ((twoPass w.key a ca s).1 :: (twoPass w.key a ca s).2.nodes).Perm
          (Forest.node a ca s).nodes := by
        simpa [Forest.nodes] using twoPass_perm w.key a ca s
      have hstep : step C fuel w (.pop i) =
          some ⟨m', w.key, setRoot w.roots i (some (twoPass w.key a ca s).1)⟩ := by
        simp only [step, heapOf] at hrun ⊢
        rw [hrun]; rfl
      refine ⟨_, _, hstep,
        ghost_update hG i _ _ _ (some (twoPass w.key a ca s)) (fun h => by cases h) ?_ ?_ ?_⟩
      · intro q hq
        cases hq
        exact HeapRep_root rfl hrep
      · intro y hy j hji hyj
        exact nodesOf_disjoint hG hji hGi hyj (List.mem_cons_of_mem _ (hperm.subset hy))
      · intro j hji y hy
        exact ⟨hfr y (fun h => nodesOf_disjoint hG hji hGi hy (List.mem_cons_of_mem _ h)), rfl⟩

theorem step_remove_at {C : (Nat → Int) → Nat → Nat → Int} (hC : CmpFamOK C) {w : World}
    {G : Nat → Option (Nat × Forest)} (hG : GhostOK C w G) (i x : Nat)
    (hpre : Pre w (.remove_at i x)) :
    ∃ N, ∀ fuel, N ≤ fuel →
      ∃ w' G', step C fuel w (.remove_at i x) = some w' ∧ GhostOK C w' G' := by
  have hx : x ∈ nodesOf (G i) := (ghost_member hG i x).1 hpre
  cases hGi : G i with
  | none => rw [hGi] at hx; simp [nodesOf] at hx
  | some p =>
    rw [hGi] at hx
    have hrep0 := ghost_some hG hGi
    refine ⟨p.2.nodes.length, fun fuel hfuel => ?_⟩
    obtain ⟨heap', m', hrun, _, hfr, hcase⟩ :=
      ph_remove_at_wf (cmpFam_ok hC _ _) fuel (fun _ _ => rfl) hrep0 hx hfuel
    have hframe : ∀ j, j ≠ i → ∀ y ∈ nodesOf (G j), m' y = w.mem y ∧ w.key y = w.key y :=
      fun j hji y hy => ⟨hfr y (nodesOf_disjoint hG hji hGi hy), rfl⟩
    have hstep : step C fuel w (.remove_at i x) =
        some ⟨m', w.key, setRoot w.roots i heap'.ph_root⟩ := by
      simp only [step, heapOf] at hrun ⊢
      rw [hrun]; rfl
    rcases hcase with ⟨hroot, _, _⟩ | ⟨r', c', hrep, hperm⟩
    · refine ⟨_, _, hstep,
        ghost_update hG i _ _ _ none (fun _ => hroot) (fun p hp => by cases hp) ?_ hframe⟩
      intro y hy; simp [nodesOf] at hy
    · refine ⟨_, _, hstep,
        ghost_update hG i _ _ _ (some (r', c')) (fun h => by cases h) ?_ ?_ hframe⟩
      · intro q hq
        cases hq
        exact HeapRep_root rfl hrep
      · intro y hy j hji hyj
        exact nodesOf_disjoint hG hji hGi hyj (hperm.subset (List.mem_cons_of_mem _ hy))

theorem setKey_of_ne (key : Nat → Int) (x : Nat) (k : Int) (y : Nat) (h : y ≠ x) :
    setKey key x k y = key y := by
  simp [setKey, h]

theorem step_decrease_at {C : (Nat → Int) → Nat → Nat → Int} (hC : CmpFamOK C) {w : World}
    {G : Nat → Option (Nat × Forest)} (hG : GhostOK C w G) (i x : Nat) (k : Int)
    (hpre : Pre w (.decrease_at i x k)) :
    ∃ N, ∀ fuel, N ≤ fuel →
      ∃ w' G', step C fuel w (.decrease_at i x k) = some w' ∧ GhostOK C w' G' := by
  have hx : x ∈ nodesOf (G i) := (ghost_member hG i x).1 hpre
  cases hGi : G i with
  | none => rw [hGi] at hx; simp [nodesOf] at hx
  | some p =>
    rw [hGi] at hx
    have hrep0 : HeapRep w.key ⟨w.roots i, C (setKey w.key x k)⟩ w.mem p.1 p.2 :=
      HeapRep_root rfl (ghost_some hG hGi)
    refine ⟨p.2.nodes.length, fun fuel hfuel => ?_⟩
    obtain ⟨heap', m', r', c', hrun, _, hfr, hrep, hperm⟩ :=
      ph_decrease_at_wf (cmpFam_ok hC (setKey w.key x k) (w.roots i)) fuel
        (fun y hy => setKey_of_ne _ _ _ y hy) hrep0 hx hfuel
    have hstep : step C fuel w (.decrease_at i x k) =
        some ⟨m', setKey w.key x k, setRoot w.roots i heap'.ph_root⟩ := by
      simp only [step] at hrun ⊢
      rw [hrun]; rfl
    refine ⟨_, _, hstep,
      ghost_update hG i _ _ _ (some (r', c')) (fun h => by cases h) ?_ ?_ ?_⟩
    · intro q hq
      cases hq
      exact HeapRep_root rfl hrep
    · intro y hy j hji hyj
      exact nodesOf_disjoint hG hji hGi hyj (hperm.subset hy)
    · intro j hji y hy
      have hyp := nodesOf_disjoint hG hji hGi hy
      exact ⟨hfr y hyp, setKey_of_ne _ _ _ y (fun e => hyp (e ▸ hx))⟩

theorem step_decrease_root {C : (Nat → Int) → Nat → Nat → Int} (hC : CmpFamOK C) {w : World}
    {G : Nat → Option (Nat × Forest)} (hG : GhostOK C w G) (i : Nat) (k : Int)
    (hpre : Pre w (.decrease_root i k)) :
    ∃ N, ∀ fuel, N ≤ fuel →
      ∃ w' G', step C fuel w (.decrease_root i k) = some w' ∧ GhostOK C w' G' := by
  cases hGi : G i with
  | none => exact absurd (ghost_none hG hGi) hpre
  | some p =>
    obtain ⟨r, c⟩ := p
    have hrep1 := ghost_some hG hGi
    have hroot : w.roots i = some r := hrep1.1
    have hrep0 : HeapRep w.key ⟨w.roots i, C (setKey w.key r k)⟩ w.mem r c :=
      HeapRep_root rfl hrep1
    refine ⟨c.nodes.length + 1, fun fuel hfuel => ?_⟩
    obtain ⟨m', hrun, hrep, hperm, hfr⟩ :=
      ph_decrease_root_wf (cmpFam_ok hC (setKey w.key r k) (w.roots i)) fuel
        (fun y hy => setKey_of_ne _ _ _ y hy) hrep0 (by omega)
    have hstep : step C fuel w (.decrease_root i k) =
        some ⟨m', setKey w.key r k,
          setRoot w.roots i (some (twoPass (setKey w.key r k) r .nil c).1)⟩ := by
      simp only [step, hroot] at hrun ⊢
      rw [hrun]; rfl
    refine ⟨_, _, hstep,
      ghost_update hG i _ _ _ (some (twoPass (setKey w.key r k) r .nil c))
        (fun h => by cases h) ?_ ?_ ?_⟩
    · intro q hq
      cases hq
      exact HeapRep_root rfl hrep
    · intro y hy j hji hyj
      exact nodesOf_disjoint hG hji hGi hyj (hperm.subset hy)
    · intro j hji y hy
      have hyp := nodesOf_disjoint hG hji hGi hy
      exact ⟨hfr y hyp, setKey_of_ne _ _ _ y (fun e => hyp (e ▸ List.mem_cons_self _ _))⟩

theorem step_move_at {C : (Nat → Int) → Nat → Nat → Int} {w : World}
    {G : Nat → Option (Nat × Forest)} (hG : GhostOK C w G) (i d x : Nat)
    (hpre : Pre w (.move_at i d x)) (fuel : Nat) :
    ∃ w' G', step C fuel w (.move_at i d x) = some w' ∧ GhostOK C w' G' := by
  obtain ⟨hmem, hfresh, hkey⟩ := hpre
  have hx : x ∈ nodesOf (G i) := (ghost_member hG i x).1 hmem
  have hd : ∀ j, d ∉ nodesOf (G j) := fun j h => hfresh j ((ghost_member hG j d).2 h)
  cases hGi : G i with
  | none => rw [hGi] at hx; simp [nodesOf] at hx
  | some p =>
    rw [hGi] at hx
    have hdp : d ∉ p.1 :: p.2.nodes := by
      have := hd i; rw [hGi] at this; exact this
    obtain ⟨heap', m', hrun, _, hrep, hfr, _, _⟩ :=
      ph_move_at_rep (ghost_some hG hGi) hx hdp hkey
    have hstep : step C fuel w (.move_at i d x) =
        some ⟨m', w.key, setRoot w.roots i heap'.ph_root⟩ := by
      simp only [step, heapOf] at hrun ⊢
      rw [hrun]; rfl
    refine ⟨_, _, hstep,
      ghost_update hG i _ _ _ (some (swapIn x d p.1, mapF (swapIn x d) p.2))
        (fun h => by cases h) ?_ ?_ ?_⟩
    · intro q hq
      cases hq
      exact HeapRep_root rfl hrep
    · intro y hy j hji hyj
      simp only [nodesOf, mapF_nodes, ← List.map_cons, List.mem_map] at hy
      obtain ⟨z, hz, rfl⟩ := hy
      unfold swapIn at hyj
      by_cases hzx : z = x
      · rw [if_pos hzx] at hyj; exact hd j hyj
      · rw [if_neg hzx] at hyj; exact nodesOf_disjoint hG hji hGi hyj hz
    · intro j hji y hy
      refine ⟨hfr y ?_, rfl⟩
      intro h
      rcases List.mem_cons.1 h with e | h
      · exact hd j (e ▸ hy)
      · exact nodesOf_disjoint hG hji hGi hy h

theorem step_merge_heaps {C : (Nat → Int) → Nat → Nat → Int} (hC : CmpFamOK C) {w : World}
    {G : Nat → Option (Nat × Forest)} (hG : GhostOK C w G) (i j : Nat)
    (hpre : Pre w (.merge_heaps i j)) (fuel : Nat) :
    ∃ w' G', step C fuel w (.merge_heaps i j) = some w' ∧ GhostOK C w' G' := by
  have hij : i ≠ j := hpre
  have hstep0 : step C fuel w (.merge_heaps i j) =
      some ⟨(ph_merge_heaps (heapOf C w i) (heapOf C w j) w.mem).2.2, w.key,
        setRoot (setRoot w.roots i
          (ph_merge_heaps (heapOf C w i) (heapOf C w j) w.mem).1.ph_root) j
          (ph_merge_heaps (heapOf C w i) (heapOf C w j) w.mem).2.1.ph_root⟩ := rfl
  cases hGj : G j with
  | none =>
    have hsrc : (heapOf C w j).ph_root = none := ghost_none hG hGj
    have hrun : ph_merge_heaps (heapOf C w i) (heapOf C w j) w.mem =
        (heapOf C w i, heapOf C w j, w.mem) := by
      unfold ph_merge_heaps; simp only [hsrc]
    rw [hrun] at hstep0
    simp only [hsrc] at hstep0
    refine ⟨_, _, hstep0, ghost_update_merge hG i j hij _ _ (G i) ?_ ?_ ?_ ?_⟩
    · intro h; exact ghost_none hG h
    · intro p hp; exact ghost_some hG hp
    · intro y hy; exact Or.inl hy
    · intro k _ _ y _; rfl
  | some ps =>
    have hreps := ghost_some hG hGj
    have hsroot : (heapOf C w j).ph_root = some ps.1 := hreps.1
    cases hGi : G i with
    | none =>
      have hdst : (heapOf C w i).ph_root = none := ghost_none hG hGi
      have hrun : ph_merge_heaps (heapOf C w i) (heapOf C w j) w.mem =
          ({ heapOf C w i with ph_root := some ps.1 },
            { heapOf C w j with ph_root := none }, w.mem) := by
        unfold ph_merge_heaps; simp only [hsroot, hdst]
      rw [hrun] at hstep0
      refine ⟨_, _, hstep0, ghost_update_merge hG i j hij _ _ (some ps)
        (fun h => by cases h) ?_ ?_ ?_⟩
      · intro p hp
        cases hp
        exact ⟨rfl, hreps.2.1, hreps.2.2.1, hreps.2.2.2⟩
      · intro y hy; right; rw [hGj]; exact hy
      · intro k _ _ y _; rfl
    | some pd =>
      have hrepd := ghost_some hG hGi
      have hdis : ∀ x ∈ pd.1 :: pd.2.nodes, x ∉ ps.1 :: ps.2.nodes := by
        intro x hx hx'
        have := hG.2 i j hij x (by rw [hGi]; exact hx)
        rw [hGj] at this
        exact this hx'
      obtain ⟨h1, _, h3, h4⟩ := ph_merge_heaps_rep (cmpFam_ok hC _ _) hrepd hreps hdis
      have hperm := link_perm w.key ps.1 ps.2 pd.1 pd.2
      have hsrc : (ph_merge_heaps (heapOf C w i) (heapOf C w j) w.mem).2.1.ph_root = none :=
        congrArg PH_HEAP.ph_root h1
      rw [hsrc] at hstep0
      refine ⟨_, _, hstep0, ghost_update_merge hG i j hij _ _
        (some (link w.key ps.1 ps.2 pd.1 pd.2)) (fun h => by cases h) ?_ ?_ ?_⟩
      · intro p hp
        cases hp
        exact HeapRep_root rfl h3
      · intro y hy
        have hy' := hperm.subset hy
        rcases List.mem_append.1 hy' with h | h
        · right; rw [hGj]; exact h
        · left; rw [hGi]; exact h
      · intro k hki hkj y hy
        apply h4
        intro h
        rcases List.mem_append.1 h with h | h
        · exact nodesOf_disjoint hG hkj hGj hy h
        · exact nodesOf_disjoint hG hki hGi hy h

/-- Every call that respects its precondition returns, for all sufficiently
large fuel, and leads to a world that again has a ghost description. -/
theorem step_ok {C : (Nat → Int) → Nat → Nat → Int} (hC : CmpFamOK C) {w : World}
    {G : Nat → Option (Nat × Forest)} (hG : GhostOK C w G) (op : Op) (hpre : Pre w op) :
    ∃ N, ∀ fuel, N ≤ fuel → ∃ w' G', step C fuel w op = some w' ∧ GhostOK C w' G' := by
  cases op with
  | push_raw i n => exact ⟨0, fun fuel _ => step_push_raw hC hG i n hpre fuel⟩
  | pop i => exact step_pop hC hG i
  | remove_at i x => exact step_remove_at hC hG i x hpre
  | decrease_at i x k => exact step_decrease_at hC hG i x k hpre
  | decrease_root i k => exact step_decrease_root hC hG i k hpre
  | merge_heaps i j => exact ⟨0, fun fuel _ => step_merge_heaps hC hG i j hpre fuel⟩
  | move_at i d x => exact ⟨0, fun fuel _ => step_move_at hG i d x hpre fuel⟩

/-- Reachable worlds have a ghost description. -/
theorem reachable_ghost {C : (Nat → Int) → Nat → Nat → Int} (hC : CmpFamOK C) {w : World}
    (h : Reachable C w) : ∃ G, GhostOK C w G := by
  induction h with
  | init m key =>
    refine ⟨fun _ => none, ghost_mk (fun _ _ => rfl) (fun _ p hp => by cases hp) ?_⟩
    intro i j _ y hy; simp [nodesOf] at hy
  | step w w' op fuel _ hpre hstep ih =>
    obtain ⟨G, hG⟩ := ih
    obtain ⟨N, hN⟩ := step_ok hC hG op hpre
    obtain ⟨w'', G', hstep', hG'⟩ := hN (max N fuel) (le_max_left _ _)
    have := step_mono_le C w w' op fuel (max N fuel) (le_max_right _ _) hstep
    rw [this] at hstep'
    cases hstep'
    exact ⟨G', hG'⟩

theorem diffCmp_ok : CmpFamOK diffCmp := by
  intro key a b
  unfold diffCmp
  omega

/-! ## The two pass pairing merge and its reference definition -/

theorem refLink_eq (key : Nat → Int) (a : Nat) (ca : Forest) (b : Nat) (cb : Forest) :
    refLink key (a, ca) (b, cb) = link key a ca b cb := rfl

/-- Reference result with the fold running over a list that extends the
paired trees by `stk`. -/
theorem refExtract_step (key : Nat → Int) (t1 t2 t3 : Nat × Forest) (ts : List (Nat × Forest))
    (stk : List (Nat × Forest)) :
    (if (t1 :: t2 :: t3 :: ts).length % 2 = 0
        then (refPairs key (t1 :: t2 :: t3 :: ts))[(t1 :: t2 :: t3 :: ts).length / 2 - 1]?
        else (t1 :: t2 :: t3 :: ts)[(t1 :: t2 :: t3 :: ts).length - 1]?).map
      (fun acc0 => (((refPairs key (t1 :: t2 :: t3 :: ts)).take
        (if (t1 :: t2 :: t3 :: ts).length % 2 = 0 then (t1 :: t2 :: t3 :: ts).length / 2 - 1
          else ((t1 :: t2 :: t3 :: ts).length - 1) / 2)).reverse ++ stk).foldl
            (refLink key) acc0) =
    (if (t3 :: ts).length % 2 = 0
        then (refPairs key (t3 :: ts))[(t3 :: ts).length / 2 - 1]?
        else (t3 :: ts)[(t3 :: ts).length - 1]?).map
      (fun acc0 => (((refPairs key (t3 :: ts)).take
        (if (t3 :: ts).length % 2 = 0 then (t3 :: ts).length / 2 - 1
          else ((t3 :: ts).length - 1) / 2)).reverse ++ (refLink key t1 t2 :: stk)).foldl
            (refLink key) acc0) := by
  have hp : refPairs key (t1 :: t2 :: t3 :: ts) = refLink key t1 t2 :: refPairs key (t3 :: ts) :=
    rfl
  rw [hp]
  simp only [List.length_cons]
  by_cases hpar : (ts.length + 1) % 2 = 0
  · have h1 : (ts.length + 1 + 1 + 1) % 2 = 0 := by omega
    have h2 : (ts.length + 1 + 1 + 1) / 2 - 1 = ((ts.length + 1) / 2 - 1) + 1 := by omega
    simp only [h1, hpar, if_true, h2, List.getElem?_cons_succ, List.take_succ_cons,
      List.reverse_cons, List.append_assoc, List.singleton_append]
  · have h1 : ¬ (ts.length + 1 + 1 + 1) % 2 = 0 := by omega
    have h2 : (ts.length + 1 + 1) / 2 = ts.length / 2 + 1 := by omega
    simp only [h1, hpar, if_false, Nat.add_sub_cancel, h2, List.getElem?_cons_succ,
      List.take_succ_cons, List.reverse_cons, List.append_assoc, List.singleton_append]

theorem twoPass_ref_aux (key : Nat → Int) (s : Forest) :
    ∀ (stk : List (Nat × Forest)) (a : Nat) (ca : Forest),
      (if ((a, ca) :: s.trees).length % 2 = 0
          then (refPairs key ((a, ca) :: s.trees))[((a, ca) :: s.trees).length / 2 - 1]?
          else ((a, ca) :: s.trees)[((a, ca) :: s.trees).length - 1]?).map
        (fun acc0 => (((refPairs key ((a, ca) :: s.trees)).take
          (if ((a, ca) :: s.trees).length % 2 = 0 then ((a, ca) :: s.trees).length / 2 - 1
            else (((a, ca) :: s.trees).length - 1) / 2)).reverse ++ stk).foldl
              (refLink key) acc0) =
      some (pass2 key (pass1 key stk a ca s).1 (pass1 key stk a ca s).2.1
        (pass1 key stk a ca s).2.2) := by
  induction s using Forest.pairInduction with
  | h0 =>
    intro stk a ca
    simp [Forest.trees, refPairs, pass1, pass2, refLink_eq]
    rfl
  | h1 b cb =>
    intro stk a ca
    simp [Forest.trees, refPairs, pass1, pass2, refLink_eq]
    rfl
  | h2 b cb c cc s ih =>
    intro stk a ca
    have e : (Forest.node b cb (Forest.node c cc s)).trees = (b, cb) :: (c, cc) :: s.trees := rfl
    rw [e, refExtract_step key (a, ca) (b, cb) (c, cc) s.trees stk, ih]
    rfl

/-- The abstract two pass merge is the reference definition. -/
theorem twoPass_ref (key : Nat → Int) (a : Nat) (ca s : Forest) :
    refExtract key (Forest.node a ca s).trees = some (twoPass key a ca s) := by
  have h := twoPass_ref_aux key s [] a ca
  simp only [List.append_nil] at h
  exact h

/-! ## Counting the predicate evaluations of `__ph_extract_list` -/

/-- Dropping the record gives back the first loop. -/
theorem extract_pass1_log_fst (heap : PH_HEAP) :
    ∀ (fuel : Nat) (m : Mem) (list : Option Nat) (root : Nat) (log : List (Nat × Nat)),
      (extract_pass1_log heap fuel m list root log).map (fun r => (r.1, r.2.1, r.2.2.1)) =
        extract_pass1 heap fuel m list root := by
  intro fuel
  induction fuel with
  | zero => intro m list root log; rfl
  | succ fuel ih =>
    intro m list root log
    rw [extract_pass1_log, extract_pass1]
    cases hb : (m root).ph_list with
    | none => rfl
    | some b =>
      cases hc : (m b).ph_list with
      | none => simp only [hc]; rfl
      | some c => simp only [hc]; exact ih _ _ _ _

/-- Dropping the record gives back the second loop. -/
theorem extract_pass2_log_fst (heap : PH_HEAP) :
    ∀ (fuel : Nat) (m : Mem) (list : Option Nat) (root : Nat) (log : List (Nat × Nat)),
      (extract_pass2_log heap fuel m list root log).map (fun r => (r.1, r.2.1)) =
        extract_pass2 heap fuel m list root := by
  intro fuel
  induction fuel with
  | zero => intro m list root log; rfl
  | succ fuel ih =>
    intro m list root log
    cases list with
    | none => rfl
    | some l =>
      rw [extract_pass2_log, extract_pass2]
      exact ih _ _ _ _

/-- Dropping the record gives back `__ph_extract_list`. -/
theorem extract_list_log_fst (fuel : Nat) (heap : PH_HEAP) (m : Mem) (root : Nat) :
    (__ph_extract_list_log fuel heap m root).map (fun r => (r.1, r.2.1)) =
      __ph_extract_list fuel heap m root := by
  unfold __ph_extract_list_log __ph_extract_list
  rw [← extract_pass1_log_fst heap fuel m none root []]
  cases h : extract_pass1_log heap fuel m none root [] with
  | none => rfl
  | some r =>
    obtain ⟨m1, list1, r1, log1⟩ := r
    exact extract_pass2_log_fst heap fuel m1 list1 r1 log1

theorem Chain_frame {m m' : Mem} (l : List Nat) :
    ∀ (p : Option Nat), (∀ x ∈ l, (m' x).ph_list = (m x).ph_list) →
      (Chain m' p l ↔ Chain m p l) := by
  induction l with
  | nil => intro p _; simp [Chain]
  | cons a l ih =>
    intro p h
    simp only [Chain, h a (List.mem_cons_self _ _),
      ih (m a).ph_list (fun x hx => h x (List.mem_cons_of_mem _ hx))]

/-- The top level trees of a forest are chained through `ph_list`. -/
theorem Shape_chain {m : Mem} (s : Forest) :
    ∀ (p : Option Nat), Shape m p s → Chain m p (s.trees.map Prod.fst) := by
  induction s with
  | nil => intro p h; exact h
  | node a c s _ ihs => intro p h; exact ⟨h.1, ihs _ h.2.2⟩

theorem trees_fst_sublist (s : Forest) : (s.trees.map Prod.fst).Sublist s.nodes := by
  induction s with
  | nil => exact List.Sublist.slnil
  | node a c s _ ihs =>
    simp only [Forest.trees, List.map_cons, Forest.nodes]
    exact List.Sublist.cons₂ _ ((ihs.trans (List.sublist_append_right _ _)))

theorem stk_fst_sublist (stk : List (Nat × Forest)) : (stk.map Prod.fst).Sublist (stkNodes stk) := by
  induction stk with
  | nil => exact List.Sublist.slnil
  | cons e rest ih =>
    simp only [List.map_cons, stkNodes, List.cons_append]
    exact List.Sublist.cons₂ _ (ih.trans (List.sublist_append_right _ _))

/-- List fields written by one pairing step of the first loop. -/
theorem pair_list_frame (heap : PH_HEAP) (m : Mem) (a b x : Nat) (hxa : x ≠ a) (hxb : x ≠ b) :
    ((if PH_ISGREATER heap b a then linkMem (setParent m a (some b)) b a
        else linkMem m a b) x).ph_list = (m x).ph_list := by
  cases PH_ISGREATER heap b a <;> simp [linkMem, hxa, hxb]

theorem extract_pass1_log_step (heap : PH_HEAP) (fuel : Nat) (m : Mem) (list : Option Nat)
    (a b : Nat) (log : List (Nat × Nat)) (hb : (m a).ph_list = some b) :
    extract_pass1_log heap (fuel + 1) m list a log =
      (match (m b).ph_list with
       | none =>
         some (if PH_ISGREATER heap b a then linkMem (setParent m a (some b)) b a
               else linkMem m a b, list, (if PH_ISGREATER heap b a then b else a),
               log ++ [(b, a)])
       | some c =>
         extract_pass1_log heap fuel
           (setList (if PH_ISGREATER heap b a then linkMem (setParent m a (some b)) b a
               else linkMem m a b) (if PH_ISGREATER heap b a then b else a) list)
           (some (if PH_ISGREATER heap b a then b else a)) c (log ++ [(b, a)])) := by
  rw [extract_pass1_log]
  simp only [hb]
  cases hc : (m b).ph_list <;> cases hsw : PH_ISGREATER heap b a <;> simp [linkMem]

/-- The first loop evaluates the predicate once per pair of the sibling list
`root :: l` and pushes every paired result but the last on the auxiliary
list `A`. -/
theorem extract_pass1_log_count (heap : PH_HEAP) :
    ∀ (n : Nat) (l : List Nat) (fuel : Nat) (m : Mem) (list : Option Nat) (root : Nat)
      (log : List (Nat × Nat)) (A : List Nat),
      l.length ≤ n → l.length < fuel →
      Chain m (m root).ph_list l → Chain m list A →
      (root :: l ++ A).Nodup →
      ∃ m' list' r' log' A',
        extract_pass1_log heap fuel m list root log = some (m', list', r', log') ∧
        log'.length = log.length + (l.length + 1) / 2 ∧
        Chain m' list' A' ∧ A'.length = A.length + l.length / 2 ∧ (r' :: A').Nodup := by
  intro n
  induction n using Nat.strong_induction_on with
  | _ n ih =>
  intro l fuel m list root log A hlen hfuel hl hA hn
  obtain ⟨fuel, rfl⟩ : ∃ k, fuel = k + 1 := ⟨fuel - 1, by omega⟩
  cases l with
  | nil =>
    refine ⟨m, list, root, log, A, ?_, by simp, hA, by simp, by simpa using hn⟩
    rw [extract_pass1_log]
    simp only [Chain] at hl
    simp [hl]
  | cons b l' =>
    obtain ⟨hab, hl'⟩ := hl
    rw [extract_pass1_log_step heap fuel m list root b log hab]
    have hn' := hn
    simp only [List.cons_append, List.nodup_cons, List.mem_cons, List.mem_append, not_or] at hn'
    obtain ⟨⟨hrb, hrl, hrA⟩, ⟨hbl, hbA⟩, hrest⟩ := hn'
    cases l' with
    | nil =>
      simp only [Chain] at hl'
      simp only [hl']
      refine ⟨_, list, _, _, A, rfl, by simp, ?_, by simp, ?_⟩
      · rw [Chain_frame A list (fun x hx => pair_list_frame heap m root b x
          (fun e => hrA (e ▸ hx)) (fun e => hbA (e ▸ hx)))]
        exact hA
      · simp only [List.nil_append] at hrest
        cases PH_ISGREATER heap b root
        · simpa using ⟨hrA, hrest⟩
        · simpa using ⟨hbA, hrest⟩
    | cons c l'' =>
      obtain ⟨hbc, hl''⟩ := hl'
      simp only [hbc]
      have hrest' := hrest
      simp only [List.cons_append, List.nodup_cons, List.mem_append, not_or] at hrest'
      obtain ⟨⟨hcl, hcA⟩, hrest''⟩ := hrest'
      simp only [List.mem_cons, not_or] at hrl hbl
      have hw : (if PH_ISGREATER heap b root = true then b else root) = b ∨
          (if PH_ISGREATER heap b root = true then b else root) = root := by
        cases PH_ISGREATER heap b root <;> simp
      have hfr : ∀ x, x ≠ root → x ≠ b →
          (setList (if PH_ISGREATER heap b root = true
              then linkMem (setParent m root (some b)) b root else linkMem m root b)
            (if PH_ISGREATER heap b root = true then b else root) list x).ph_list =
            (m x).ph_list := by
        intro x hxr hxb
        rw [setList_list, if_neg (by rcases hw with e | e <;> rw [e] <;> assumption)]
        exact pair_list_frame heap m root b x hxr hxb
      obtain ⟨m', list', r', log', A', hrun, hlog, hA', hlenA, hnd⟩ :=
        ih (n - 1) (by simp at hlen; omega) l'' fuel _ (some
          (if PH_ISGREATER heap b root = true then b else root)) c (log ++ [(b, root)])
          ((if PH_ISGREATER heap b root = true then b else root) :: A)
          (by simp at hlen ⊢; omega) (by simp at hfuel ⊢; omega)
          (by
            rw [hfr c (Ne.symm hrl.1) (Ne.symm hbl.1),
              Chain_frame l'' _ (fun x hx => hfr x (fun e => hrl.2 (e ▸ hx))
                (fun e => hbl.2 (e ▸ hx)))]
            exact hl'')
          (by
            refine ⟨rfl, ?_⟩
            rw [setList_list, if_pos rfl,
              Chain_frame A _ (fun x hx => hfr x (fun e => hrA (e ▸ hx))
                (fun e => hbA (e ▸ hx)))]
            exact hA)
          (by
            have hp : (c :: l'' ++ (if PH_ISGREATER heap b root = true then b else root) :: A).Perm
                ((if PH_ISGREATER heap b root = true then b else root) :: (c :: l'' ++ A)) :=
              List.perm_middle
            rw [hp.nodup_iff, List.nodup_cons]
            refine ⟨?_, hrest⟩
            rcases hw with e | e <;> rw [e]
            · simpa using ⟨hbl.1, hbl.2, hbA⟩
            · simpa using ⟨hrl.1, hrl.2, hrA⟩)
      refine ⟨m', list', r', log', A', hrun, ?_, hA', ?_, hnd⟩
      · rw [hlog]; simp only [List.length_append, List.length_cons, List.length_nil]; omega
      · rw [hlenA]; simp only [List.length_cons]; omega

theorem extract_pass2_log_step (heap : PH_HEAP) (fuel : Nat) (m : Mem) (l r : Nat)
    (log : List (Nat × Nat)) :
    extract_pass2_log heap (fuel + 1) m (some l) r log =
      extract_pass2_log heap fuel
        (if PH_ISGREATER heap l r then setParent (linkMem m l r) r (some l)
         else setParent (linkMem m r l) l (some r))
        (m l).ph_list (if PH_ISGREATER heap l r then l else r) (log ++ [(l, r)]) := by
  rw [extract_pass2_log]
  cases hsw : PH_ISGREATER heap l r <;> simp [linkMem]

/-- The second loop evaluates the predicate once per entry of the auxiliary
list. -/
theorem extract_pass2_log_count (heap : PH_HEAP) :
    ∀ (A : List Nat) (fuel : Nat) (m : Mem) (list : Option Nat) (root : Nat)
      (log : List (Nat × Nat)),
      A.length < fuel → Chain m list A → (root :: A).Nodup →
      ∃ m' r' log', extract_pass2_log heap fuel m list root log = some (m', r', log') ∧
        log'.length = log.length + A.length := by
  intro A
  induction A with
  | nil =>
    intro fuel m list root log hfuel hA _
    obtain ⟨fuel, rfl⟩ : ∃ k, fuel = k + 1 := ⟨fuel - 1, by omega⟩
    simp only [Chain] at hA
    subst hA
    exact ⟨m, root, log, rfl, rfl⟩
  | cons l A ih =>
    intro fuel m list root log hfuel hA hn
    obtain ⟨fuel, rfl⟩ : ∃ k, fuel = k + 1 := ⟨fuel - 1, by omega⟩
    obtain ⟨hl, hA'⟩ := hA
    subst hl
    rw [extract_pass2_log_step]
    simp only [List.nodup_cons, List.mem_cons, not_or] at hn
    obtain ⟨⟨hrl, hrA⟩, hlA, hAn⟩ := hn
    have hfr : ∀ x, x ≠ root → x ≠ l →
        ((if PH_ISGREATER heap l root = true then setParent (linkMem m l root) root (some l)
          else setParent (linkMem m root l) l (some root)) x).ph_list = (m x).ph_list := by
      intro x hxr hxl
      cases PH_ISGREATER heap l root <;> simp [linkMem, hxr, hxl]
    obtain ⟨m', r', log', hrun, hlog⟩ :=
      ih fuel _ (m l).ph_list (if PH_ISGREATER heap l root = true then l else root)
        (log ++ [(l, root)]) (by simp at hfuel; omega)
        (by
          rw [Chain_frame A _ (fun x hx => hfr x (fun e => hrA (e ▸ hx))
            (fun e => hlA (e ▸ hx)))]
          exact hA')
        (by
          rw [List.nodup_cons]
          refine ⟨?_, hAn⟩
          cases PH_ISGREATER heap l root
          · simpa using hrA
          · simpa using hlA)
    refine ⟨m', r', log', hrun, ?_⟩
    rw [hlog]; simp only [List.length_append, List.length_cons, List.length_nil]; omega

/-- On a sibling list of `l.length + 1` nodes `__ph_extract_list` evaluates the
predicate exactly `l.length` times. -/
theorem extract_list_log_count (heap : PH_HEAP) (fuel : Nat) (m : Mem) (root : Nat)
    (l : List Nat) (hfuel : l.length < fuel) (hl : Chain m (m root).ph_list l)
    (hn : (root :: l).Nodup) :
    ∃ m' r' log, __ph_extract_list_log fuel heap m root = some (m', r', log) ∧
      log.length = l.length := by
  obtain ⟨m1, list1, r1, log1, A1, hrun1, hlog1, hA1, hlen1, hnd1⟩ :=
    extract_pass1_log_count heap l.length l fuel m none root [] [] (le_refl _) hfuel hl rfl
      (by simpa using hn)
  obtain ⟨m2, r2, log2, hrun2, hlog2⟩ :=
    extract_pass2_log_count heap A1 fuel m1 list1 r1 log1
      (by rw [hlen1]; simp only [List.length_nil]; omega) hA1 hnd1
  refine ⟨m2, r2, log2, ?_, ?_⟩
  · unfold __ph_extract_list_log
    simp only [hrun1, hrun2]
  · rw [hlog2, hlog1, hlen1]
    simp only [List.length_nil]
    omega

/-! ## PHEAP_V1.h simulates PHEAP_V2.h with the parent fields forgotten -/

@[simp] theorem forget_list (m : Mem) (i : Nat) : (forget m i).ph_list = (m i).ph_list := rfl

@[simp] theorem forget_child (m : Mem) (i : Nat) : (forget m i).ph_child = (m i).ph_child := rfl

@[simp] theorem forget_setList (m : Mem) (a : Nat) (v : Option Nat) :
    forget (setList m a v) = V1.setList (forget m) a v := by
  funext i
  unfold forget V1.setList setList
  by_cases h : i = a <;> simp [h]

@[simp] theorem forget_setChild (m : Mem) (a : Nat) (v : Option Nat) :
    forget (setChild m a v) = V1.setChild (forget m) a v := by
  funext i
  unfold forget V1.setChild setChild
  by_cases h : i = a <;> simp [h]

@[simp] theorem forget_setParent (m : Mem) (a : Nat) (v : Option Nat) :
    forget (setParent m a v) = forget m := by
  funext i
  unfold forget setParent
  by_cases h : i = a <;> simp [h]

@[simp] theorem forget_setParentOpt (m : Mem) (p v : Option Nat) :
    forget (setParentOpt m p v) = forget m := by
  cases p <;> simp [setParentOpt]

theorem forget_pass1 (heap : PH_HEAP) :
    ∀ (fuel : Nat) (m : Mem) (list : Option Nat) (root : Nat),
      (extract_pass1 heap fuel m list root).map (fun r => (forget r.1, r.2.1, r.2.2)) =
        V1.extract_pass1 heap fuel (forget m) list root := by
  intro fuel
  induction fuel with
  | zero => intro m list root; rfl
  | succ fuel ih =>
    intro m list root
    rw [extract_pass1, V1.extract_pass1]
    simp only [forget_list]
    cases hb : (m root).ph_list with
    | none => rfl
    | some b =>
      simp only []
      cases hc : (m b).ph_list with
      | none =>
        cases hsw : PH_ISGREATER heap b root <;>
          simp [Option.map]
      | some c =>
        simp only []
        rw [ih]
        cases hsw : PH_ISGREATER heap b root <;>
          simp

theorem forget_pass2 (heap : PH_HEAP) :
    ∀ (fuel : Nat) (m : Mem) (list : Option Nat) (root : Nat),
      (extract_pass2 heap fuel m list root).map (fun r => (forget r.1, r.2)) =
        V1.extract_pass2 heap fuel (forget m) list root := by
  intro fuel
  induction fuel with
  | zero => intro m list root; rfl
  | succ fuel ih =>
    intro m list root
    cases list with
    | none => rfl
    | some l =>
      rw [extract_pass2, V1.extract_pass2]
      rw [ih]
      cases hsw : PH_ISGREATER heap l root <;> simp

theorem forget_extract_list (fuel : Nat) (heap : PH_HEAP) (m : Mem) (root : Nat) :
    (__ph_extract_list fuel heap m root).map (fun r => (forget r.1, r.2)) =
      V1.__ph_extract_list fuel heap (forget m) root := by
  unfold __ph_extract_list V1.__ph_extract_list
  rw [← forget_pass1]
  cases h : extract_pass1 heap fuel m none root with
  | none => rfl
  | some r =>
    obtain ⟨m1, list1, r1⟩ := r
    exact forget_pass2 heap fuel m1 list1 r1

theorem heap_root_eta {heap : PH_HEAP} {r : Option Nat} (h : heap.ph_root = r) :
    heap = { heap with ph_root := r } := by
  cases heap; simp_all

theorem forget_push (heap : PH_HEAP) (m : Mem) (n : Nat) (hl : (m n).ph_list = none) :
    (ph_push heap m n).1 = (V1.ph_push heap (forget m) n).1 ∧
      forget (ph_push heap m n).2 = (V1.ph_push heap (forget m) n).2 := by
  unfold ph_push V1.ph_push V1.__ph_push
  cases hr : heap.ph_root with
  | none => exact ⟨rfl, rfl⟩
  | some r =>
    simp only []
    cases hsw : PH_ISGREATER heap r n
    · simp
    · refine ⟨by simpa using heap_root_eta hr, ?_⟩
      cases hc : (m r).ph_child with
      | none =>
        have e : V1.setList (forget m) n none = forget m := by
          funext i
          unfold V1.setList forget
          by_cases h : i = n
          · simp [h, hl]
          · simp [h]
        simp only [if_true, forget_setParent, forget_setChild, forget_child, hc, e]
      | some c => simp [hc]

theorem forget_push_raw (heap : PH_HEAP) (m : Mem) (n : Nat) :
    (ph_push_raw heap m n).1 = (V1.ph_push_raw heap (forget m) n).1 ∧
      forget (ph_push_raw heap m n).2 = (V1.ph_push_raw heap (forget m) n).2 := by
  unfold ph_push_raw V1.ph_push_raw V1.__ph_push_raw
  cases hr : heap.ph_root with
  | none => simp
  | some r =>
    simp only []
    cases hsw : PH_ISGREATER heap r n
    · simp
    · exact ⟨by simpa using heap_root_eta hr, by simp⟩

theorem forget_pop (fuel : Nat) (heap : PH_HEAP) (m : Mem) :
    (ph_pop fuel heap m).map (fun s => (s.1, forget s.2)) = V1.ph_pop fuel heap (forget m) := by
  unfold ph_pop V1.ph_pop
  cases hr : heap.ph_root with
  | none => rfl
  | some r =>
    simp only [forget_child]
    cases hc : (m r).ph_child with
    | none => rfl
    | some c =>
      simp only []
      rw [← forget_extract_list]
      cases h : __ph_extract_list fuel heap m c with
      | none => rfl
      | some s => rfl

theorem forget_decrease_root (fuel : Nat) (heap : PH_HEAP) (m : Mem) :
    (ph_decrease_root fuel heap m).map (fun s => (s.1, forget s.2)) =
      V1.ph_decrease_root fuel heap (forget m) := by
  unfold ph_decrease_root V1.ph_decrease_root __ph_decrease_root V1.__ph_decrease_root
  cases hr : heap.ph_root with
  | none => rfl
  | some r =>
    simp only [forget_child]
    rw [← forget_setList, ← forget_setChild, ← forget_extract_list]
    cases h : __ph_extract_list fuel heap (setChild (setList m r (m r).ph_child) r none) r with
    | none => rfl
    | some s => rfl

theorem forget_merge_heaps (dst src : PH_HEAP) (m : Mem) :
    (ph_merge_heaps dst src m).1 = (V1.ph_merge_heaps dst src (forget m)).1 ∧
      (ph_merge_heaps dst src m).2.1 = (V1.ph_merge_heaps dst src (forget m)).2.1 ∧
      forget (ph_merge_heaps dst src m).2.2 = (V1.ph_merge_heaps dst src (forget m)).2.2 := by
  unfold ph_merge_heaps V1.ph_merge_heaps __ph_merge V1.__ph_merge
  cases hs : src.ph_root with
  | none => exact ⟨rfl, rfl, rfl⟩
  | some rs =>
    cases hd : dst.ph_root with
    | none => exact ⟨rfl, rfl, rfl⟩
    | some rd =>
      simp only []
      cases hsw : PH_ISGREATER dst rd rs <;> simp

theorem forget_destroy_rotate :
    ∀ (fuel : Nat) (m : Mem) (node : Nat),
      (destroy_rotate fuel m node).map (fun r => (forget r.1, r.2)) =
        V1.destroy_rotate fuel (forget m) node := by
  intro fuel
  induction fuel with
  | zero => intro m node; rfl
  | succ fuel ih =>
    intro m node
    rw [destroy_rotate, V1.destroy_rotate]
    simp only [forget_list]
    cases hl : (m node).ph_list with
    | none => rfl
    | some l =>
      simp only []
      rw [ih]
      simp

theorem forget_destroy_subheap :
    ∀ (fuel : Nat) (m : Mem) (node : Nat) (log : List Nat),
      (__ph_destroy_subheap fuel m node log).map (fun r => (forget r.1, r.2)) =
        V1.__ph_destroy_subheap fuel (forget m) node log := by
  intro fuel
  induction fuel with
  | zero => intro m node log; rfl
  | succ fuel ih =>
    intro m node log
    rw [__ph_destroy_subheap, V1.__ph_destroy_subheap, ← forget_destroy_rotate]
    cases h : destroy_rotate (fuel + 1) m node with
    | none => rfl
    | some r =>
      obtain ⟨m1, n1⟩ := r
      simp only [Option.map_some', forget_child]
      cases hc : (m1 n1).ph_child with
      | none => rfl
      | some nx => exact ih _ _ _

theorem forget_destroy_heap (fuel : Nat) (heap : PH_HEAP) (m : Mem) :
    (ph_destroy_heap fuel heap m).map (fun s => (s.1, forget s.2.1, s.2.2)) =
      V1.ph_destroy_heap fuel heap (forget m) := by
  unfold ph_destroy_heap V1.ph_destroy_heap
  cases hr : heap.ph_root with
  | none => rfl
  | some r =>
    simp only []
    rw [← forget_setList, ← forget_destroy_subheap]
    cases h : __ph_destroy_subheap fuel (setList m r none) r [] with
    | none => rfl
    | some s => rfl

/-! ## Parent fields in a well-formed forest -/

theorem mem_tops_nodes (t : Forest) {x : Nat} (h : x ∈ t.trees.map Prod.fst) : x ∈ t.nodes :=
  (trees_fst_sublist t).subset h

theorem Shape_onList {m : Mem} (t : Forest) :
    ∀ (p : Option Nat), Shape m p t → ∀ x ∈ t.trees.map Prod.fst, OnList m p x := by
  induction t with
  | nil => intro p _ x hx; simp [Forest.trees] at hx
  | node a c s _ ihs =>
    intro p h x hx
    obtain ⟨hp, _, hs⟩ := h
    subst hp
    simp only [Forest.trees, List.map_cons, List.mem_cons] at hx
    rcases hx with rfl | hx
    · exact OnList.here _
    · exact OnList.next _ _ (ihs _ hs x hx)

/-- A top level tree root is the head of the list, with the parent field of
the list, or it follows a sibling that its parent field names. -/
theorem tops_parent {m : Mem} (t : Forest) :
    ∀ (p prev : Option Nat), Shape m p t → Back m prev t → ∀ x ∈ t.trees.map Prod.fst,
      (p = some x ∧ (m x).ph_parent = prev) ∨
      (∃ q ∈ t.trees.map Prod.fst, (m q).ph_list = some x ∧ (m x).ph_parent = some q) := by
  induction t with
  | nil => intro p prev _ _ x hx; simp [Forest.trees] at hx
  | node a c s _ ihs =>
    intro p prev h hb x hx
    obtain ⟨hp, _, hs⟩ := h
    obtain ⟨hpa, _, hbs⟩ := hb
    simp only [Forest.trees, List.map_cons, List.mem_cons] at hx ⊢
    rcases hx with rfl | hx
    · exact Or.inl ⟨hp, hpa⟩
    · rcases ihs _ _ hs hbs x hx with ⟨h1, h2⟩ | ⟨q, hq, h1, h2⟩
      · exact Or.inr ⟨a, Or.inl rfl, h1, h2⟩
      · exact Or.inr ⟨q, Or.inr hq, h1, h2⟩

/-- The children of `a` have `a` as structural parent. -/
theorem kids_structPar {m : Mem} {a : Nat} {c : Forest} (hs : Shape m (m a).ph_child c)
    (hb : Back m (some a) c) (ha : a ∉ c.nodes) {x : Nat} (hx : x ∈ c.trees.map Prod.fst) :
    StructPar m a x := by
  refine ⟨Shape_onList c _ hs x hx, ?_, ?_⟩
  · intro hch
    cases c with
    | nil => simp [Forest.trees] at hx
    | node b cb sb =>
      have e : b = x := Option.some.inj (hs.1.symm.trans hch)
      rw [← e]
      exact hb.1
  · intro hch
    rcases tops_parent c _ _ hs hb x hx with ⟨h1, _⟩ | ⟨q, hq, h1, h2⟩
    · exact absurd h1 hch
    · exact ⟨q, fun e => ha (e ▸ mem_tops_nodes c hq), Shape_onList c _ hs q hq, h1, h2⟩

theorem forest_structPar {m : Mem} (t : Forest) :
    ∀ (p prev : Option Nat), Shape m p t → Back m prev t → t.nodes.Nodup →
      ∀ x ∈ t.nodes, x ∈ t.trees.map Prod.fst ∨ ∃ sp ∈ t.nodes, StructPar m sp x := by
  induction t with
  | nil => intro p prev _ _ _ x hx; simp [Forest.nodes] at hx
  | node a c s ihc ihs =>
    intro p prev h hb hn x hx
    obtain ⟨_, hc, hs⟩ := h
    obtain ⟨_, hbc, hbs⟩ := hb
    simp only [Forest.nodes, List.nodup_cons, List.mem_append, not_or] at hn
    obtain ⟨⟨hac, _⟩, hcs⟩ := hn
    obtain ⟨hcn, hsn, _⟩ := List.nodup_append.1 hcs
    simp only [Forest.nodes, List.mem_cons, List.mem_append] at hx
    rcases hx with rfl | hx | hx
    · exact Or.inl (by simp [Forest.trees])
    · right
      rcases ihc _ _ hc hbc hcn x hx with h1 | ⟨sp, hsp, h1⟩
      · exact ⟨a, by simp [Forest.nodes], kids_structPar hc hbc hac h1⟩
      · exact ⟨sp, by simp [Forest.nodes, hsp], h1⟩
    · rcases ihs _ _ hs hbs hsn x hx with h1 | ⟨sp, hsp, h1⟩
      · exact Or.inl (by simp [Forest.trees, h1])
      · exact Or.inr ⟨sp, by simp [Forest.nodes, hsp], h1⟩

/-- In a well-formed heap every non-root member has a structural parent among
the members. -/
theorem heap_structPar {key : Nat → Int} {heap : PH_HEAP} {m : Mem} {r : Nat} {c : Forest}
    (h : HeapRep key heap m r c) {x : Nat} (hx : x ∈ c.nodes) :
    ∃ sp ∈ r :: c.nodes, StructPar m sp x := by
  obtain ⟨_, ⟨hs, hb⟩, hn, _⟩ := h
  obtain ⟨hrc, hcn⟩ := List.nodup_cons.1 hn
  rcases forest_structPar c _ _ hs hb hcn x hx with h1 | ⟨sp, hsp, h1⟩
  · exact ⟨r, List.mem_cons_self _ _, kids_structPar hs hb hrc h1⟩
  · exact ⟨sp, List.mem_cons_of_mem _ hsp, h1⟩

/-! ## Predecessors in a well-formed forest -/

/-- Every node of a forest is its head or is referred to by the node that its
parent field names. -/
theorem forest_pred {m : Mem} (t : Forest) :
    ∀ (p prev : Option Nat), Shape m p t → Back m prev t → ∀ x ∈ t.nodes,
      (p = some x ∧ (m x).ph_parent = prev) ∨
      ∃ q ∈ t.nodes, (m x).ph_parent = some q ∧
        ((m q).ph_child = some x ∨ (m q).ph_list = some x) := by
  induction t with
  | nil => intro p prev _ _ x hx; simp [Forest.nodes] at hx
  | node a c s ihc ihs =>
    intro p prev h hb x hx
    obtain ⟨hp, hc, hs⟩ := h
    obtain ⟨hpa, hbc, hbs⟩ := hb
    simp only [Forest.nodes, List.mem_cons, List.mem_append] at hx
    rcases hx with rfl | hx | hx
    · exact Or.inl ⟨hp, hpa⟩
    · right
      rcases ihc _ _ hc hbc x hx with ⟨h1, h2⟩ | ⟨q, hq, h1, h2⟩
      · exact ⟨a, by simp [Forest.nodes], h2, Or.inl h1⟩
      · exact ⟨q, by simp [Forest.nodes, hq], h1, h2⟩
    · right
      rcases ihs _ _ hs hbs x hx with ⟨h1, h2⟩ | ⟨q, hq, h1, h2⟩
      · exact ⟨a, by simp [Forest.nodes], h2, Or.inr h1⟩
      · exact ⟨q, by simp [Forest.nodes, hq], h1, h2⟩

/-- The target of a pointer that heads a forest has the holder as parent
field. -/
theorem head_parent {m : Mem} {p prev : Option Nat} {t : Forest} {x : Nat}
    (hs : Shape m p t) (hb : Back m prev t) (hp : p = some x) :
    x ∈ t.nodes ∧ (m x).ph_parent = prev := by
  cases t with
  | nil => rw [hs] at hp; cases hp
  | node b cb sb =>
    have e : b = x := Option.some.inj (hs.1.symm.trans hp)
    subst e
    exact ⟨by simp [Forest.nodes], hb.1⟩

/-- Every child or list field of a node of a forest refers to a node of the
forest whose parent field names the holder. -/
theorem forest_edge {m : Mem} (t : Forest) :
    ∀ (p prev : Option Nat), Shape m p t → Back m prev t → ∀ q ∈ t.nodes, ∀ x,
      ((m q).ph_child = some x ∨ (m q).ph_list = some x) →
      x ∈ t.nodes ∧ (m x).ph_parent = some q := by
  induction t with
  | nil => intro p prev _ _ q hq; simp [Forest.nodes] at hq
  | node a c s ihc ihs =>
    intro p prev h hb q hq x hx
    obtain ⟨_, hc, hs⟩ := h
    obtain ⟨_, hbc, hbs⟩ := hb
    simp only [Forest.nodes, List.mem_cons, List.mem_append] at hq ⊢
    rcases hq with rfl | hq | hq
    · rcases hx with hx | hx
      · exact ⟨Or.inr (Or.inl (head_parent hc hbc hx).1), (head_parent hc hbc hx).2⟩
      · exact ⟨Or.inr (Or.inr (head_parent hs hbs hx).1), (head_parent hs hbs hx).2⟩
    · exact ⟨Or.inr (Or.inl (ihc _ _ hc hbc q hq x hx).1), (ihc _ _ hc hbc q hq x hx).2⟩
    · exact ⟨Or.inr (Or.inr (ihs _ _ hs hbs q hq x hx).1), (ihs _ _ hs hbs q hq x hx).2⟩

/-- A node of a duplicate-free forest does not refer to the same node by both
of its fields. -/
theorem forest_one_field {m : Mem} (t : Forest) :
    ∀ (p : Option Nat), Shape m p t → t.nodes.Nodup → ∀ q ∈ t.nodes, ∀ x,
      ¬ ((m q).ph_child = some x ∧ (m q).ph_list = some x) := by
  induction t with
  | nil => intro p _ _ q hq; simp [Forest.nodes] at hq
  | node a c s ihc ihs =>
    intro p h hn q hq x hx
    obtain ⟨_, hc, hs⟩ := h
    simp only [Forest.nodes, List.nodup_cons, List.mem_append, not_or] at hn
    obtain ⟨_, hcs⟩ := hn
    obtain ⟨hcn, hsn, hdis⟩ := List.nodup_append.1 hcs
    simp only [Forest.nodes, List.mem_cons, List.mem_append] at hq
    rcases hq with rfl | hq | hq
    · have h1 : x ∈ c.nodes := head_mem_nodes ((Shape_head hc).symm.trans hx.1)
      have h2 : x ∈ s.nodes := head_mem_nodes ((Shape_head hs).symm.trans hx.2)
      exact hdis h1 h2
    · exact ihc _ hc hcn q hq x hx
    · exact ihs _ hs hsn q hq x hx

/-- In a well-formed heap every non-root member has a predecessor. -/
theorem heap_pred {key : Nat → Int} {heap : PH_HEAP} {m : Mem} {r : Nat} {c : Forest}
    (h : HeapRep key heap m r c) {x : Nat} (hx : x ∈ c.nodes) :
    ∃ p, PredOK m heap.ph_root x p := by
  have hmem := Member_iff h
  obtain ⟨hroot, ⟨hs, hb⟩, hn, _⟩ := h
  obtain ⟨hrc, hcn⟩ := List.nodup_cons.1 hn
  have hxr : x ≠ r := fun e => hrc (e ▸ hx)
  -- every structural pointer to `x` is held by the node in its parent field
  have huniq : ∀ q, q ∈ r :: c.nodes → (q = r → (m q).ph_child = some x) →
      (q ≠ r → (m q).ph_child = some x ∨ (m q).ph_list = some x) → (m x).ph_parent = some q := by
    intro q hq h1 h2
    by_cases hqr : q = r
    · subst hqr
      exact (head_parent hs hb (h1 rfl)).2
    · rcases List.mem_cons.1 hq with e | hq'
      · exact absurd e hqr
      · exact (forest_edge c _ _ hs hb q hq' x (h2 hqr)).2
  rcases forest_pred c _ _ hs hb x hx with ⟨h1, h2⟩ | ⟨q, hq, h1, h2⟩
  · refine ⟨r, h2, (hmem r).2 (List.mem_cons_self _ _), Or.inl h1,
      fun hne => absurd hroot hne, ?_, ?_⟩
    · intro q hq hqc
      have := huniq q ((hmem q).1 hq) (fun _ => hqc) (fun _ => Or.inl hqc)
      rw [h2] at this
      exact (Option.some.inj this).symm
    · intro q hq hqr hql
      have hqr' : q ≠ r := fun e => hqr (by rw [hroot, e])
      have := huniq q ((hmem q).1 hq) (fun e => absurd e hqr') (fun _ => Or.inr hql)
      rw [h2] at this
      exact (Option.some.inj this).symm
  · have hqr : q ≠ r := fun e => hrc (e ▸ hq)
    have hqroot : heap.ph_root ≠ some q := by
      rw [hroot]; intro e; exact hqr (Option.some.inj e).symm
    refine ⟨q, h1, (hmem q).2 (List.mem_cons_of_mem _ hq), ?_,
      fun _ => forest_one_field c _ hs hcn q hq x, ?_, ?_⟩
    · rcases h2 with h2 | h2
      · exact Or.inl h2
      · exact Or.inr ⟨h2, hqroot⟩
    · intro q' hq' hqc
      have := huniq q' ((hmem q').1 hq') (fun _ => hqc) (fun _ => Or.inl hqc)
      rw [h1] at this
      exact (Option.some.inj this).symm
    · intro q' hq' hqr' hql
      have hne : q' ≠ r := fun e => hqr' (by rw [hroot, e])
      have := huniq q' ((hmem q').1 hq') (fun e => absurd e hne) (fun _ => Or.inr hql)
      rw [h1] at this
      exact (Option.some.inj this).symm

/-! ## Parent fields in worlds with a ghost description -/

theorem ghost_backOK {C : (Nat → Int) → Nat → Nat → Int} {w : World}
    {G : Nat → Option (Nat × Forest)} (hG : GhostOK C w G) (i : Nat) :
    BackOK w.mem (w.roots i) := by
  intro n hn hroot
  cases hGi : G i with
  | none =>
    rw [ghost_none hG hGi] at hn
    exact absurd hn (not_Member_none _ _)
  | some p =>
    have hrep := ghost_some hG hGi
    have hmem := (Member_iff hrep n).1 hn
    rcases List.mem_cons.1 hmem with e | hx
    · exact absurd (by rw [e]; exact hrep.1) hroot
    · exact heap_pred hrep hx

theorem ghost_parentFieldOK {C : (Nat → Int) → Nat → Nat → Int} {w : World}
    {G : Nat → Option (Nat × Forest)} (hG : GhostOK C w G) (i : Nat) :
    ParentFieldOK w.mem (w.roots i) := by
  intro n hn hroot
  cases hGi : G i with
  | none =>
    rw [ghost_none hG hGi] at hn
    exact absurd hn (not_Member_none _ _)
  | some p =>
    have hrep := ghost_some hG hGi
    have hmem := (Member_iff hrep n).1 hn
    rcases List.mem_cons.1 hmem with e | hx
    · exact absurd (by rw [e]; exact hrep.1) hroot
    · obtain ⟨sp, hsp, h⟩ := heap_structPar hrep hx
      exact ⟨sp, (Member_iff hrep sp).2 hsp, h⟩

/-! ## The sample run is reachable -/

/-- Precondition of `ph_push_raw` on heap 0 of a world whose other heaps are
empty. -/
theorem pre_push_raw_zero {w : World} {n : Nat} (hothers : ∀ j, j ≠ 0 → w.roots j = none)
    (h0 : w.roots 0 = none ∨
      ∃ r c, HeapRep w.key (heapOf diffCmp w 0) w.mem r c ∧ n ∉ r :: c.nodes) :
    Pre w (.push_raw 0 n) := by
  intro j hm
  by_cases hj : j = 0
  · subst hj
    rcases h0 with h0 | ⟨r, c, hrep, hn⟩
    · rw [h0] at hm; exact not_Member_none _ _ hm
    · exact hn ((Member_iff hrep n).1 hm)
  · rw [hothers j hj] at hm; exact not_Member_none _ _ hm

theorem backWorld1_reachable : Reachable diffCmp backWorld1 :=
  Reachable.step backWorld0 backWorld1 (.push_raw 0 0) 0
    (Reachable.init zeroMem (keysOf [1, 3, 2])) (fun _ => not_Member_none _ _) rfl

theorem backWorld2_reachable : Reachable diffCmp backWorld2 :=
  Reachable.step backWorld1 backWorld2 (.push_raw 0 1) 0 backWorld1_reachable
    (pre_push_raw_zero (fun j hj => by simp [backWorld1, backWorld0, setRoot, hj])
      (Or.inr ⟨0, .nil, by decide, by decide⟩)) rfl

theorem backWorld3_reachable : Reachable diffCmp backWorld3 :=
  Reachable.step backWorld2 backWorld3 (.push_raw 0 2) 0 backWorld2_reachable
    (pre_push_raw_zero
      (fun j hj => by simp [backWorld2, backWorld1, backWorld0, setRoot, hj])
      (Or.inr ⟨0, .node 1 .nil .nil, by decide, by decide⟩)) rfl

theorem backWorld4_reachable : Reachable diffCmp backWorld4 :=
  Reachable.step backWorld3 backWorld4 (.pop 0) 3 backWorld3_reachable trivial rfl

/-! ## The root's own parent and list fields -/

theorem Back_parent_some {m : Mem} (t : Forest) :
    ∀ (q : Nat), Back m (some q) t → ∀ x ∈ t.nodes, (m x).ph_parent ≠ none := by
  induction t with
  | nil => intro q _ x hx; simp [Forest.nodes] at hx
  | node a c s ihc ihs =>
    intro q hb x hx
    obtain ⟨hpa, hbc, hbs⟩ := hb
    simp only [Forest.nodes, List.mem_cons, List.mem_append] at hx
    rcases hx with rfl | hx | hx
    · rw [hpa]; exact Option.some_ne_none q
    · exact ihc a hbc x hx
    · exact ihs a hbs x hx

theorem linkMem_parent_some (m : Mem) (w l x : Nat) (h : (m x).ph_parent ≠ none) :
    (linkMem m w l x).ph_parent ≠ none := by
  unfold linkMem
  rw [setChild_parent, setList_parent, setParentOpt_parent]
  split
  · exact Option.some_ne_none l
  · exact h

theorem setParent_parent_some (m : Mem) (a b x : Nat) (h : (m x).ph_parent ≠ none) :
    (setParent m a (some b) x).ph_parent ≠ none := by
  rw [setParent_parent]
  split
  · exact Option.some_ne_none b
  · exact h

/-- The first loop never stores `NULL` in a parent field. -/
theorem extract_pass1_parent_some (heap : PH_HEAP) :
    ∀ (fuel : Nat) (m : Mem) (list : Option Nat) (root : Nat) (r : Mem × Option Nat × Nat),
      extract_pass1 heap fuel m list root = some r →
      ∀ x, (m x).ph_parent ≠ none → (r.1 x).ph_parent ≠ none := by
  intro fuel
  induction fuel with
  | zero => intro m list root r h; cases h
  | succ fuel ih =>
    intro m list root r h x hx
    cases hb : (m root).ph_list with
    | none =>
      rw [extract_pass1] at h
      simp only [hb] at h
      cases h
      exact hx
    | some b =>
      rw [extract_pass1_step heap fuel m list root b hb] at h
      have hM : ((if PH_ISGREATER heap b root = true
          then linkMem (setParent m root (some b)) b root else linkMem m root b) x).ph_parent ≠
          none := by
        cases PH_ISGREATER heap b root
        · exact linkMem_parent_some _ _ _ _ hx
        · exact linkMem_parent_some _ _ _ _ (setParent_parent_some _ _ _ _ hx)
      cases hc : (m b).ph_list with
      | none =>
        simp only [hc] at h
        cases h
        exact hM
      | some c =>
        simp only [hc] at h
        exact ih _ _ _ r h x (by rw [setList_parent]; exact hM)

/-- The second loop never stores `NULL` in a parent field. -/
theorem extract_pass2_parent_some (heap : PH_HEAP) :
    ∀ (fuel : Nat) (m : Mem) (list : Option Nat) (root : Nat) (r : Mem × Nat),
      extract_pass2 heap fuel m list root = some r →
      ∀ x, (m x).ph_parent ≠ none → (r.1 x).ph_parent ≠ none := by
  intro fuel
  induction fuel with
  | zero => intro m list root r h; cases h
  | succ fuel ih =>
    intro m list root r h x hx
    cases list with
    | none =>
      rw [extract_pass2] at h
      cases h
      exact hx
    | some l =>
      rw [extract_pass2_step] at h
      refine ih _ _ _ r h x ?_
      cases PH_ISGREATER heap l root
      · exact setParent_parent_some _ _ _ _ (linkMem_parent_some _ _ _ _ hx)
      · exact setParent_parent_some _ _ _ _ (linkMem_parent_some _ _ _ _ hx)

/-- Function `__ph_extract_list` never stores `NULL` in a parent field. -/
theorem extract_list_parent_some (fuel : Nat) (heap : PH_HEAP) (m : Mem) (root : Nat)
    (r : Mem × Nat) (h : __ph_extract_list fuel heap m root = some r) (x : Nat)
    (hx : (m x).ph_parent ≠ none) : (r.1 x).ph_parent ≠ none := by
  unfold __ph_extract_list at h
  cases h1 : extract_pass1 heap fuel m none root with
  | none => rw [h1] at h; cases h
  | some r1 =>
    rw [h1] at h
    exact extract_pass2_parent_some heap fuel r1.1 r1.2.1 r1.2.2 r h x
      (extract_pass1_parent_some heap fuel m none root r1 h1 x hx)

/-- After a `ph_pop` that leaves the heap non-empty the parent field of the
new root is not empty. -/
theorem pop_root_parent {heap : PH_HEAP} {key : Nat → Int} (hcmp : CmpOK heap key)
    {m : Mem} {r a : Nat} {ca s : Forest} (fuel : Nat)
    (h : HeapRep key heap m r (.node a ca s)) (hfuel : (Forest.node a ca s).nodes.length ≤ fuel) :
    ∃ heap' m' r', ph_pop fuel heap m = some (heap', m') ∧ heap'.ph_root = some r' ∧
      (m' r').ph_parent ≠ none := by
  obtain ⟨m', hrun, hrep, _⟩ := ph_pop_node hcmp fuel h hfuel
  refine ⟨_, m', (twoPass key a ca s).1, hrun, rfl, ?_⟩
  obtain ⟨hroot, ⟨hsh, hbk⟩, hnd, _⟩ := h
  have hmem : (twoPass key a ca s).1 ∈ (Forest.node a ca s).nodes := by
    have := (twoPass_perm key a ca s).subset (List.mem_cons_self _ _)
    simpa [Forest.nodes] using this
  have hold := Back_parent_some _ r hbk _ hmem
  have hch : (m r).ph_child = some a := hsh.1
  unfold ph_pop at hrun
  simp only [hroot, hch] at hrun
  cases he : __ph_extract_list fuel heap m a with
  | none => rw [he] at hrun; cases hrun
  | some e =>
    rw [he] at hrun
    have hm' : e.1 = m' := by
      simp only [Option.some.injEq, Prod.mk.injEq] at hrun
      exact hrun.2
    rw [← hm']
    exact extract_list_parent_some fuel heap m a e he _ hold

/-- After `ph_remove_at` of a root that has children both the parent and the
list field of the new root are empty. -/
theorem remove_root_fields {heap : PH_HEAP} {key : Nat → Int} (hcmp : CmpOK heap key)
    {m : Mem} {r a : Nat} {ca s : Forest} (fuel : Nat)
    (h : HeapRep key heap m r (.node a ca s)) (hfuel : (Forest.node a ca s).nodes.length ≤ fuel) :
    ∃ heap' m' r', ph_remove_at fuel heap m r = some (heap', m') ∧ heap'.ph_root = some r' ∧
      (m' r').ph_parent = none ∧ (m' r').ph_list = none := by
  obtain ⟨hroot, ⟨hsh, hbk⟩, hnd, _⟩ := h
  obtain ⟨hra, hsa, hss⟩ := hsh
  obtain ⟨_, hba, hbs⟩ := hbk
  have hnd' : (a :: ca.nodes ++ s.nodes).Nodup := by
    simpa [Forest.nodes] using (List.nodup_cons.1 hnd).2
  obtain ⟨m1, hrun, _, _⟩ := extract_list_spec hcmp fuel
    (by simp [Forest.nodes] at hfuel; omega) ⟨hsa, hba⟩ hss hbs hnd'
  refine ⟨{ heap with ph_root := some (twoPass key a ca s).1 },
    setList (setParent m1 (twoPass key a ca s).1 none) (twoPass key a ca s).1 none,
    (twoPass key a ca s).1, ?_, rfl, by simp, by simp⟩
  unfold ph_remove_at
  simp only [hroot, ne_eq, not_true_eq_false, if_false, hra, hrun, writeSlot, setParentOpt]

/-! ## `ph_decrease_root` with the children ordered among themselves -/

/-- The caller may have changed the key of the root in any way: it suffices
that the child forest is heap ordered under the new keys below some bound. -/
theorem ph_decrease_root_rep {heap : PH_HEAP} {key : Nat → Int} (hcmp : CmpOK heap key)
    {m : Mem} {r : Nat} {c : Forest} (fuel : Nat) {lb : Int}
    (hroot : heap.ph_root = some r) (ht : TreeAt m r c) (hn : (r :: c.nodes).Nodup)
    (ho : HeapOrd key lb c) (hfuel : c.nodes.length < fuel) :
    ∃ m', ph_decrease_root fuel heap m =
        some ({ heap with ph_root := some (twoPass key r .nil c).1 }, m') ∧
      HeapRep key { heap with ph_root := some (twoPass key r .nil c).1 } m'
        (twoPass key r .nil c).1 (twoPass key r .nil c).2 ∧
      ((twoPass key r .nil c).1 :: (twoPass key r .nil c).2.nodes).Perm (r :: c.nodes) ∧
      (∀ y, y ∉ r :: c.nodes → m' y = m y) := by
  obtain ⟨hsh, hbk⟩ := ht
  obtain ⟨hr_c, hcn⟩ := List.nodup_cons.1 hn
  have hn' : (r :: Forest.nil.nodes ++ c.nodes).Nodup := by simpa [Forest.nodes] using hn
  obtain ⟨m', hrun, ht', hfr⟩ := @extract_list_spec heap key hcmp
    (setChild (setList m r (m r).ph_child) r none) r .nil c fuel hfuel
    ⟨by simp [Shape], trivial⟩
    (by
      rw [setChild_list, setList_list, if_pos rfl, Shape_setChild hr_c, Shape_setList hr_c]
      exact hsh)
    (by rw [Back_setChild, Back_setList]; exact hbk)
    hn'
  have hperm : ((twoPass key r .nil c).1 :: (twoPass key r .nil c).2.nodes).Perm
      (r :: c.nodes) := by
    simpa [Forest.nodes] using twoPass_perm key r .nil c
  have hord : HeapOrd key (min (key r) lb) (.node r .nil c) :=
    ⟨min_le_left _ _, trivial, HeapOrd_mono c _ _ (min_le_right _ _) ho⟩
  refine ⟨m', ?_, ⟨rfl, ht', hperm.nodup_iff.2 hn, (twoPass_ord hord).2⟩, hperm, ?_⟩
  · unfold ph_decrease_root __ph_decrease_root
    simp only [hroot, hrun]
  · intro y hy
    simp only [List.mem_cons, not_or] at hy
    rw [hfr y (by simpa [Forest.nodes] using hy), setChild_of_ne _ _ _ _ hy.1,
      setList_of_ne _ _ _ _ hy.1]

/-- On a root without children `ph_decrease_root` stores `NULL` in the list
field of the root and nothing else. -/
theorem ph_decrease_root_childless (heap : PH_HEAP) (m : Mem) (r fuel : Nat)
    (hroot : heap.ph_root = some r) (hc : (m r).ph_child = none) :
    ph_decrease_root (fuel + 1) heap m = some ({ heap with ph_root := some r }, setList m r none) := by
  have e : setChild (setList m r none) r none = setList m r none := by
    funext i
    apply node_ext
    · simp
    · by_cases h : i = r
      · simp [h, hc]
      · simp [h]
    · simp
  unfold ph_decrease_root __ph_decrease_root __ph_extract_list
  simp only [hroot, hc, e]
  rw [extract_pass1]
  simp only [setList_list, if_true]
  rw [extract_pass2]

/-! ## `ph_push` on a node with empty child and list fields -/

theorem ph_push_rep_links {heap : PH_HEAP} {key : Nat → Int} (hcmp : CmpOK heap key)
    {m : Mem} {r n : Nat} {c : Forest}
    (h : HeapRep key heap m r c) (hl : (m r).ph_list = none)
    (hzc : (m n).ph_child = none) (hzl : (m n).ph_list = none)
    (hn : n ∉ r :: c.nodes) :
    HeapRep key (ph_push heap m n).1 (ph_push heap m n).2
        (link key n .nil r c).1 (link key n .nil r c).2 := by
  obtain ⟨hroot, ht, hnd, hord⟩ := h
  have hnr : n ≠ r := fun e => hn (by simp [e])
  have hnc : n ∉ c.nodes := fun e => hn (by simp [e])
  have hrc : r ∉ c.nodes := (List.nodup_cons.1 hnd).1
  have hhd : (m r).ph_child ≠ some n := by
    rw [Shape_head ht.1]; intro e; exact hnc (head_mem_nodes e)
  by_cases hlt : key r < key n
  · have hsw : PH_ISGREATER heap r n = true := (isGreater_iff hcmp r n).2 hlt
    rw [ph_push_mem_keep hroot hsw hzl hhd, link_push]
    simp only [hlt, if_true]
    have hnd2 : (r :: c.nodes ++ n :: Forest.nil.nodes).Nodup := by
      have e : r :: c.nodes ++ n :: Forest.nil.nodes = (r :: c.nodes) ++ [n] := by
        simp [Forest.nodes]
      rw [e]
      exact List.nodup_append.2 ⟨hnd, List.nodup_singleton n, by
        intro x hx hx'; simp only [List.mem_singleton] at hx'; subst hx'; exact hn hx⟩
    have htn : TreeAt m n .nil := ⟨by simp [Shape, hzc], trivial⟩
    refine ⟨hroot, linkMem_tree_setParent ht htn hnd2, ?_, ?_⟩
    · simp only [Forest.nodes, List.nil_append, List.nodup_cons, List.mem_cons, not_or]
      exact ⟨⟨Ne.symm hnr, hrc⟩, hnc, (List.nodup_cons.1 hnd).2⟩
    · exact ⟨le_of_lt hlt, trivial, hord⟩
  · have hsw : PH_ISGREATER heap r n = false := by
      rw [← Bool.not_eq_true, isGreater_iff hcmp r n]; exact hlt
    have hrun : ph_push heap m n =
        ({ heap with ph_root := some n }, setParent (setChild m n (some r)) r (some n)) := by
      unfold ph_push
      simp only [hroot, hsw, Bool.false_eq_true, if_false]
    rw [hrun, link_push]
    simp only [hlt, if_false]
    refine ⟨rfl, ⟨?_, ?_⟩, ?_, ?_⟩
    · refine ⟨by simp, ?_, ?_⟩
      · rw [Shape_setParent, setParent_child, setChild_child, if_neg (Ne.symm hnr),
          Shape_setChild hnc]
        exact ht.1
      · simp [Shape, hnr, hl]
    · refine ⟨by simp, ?_, trivial⟩
      rw [Back_setParent hrc, Back_setChild]; exact ht.2
    · simp only [Forest.nodes, List.append_nil, List.nodup_cons, List.mem_cons, not_or]
      exact ⟨⟨hnr, hnc⟩, hrc, (List.nodup_cons.1 hnd).2⟩
    · exact ⟨not_lt.mp hlt, hord, trivial⟩

/-- The prior parent field of the pushed node influences nothing but the
parent field of a node that becomes the root. -/
theorem ph_push_parent_indep (heap : PH_HEAP) (m : Mem) (n : Nat) (p : Option Nat) :
    (ph_push heap (setParent m n p) n).1 = (ph_push heap m n).1 ∧
    ∀ y, ((ph_push heap (setParent m n p) n).2 y).ph_child = ((ph_push heap m n).2 y).ph_child ∧
      ((ph_push heap (setParent m n p) n).2 y).ph_list = ((ph_push heap m n).2 y).ph_list ∧
      ((ph_push heap m n).1.ph_root ≠ some y →
        (ph_push heap (setParent m n p) n).2 y = (ph_push heap m n).2 y) := by
  unfold ph_push
  cases hr : heap.ph_root with
  | none =>
    refine ⟨rfl, fun y => ⟨by simp, by simp, fun hy => ?_⟩⟩
    exact setParent_of_ne _ _ _ _ (fun e => hy (by rw [e]))
  | some r =>
    simp only [setParent_child]
    cases hsw : PH_ISGREATER heap r n
    · simp only [Bool.false_eq_true, if_false]
      refine ⟨trivial, fun y => ⟨by simp, by simp, fun hy => ?_⟩⟩
      have hyn : y ≠ n := fun e => hy (by rw [e])
      apply node_ext <;> simp [hyn]
    · simp only [if_true]
      refine ⟨trivial, fun y => ?_⟩
      have e : ∀ (m1 m2 : Mem), (∀ z, (m1 z).ph_list = (m2 z).ph_list) →
          (∀ z, (m1 z).ph_child = (m2 z).ph_child) →
          (∀ z, z ≠ n → (m1 z).ph_parent = (m2 z).ph_parent) →
          setParent (setChild m1 r (some n)) n (some r) y =
            setParent (setChild m2 r (some n)) n (some r) y := by
        intro m1 m2 h1 h2 h3
        apply node_ext
        · simp [h1]
        · simp [h2]
        · by_cases hy : y = n
          · simp [hy]
          · simp [hy, h3 y hy]
      have heq : setParent (setChild
            (match (m r).ph_child with
              | some c => setParent (setList (setParent m n p) n (some c)) c (some n)
              | none => setParent m n p) r (some n)) n (some r) y =
          setParent (setChild
            (match (m r).ph_child with
              | some c => setParent (setList m n (some c)) c (some n)
              | none => m) r (some n)) n (some r) y := by
        apply e
        · intro z; cases (m r).ph_child <;> simp
        · intro z; cases (m r).ph_child <;> simp
        · intro z hz
          cases (m r).ph_child with
          | none => simp [hz]
          | some c => simp [hz]
      exact ⟨congrArg PH_NODE.ph_child heq, congrArg PH_NODE.ph_list heq, fun _ => heq⟩

/-! ## `ph_push_raw` on stale fields -/

/-- Function `ph_push_raw` run on a store with stale fields and run on the
cleaned store give the same root and the same link fields, except for the list
and parent field of the surviving root, which are left as they were. -/
theorem ph_push_raw_clean (heap : PH_HEAP) (m : Mem) (n : Nat)
    (hn : heap.ph_root ≠ some n)
    (hself : ∀ r, heap.ph_root = some r → (m r).ph_child ≠ some r) :
    (ph_push_raw heap m n).1 = (ph_push_raw heap (cleanFor heap m n) n).1 ∧
    (∀ y, ((ph_push_raw heap m n).2 y).ph_child =
        ((ph_push_raw heap (cleanFor heap m n) n).2 y).ph_child) ∧
    (∀ y, (ph_push_raw heap m n).1.ph_root ≠ some y →
        (ph_push_raw heap m n).2 y = (ph_push_raw heap (cleanFor heap m n) n).2 y) ∧
    (∀ y, (ph_push_raw heap m n).1.ph_root = some y →
        ((ph_push_raw heap m n).2 y).ph_list = (m y).ph_list ∧
        ((ph_push_raw heap m n).2 y).ph_parent = (m y).ph_parent) := by
  unfold ph_push_raw
  cases hr : heap.ph_root with
  | none =>
    simp only []
    refine ⟨trivial, fun y => ?_, fun y hy => ?_, fun y hy => ?_⟩
    · by_cases h : y = n
      · simp [h]
      · simp [h, cleanFor, hr]
    · have h : y ≠ n := fun e => hy (by rw [e])
      simp [setChild, cleanFor, h, hr]
    · simp
  | some r =>
    have hrn : r ≠ n := fun e => hn (by rw [hr, e])
    have hnr : n ≠ r := Ne.symm hrn
    have hcr : (cleanFor heap m n r).ph_child = (m r).ph_child := by
      simp [cleanFor, hrn, hr]
    have hco : ∀ y, y ≠ n → y ≠ r → cleanFor heap m n y = m y := by
      intro y h1 h2
      have : ¬ r = y := fun e => h2 e.symm
      simp [cleanFor, h1, hr, this]
    have hcc : ∀ y, y ≠ n → (cleanFor heap m n y).ph_child = (m y).ph_child := by
      intro y h1
      by_cases h2 : y = r
      · rw [h2]; exact hcr
      · rw [hco y h1 h2]
    simp only [hcr]
    cases hsw : PH_ISGREATER heap r n
    · simp only [Bool.false_eq_true, if_false]
      refine ⟨trivial, fun y => ?_, fun y hy => ?_, fun y hy => ?_⟩
      · by_cases h : y = n
        · simp [h]
        · simp [h, hcc y h]
      · have h : y ≠ n := fun e => hy (by rw [e])
        by_cases h2 : y = r
        · subst h2
          apply node_ext
          · simp
          · simp [h, hcr]
          · simp
        · simp [setChild, setList, setParent, h, h2, hco y h h2]
      · have h : y = n := (Option.some.inj hy).symm
        subst h
        simp [hnr]
    · simp only [if_true]
      have hchr : (m r).ph_child ≠ some r := hself r hr
      refine ⟨trivial, fun y => ?_, fun y hy => ?_, fun y hy => ?_⟩
      · by_cases h : y = n
        · simp [h]
        · by_cases h2 : y = r
          · simp [h2, hrn]
          · simp [h, h2, hcc y h]
      · have h2 : y ≠ r := fun e => hy (by rw [hr, e])
        by_cases h : y = n
        · subst h
          apply node_ext
          · simp
          · simp
          · simp
        · apply node_ext
          · simp [h, hco y h h2]
          · simp [h, h2, hco y h h2]
          · simp [h, setParentOpt_parent, hco y h h2]
      · have h : y = r := by
          have := hy
          rw [hr] at this
          exact (Option.some.inj this).symm
        subst h
        refine ⟨by simp [hrn], ?_⟩
        simp [hrn, setParentOpt_parent, hchr]

/-! ## Membership needs the shape only -/

theorem Member_iff_shape {heap : PH_HEAP} {m : Mem} {r : Nat} {c : Forest}
    (hroot : heap.ph_root = some r) (hs : Shape m (m r).ph_child c) (x : Nat) :
    Member m heap.ph_root x ↔ x ∈ r :: c.nodes := by
  constructor
  · rintro ⟨r', hr', hx⟩
    rw [hroot] at hr'
    have e : r = r' := Option.some.inj hr'
    subst e
    rcases hx with rfl | hx
    · exact List.mem_cons_self _ _
    · exact List.mem_cons_of_mem _ (Reach_mem hx c hs)
  · intro hx
    refine ⟨r, hroot, ?_⟩
    rcases List.mem_cons.1 hx with e | e
    · exact Or.inl e
    · exact Or.inr (mem_Reach c _ x hs e)

theorem setList_none_self (m : Mem) (r : Nat) (h : (m r).ph_list = none) :
    setList m r none = m := by
  funext i
  apply node_ext
  · by_cases hi : i = r
    · simp [hi, h]
    · simp [hi]
  · simp
  · simp

theorem run_empty_noop (fuel : Nat) (heap : PH_HEAP) (m : Mem) (hroot : heap.ph_root = none) :
    ∀ (ops : List EmptyOp) (log : List Nat), run_empty fuel ops heap m log = some (heap, m, log) := by
  have hpop : ph_pop fuel heap m = some (heap, m) := by
    unfold ph_pop; simp only [hroot]
  have hdes : ph_destroy_heap fuel heap m = some (heap, m, []) := by
    unfold ph_destroy_heap; simp only [hroot]
  intro ops
  induction ops with
  | nil => intro log; rfl
  | cons op rest ih =>
    intro log
    cases op with
    | pop =>
      rw [run_empty]
      simp only [hpop]
      exact ih log
    | destroy =>
      rw [run_empty]
      simp only [hdes, List.append_nil]
      exact ih log

/-! ## The pairing merge reads the keys of the tree roots only -/

theorem link_congr {key key' : Nat → Int} (a : Nat) (ca : Forest) (b : Nat) (cb : Forest)
    (ha : key' a = key a) (hb : key' b = key b) :
    link key' a ca b cb = link key a ca b cb := by
  unfold link
  rw [ha, hb]

theorem link_root (key : Nat → Int) (a : Nat) (ca : Forest) (b : Nat) (cb : Forest) :
    (link key a ca b cb).1 = a ∨ (link key a ca b cb).1 = b := by
  unfold link
  split
  · exact Or.inr rfl
  · exact Or.inl rfl

theorem pass1_congr {key key' : Nat → Int} (s : Forest) :
    ∀ (stk : List (Nat × Forest)) (a : Nat) (ca : Forest),
      key' a = key a → (∀ y ∈ s.nodes, key' y = key y) →
      pass1 key' stk a ca s = pass1 key stk a ca s := by
  induction s using Forest.pairInduction with
  | h0 => intro stk a ca _ _; rfl
  | h1 b cb =>
    intro stk a ca ha hs
    simp only [pass1]
    rw [link_congr a ca b cb ha (hs b (by simp [Forest.nodes]))]
  | h2 b cb c cc s ih =>
    intro stk a ca ha hs
    simp only [pass1]
    rw [link_congr a ca b cb ha (hs b (by simp [Forest.nodes]))]
    exact ih _ c cc (hs c (by simp [Forest.nodes]))
      (fun y hy => hs y (by simp [Forest.nodes, hy]))

theorem pass2_congr {key key' : Nat → Int} (stk : List (Nat × Forest)) :
    ∀ (r : Nat) (cr : Forest), key' r = key r → (∀ e ∈ stk, key' e.1 = key e.1) →
      pass2 key' stk r cr = pass2 key stk r cr := by
  induction stk with
  | nil => intro r cr _ _; rfl
  | cons e rest ih =>
    intro r cr hr hs
    have he := hs e (List.mem_cons_self _ _)
    have hl := link_congr r cr e.1 e.2 hr he
    have step : ∀ (k : Nat → Int), pass2 k (e :: rest) r cr =
        pass2 k rest (link k r cr e.1 e.2).1 (link k r cr e.1 e.2).2 := fun _ => rfl
    rw [step key', step key, hl]
    refine ih _ _ ?_ (fun e' he' => hs e' (List.mem_cons_of_mem _ he'))
    rcases link_root key r cr e.1 e.2 with h | h <;> rw [h] <;> assumption

theorem mem_stkNodes {stk : List (Nat × Forest)} {e : Nat × Forest} (h : e ∈ stk) :
    e.1 ∈ stkNodes stk :=
  (stk_fst_sublist stk).subset (List.mem_map_of_mem Prod.fst h)

/-- The result of the two pass merge is the same for any two key assignments
that agree on the nodes of the list. -/
theorem twoPass_congr {key key' : Nat → Int} (a : Nat) (ca s : Forest)
    (h : ∀ y ∈ a :: ca.nodes ++ s.nodes, key' y = key y) :
    twoPass key' a ca s = twoPass key a ca s := by
  have ha : key' a = key a := h a (by simp)
  have hs : ∀ y ∈ s.nodes, key' y = key y := fun y hy => h y (by simp [hy])
  unfold twoPass
  simp only []
  rw [pass1_congr s [] a ca ha hs]
  have hperm := pass1_perm key s [] a ca
  apply pass2_congr
  · exact h _ (by
      have := hperm.subset (List.mem_cons_self _ _)
      simpa [stkNodes] using this)
  · intro e he
    exact h _ (by
      have := hperm.subset (List.mem_cons_of_mem _
        (List.mem_append_right _ (mem_stkNodes he)))
      simpa [stkNodes] using this)

/-- Removal of `x` never looks at the key of `x`. -/
theorem removeF_congr {key key' : Nat → Int} (x : Nat) (hk : ∀ y, y ≠ x → key' y = key y)
    (t : Forest) : t.nodes.Nodup → removeF key' x t = removeF key x t := by
  induction t with
  | nil => intro _; rfl
  | node a c s ihc ihs =>
    intro hn
    simp only [Forest.nodes, List.nodup_cons, List.mem_append, not_or] at hn
    obtain ⟨⟨hac, _⟩, hcs⟩ := hn
    obtain ⟨hcn, hsn, _⟩ := List.nodup_append.1 hcs
    by_cases hax : a = x
    · subst hax
      cases c with
      | nil => simp [removeF]
      | node b cb sb =>
        simp only [removeF, if_true]
        rw [twoPass_congr b cb sb (fun y hy => hk y (fun e => hac (by
          rw [← e]; simpa [Forest.nodes] using hy)))]
    · simp only [removeF, if_neg hax]
      rw [ihc hcn, ihs hsn]

theorem removeHeap_congr {key key' : Nat → Int} (x : Nat) (hk : ∀ y, y ≠ x → key' y = key y)
    {r : Nat} {c : Forest} (hn : (r :: c.nodes).Nodup) :
    removeHeap key' x r c = removeHeap key x r c := by
  obtain ⟨hrc, hcn⟩ := List.nodup_cons.1 hn
  unfold removeHeap
  by_cases hrx : r = x
  · subst hrx
    simp only [if_true]
    cases c with
    | nil => rfl
    | node b cb sb =>
      simp only []
      rw [twoPass_congr b cb sb (fun y hy => hk y (fun e => hrc (by
        rw [← e]; simpa [Forest.nodes] using hy)))]
  · simp only [if_neg hrx]
    rw [removeF_congr x hk c hcn]

/-! ## `ph_decrease_at` with the resulting tree made explicit -/

/-- After any change of the key of member `x`, `ph_decrease_at` yields the
tree obtained by removing `x` (under the old keys) and pairing the single
node `x` with what is left. -/
theorem ph_decrease_at_exact {heap : PH_HEAP} {key key' : Nat → Int} (hcmp : CmpOK heap key')
    {m : Mem} {r x : Nat} {c : Forest} (fuel : Nat)
    (hk : ∀ y, y ≠ x → key' y = key y)
    (hwf : HeapRep key heap m r c) (hx : x ∈ r :: c.nodes) (hfuel : c.nodes.length ≤ fuel) :
    ∃ heap' m', ph_decrease_at fuel heap m x = some (heap', m') ∧
      heap'.ph_cmp = heap.ph_cmp ∧
      (∀ y, y ∉ r :: c.nodes → m' y = m y) ∧
      HeapRep key' heap' m' (pushHeap key' x (removeHeap key x r c)).1
        (pushHeap key' x (removeHeap key x r c)).2 ∧
      ((pushHeap key' x (removeHeap key x r c)).1 ::
        (pushHeap key' x (removeHeap key x r c)).2.nodes).Perm (r :: c.nodes) := by
  obtain ⟨hroot, ht, hn, ho⟩ := hwf
  obtain ⟨heap1, m1, hrun, hc1, hr1, ht1, hfr1⟩ :=
    ph_remove_at_rep hcmp fuel hroot ht hn hx hfuel
  have hperm := removeHeap_perm key' hn hx
  have hord := removeHeap_ord hk hn ho
  have hcmp1 : CmpOK heap1 key' := fun a b => by rw [hc1]; exact hcmp a b
  rw [← removeHeap_congr x hk hn]
  cases hrem : removeHeap key' x r c with
  | none =>
    rw [hrem] at hr1 hperm
    have hroot1 : heap1.ph_root = none := by simpa using hr1
    obtain ⟨hpush, hrep⟩ := ph_push_raw_empty key' m1 x hroot1
    have hp : [x].Perm (r :: c.nodes) := by simpa using hperm
    refine ⟨{ heap1 with ph_root := some x }, setChild m1 x none, ?_, hc1, ?_, hrep, ?_⟩
    · unfold ph_decrease_at
      simp only [hrun, hpush]
    · intro y hy
      have hyx : y ≠ x := fun e => hy (hp.subset (by simp [e]))
      rw [setChild_of_ne _ _ _ _ hyx, hfr1 y hy]
    · simpa [pushHeap, Forest.nodes] using hp
  | some p =>
    rw [hrem] at hr1 hperm
    simp only [Option.map_some', Option.getD_some] at hr1 hperm
    have hrep1 : HeapRep key' heap1 m1 p.1 p.2 :=
      ⟨hr1, ht1 p hrem, (List.nodup_cons.1 (hperm.nodup_iff.2 hn)).2, hord p hrem⟩
    have hx1 : x ∉ p.1 :: p.2.nodes := (List.nodup_cons.1 (hperm.nodup_iff.2 hn)).1
    obtain ⟨hrep, hc2, hfr2⟩ := ph_push_raw_rep hcmp1 hrep1 hx1
    have hlp := link_perm key' x .nil p.1 p.2
    refine ⟨_, _, ?_, hc2.trans hc1, ?_, hrep, ?_⟩
    · unfold ph_decrease_at
      simp only [hrun]
    · intro y hy
      have hy1 : y ∉ x :: p.1 :: p.2.nodes := fun h => hy (hperm.subset h)
      rw [hfr2 y hy1, hfr1 y hy]
    · have hlp' : ((link key' x .nil p.1 p.2).1 :: (link key' x .nil p.1 p.2).2.nodes).Perm
          (x :: p.1 :: p.2.nodes) := by simpa [Forest.nodes] using hlp
      exact hlp'.trans hperm

/-! ## The claims about the parent-pointer variant -/

/-- C1 (sort correctness, parent-pointer variant): starting from an empty heap
whose comparator orders nodes by key, pushing distinct zero-initialised nodes
with `ph_push` and then reading the root and calling `ph_pop` until the root
is empty terminates, leaves the heap empty and yields exactly the pushed
nodes, each once, with keys in nondecreasing order; `sort_data` prints the
same sequence. -/
theorem sort_correctness (heap : PH_HEAP) (key : Nat → Int) (m : Mem) (nodes : List Nat)
    (fuel : Nat) (hcmp : CmpOK heap key) (hempty : heap.ph_root = none) (hnd : nodes.Nodup)
    (hz : ∀ n ∈ nodes, m n = zeroNode) (hfuel : nodes.length + 1 < fuel) :
    ∃ hf mf out,
      pop_all fuel (push_all heap m nodes).1 (push_all heap m nodes).2 = some (hf, mf, out) ∧
      hf.ph_root = none ∧ out.length = nodes.length ∧ out.Perm nodes ∧
      (out.map key).Perm (nodes.map key) ∧ (out.map key).Sorted (· ≤ ·) ∧
      ∃ hf' mf', sort_data fuel (push_all heap m nodes).1 (push_all heap m nodes).2 =
        some (hf', mf', out) ∧ hf'.ph_root = none := by
  cases nodes with
  | nil =>
    obtain ⟨fuel, rfl⟩ : ∃ k, fuel = k + 1 := ⟨fuel - 1, by simp at hfuel; omega⟩
    refine ⟨heap, m, [], ?_, hempty, rfl, List.Perm.refl _, List.Perm.refl _, by simp,
      heap, m, ?_, hempty⟩
    · simp [push_all, pop_all, hempty]
    · simp [push_all, sort_data, hempty]
  | cons n rest =>
    obtain ⟨hn_rest, hnd_rest⟩ := List.nodup_cons.1 hnd
    have hzn : m n = zeroNode := hz n (List.mem_cons_self _ _)
    obtain ⟨hrun0, hrep0⟩ := ph_push_empty key m n hempty (by rw [hzn]; rfl)
    obtain ⟨r, c, hrep, hperm, _, hc⟩ := push_all_rep hcmp rest
      { heap with ph_root := some n } m n .nil rfl hrep0 (by rw [hzn]; rfl) hnd_rest
      (by intro x hx hmem; simp [Forest.nodes] at hmem; subst hmem; exact hn_rest hx)
      (fun x hx => hz x (List.mem_cons_of_mem _ hx))
    have hpa : push_all heap m (n :: rest) = push_all { heap with ph_root := some n } m rest := by
      rw [push_all, hrun0]
    rw [hpa]
    have hperm' : (r :: c.nodes).Perm (n :: rest) := by simpa [Forest.nodes] using hperm
    have hlen : c.nodes.length = rest.length := by simpa using hperm'.length_eq
    obtain ⟨mf, hrun, _⟩ := pop_all_spec hcmp c.nodes.length fuel _ _ r c hc (le_refl _)
      (by simp at hfuel; omega) hrep
    have hps := popSeq_perm key c.nodes.length r c (le_refl _)
    obtain ⟨mf', hrun'⟩ := @sort_loop_spec
      (push_all { heap with ph_root := some n } m rest).1 key
      (fun x y => by rw [hc]; exact hcmp x y) c.nodes.length fuel
      (push_all { heap with ph_root := some n } m rest).2 r c [] (le_refl _)
      (by simp at hfuel; omega) hrep.2.1 hrep.2.2.1
    refine ⟨{ (push_all { heap with ph_root := some n } m rest).1 with ph_root := none }, mf,
      popSeq key c.nodes.length r c, hrun, rfl, ?_, hps.trans hperm',
      (hps.trans hperm').map key, popSeq_sorted key _ r c (le_refl _) hrep.2.2.2,
      { (push_all { heap with ph_root := some n } m rest).1 with ph_root := none }, mf', ?_, rfl⟩
    · simpa using (hps.trans hperm').length_eq
    · unfold sort_data
      simp only [hrep.1, hrun', List.nil_append]

/-- Witness for C1: `insert_data` on an array of three zero-initialised nodes
with keys 3, 1, 2 under the comparator of pheap_sort.c, then `sort_data`. -/
theorem sort_correctness_witness :
    ∃ hf mf out,
      pop_all 5 (insert_data ⟨none, ph_cmp (keysOf [3, 1, 2])⟩ zeroMem 0 2).1
        (insert_data ⟨none, ph_cmp (keysOf [3, 1, 2])⟩ zeroMem 0 2).2 = some (hf, mf, out) ∧
      hf.ph_root = none ∧ out.length = [0, 1, 2].length ∧ out.Perm [0, 1, 2] ∧
      (out.map (keysOf [3, 1, 2])).Perm ([0, 1, 2].map (keysOf [3, 1, 2])) ∧
      (out.map (keysOf [3, 1, 2])).Sorted (· ≤ ·) ∧
      ∃ hf' mf', sort_data 5 (insert_data ⟨none, ph_cmp (keysOf [3, 1, 2])⟩ zeroMem 0 2).1
        (insert_data ⟨none, ph_cmp (keysOf [3, 1, 2])⟩ zeroMem 0 2).2 =
        some (hf', mf', out) ∧ hf'.ph_root = none :=
  sort_correctness ⟨none, ph_cmp (keysOf [3, 1, 2])⟩ (keysOf [3, 1, 2]) zeroMem [0, 1, 2] 5
    (ph_cmp_ok _ keysOf_sample_bound) rfl (by decide) (fun _ _ => rfl) (by decide)

/-- C2 (single pop step): on a non-empty well-formed heap `ph_pop` terminates
and removes exactly the old root: the nodes reachable from the new root are
the old members other than the root, again forming a well-formed heap (each
reachable once), the new root has a minimum key among them, nodes outside
the heap are not written, and a root without children leaves the heap
empty. -/
theorem ph_pop_correct (heap : PH_HEAP) (key : Nat → Int) (m : Mem) (r : Nat) (c : Forest)
    (fuel : Nat) (hcmp : CmpOK heap key) (hwf : HeapRep key heap m r c)
    (hfuel : c.nodes.length ≤ fuel) :
    ∃ heap' m', ph_pop fuel heap m = some (heap', m') ∧ heap'.ph_cmp = heap.ph_cmp ∧
      (∀ x, x ∉ c.nodes → m' x = m x) ∧
      (∀ x, Member m' heap'.ph_root x ↔ x ∈ c.nodes) ∧
      (c = .nil → heap'.ph_root = none) ∧
      (c ≠ .nil → ∃ r' c', HeapRep key heap' m' r' c' ∧ (r' :: c'.nodes).Perm c.nodes ∧
        ∀ x ∈ c.nodes, key r' ≤ key x) := by
  cases c with
  | nil =>
    refine ⟨_, m, ph_pop_nil fuel hwf, rfl, fun _ _ => rfl, ?_, fun _ => rfl,
      fun h => absurd rfl h⟩
    intro x
    simp [Forest.nodes, not_Member_none]
  | node a ca s =>
    obtain ⟨m', hrun, hrep, hfr⟩ := ph_pop_node hcmp fuel hwf hfuel
    have hp := twoPass_perm key a ca s
    have hp' : ((twoPass key a ca s).1 :: (twoPass key a ca s).2.nodes).Perm
        (Forest.node a ca s).nodes := by simpa [Forest.nodes] using hp
    refine ⟨_, m', hrun, rfl, hfr, fun x => (Member_iff hrep x).trans hp'.mem_iff,
      fun h => (by cases h), fun _ => ⟨_, _, hrep, hp', ?_⟩⟩
    intro x hx
    have hx' := hp'.symm.subset hx
    rcases List.mem_cons.1 hx' with rfl | hx'
    · exact le_refl _
    · exact HeapOrd_lb _ _ hrep.2.2.2 x hx'

/-- Witness for C2: the heap with root 0 (key 1) and children 2 (key 2) and
1 (key 3). -/
theorem ph_pop_correct_witness :
    ∃ heap' m', ph_pop 2 ⟨some 0, ph_cmp (keysOf [1, 3, 2])⟩
        (fun i => if i = 0 then ⟨none, some 2, none⟩ else if i = 2 then ⟨some 1, none, some 0⟩
          else ⟨none, none, some 2⟩) = some (heap', m') ∧
      heap'.ph_cmp = ph_cmp (keysOf [1, 3, 2]) ∧
      (∀ x, x ∉ (Forest.node 2 .nil (.node 1 .nil .nil)).nodes → m' x =
        (fun i => if i = 0 then (⟨none, some 2, none⟩ : PH_NODE)
          else if i = 2 then ⟨some 1, none, some 0⟩ else ⟨none, none, some 2⟩) x) ∧
      (∀ x, Member m' heap'.ph_root x ↔ x ∈ (Forest.node 2 .nil (.node 1 .nil .nil)).nodes) ∧
      (Forest.node 2 .nil (.node 1 .nil .nil) = .nil → heap'.ph_root = none) ∧
      (Forest.node 2 .nil (.node 1 .nil .nil) ≠ .nil →
        ∃ r' c', HeapRep (keysOf [1, 3, 2]) heap' m' r' c' ∧
          (r' :: c'.nodes).Perm (Forest.node 2 .nil (.node 1 .nil .nil)).nodes ∧
          ∀ x ∈ (Forest.node 2 .nil (.node 1 .nil .nil)).nodes,
            keysOf [1, 3, 2] r' ≤ keysOf [1, 3, 2] x) :=
  ph_pop_correct ⟨some 0, ph_cmp (keysOf [1, 3, 2])⟩ (keysOf [1, 3, 2]) _ 0
    (.node 2 .nil (.node 1 .nil .nil)) 2
    (ph_cmp_ok _ (fun a => by rcases a with _ | _ | _ | a <;> simp [keysOf]))
    (by decide) (by decide)

/-- C3 (failing input): after push 1, push 3, push 2, pop, push 0 with
`ph_push` on zero-initialised nodes 0..3, the node holding 3 is both the
child and the sibling of the node holding 2, and after the three pops that
should empty the heap, and after any further pops tried here, the root is
still the node holding 3. -/
theorem interleaved_push_pop_breaks :
    (interleaved_run 0).map (fun s => (s.1.ph_root, (s.2 3).ph_child, (s.2 2).ph_child,
        (s.2 2).ph_list)) = some (some 3, some 2, some 1, some 1) ∧
      (interleaved_run 1).map (fun s => s.1.ph_root) = some (some 2) ∧
      (interleaved_run 2).map (fun s => s.1.ph_root) = some (some 1) ∧
      (interleaved_run 3).map (fun s => s.1.ph_root) = some (some 1) ∧
      (interleaved_run 4).map (fun s => s.1.ph_root) = some (some 1) ∧
      (interleaved_run 7).map (fun s => s.1.ph_root) = some (some 1) := by
  decide

/-- C4 (arbitrary removal): for a well-formed heap and any member `x` (the
root or not, with or without children and siblings) `ph_remove_at` terminates
and writes only member nodes; the root pointer becomes empty exactly when `x`
was the only member; otherwise the result is a well-formed heap (heap
ordered, parent fields consistent, every node reachable once) whose members
are the old members without `x`; full extraction then yields the remaining
nodes, each once, with keys in nondecreasing order. -/
theorem ph_remove_at_correct (heap : PH_HEAP) (key : Nat → Int) (m : Mem) (r x : Nat)
    (c : Forest) (fuel : Nat) (hcmp : CmpOK heap key) (hwf : HeapRep key heap m r c)
    (hx : x ∈ r :: c.nodes) (hfuel : c.nodes.length + 1 < fuel) :
    ∃ heap' m', ph_remove_at fuel heap m x = some (heap', m') ∧
      heap'.ph_cmp = heap.ph_cmp ∧
      (∀ y, y ∉ r :: c.nodes → m' y = m y) ∧
      (∀ y, Member m' heap'.ph_root y ↔ (y ∈ r :: c.nodes ∧ y ≠ x)) ∧
      (heap'.ph_root = none ↔ c = .nil) ∧
      (∀ r', heap'.ph_root = some r' →
        ∃ c', HeapRep key heap' m' r' c' ∧ (x :: r' :: c'.nodes).Perm (r :: c.nodes)) ∧
      ∃ hf mf out, pop_all fuel heap' m' = some (hf, mf, out) ∧ hf.ph_root = none ∧
        (x :: out).Perm (r :: c.nodes) ∧ (out.map key).Sorted (· ≤ ·) := by
  obtain ⟨heap', m', hrun, hc, hfr, hcase⟩ :=
    ph_remove_at_wf hcmp fuel (fun _ _ => rfl) hwf hx (by omega)
  refine ⟨heap', m', hrun, hc, hfr, ?_⟩
  rcases hcase with ⟨hroot, hcnil, hrx⟩ | ⟨r', c', hrep, hperm⟩
  · refine ⟨?_, ⟨fun _ => hcnil, fun _ => hroot⟩, ?_, ?_⟩
    · intro y
      rw [hroot, hcnil, hrx]
      simp [Forest.nodes, not_Member_none]
    · intro r' hr'; rw [hroot] at hr'; cases hr'
    · obtain ⟨fuel, rfl⟩ : ∃ k, fuel = k + 1 := ⟨fuel - 1, by omega⟩
      refine ⟨heap', m', [], ?_, hroot, ?_, by simp⟩
      · rw [pop_all]; simp only [hroot]
      · subst hcnil hrx; simp [Forest.nodes]
  · have hlen := hperm.length_eq
    simp only [List.length_cons] at hlen
    have hnd := hperm.nodup_iff.2 hwf.2.2.1
    refine ⟨?_, ⟨fun h => ?_, fun h => ?_⟩, ?_, ?_⟩
    · intro y
      rw [Member_iff hrep y]
      constructor
      · intro hy
        exact ⟨hperm.subset (List.mem_cons_of_mem _ hy),
          fun e => (List.nodup_cons.1 hnd).1 (e ▸ hy)⟩
      · rintro ⟨hy, hyx⟩
        rcases List.mem_cons.1 (hperm.symm.subset hy) with e | e
        · exact absurd e hyx
        · exact e
    · rw [hrep.1] at h; cases h
    · subst h; simp [Forest.nodes] at hlen
    · intro r'' hr''
      rw [hrep.1] at hr''
      cases hr''
      exact ⟨c', hrep, hperm⟩
    · obtain ⟨hf, mf, out, hpop, hroot, hp, hsorted, _⟩ :=
        pop_all_sorted (fun a b => by rw [hc]; exact hcmp a b) fuel hrep (by omega)
      exact ⟨hf, mf, out, hpop, hroot, (List.Perm.cons x hp).trans hperm, hsorted⟩

/-- Witness for C4: insert 4, 8, 2, 6, remove the node holding 8 (node 1);
full extraction yields the keys 2, 4, 6. -/
theorem ph_remove_at_correct_witness :
    (∃ heap' m', ph_remove_at 5 removeDemo.1 removeDemo.2 1 = some (heap', m') ∧
      heap'.ph_cmp = removeDemo.1.ph_cmp ∧
      (∀ y, y ∉ 2 :: (Forest.node 3 .nil (.node 0 (.node 1 .nil .nil) .nil)).nodes →
        m' y = removeDemo.2 y) ∧
      (∀ y, Member m' heap'.ph_root y ↔
        (y ∈ 2 :: (Forest.node 3 .nil (.node 0 (.node 1 .nil .nil) .nil)).nodes ∧ y ≠ 1)) ∧
      (heap'.ph_root = none ↔ Forest.node 3 .nil (.node 0 (.node 1 .nil .nil) .nil) = .nil) ∧
      (∀ r', heap'.ph_root = some r' →
        ∃ c', HeapRep removeKey heap' m' r' c' ∧
          (1 :: r' :: c'.nodes).Perm
            (2 :: (Forest.node 3 .nil (.node 0 (.node 1 .nil .nil) .nil)).nodes)) ∧
      ∃ hf mf out, pop_all 5 heap' m' = some (hf, mf, out) ∧ hf.ph_root = none ∧
        (1 :: out).Perm (2 :: (Forest.node 3 .nil (.node 0 (.node 1 .nil .nil) .nil)).nodes) ∧
        (out.map removeKey).Sorted (· ≤ ·)) ∧
    ((ph_remove_at 5 removeDemo.1 removeDemo.2 1).bind (fun s => pop_all 5 s.1 s.2)).map
        (fun s => s.2.2.map removeKey) = some [2, 4, 6] :=
  ⟨ph_remove_at_correct removeDemo.1 removeKey removeDemo.2 2 1
      (.node 3 .nil (.node 0 (.node 1 .nil .nil) .nil)) 5
      (ph_cmp_ok _ (keysOf_bounded _ _ _ (by decide) (by decide)))
      (by decide) (by decide) (by decide),
    by decide⟩

/-- C5 (decrease-key): for a well-formed heap and a member `x` whose key the
caller has just lowered in place (all other keys unchanged, the comparator
reading the new keys), `ph_decrease_at` terminates and yields a well-formed
heap under the new keys with the same members, each reachable once, whose
root key is at most the new key of `x` and at most the old minimum, so that
full extraction yields every member once with new keys nondecreasing. -/
theorem ph_decrease_at_correct (heap : PH_HEAP) (key key' : Nat → Int) (m : Mem) (r x : Nat)
    (c : Forest) (fuel : Nat) (hcmp : CmpOK heap key') (hwf : HeapRep key heap m r c)
    (hx : x ∈ r :: c.nodes) (hk : ∀ y, y ≠ x → key' y = key y) (hlow : key' x ≤ key x)
    (hfuel : c.nodes.length + 1 < fuel) :
    ∃ heap' m' r' c', ph_decrease_at fuel heap m x = some (heap', m') ∧
      heap'.ph_cmp = heap.ph_cmp ∧
      (∀ y, y ∉ r :: c.nodes → m' y = m y) ∧
      HeapRep key' heap' m' r' c' ∧ (r' :: c'.nodes).Perm (r :: c.nodes) ∧
      (∀ y, Member m' heap'.ph_root y ↔ y ∈ r :: c.nodes) ∧
      key' r' ≤ key' x ∧ key' r' ≤ key r ∧
      ∃ hf mf out, pop_all fuel heap' m' = some (hf, mf, out) ∧ hf.ph_root = none ∧
        out.Perm (r :: c.nodes) ∧ (out.map key').Sorted (· ≤ ·) := by
  obtain ⟨heap', m', r', c', hrun, hc, hfr, hrep, hperm⟩ :=
    ph_decrease_at_wf hcmp fuel hk hwf hx (by omega)
  have hlen := hperm.length_eq
  simp only [List.length_cons] at hlen
  obtain ⟨hf, mf, out, hpop, hroot, hp, hsorted, _⟩ :=
    pop_all_sorted (fun a b => by rw [hc]; exact hcmp a b) fuel hrep (by omega)
  have hmin : ∀ y ∈ r :: c.nodes, key' r' ≤ key' y := by
    intro y hy
    rcases List.mem_cons.1 (hperm.symm.subset hy) with e | e
    · rw [e]
    · exact HeapOrd_lb _ _ hrep.2.2.2 y e
  refine ⟨heap', m', r', c', hrun, hc, hfr, hrep, hperm,
    fun y => (Member_iff hrep y).trans hperm.mem_iff, hmin x hx, ?_, hf, mf, out, hpop,
    hroot, hp.trans hperm, hsorted⟩
  have hr := hmin r (List.mem_cons_self _ _)
  by_cases hrx : r = x
  · rw [hrx] at hr ⊢; exact le_trans hr hlow
  · rw [hk r hrx] at hr; exact hr

/-- Witness for C5: insert 10, 20, 30, lower the 30 (node 2) to 5; pops then
yield 5, 10, 20. -/
theorem ph_decrease_at_correct_witness :
    (∃ heap' m' r' c',
      ph_decrease_at 4 ⟨decDemo.1.ph_root, ph_cmp decKey2⟩ decDemo.2 2 = some (heap', m') ∧
      heap'.ph_cmp = ph_cmp decKey2 ∧
      (∀ y, y ∉ 0 :: (Forest.node 2 .nil (.node 1 .nil .nil)).nodes → m' y = decDemo.2 y) ∧
      HeapRep decKey2 heap' m' r' c' ∧
      (r' :: c'.nodes).Perm (0 :: (Forest.node 2 .nil (.node 1 .nil .nil)).nodes) ∧
      (∀ y, Member m' heap'.ph_root y ↔
        y ∈ 0 :: (Forest.node 2 .nil (.node 1 .nil .nil)).nodes) ∧
      decKey2 r' ≤ decKey2 2 ∧ decKey2 r' ≤ decKey 0 ∧
      ∃ hf mf out, pop_all 4 heap' m' = some (hf, mf, out) ∧ hf.ph_root = none ∧
        out.Perm (0 :: (Forest.node 2 .nil (.node 1 .nil .nil)).nodes) ∧
        (out.map decKey2).Sorted (· ≤ ·)) ∧
    ((ph_decrease_at 4 ⟨decDemo.1.ph_root, ph_cmp decKey2⟩ decDemo.2 2).bind
        (fun s => pop_all 4 s.1 s.2)).map (fun s => s.2.2.map decKey2) = some [5, 10, 20] :=
  ⟨ph_decrease_at_correct ⟨decDemo.1.ph_root, ph_cmp decKey2⟩ decKey decKey2 decDemo.2 0 2
      (.node 2 .nil (.node 1 .nil .nil)) 4
      (ph_cmp_ok _ (keysOf_bounded _ _ _ (by decide) (by decide)))
      (by decide) (by decide)
      (fun y hy => by
        rcases y with _ | _ | _ | y
        · rfl
        · rfl
        · exact absurd rfl hy
        · rfl)
      (by decide) (by decide),
    by decide⟩

/-- C6 (merge): for two well-formed heaps with disjoint members ordered by the
same keys, `ph_merge_heaps dst src` empties `src`; `dst` becomes a well-formed
heap on the union of the members whose root is the former root with the
smaller key (the source root on a tie) and whose first child is the other
former root, placed in front of the winner's previous children; nodes outside
both heaps are not written; an empty `src` leaves everything unchanged and an
empty `dst` takes over the root of `src`; full extraction of the result
yields every member once, keys nondecreasing. -/
theorem ph_merge_heaps_correct (dst src : PH_HEAP) (key : Nat → Int) (m : Mem) (rd rs : Nat)
    (cd cs : Forest) (fuel : Nat) (hcmp : CmpOK dst key) (hd : HeapRep key dst m rd cd)
    (hs : HeapRep key src m rs cs) (hdis : ∀ x ∈ rd :: cd.nodes, x ∉ rs :: cs.nodes)
    (hfuel : cd.nodes.length + cs.nodes.length + 2 < fuel) :
    (ph_merge_heaps dst src m).2.1.ph_root = none ∧
    (ph_merge_heaps dst src m).1.ph_cmp = dst.ph_cmp ∧
    HeapRep key (ph_merge_heaps dst src m).1 (ph_merge_heaps dst src m).2.2
      (if key rd < key rs then rd else rs)
      (if key rd < key rs then Forest.node rs cs cd else Forest.node rd cd cs) ∧
    (∀ x, x ∉ rs :: cs.nodes ++ rd :: cd.nodes → (ph_merge_heaps dst src m).2.2 x = m x) ∧
    (∀ x, Member (ph_merge_heaps dst src m).2.2 (ph_merge_heaps dst src m).1.ph_root x ↔
      (x ∈ rd :: cd.nodes ∨ x ∈ rs :: cs.nodes)) ∧
    (∀ s0 : PH_HEAP, s0.ph_root = none → ph_merge_heaps dst s0 m = (dst, s0, m)) ∧
    (∀ d0 : PH_HEAP, d0.ph_root = none →
      ph_merge_heaps d0 src m = ({ d0 with ph_root := some rs }, { src with ph_root := none }, m)) ∧
    ∃ hf mf out,
      pop_all fuel (ph_merge_heaps dst src m).1 (ph_merge_heaps dst src m).2.2 =
        some (hf, mf, out) ∧
      hf.ph_root = none ∧ out.Perm (rd :: cd.nodes ++ rs :: cs.nodes) ∧
      (out.map key).Sorted (· ≤ ·) := by
  obtain ⟨h1, h2, h3, h4⟩ := ph_merge_heaps_rep hcmp hd hs hdis
  have hcmp' : CmpOK (ph_merge_heaps dst src m).1 key := fun a b => by rw [h2]; exact hcmp a b
  have hperm := link_perm key rs cs rd cd
  obtain ⟨hf, mf, out, hrun, hroot, hp, hsorted, _⟩ := pop_all_sorted hcmp' fuel h3 (by
    have := hperm.length_eq
    simp only [List.length_cons, List.length_append] at this
    omega)
  have hmem : ∀ x, Member (ph_merge_heaps dst src m).2.2 (ph_merge_heaps dst src m).1.ph_root x ↔
      (x ∈ rd :: cd.nodes ∨ x ∈ rs :: cs.nodes) := fun x =>
    ((Member_iff h3 x).trans hperm.mem_iff).trans (List.mem_append.trans Or.comm)
  rw [link_merge] at h3
  refine ⟨by rw [h1], h2, h3, h4, hmem, ?_, ?_, hf, mf, out, hrun, hroot, ?_, hsorted⟩
  · intro s0 h0
    unfold ph_merge_heaps
    simp only [h0]
  · intro d0 h0
    unfold ph_merge_heaps
    simp only [hs.1, h0]
  · exact (hp.trans hperm).trans List.perm_append_comm

/-- Witness for C6: heaps built with `ph_push` from the keys 3, 7, 1 and
5, 2, 9; full extraction of the merge yields the keys 1, 2, 3, 5, 7, 9. -/
theorem ph_merge_heaps_correct_witness :
    ((ph_merge_heaps mergeA.1 mergeB.1 mergeB.2).2.1.ph_root = none ∧
    (ph_merge_heaps mergeA.1 mergeB.1 mergeB.2).1.ph_cmp = mergeA.1.ph_cmp ∧
    HeapRep mergeKey (ph_merge_heaps mergeA.1 mergeB.1 mergeB.2).1
      (ph_merge_heaps mergeA.1 mergeB.1 mergeB.2).2.2
      (if mergeKey 2 < mergeKey 4 then 2 else 4)
      (if mergeKey 2 < mergeKey 4
        then Forest.node 4 (.node 5 .nil (.node 3 .nil .nil)) (.node 0 (.node 1 .nil .nil) .nil)
        else Forest.node 2 (.node 0 (.node 1 .nil .nil) .nil) (.node 5 .nil (.node 3 .nil .nil))) ∧
    (∀ x, x ∉ 4 :: (Forest.node 5 .nil (.node 3 .nil .nil)).nodes ++
        2 :: (Forest.node 0 (.node 1 .nil .nil) .nil).nodes →
      (ph_merge_heaps mergeA.1 mergeB.1 mergeB.2).2.2 x = mergeB.2 x) ∧
    (∀ x, Member (ph_merge_heaps mergeA.1 mergeB.1 mergeB.2).2.2
        (ph_merge_heaps mergeA.1 mergeB.1 mergeB.2).1.ph_root x ↔
      (x ∈ 2 :: (Forest.node 0 (.node 1 .nil .nil) .nil).nodes ∨
        x ∈ 4 :: (Forest.node 5 .nil (.node 3 .nil .nil)).nodes)) ∧
    (∀ s0 : PH_HEAP, s0.ph_root = none →
      ph_merge_heaps mergeA.1 s0 mergeB.2 = (mergeA.1, s0, mergeB.2)) ∧
    (∀ d0 : PH_HEAP, d0.ph_root = none →
      ph_merge_heaps d0 mergeB.1 mergeB.2 =
        ({ d0 with ph_root := some 4 }, { mergeB.1 with ph_root := none }, mergeB.2)) ∧
    ∃ hf mf out,
      pop_all 9 (ph_merge_heaps mergeA.1 mergeB.1 mergeB.2).1
        (ph_merge_heaps mergeA.1 mergeB.1 mergeB.2).2.2 = some (hf, mf, out) ∧
      hf.ph_root = none ∧
      out.Perm (2 :: (Forest.node 0 (.node 1 .nil .nil) .nil).nodes ++
        4 :: (Forest.node 5 .nil (.node 3 .nil .nil)).nodes) ∧
      (out.map mergeKey).Sorted (· ≤ ·)) ∧
    (pop_all 9 (ph_merge_heaps mergeA.1 mergeB.1 mergeB.2).1
        (ph_merge_heaps mergeA.1 mergeB.1 mergeB.2).2.2).map (fun s => s.2.2.map mergeKey) =
      some [1, 2, 3, 5, 7, 9] :=
  ⟨ph_merge_heaps_correct mergeA.1 mergeB.1 mergeKey mergeB.2 2 4
      (.node 0 (.node 1 .nil .nil) .nil) (.node 5 .nil (.node 3 .nil .nil)) 9
      (ph_cmp_ok _ (keysOf_bounded _ _ _ (by decide) (by decide)))
      (by decide) (by decide) (by decide) (by decide),
    by decide⟩

/-- C7 (destroy completeness): on a well-formed heap with members `r :: c.nodes`,
whatever the `ph_list` field of the root holds, `ph_destroy_heap` terminates,
leaves the root pointer empty and hands to the destruction hook exactly the
members, each once and no other node. -/
theorem ph_destroy_heap_correct (heap : PH_HEAP) (key : Nat → Int) (m : Mem) (r : Nat)
    (c : Forest) (fuel : Nat) (hwf : HeapRep key heap m r c) (hfuel : c.nodes.length < fuel) :
    ∃ heap' m' log, ph_destroy_heap fuel heap m = some (heap', m', log) ∧
      heap'.ph_root = none ∧ log.length = c.nodes.length + 1 ∧ log.Perm (r :: c.nodes) ∧
      log.Nodup ∧ ∀ x, x ∈ log ↔ Member m heap.ph_root x := by
  have hmem := Member_iff hwf
  obtain ⟨hroot, ⟨hsh, _⟩, hnd, _⟩ := hwf
  have hrc : r ∉ c.nodes := (List.nodup_cons.1 hnd).1
  obtain ⟨m', out, hrun, hp⟩ := destroy_subheap_spec c.nodes.length fuel (setList m r none) r c
    .nil [] (by simp [Forest.nodes]) hfuel
    (by rw [setList_child, Shape_setList hrc]; exact hsh)
    (by simp [Shape])
    (by simpa [Forest.nodes] using hnd)
  have hp' : out.Perm (r :: c.nodes) := by simpa [Forest.nodes] using hp
  refine ⟨{ heap with ph_root := none }, m', out, ?_, rfl, ?_, hp', hp'.nodup_iff.2 hnd,
    fun x => hp'.mem_iff.trans (hmem x).symm⟩
  · unfold ph_destroy_heap
    simp only [hroot, hrun, List.nil_append]
  · simpa using hp'.length_eq

/-- Witness for C7: the heap built from keys 3, 7, 1 (root node 2 with child 0,
which has child 1), with a stale `ph_list` on the root. -/
theorem ph_destroy_heap_correct_witness :
    ∃ heap' m' log, ph_destroy_heap 3 mergeA.1 (setList mergeA.2 2 (some 1)) =
        some (heap', m', log) ∧
      heap'.ph_root = none ∧
      log.length = (Forest.node 0 (.node 1 .nil .nil) .nil).nodes.length + 1 ∧
      log.Perm (2 :: (Forest.node 0 (.node 1 .nil .nil) .nil).nodes) ∧
      log.Nodup ∧
      ∀ x, x ∈ log ↔ Member (setList mergeA.2 2 (some 1)) mergeA.1.ph_root x :=
  ph_destroy_heap_correct mergeA.1 mergeKey (setList mergeA.2 2 (some 1)) 2
    (.node 0 (.node 1 .nil .nil) .nil) 3 (by decide) (by decide)

/-- C8 (heap-order invariant): in every world reachable from empty heaps by
calls of `ph_push_raw`, `ph_pop`, `ph_remove_at`, `ph_decrease_at`,
`ph_decrease_root`, `ph_merge_heaps` and `ph_move_at` that respect their
preconditions, every heap is empty or well-formed: the nodes reachable from
its root by child and list edges are exactly the nodes of a finite tree
without repetition in which every non-root node has a key not less than the
key of its structural parent.  Moreover every further call that respects its
precondition returns (for all sufficiently large fuel) and leads to a
reachable world again. -/
theorem heap_order_invariant (C : (Nat → Int) → Nat → Nat → Int) (hC : CmpFamOK C)
    (w : World) (h : Reachable C w) (i : Nat) :
    (w.roots i = none ∨
      ∃ r c, HeapRep w.key (heapOf C w i) w.mem r c ∧
        ∀ x, Member w.mem (w.roots i) x ↔ x ∈ r :: c.nodes) ∧
    ∀ op, Pre w op →
      ∃ N, ∀ fuel, N ≤ fuel → ∃ w', step C fuel w op = some w' ∧ Reachable C w' := by
  obtain ⟨G, hG⟩ := reachable_ghost hC h
  refine ⟨?_, ?_⟩
  · cases hGi : G i with
    | none => exact Or.inl (ghost_none hG hGi)
    | some p =>
      have hrep := ghost_some hG hGi
      exact Or.inr ⟨p.1, p.2, hrep, fun x => Member_iff hrep x⟩
  · intro op hpre
    obtain ⟨N, hN⟩ := step_ok hC hG op hpre
    refine ⟨N, fun fuel hfuel => ?_⟩
    obtain ⟨w', _, hstep, _⟩ := hN fuel hfuel
    exact ⟨w', hstep, Reachable.step w w' op fuel h hpre hstep⟩

/-- C9 (move-at identity): for a well-formed heap, a member `x` (root or not)
and a non-member `d` carrying the same key, whatever the link fields of `d`
hold, full extraction after `ph_move_at heap d x` terminates and returns the
nodes the original heap would have returned with `d` in the place of `x`, so
the two key sequences are equal. -/
theorem ph_move_at_identity (heap : PH_HEAP) (key : Nat → Int) (m : Mem) (r x d : Nat)
    (c : Forest) (fuel : Nat) (hcmp : CmpOK heap key) (hwf : HeapRep key heap m r c)
    (hx : x ∈ r :: c.nodes) (hd : d ∉ r :: c.nodes) (hkey : key d = key x)
    (hfuel : c.nodes.length + 1 < fuel) :
    ∃ hf mf out heap' m' hf' mf',
      pop_all fuel heap m = some (hf, mf, out) ∧
      ph_move_at heap m d x = some (heap', m') ∧
      pop_all fuel heap' m' = some (hf', mf', out.map (swapIn x d)) ∧
      (out.map (swapIn x d)).map key = out.map key ∧
      hf.ph_root = none ∧ hf'.ph_root = none ∧ out.Perm (r :: c.nodes) := by
  obtain ⟨hf, mf, out, hpop, hroot, hperm, _, hout⟩ := pop_all_sorted hcmp fuel hwf hfuel
  obtain ⟨heap', m', hrun, hc, hrep, _, _, _⟩ := ph_move_at_rep hwf hx hd hkey
  have hk : ∀ a, key (swapIn x d a) = key a := by
    intro a; unfold swapIn; split
    · rename_i h; rw [hkey, h]
    · rfl
  have hlen : (mapF (swapIn x d) c).nodes.length = c.nodes.length := by
    rw [mapF_nodes, List.length_map]
  obtain ⟨hf', mf', out', hpop', hroot', _, _, hout'⟩ :=
    pop_all_sorted (fun a b => by rw [hc]; exact hcmp a b) fuel hrep (by omega)
  rw [hlen, popSeq_mapF hk, ← hout] at hout'
  subst hout'
  refine ⟨hf, mf, out, heap', m', hf', mf', hpop, hrun, hpop', ?_, hroot, hroot', hperm⟩
  rw [List.map_map]
  exact List.map_congr_left (fun a _ => hk a)

/-- Witness for C9: in the heap built from 4, 8, 2, 6 the node holding 8
(node 1) is replaced by the spare node 4; both extractions give 2, 4, 6, 8. -/
theorem ph_move_at_identity_witness :
    (∃ hf mf out heap' m' hf' mf',
      pop_all 5 moveDemo.1 moveDemo.2 = some (hf, mf, out) ∧
      ph_move_at moveDemo.1 moveDemo.2 4 1 = some (heap', m') ∧
      pop_all 5 heap' m' = some (hf', mf', out.map (swapIn 1 4)) ∧
      (out.map (swapIn 1 4)).map moveKey = out.map moveKey ∧
      hf.ph_root = none ∧ hf'.ph_root = none ∧
      out.Perm (2 :: (Forest.node 3 .nil (.node 0 (.node 1 .nil .nil) .nil)).nodes)) ∧
    ((ph_move_at moveDemo.1 moveDemo.2 4 1).bind (fun s => pop_all 5 s.1 s.2)).map
        (fun s => (s.2.2, s.2.2.map moveKey)) = some ([2, 0, 3, 4], [2, 4, 6, 8]) ∧
    (pop_all 5 moveDemo.1 moveDemo.2).map (fun s => (s.2.2, s.2.2.map moveKey)) =
      some ([2, 0, 3, 1], [2, 4, 6, 8]) :=
  ⟨ph_move_at_identity moveDemo.1 moveKey moveDemo.2 2 1 4
      (.node 3 .nil (.node 0 (.node 1 .nil .nil) .nil)) 5
      (ph_cmp_ok _ (keysOf_bounded _ _ _ (by decide) (by decide)))
      (by decide) (by decide) (by decide) (by decide) (by decide),
    by decide, by decide⟩

/-- C10 as stated fails when `src` is the root: with root 0 (empty list and
parent fields) and spare node 2 holding stale links, `ph_move_at heap 2 0`
makes 2 the root and hands over the child, but the list and parent fields of
node 2 keep their stale values instead of mirroring those of node 0. -/
theorem ph_move_at_root_keeps_stale_links :
    HeapRep (keysOf [1, 2, 1]) moveRootDemo.1 moveRootDemo.2 0 (.node 1 .nil .nil) ∧
    (2 ∉ 0 :: (Forest.node 1 .nil .nil).nodes) ∧
    (moveRootDemo.2 0).ph_list = none ∧ (moveRootDemo.2 0).ph_parent = none ∧
    (ph_move_at moveRootDemo.1 moveRootDemo.2 2 0).map
        (fun s => (s.1.ph_root, (s.2 2).ph_child, (s.2 2).ph_list, (s.2 2).ph_parent)) =
      some (some 2, some 1, some 7, some 9) := by
  decide

/-- C10 (amended, linkage transferred by move-at): for a well-formed heap, a
member `x` and a non-member `d` with arbitrary link fields, `ph_move_at`
returns; the child field of `d` mirrors that of `x` and the former first
child of `x` names `d` as parent.  When `x` is not the root, the root pointer
is unchanged, the list and parent fields of `d` mirror those of `x`, the
child or list pointer of the predecessor that referred to `x` refers to `d`
and the former next sibling of `x` names `d` as parent.  When `x` is the
root, the root pointer refers to `d` and the list and parent fields of `d`
are not written. -/
theorem ph_move_at_linkage (heap : PH_HEAP) (key : Nat → Int) (m : Mem) (r x d : Nat)
    (c : Forest) (hwf : HeapRep key heap m r c)
    (hx : x ∈ r :: c.nodes) (hd : d ∉ r :: c.nodes) :
    ∃ heap' m', ph_move_at heap m d x = some (heap', m') ∧
      (m' d).ph_child = (m x).ph_child ∧
      (∀ y, (m x).ph_child = some y → (m' y).ph_parent = some d) ∧
      (∀ y, y ∉ d :: r :: c.nodes → m' y = m y) ∧
      (x ≠ r → heap'.ph_root = heap.ph_root ∧
        (m' d).ph_list = (m x).ph_list ∧ (m' d).ph_parent = (m x).ph_parent ∧
        (∃ p, (m x).ph_parent = some p ∧
          (if (m p).ph_child = some x then (m' p).ph_child = some d
           else (m' p).ph_list = some d)) ∧
        (∀ y, (m x).ph_list = some y → (m' y).ph_parent = some d)) ∧
      (x = r → heap'.ph_root = some d ∧
        (m' d).ph_list = (m d).ph_list ∧ (m' d).ph_parent = (m d).ph_parent) := by
  have hk : ∀ y ∈ c.nodes, (fun a => if a = d then key x else key a) y = key y := by
    intro y hy
    have : y ≠ d := fun e => hd (by rw [← e]; exact List.mem_cons_of_mem _ hy)
    simp [this]
  have hrd : r ≠ d := fun e => hd (by rw [← e]; exact List.mem_cons_self _ _)
  have hxd : x ≠ d := fun e => hd (e ▸ hx)
  have hwf' : HeapRep (fun a => if a = d then key x else key a) heap m r c := by
    refine ⟨hwf.1, hwf.2.1, hwf.2.2.1, ?_⟩
    rw [HeapOrd_congr c _ hk]
    simpa [hrd] using hwf.2.2.2
  obtain ⟨heap', m', hrun, _, _, hfr, hnr, hr⟩ :=
    ph_move_at_rep hwf' hx hd (by simp [hxd])
  refine ⟨heap', m', hrun, ?_, ?_, hfr, ?_, ?_⟩
  · by_cases h : x = r
    · exact (hr h).2.1
    · exact (hnr h).2.1
  · by_cases h : x = r
    · exact (hr h).2.2.2.2
    · exact (hnr h).2.2.2.2.2.1
  · intro h
    obtain ⟨h1, _, h3, h4, h5, _, h7⟩ := hnr h
    exact ⟨h1, h3, h4, h5, h7⟩
  · intro h
    obtain ⟨h1, _, h3, h4, _⟩ := hr h
    exact ⟨h1, h3, h4⟩

/-- Witness for C10: replacing the non-root node 1 of the example heap by the
spare node 4. -/
theorem ph_move_at_linkage_witness :
    ∃ heap' m', ph_move_at moveDemo.1 moveDemo.2 4 1 = some (heap', m') ∧
      (m' 4).ph_child = (moveDemo.2 1).ph_child ∧
      (∀ y, (moveDemo.2 1).ph_child = some y → (m' y).ph_parent = some 4) ∧
      (∀ y, y ∉ 4 :: 2 :: (Forest.node 3 .nil (.node 0 (.node 1 .nil .nil) .nil)).nodes →
        m' y = moveDemo.2 y) ∧
      (1 ≠ 2 → heap'.ph_root = moveDemo.1.ph_root ∧
        (m' 4).ph_list = (moveDemo.2 1).ph_list ∧
        (m' 4).ph_parent = (moveDemo.2 1).ph_parent ∧
        (∃ p, (moveDemo.2 1).ph_parent = some p ∧
          (if (moveDemo.2 p).ph_child = some 1 then (m' p).ph_child = some 4
           else (m' p).ph_list = some 4)) ∧
        (∀ y, (moveDemo.2 1).ph_list = some y → (m' y).ph_parent = some 4)) ∧
      (1 = 2 → heap'.ph_root = some 4 ∧
        (m' 4).ph_list = (moveDemo.2 4).ph_list ∧
        (m' 4).ph_parent = (moveDemo.2 4).ph_parent) :=
  ph_move_at_linkage moveDemo.1 moveKey moveDemo.2 2 1 4
    (.node 3 .nil (.node 0 (.node 1 .nil .nil) .nil)) (by decide) (by decide) (by decide)

/-- Witness for C8: the world reached by `ph_push_raw` of the nodes 0, 1, 2
(keys 1, 3, 2) on heap 0, whose root 0 has the two children 2 and 1; the heap
is the well-formed tree with root 0 and child list 2, 1, so heap order relates
both children to the root. -/
theorem heap_order_invariant_witness :
    ((backWorld3.roots 0 = none ∨
      ∃ r c, HeapRep backWorld3.key (heapOf diffCmp backWorld3 0) backWorld3.mem r c ∧
        ∀ x, Member backWorld3.mem (backWorld3.roots 0) x ↔ x ∈ r :: c.nodes) ∧
    ∀ op, Pre backWorld3 op →
      ∃ N, ∀ fuel, N ≤ fuel →
        ∃ w', step diffCmp fuel backWorld3 op = some w' ∧ Reachable diffCmp w') ∧
    HeapRep backWorld3.key (heapOf diffCmp backWorld3 0) backWorld3.mem 0
      (.node 2 .nil (.node 1 .nil .nil)) ∧
    backWorld3.key 0 ≤ backWorld3.key 2 ∧ backWorld3.key 0 ≤ backWorld3.key 1 :=
  ⟨heap_order_invariant diffCmp diffCmp_ok backWorld3 backWorld3_reachable 0,
    by decide, by decide, by decide⟩

/-! ## Decrease-root and the two insertions -/

/-- C11 (decrease-root): on a non-empty heap with root `r` and child forest `c`
(a duplicate-free tree with consistent links) whose root key the caller has
changed in any way, the trees of `c` still being heap ordered under the
current keys, `ph_decrease_root` returns for every fuel above the number of
non-root members; the result is a well-formed heap under the current keys with
exactly the old members, each once, whose root has a minimum key; nodes
outside the heap are not written.  When the root has no children the root
pointer is unchanged and the only store is `NULL` into the list field of the
root, so the node store is unchanged when that field was empty. -/
theorem ph_decrease_root_correct (heap : PH_HEAP) (key : Nat → Int) (m : Mem) (r : Nat)
    (c : Forest) (lb : Int) (fuel : Nat) (hcmp : CmpOK heap key)
    (hroot : heap.ph_root = some r) (ht : TreeAt m r c) (hn : (r :: c.nodes).Nodup)
    (ho : HeapOrd key lb c) (hfuel : c.nodes.length < fuel) :
    ∃ heap' m' r' c', ph_decrease_root fuel heap m = some (heap', m') ∧
      heap'.ph_cmp = heap.ph_cmp ∧
      (∀ y, y ∉ r :: c.nodes → m' y = m y) ∧
      HeapRep key heap' m' r' c' ∧ (r' :: c'.nodes).Perm (r :: c.nodes) ∧
      (∀ y, Member m' heap'.ph_root y ↔ Member m heap.ph_root y) ∧
      (∀ y, Member m' heap'.ph_root y → key r' ≤ key y) ∧
      (c = .nil → heap'.ph_root = heap.ph_root ∧ m' = setList m r none ∧
        ((m r).ph_list = none → m' = m)) := by
  obtain ⟨m', hrun, hrep, hperm, hfr⟩ := ph_decrease_root_rep hcmp fuel hroot ht hn ho hfuel
  have hmem : ∀ y, Member m' (some (twoPass key r .nil c).1) y ↔ Member m heap.ph_root y :=
    fun y => ((Member_iff hrep y).trans hperm.mem_iff).trans (Member_iff_shape hroot ht.1 y).symm
  refine ⟨_, m', _, _, hrun, rfl, hfr, hrep, hperm, hmem, ?_, ?_⟩
  · intro y hy
    rcases List.mem_cons.1 ((Member_iff hrep y).1 hy) with e | e
    · rw [e]
    · exact HeapOrd_lb _ _ hrep.2.2.2 y e
  · intro hc
    subst hc
    obtain ⟨fuel, rfl⟩ : ∃ k, fuel = k + 1 := ⟨fuel - 1, by omega⟩
    have hch : (m r).ph_child = none := ht.1
    have h2 := ph_decrease_root_childless heap m r fuel hroot hch
    rw [hrun] at h2
    simp only [Option.some.injEq, Prod.mk.injEq] at h2
    refine ⟨?_, h2.2, fun hl => ?_⟩
    · rw [hroot]
      exact congrArg PH_HEAP.ph_root h2.1
    · rw [h2.2]; exact setList_none_self m r hl

/-- Witness for C11: in the heap built from 10, 20, 30 (root node 0 with the
children 2 and 1) the root key is changed to 25; `ph_decrease_root` makes the
node holding 20 the root. -/
theorem ph_decrease_root_correct_witness :
    (∃ heap' m' r' c',
      ph_decrease_root 4 ⟨decDemo.1.ph_root, ph_cmp rootKey2⟩ decDemo.2 = some (heap', m') ∧
      heap'.ph_cmp = ph_cmp rootKey2 ∧
      (∀ y, y ∉ 0 :: (Forest.node 2 .nil (.node 1 .nil .nil)).nodes → m' y = decDemo.2 y) ∧
      HeapRep rootKey2 heap' m' r' c' ∧
      (r' :: c'.nodes).Perm (0 :: (Forest.node 2 .nil (.node 1 .nil .nil)).nodes) ∧
      (∀ y, Member m' heap'.ph_root y ↔ Member decDemo.2 decDemo.1.ph_root y) ∧
      (∀ y, Member m' heap'.ph_root y → rootKey2 r' ≤ rootKey2 y) ∧
      (Forest.node 2 .nil (.node 1 .nil .nil) = .nil → heap'.ph_root = decDemo.1.ph_root ∧
        m' = setList decDemo.2 0 none ∧ ((decDemo.2 0).ph_list = none → m' = decDemo.2))) ∧
    (ph_decrease_root 4 ⟨decDemo.1.ph_root, ph_cmp rootKey2⟩ decDemo.2).map
      (fun s => s.1.ph_root) = some (some 1) :=
  ⟨ph_decrease_root_correct ⟨decDemo.1.ph_root, ph_cmp rootKey2⟩ rootKey2 decDemo.2 0
      (.node 2 .nil (.node 1 .nil .nil)) 20 4
      (ph_cmp_ok _ (keysOf_bounded _ _ _ (by decide) (by decide)))
      (by decide) (by decide) (by decide) (by decide) (by decide),
    by decide⟩

/-- C12 as stated fails on ties: nodes 0 and 1 both hold the key 5, node 0 is
the root and node 1 is zero-initialised; the comparator returns 0 for the
pair, so the root is not greater than the new node, yet `ph_push` makes node 1
the root with node 0 as its child, and node 0 gets no child. -/
theorem ph_push_tie_makes_new_root :
    ph_cmp (keysOf [5, 5]) 0 1 = 0 ∧ tieDemo.1.ph_root = some 0 ∧ tieDemo.2 1 = zeroNode ∧
    (ph_push tieDemo.1 tieDemo.2 1).1.ph_root = some 1 ∧
    ((ph_push tieDemo.1 tieDemo.2 1).2 1).ph_child = some 0 ∧
    ((ph_push tieDemo.1 tieDemo.2 1).2 0).ph_child = none := by
  decide

/-- C12 (amended, insert placement): for a heap with root `r` and a standalone
zero-initialised node `n`, `ph_push` makes `n` the root exactly when
`cmp(r, n) >= 0`, ties included; then `r` is the first child of `n`, the
parent field of `r` is `n`, the list field of `n` stays empty and the child
and list fields of `r` and all other nodes are untouched (so `r` is followed
by whatever its list field named before the call, and is the only child of
`n` when that field was empty).  When `cmp(r, n) < 0` the root stays `r`, `n`
becomes its first child in front of the former child list, with parent field
`r` and no child, and the former first child gets `n` as parent field. -/
theorem ph_push_placement (heap : PH_HEAP) (m : Mem) (r n : Nat)
    (hroot : heap.ph_root = some r) (hz : m n = zeroNode) (hnr : n ≠ r)
    (hch : (m r).ph_child ≠ some n) :
    ((ph_push heap m n).1.ph_root = some n ↔ 0 ≤ heap.ph_cmp r n) ∧
    (0 ≤ heap.ph_cmp r n →
      ((ph_push heap m n).2 n).ph_child = some r ∧
      ((ph_push heap m n).2 n).ph_list = none ∧
      ((ph_push heap m n).2 r).ph_parent = some n ∧
      ((ph_push heap m n).2 r).ph_child = (m r).ph_child ∧
      ((ph_push heap m n).2 r).ph_list = (m r).ph_list ∧
      ∀ y, y ≠ n → y ≠ r → (ph_push heap m n).2 y = m y) ∧
    (heap.ph_cmp r n < 0 →
      (ph_push heap m n).1.ph_root = some r ∧
      ((ph_push heap m n).2 r).ph_child = some n ∧
      ((ph_push heap m n).2 n).ph_list = (m r).ph_child ∧
      ((ph_push heap m n).2 n).ph_parent = some r ∧
      ((ph_push heap m n).2 n).ph_child = none ∧
      ∀ c, (m r).ph_child = some c → ((ph_push heap m n).2 c).ph_parent = some n) := by
  have hzl : (m n).ph_list = none := by rw [hz]; rfl
  have hzc : (m n).ph_child = none := by rw [hz]; rfl
  have hrn : r ≠ n := Ne.symm hnr
  by_cases hlt : heap.ph_cmp r n < 0
  · have hsw : PH_ISGREATER heap r n = true := by
      unfold PH_ISGREATER; exact decide_eq_true hlt
    have hrun : ph_push heap m n = (heap, setParent (linkMem m r n) n (some r)) :=
      ph_push_mem_keep hroot hsw hzl hch
    rw [hrun]
    refine ⟨?_, fun h => absurd hlt (not_lt.2 h), fun _ => ⟨hroot, ?_, ?_, ?_, ?_, ?_⟩⟩
    · constructor
      · intro h
        rw [hroot] at h
        exact absurd (Option.some.inj h) hrn
      · intro h; exact absurd hlt (not_lt.2 h)
    · simp [linkMem]
    · simp [linkMem, hnr]
    · simp
    · simp [linkMem, hnr, hzc]
    · intro c hc
      have hcn : c ≠ n := fun e => hch (by rw [hc, e])
      simp [linkMem, setParentOpt_parent, hc, hcn]
  · have hsw : PH_ISGREATER heap r n = false := by
      unfold PH_ISGREATER; exact decide_eq_false hlt
    have hrun : ph_push heap m n =
        ({ heap with ph_root := some n }, setParent (setChild m n (some r)) r (some n)) := by
      unfold ph_push
      simp only [hroot, hsw, Bool.false_eq_true, if_false]
    rw [hrun]
    refine ⟨⟨fun _ => not_lt.1 hlt, fun _ => rfl⟩, fun _ => ⟨?_, ?_, ?_, ?_, ?_, ?_⟩,
      fun h => absurd h hlt⟩
    · simp
    · simp [hzl]
    · simp
    · simp [hrn]
    · simp
    · intro y hyn hyr
      show setParent (setChild m n (some r)) r (some n) y = m y
      rw [setParent_of_ne _ _ _ _ hyr, setChild_of_ne _ _ _ _ hyn]

/-- Witness for C12: the tie of the counterexample; node 1 becomes the root. -/
theorem ph_push_placement_witness :
    ((ph_push tieDemo.1 tieDemo.2 1).1.ph_root = some 1 ↔ 0 ≤ tieDemo.1.ph_cmp 0 1) ∧
    (0 ≤ tieDemo.1.ph_cmp 0 1 →
      ((ph_push tieDemo.1 tieDemo.2 1).2 1).ph_child = some 0 ∧
      ((ph_push tieDemo.1 tieDemo.2 1).2 1).ph_list = none ∧
      ((ph_push tieDemo.1 tieDemo.2 1).2 0).ph_parent = some 1 ∧
      ((ph_push tieDemo.1 tieDemo.2 1).2 0).ph_child = (tieDemo.2 0).ph_child ∧
      ((ph_push tieDemo.1 tieDemo.2 1).2 0).ph_list = (tieDemo.2 0).ph_list ∧
      ∀ y, y ≠ 1 → y ≠ 0 → (ph_push tieDemo.1 tieDemo.2 1).2 y = tieDemo.2 y) ∧
    (tieDemo.1.ph_cmp 0 1 < 0 →
      (ph_push tieDemo.1 tieDemo.2 1).1.ph_root = some 0 ∧
      ((ph_push tieDemo.1 tieDemo.2 1).2 0).ph_child = some 1 ∧
      ((ph_push tieDemo.1 tieDemo.2 1).2 1).ph_list = (tieDemo.2 0).ph_child ∧
      ((ph_push tieDemo.1 tieDemo.2 1).2 1).ph_parent = some 0 ∧
      ((ph_push tieDemo.1 tieDemo.2 1).2 1).ph_child = none ∧
      ∀ c, (tieDemo.2 0).ph_child = some c →
        ((ph_push tieDemo.1 tieDemo.2 1).2 c).ph_parent = some 1) :=
  ph_push_placement tieDemo.1 tieDemo.2 0 1 (by decide) (by decide) (by decide) (by decide)

/-- C13 (failing input): `ph_push_raw` of node 0, which holds the stale links
`list = 7`, `parent = 9`, on an empty heap stores only `node->ph_child` and
leaves both stale values in the new root, while on the cleaned store (node
zero-initialised) both fields end empty: the list and parent field of the
node are not re-initialised although the function is the push "that
initializes all fields of the structure". -/
theorem ph_push_raw_keeps_stale_root_fields :
    ((ph_push_raw ⟨none, ph_cmp (keysOf [5])⟩ (staleMem 0) 0).2 0).ph_list = some 7 ∧
    ((ph_push_raw ⟨none, ph_cmp (keysOf [5])⟩ (staleMem 0) 0).2 0).ph_parent = some 9 ∧
    ((ph_push_raw ⟨none, ph_cmp (keysOf [5])⟩
      (cleanFor ⟨none, ph_cmp (keysOf [5])⟩ (staleMem 0) 0) 0).2 0).ph_list = none ∧
    ((ph_push_raw ⟨none, ph_cmp (keysOf [5])⟩
      (cleanFor ⟨none, ph_cmp (keysOf [5])⟩ (staleMem 0) 0) 0).2 0).ph_parent = none := by
  decide

/-- Extent of what `ph_push_raw` leaves uninitialised: for every heap whose
root is not its own first child and every node `n` other than the root, with
arbitrary stale link fields, `ph_push_raw` gives the same root pointer as on
the cleaned store (`n` zero-initialised, root with empty list and parent) and
the same value in every child field and in all three fields of every node
other than the surviving root; only the list and parent field of the
surviving root are not written and keep the values they held before the
call. -/
theorem ph_push_raw_reinit (heap : PH_HEAP) (m : Mem) (n : Nat)
    (hn : heap.ph_root ≠ some n)
    (hself : ∀ r, heap.ph_root = some r → (m r).ph_child ≠ some r) :
    (ph_push_raw heap m n).1 = (ph_push_raw heap (cleanFor heap m n) n).1 ∧
    (∀ y, ((ph_push_raw heap m n).2 y).ph_child =
        ((ph_push_raw heap (cleanFor heap m n) n).2 y).ph_child) ∧
    (∀ y, (ph_push_raw heap m n).1.ph_root ≠ some y →
        (ph_push_raw heap m n).2 y = (ph_push_raw heap (cleanFor heap m n) n).2 y) ∧
    (∀ y, (ph_push_raw heap m n).1.ph_root = some y →
        ((ph_push_raw heap m n).2 y).ph_list = (m y).ph_list ∧
        ((ph_push_raw heap m n).2 y).ph_parent = (m y).ph_parent) :=
  ph_push_raw_clean heap m n hn hself

/-- Example for `ph_push_raw_reinit`: the stale node 0 (key 5) is pushed on
the heap whose only member is node 1 (key 3). -/
theorem ph_push_raw_reinit_witness :
    (ph_push_raw rawDemo.1 rawDemo.2 0).1 =
      (ph_push_raw rawDemo.1 (cleanFor rawDemo.1 rawDemo.2 0) 0).1 ∧
    (∀ y, ((ph_push_raw rawDemo.1 rawDemo.2 0).2 y).ph_child =
        ((ph_push_raw rawDemo.1 (cleanFor rawDemo.1 rawDemo.2 0) 0).2 y).ph_child) ∧
    (∀ y, (ph_push_raw rawDemo.1 rawDemo.2 0).1.ph_root ≠ some y →
        (ph_push_raw rawDemo.1 rawDemo.2 0).2 y =
          (ph_push_raw rawDemo.1 (cleanFor rawDemo.1 rawDemo.2 0) 0).2 y) ∧
    (∀ y, (ph_push_raw rawDemo.1 rawDemo.2 0).1.ph_root = some y →
        ((ph_push_raw rawDemo.1 rawDemo.2 0).2 y).ph_list = (rawDemo.2 y).ph_list ∧
        ((ph_push_raw rawDemo.1 rawDemo.2 0).2 y).ph_parent = (rawDemo.2 y).ph_parent) :=
  ph_push_raw_reinit rawDemo.1 rawDemo.2 0 (by decide)
    (fun r hr => by
      have e : r = 1 := (Option.some.inj hr).symm
      subst e
      decide)

/-- C14 as stated fails: `ph_push` on an empty heap stores nothing in the
node, so with the stale child field 5 node 5 is a member of the resulting
heap, and with a zero-initialised node it is not. -/
theorem ph_push_depends_on_stale_child :
    Member (ph_push ⟨none, ph_cmp (keysOf [5])⟩ (staleMem 0) 0).2
      (ph_push ⟨none, ph_cmp (keysOf [5])⟩ (staleMem 0) 0).1.ph_root 5 ∧
    ¬ Member (ph_push ⟨none, ph_cmp (keysOf [5])⟩ zeroMem 0).2
      (ph_push ⟨none, ph_cmp (keysOf [5])⟩ zeroMem 0).1.ph_root 5 := by
  refine ⟨⟨0, rfl, Or.inr (Reach.here 5)⟩, ?_⟩
  rintro ⟨r, hr, h⟩
  have e : r = 0 := (Option.some.inj hr).symm
  subst e
  rcases h with h | h
  · exact absurd h (by decide)
  · cases h

/-- C14 (amended, fields that insert relies on): for a heap `G` that is empty
or well-formed with an empty list field in its root, and a non-member `n`
whose child and list fields are empty, `ph_push` does not depend on the prior
parent field `p` of `n`: for every `p` the result is the well-formed heap
`pushHeap key n G` (the single node `n` paired with the old tree), its members
are `n` and the old members, and it has the same root pointer, the same child
and list fields everywhere and the same parent fields outside the root as the
result for the store as given. -/
theorem ph_push_needs_clean_links (heap : PH_HEAP) (key : Nat → Int) (m : Mem) (n : Nat)
    (G : Option (Nat × Forest)) (p : Option Nat) (hcmp : CmpOK heap key)
    (hwf : match G with
      | none => heap.ph_root = none
      | some t => HeapRep key heap m t.1 t.2 ∧ (m t.1).ph_list = none)
    (hn : n ∉ nodesOf G) (hzc : (m n).ph_child = none) (hzl : (m n).ph_list = none) :
    HeapRep key (ph_push heap (setParent m n p) n).1 (ph_push heap (setParent m n p) n).2
      (pushHeap key n G).1 (pushHeap key n G).2 ∧
    (∀ x, Member (ph_push heap (setParent m n p) n).2
        (ph_push heap (setParent m n p) n).1.ph_root x ↔ x ∈ n :: nodesOf G) ∧
    (ph_push heap (setParent m n p) n).1 = (ph_push heap m n).1 ∧
    ∀ y, ((ph_push heap (setParent m n p) n).2 y).ph_child = ((ph_push heap m n).2 y).ph_child ∧
      ((ph_push heap (setParent m n p) n).2 y).ph_list = ((ph_push heap m n).2 y).ph_list ∧
      ((ph_push heap m n).1.ph_root ≠ some y →
        (ph_push heap (setParent m n p) n).2 y = (ph_push heap m n).2 y) := by
  have hind := ph_push_parent_indep heap m n p
  have hrep : HeapRep key (ph_push heap (setParent m n p) n).1
      (ph_push heap (setParent m n p) n).2 (pushHeap key n G).1 (pushHeap key n G).2 ∧
      ((pushHeap key n G).1 :: (pushHeap key n G).2.nodes).Perm (n :: nodesOf G) := by
    cases G with
    | none =>
      simp only at hwf
      obtain ⟨hrun, hrep⟩ := ph_push_empty key (setParent m n p) n hwf (by simpa using hzc)
      rw [hrun]
      exact ⟨hrep, by simp [pushHeap, nodesOf, Forest.nodes]⟩
    | some t =>
      simp only at hwf
      simp only [nodesOf] at hn
      have hfr : ∀ y ∈ t.1 :: t.2.nodes, setParent m n p y = m y :=
        fun y hy => setParent_of_ne _ _ _ _ (fun e => hn (e ▸ hy))
      have hrep0 : HeapRep key heap (setParent m n p) t.1 t.2 :=
        HeapRep_frame hwf.1 rfl hfr (fun _ _ => rfl)
      refine ⟨ph_push_rep_links hcmp hrep0 (by simpa using hwf.2) (by simpa using hzc)
        (by simpa using hzl) hn, ?_⟩
      have := link_perm key n .nil t.1 t.2
      simpa [pushHeap, nodesOf, Forest.nodes] using this
  exact ⟨hrep.1, fun x => (Member_iff hrep.1 x).trans hrep.2.mem_iff, hind.1, hind.2⟩

/-- Witness for C14: node 4 with the stale parent field 9 (empty child and
list) is pushed on the heap built from 4, 8, 2, 6. -/
theorem ph_push_needs_clean_links_witness :
    HeapRep removeKey (ph_push removeDemo.1 (setParent removeDemo.2 4 (some 9)) 4).1
      (ph_push removeDemo.1 (setParent removeDemo.2 4 (some 9)) 4).2
      (pushHeap removeKey 4
        (some (2, .node 3 .nil (.node 0 (.node 1 .nil .nil) .nil)))).1
      (pushHeap removeKey 4
        (some (2, .node 3 .nil (.node 0 (.node 1 .nil .nil) .nil)))).2 ∧
    (∀ x, Member (ph_push removeDemo.1 (setParent removeDemo.2 4 (some 9)) 4).2
        (ph_push removeDemo.1 (setParent removeDemo.2 4 (some 9)) 4).1.ph_root x ↔
      x ∈ 4 :: nodesOf (some (2, .node 3 .nil (.node 0 (.node 1 .nil .nil) .nil)))) ∧
    (ph_push removeDemo.1 (setParent removeDemo.2 4 (some 9)) 4).1 =
      (ph_push removeDemo.1 removeDemo.2 4).1 ∧
    ∀ y, ((ph_push removeDemo.1 (setParent removeDemo.2 4 (some 9)) 4).2 y).ph_child =
        ((ph_push removeDemo.1 removeDemo.2 4).2 y).ph_child ∧
      ((ph_push removeDemo.1 (setParent removeDemo.2 4 (some 9)) 4).2 y).ph_list =
        ((ph_push removeDemo.1 removeDemo.2 4).2 y).ph_list ∧
      ((ph_push removeDemo.1 removeDemo.2 4).1.ph_root ≠ some y →
        (ph_push removeDemo.1 (setParent removeDemo.2 4 (some 9)) 4).2 y =
          (ph_push removeDemo.1 removeDemo.2 4).2 y) :=
  ph_push_needs_clean_links removeDemo.1 removeKey removeDemo.2 4
    (some (2, .node 3 .nil (.node 0 (.node 1 .nil .nil) .nil))) (some 9)
    (ph_cmp_ok _ (keysOf_bounded _ _ _ (by decide) (by decide)))
    (by decide) (by decide) (by decide) (by decide)

/-! ## Invariants of the parent and list fields -/

/-- C15 as stated fails: the world reached from empty heaps by `ph_push_raw`
of the nodes 0, 1, 2 (keys 1, 3, 2) and one `ph_pop` has root 2, whose parent
field still names node 0 and whose list field still names node 1. -/
theorem root_fields_stale_after_pop :
    Reachable diffCmp backWorld4 ∧ backWorld4.roots 0 = some 2 ∧
    (backWorld4.mem 2).ph_parent = some 0 ∧ (backWorld4.mem 2).ph_list = some 1 :=
  ⟨backWorld4_reachable, by decide, by decide, by decide⟩

/-- C15 (amended, what holds at the root): in every world reachable from empty
heaps by `ph_push_raw`, `ph_pop`, `ph_remove_at`, `ph_decrease_at`,
`ph_decrease_root`, `ph_merge_heaps` and `ph_move_at`, every non-empty heap is
well formed below its root (the child field of the root heads a duplicate-free
forest with consistent links, which holds exactly the non-root members)
whatever the root's own parent and list fields hold.  Those two fields are not
maintained: for a root with children, `ph_pop` returns and leaves a new root
whose parent field is not empty, while `ph_remove_at` of the root returns and
leaves a new root whose parent and list fields are both empty. -/
theorem root_fields_not_maintained (C : (Nat → Int) → Nat → Nat → Int) (hC : CmpFamOK C)
    (w : World) (h : Reachable C w) (i : Nat) :
    (w.roots i = none ∨
      ∃ r c, w.roots i = some r ∧ TreeAt w.mem r c ∧ (r :: c.nodes).Nodup ∧
        ∀ x, Member w.mem (w.roots i) x ↔ x ∈ r :: c.nodes) ∧
    (∀ r, w.roots i = some r → (w.mem r).ph_child ≠ none →
      ∃ N, ∀ fuel, N ≤ fuel →
        (∃ w' r', step C fuel w (.pop i) = some w' ∧ w'.roots i = some r' ∧
          (w'.mem r').ph_parent ≠ none) ∧
        (∃ w' r', step C fuel w (.remove_at i r) = some w' ∧ w'.roots i = some r' ∧
          (w'.mem r').ph_parent = none ∧ (w'.mem r').ph_list = none)) := by
  obtain ⟨G, hG⟩ := reachable_ghost hC h
  refine ⟨?_, ?_⟩
  · cases hGi : G i with
    | none => exact Or.inl (ghost_none hG hGi)
    | some p =>
      have hrep := ghost_some hG hGi
      exact Or.inr ⟨p.1, p.2, hrep.1, hrep.2.1, hrep.2.2.1, fun x => Member_iff hrep x⟩
  · intro r hr hch
    cases hGi : G i with
    | none =>
      rw [ghost_none hG hGi] at hr
      cases hr
    | some p =>
      have hrep := ghost_some hG hGi
      have hpr : p.1 = r := by
        have := hrep.1
        simp only [heapOf] at this
        rw [hr] at this
        exact (Option.some.inj this).symm
      obtain ⟨r0, c⟩ := p
      simp only at hpr hrep
      subst hpr
      cases c with
      | nil => exact absurd hrep.2.1.1 hch
      | node a ca s =>
        have hcmp : CmpOK (heapOf C w i) w.key := hC w.key
        refine ⟨(Forest.node a ca s).nodes.length, fun fuel hfuel => ⟨?_, ?_⟩⟩
        · obtain ⟨heap', m', r', hrun, hroot', hpar⟩ := pop_root_parent hcmp fuel hrep hfuel
          refine ⟨⟨m', w.key, setRoot w.roots i heap'.ph_root⟩, r', ?_, ?_, hpar⟩
          · simp only [step, hrun, Option.map_some']
          · simp [setRoot, hroot']
        · obtain ⟨heap', m', r', hrun, hroot', hpar, hlist⟩ :=
            remove_root_fields hcmp fuel hrep hfuel
          refine ⟨⟨m', w.key, setRoot w.roots i heap'.ph_root⟩, r', ?_, ?_, hpar, hlist⟩
          · simp only [step, hrun, Option.map_some']
          · simp [setRoot, hroot']

/-- Witness for C15: the world after `ph_push_raw` of the nodes 0, 1, 2, whose
heap 0 has root 0 with the children 2 and 1. -/
theorem root_fields_not_maintained_witness :
    (backWorld3.roots 0 = none ∨
      ∃ r c, backWorld3.roots 0 = some r ∧ TreeAt backWorld3.mem r c ∧ (r :: c.nodes).Nodup ∧
        ∀ x, Member backWorld3.mem (backWorld3.roots 0) x ↔ x ∈ r :: c.nodes) ∧
    (∀ r, backWorld3.roots 0 = some r → (backWorld3.mem r).ph_child ≠ none →
      ∃ N, ∀ fuel, N ≤ fuel →
        (∃ w' r', step diffCmp fuel backWorld3 (.pop 0) = some w' ∧ w'.roots 0 = some r' ∧
          (w'.mem r').ph_parent ≠ none) ∧
        (∃ w' r', step diffCmp fuel backWorld3 (.remove_at 0 r) = some w' ∧
          w'.roots 0 = some r' ∧
          (w'.mem r').ph_parent = none ∧ (w'.mem r').ph_list = none)) :=
  root_fields_not_maintained diffCmp diffCmp_ok backWorld3 backWorld3_reachable 0

/-- C16 as stated fails: in the world reached by `ph_push_raw` of the nodes 0,
1, 2 (keys 1, 3, 2) node 1 is on the child list of the root 0 (after node 2,
which has no children), yet its parent field names node 2, its previous
sibling. -/
theorem parent_field_names_previous_sibling :
    Reachable diffCmp backWorld3 ∧ backWorld3.roots 0 = some 0 ∧
    ChildOf backWorld3.mem 0 1 ∧ (backWorld3.mem 2).ph_child = none ∧
    (backWorld3.mem 2).ph_list = some 1 ∧ (backWorld3.mem 1).ph_parent = some 2 :=
  ⟨backWorld3_reachable, by decide,
    (show OnList backWorld3.mem (some 2) 1 from
      OnList.next 2 1 (show OnList backWorld3.mem (some 1) 1 from OnList.here 1)),
    by decide, by decide, by decide⟩

/-- C16 (amended, parent field and structural parent): in every world
reachable from empty heaps by the seven calls, every non-root member `n` of a
heap has a structural parent `sp` among the members (`n` is on the child list
of `sp`); the parent field of `n` names `sp` when `n` is the first child of
`sp`, and otherwise it names the previous sibling of `n`, a child of `sp`
other than `sp` whose list field refers to `n`. -/
theorem parent_field_structural (C : (Nat → Int) → Nat → Nat → Int) (hC : CmpFamOK C)
    (w : World) (h : Reachable C w) (i n : Nat) (hn : Member w.mem (w.roots i) n)
    (hroot : w.roots i ≠ some n) :
    ∃ sp, Member w.mem (w.roots i) sp ∧ ChildOf w.mem sp n ∧
      ((w.mem sp).ph_child = some n → (w.mem n).ph_parent = some sp) ∧
      ((w.mem sp).ph_child ≠ some n →
        ∃ q, q ≠ sp ∧ ChildOf w.mem sp q ∧ (w.mem q).ph_list = some n ∧
          (w.mem n).ph_parent = some q) := by
  obtain ⟨G, hG⟩ := reachable_ghost hC h
  exact ghost_parentFieldOK hG i n hn hroot

/-- Witness for C16: node 1 of the counterexample world; its structural parent
is the root. -/
theorem parent_field_structural_witness :
    ∃ sp, Member backWorld3.mem (backWorld3.roots 0) sp ∧ ChildOf backWorld3.mem sp 1 ∧
      ((backWorld3.mem sp).ph_child = some 1 → (backWorld3.mem 1).ph_parent = some sp) ∧
      ((backWorld3.mem sp).ph_child ≠ some 1 →
        ∃ q, q ≠ sp ∧ ChildOf backWorld3.mem sp q ∧ (backWorld3.mem q).ph_list = some 1 ∧
          (backWorld3.mem 1).ph_parent = some q) :=
  parent_field_structural diffCmp diffCmp_ok backWorld3 backWorld3_reachable 0 1
    ⟨0, by decide, Or.inr (show Reach backWorld3.mem (some 2) 1 from
      Reach.list 2 1 (show Reach backWorld3.mem (some 1) 1 from Reach.here 1))⟩
    (by decide)

/-! ## Empty heaps -/

/-- C17 (empty-heap no-ops): on a heap whose root pointer is empty `ph_pop`
returns the heap and the node store unchanged, `ph_destroy_heap` returns them
unchanged with no call of `PH_DESTROY`, both for every fuel, and so does
every sequence of the two calls. -/
theorem empty_heap_noops (heap : PH_HEAP) (m : Mem) (fuel : Nat) (ops : List EmptyOp)
    (hroot : heap.ph_root = none) :
    ph_pop fuel heap m = some (heap, m) ∧
    ph_destroy_heap fuel heap m = some (heap, m, []) ∧
    run_empty fuel ops heap m [] = some (heap, m, []) := by
  refine ⟨?_, ?_, run_empty_noop fuel heap m hroot ops []⟩
  · unfold ph_pop; simp only [hroot]
  · unfold ph_destroy_heap; simp only [hroot]

/-- Witness for C17: an empty heap over a store with stale links, no fuel. -/
theorem empty_heap_noops_witness :
    ph_pop 0 ⟨none, ph_cmp (keysOf [5])⟩ (staleMem 0) =
      some (⟨none, ph_cmp (keysOf [5])⟩, staleMem 0) ∧
    ph_destroy_heap 0 ⟨none, ph_cmp (keysOf [5])⟩ (staleMem 0) =
      some (⟨none, ph_cmp (keysOf [5])⟩, staleMem 0, []) ∧
    run_empty 0 [.pop, .destroy, .destroy, .pop] ⟨none, ph_cmp (keysOf [5])⟩ (staleMem 0) [] =
      some (⟨none, ph_cmp (keysOf [5])⟩, staleMem 0, []) :=
  empty_heap_noops ⟨none, ph_cmp (keysOf [5])⟩ (staleMem 0) 0 [.pop, .destroy, .destroy, .pop] rfl

/-! ## Refinements -/

/-- C18 (two pass pairing merge and its reference definition): for a sibling
list of trees `t_1 .. t_n` (the tree at `a` with children `ca`, followed by
the trees of `s`) with consistent links and no repeated node,
`__ph_extract_list` returns for every fuel above the number of nodes of `s`;
the node it returns is the root of `refExtract key [t_1, ..., t_n]`, the
children of that node in the resulting store are the children of that
reference tree, the predicate is evaluated exactly `n - 1` times, heap order
of the trees carries over to the result, the result holds the same nodes and
nodes outside the list are not written. -/
theorem extract_list_reference (heap : PH_HEAP) (key : Nat → Int) (m : Mem) (a : Nat)
    (ca s : Forest) (fuel : Nat) (hcmp : CmpOK heap key) (ha : TreeAt m a ca)
    (hs : Shape m (m a).ph_list s) (hb : Back m (some a) s)
    (hn : (a :: ca.nodes ++ s.nodes).Nodup) (hfuel : s.nodes.length < fuel) :
    ∃ m' r cr log,
      refExtract key (Forest.node a ca s).trees = some (r, cr) ∧
      __ph_extract_list_log fuel heap m a = some (m', r, log) ∧
      __ph_extract_list fuel heap m a = some (m', r) ∧
      TreeAt m' r cr ∧
      log.length = (Forest.node a ca s).trees.length - 1 ∧
      (∀ lb, HeapOrd key lb (.node a ca s) → lb ≤ key r ∧ HeapOrd key (key r) cr) ∧
      (r :: cr.nodes).Perm (a :: ca.nodes ++ s.nodes) ∧
      (∀ x, x ∉ a :: ca.nodes ++ s.nodes → m' x = m x) := by
  obtain ⟨m', hrun, ht, hfr⟩ := extract_list_spec hcmp fuel hfuel ha hs hb hn
  have hsub : (a :: s.trees.map Prod.fst).Sublist (a :: ca.nodes ++ s.nodes) :=
    List.Sublist.cons₂ _ ((trees_fst_sublist s).trans (List.sublist_append_right _ _))
  obtain ⟨m2, r2, log, hrunlog, hlen⟩ :=
    extract_list_log_count heap fuel m a (s.trees.map Prod.fst)
      (lt_of_le_of_lt (by simpa using (trees_fst_sublist s).length_le) hfuel)
      (Shape_chain s _ hs) (hsub.nodup hn)
  have hproj := extract_list_log_fst fuel heap m a
  rw [hrunlog, hrun] at hproj
  simp only [Option.map_some', Option.some.injEq, Prod.mk.injEq] at hproj
  obtain ⟨e1, e2⟩ := hproj
  subst e1 e2
  refine ⟨m2, (twoPass key a ca s).1, (twoPass key a ca s).2, log, twoPass_ref key a ca s,
    hrunlog, hrun, ht, ?_, fun lb ho => twoPass_ord ho, twoPass_perm key a ca s, hfr⟩
  rw [hlen]
  simp [Forest.trees]

/-- Witness for C18: the child list 3, 2, 1 (keys 3, 4, 5) of the heap built
from 1, 5, 4, 3; two evaluations, of the pairs `(2, 3)` and `(3, 1)`, and the
result is node 3 with the children 1, 2. -/
theorem extract_list_reference_witness :
    (∃ m' r cr log,
      refExtract refKey (Forest.node 3 .nil (.node 2 .nil (.node 1 .nil .nil))).trees =
        some (r, cr) ∧
      __ph_extract_list_log 4 refDemo.1 refDemo.2 3 = some (m', r, log) ∧
      __ph_extract_list 4 refDemo.1 refDemo.2 3 = some (m', r) ∧
      TreeAt m' r cr ∧
      log.length = (Forest.node 3 .nil (.node 2 .nil (.node 1 .nil .nil))).trees.length - 1 ∧
      (∀ lb, HeapOrd refKey lb (.node 3 .nil (.node 2 .nil (.node 1 .nil .nil))) →
        lb ≤ refKey r ∧ HeapOrd refKey (refKey r) cr) ∧
      (r :: cr.nodes).Perm (3 :: Forest.nil.nodes ++
        (Forest.node 2 .nil (.node 1 .nil .nil)).nodes) ∧
      (∀ x, x ∉ 3 :: Forest.nil.nodes ++ (Forest.node 2 .nil (.node 1 .nil .nil)).nodes →
        m' x = refDemo.2 x)) ∧
    (__ph_extract_list_log 4 refDemo.1 refDemo.2 3).map (fun r => (r.2.1, r.2.2)) =
      some (3, [(2, 3), (3, 1)]) ∧
    refExtract refKey (Forest.node 3 .nil (.node 2 .nil (.node 1 .nil .nil))).trees =
      some (3, .node 1 .nil (.node 2 .nil .nil)) :=
  ⟨extract_list_reference refDemo.1 refKey refDemo.2 3 .nil (.node 2 .nil (.node 1 .nil .nil)) 4
      (ph_cmp_ok _ (keysOf_bounded _ _ _ (by decide) (by decide)))
      (by decide) (by decide) (by decide) (by decide) (by decide),
    by decide, by decide⟩

/-- C19 (the parent-free variant): for every heap state and fuel, each
operation of PHEAP_V2.h followed by forgetting the parent fields gives the
result of the operation of PHEAP_V1.h on the state with the parent fields
forgotten: the same heap header, the same child and list fields, the same
record of `PH_DESTROY` calls, and no result exactly when the other has none.
For `ph_push` the list field of the pushed node is assumed empty. -/
theorem parent_free_variant_refines (heap src : PH_HEAP) (m : Mem) (n fuel : Nat)
    (hl : (m n).ph_list = none) :
    ((ph_push heap m n).1 = (V1.ph_push heap (forget m) n).1 ∧
      forget (ph_push heap m n).2 = (V1.ph_push heap (forget m) n).2) ∧
    (∀ k, (ph_push_raw heap m k).1 = (V1.ph_push_raw heap (forget m) k).1 ∧
      forget (ph_push_raw heap m k).2 = (V1.ph_push_raw heap (forget m) k).2) ∧
    (ph_pop fuel heap m).map (fun s => (s.1, forget s.2)) = V1.ph_pop fuel heap (forget m) ∧
    (ph_decrease_root fuel heap m).map (fun s => (s.1, forget s.2)) =
      V1.ph_decrease_root fuel heap (forget m) ∧
    ((ph_merge_heaps heap src m).1 = (V1.ph_merge_heaps heap src (forget m)).1 ∧
      (ph_merge_heaps heap src m).2.1 = (V1.ph_merge_heaps heap src (forget m)).2.1 ∧
      forget (ph_merge_heaps heap src m).2.2 = (V1.ph_merge_heaps heap src (forget m)).2.2) ∧
    (ph_destroy_heap fuel heap m).map (fun s => (s.1, forget s.2.1, s.2.2)) =
      V1.ph_destroy_heap fuel heap (forget m) :=
  ⟨forget_push heap m n hl, fun k => forget_push_raw heap m k, forget_pop fuel heap m,
    forget_decrease_root fuel heap m, forget_merge_heaps heap src m,
    forget_destroy_heap fuel heap m⟩

/-- Witness for C19: the heap built from 4, 8, 2, 6, the zero node 4 and an
empty source heap. -/
theorem parent_free_variant_refines_witness :
    ((ph_push removeDemo.1 removeDemo.2 4).1 =
        (V1.ph_push removeDemo.1 (forget removeDemo.2) 4).1 ∧
      forget (ph_push removeDemo.1 removeDemo.2 4).2 =
        (V1.ph_push removeDemo.1 (forget removeDemo.2) 4).2) ∧
    (∀ k, (ph_push_raw removeDemo.1 removeDemo.2 k).1 =
        (V1.ph_push_raw removeDemo.1 (forget removeDemo.2) k).1 ∧
      forget (ph_push_raw removeDemo.1 removeDemo.2 k).2 =
        (V1.ph_push_raw removeDemo.1 (forget removeDemo.2) k).2) ∧
    (ph_pop 5 removeDemo.1 removeDemo.2).map (fun s => (s.1, forget s.2)) =
      V1.ph_pop 5 removeDemo.1 (forget removeDemo.2) ∧
    (ph_decrease_root 5 removeDemo.1 removeDemo.2).map (fun s => (s.1, forget s.2)) =
      V1.ph_decrease_root 5 removeDemo.1 (forget removeDemo.2) ∧
    ((ph_merge_heaps removeDemo.1 ⟨none, ph_cmp removeKey⟩ removeDemo.2).1 =
        (V1.ph_merge_heaps removeDemo.1 ⟨none, ph_cmp removeKey⟩ (forget removeDemo.2)).1 ∧
      (ph_merge_heaps removeDemo.1 ⟨none, ph_cmp removeKey⟩ removeDemo.2).2.1 =
        (V1.ph_merge_heaps removeDemo.1 ⟨none, ph_cmp removeKey⟩ (forget removeDemo.2)).2.1 ∧
      forget (ph_merge_heaps removeDemo.1 ⟨none, ph_cmp removeKey⟩ removeDemo.2).2.2 =
        (V1.ph_merge_heaps removeDemo.1 ⟨none, ph_cmp removeKey⟩
          (forget removeDemo.2)).2.2) ∧
    (ph_destroy_heap 5 removeDemo.1 removeDemo.2).map (fun s => (s.1, forget s.2.1, s.2.2)) =
      V1.ph_destroy_heap 5 removeDemo.1 (forget removeDemo.2) :=
  parent_free_variant_refines removeDemo.1 ⟨none, ph_cmp removeKey⟩ removeDemo.2 4 5
    (by decide)

/-! ## Back pointers -/

/-- C20 as stated fails: in the world reached from empty heaps by
`ph_push_raw` of the nodes 0, 1, 2 (keys 1, 3, 2) and one `ph_pop`, the
non-root member 1 has the parent field 2 (the root), and both the child field
and the stale list field of node 2 refer to node 1. -/
theorem root_stale_list_names_first_child :
    Reachable diffCmp backWorld4 ∧ backWorld4.roots 0 = some 2 ∧
    Member backWorld4.mem (backWorld4.roots 0) 1 ∧
    (backWorld4.mem 1).ph_parent = some 2 ∧
    (backWorld4.mem 2).ph_child = some 1 ∧ (backWorld4.mem 2).ph_list = some 1 :=
  ⟨backWorld4_reachable, by decide,
    ⟨2, by decide, Or.inr (show Reach backWorld4.mem (some 1) 1 from Reach.here 1)⟩,
    by decide, by decide, by decide⟩

/-- C20 (amended, back-pointer consistency): in every world reachable from
empty heaps by `ph_push_raw`, `ph_pop`, `ph_remove_at`, `ph_decrease_at`,
`ph_decrease_root`, `ph_merge_heaps` and `ph_move_at`, every non-root member
`n` of a heap has a parent field naming a member `p`, its predecessor: the
child field of `p` refers to `n`, or `p` is not the root and its list field
refers to `n`; a `p` other than the root refers to `n` by one field only (the
list field of the root is not maintained and may repeat its child field); no
child field of another member and no list field of another non-root member
refers to `n`, so the test `parent->ph_child == node` selects the one
structural pointer to `n`.  Every call that respects its precondition returns
for all sufficiently large fuel and preserves the property. -/
theorem back_pointer_consistency (C : (Nat → Int) → Nat → Nat → Int) (hC : CmpFamOK C)
    (w : World) (h : Reachable C w) :
    (∀ i n, Member w.mem (w.roots i) n → w.roots i ≠ some n →
      ∃ p, (w.mem n).ph_parent = some p ∧ Member w.mem (w.roots i) p ∧
        ((w.mem p).ph_child = some n ∨ ((w.mem p).ph_list = some n ∧ w.roots i ≠ some p)) ∧
        (w.roots i ≠ some p → ¬ ((w.mem p).ph_child = some n ∧ (w.mem p).ph_list = some n)) ∧
        (∀ q, Member w.mem (w.roots i) q → (w.mem q).ph_child = some n → q = p) ∧
        (∀ q, Member w.mem (w.roots i) q → w.roots i ≠ some q →
          (w.mem q).ph_list = some n → q = p)) ∧
    ∀ op, Pre w op →
      ∃ N, ∀ fuel, N ≤ fuel →
        ∃ w', step C fuel w op = some w' ∧ ∀ i, BackOK w'.mem (w'.roots i) := by
  obtain ⟨G, hG⟩ := reachable_ghost hC h
  refine ⟨fun i n hn hroot => ghost_backOK hG i n hn hroot, ?_⟩
  intro op hpre
  obtain ⟨N, hN⟩ := step_ok hC hG op hpre
  refine ⟨N, fun fuel hfuel => ?_⟩
  obtain ⟨w', G', hstep, hG'⟩ := hN fuel hfuel
  exact ⟨w', hstep, fun i => ghost_backOK hG' i⟩

/-- Witness for C20: the world of the counterexample, after the `ph_pop`. -/
theorem back_pointer_consistency_witness :
    (∀ i n, Member backWorld4.mem (backWorld4.roots i) n → backWorld4.roots i ≠ some n →
      ∃ p, (backWorld4.mem n).ph_parent = some p ∧ Member backWorld4.mem (backWorld4.roots i) p ∧
        ((backWorld4.mem p).ph_child = some n ∨
          ((backWorld4.mem p).ph_list = some n ∧ backWorld4.roots i ≠ some p)) ∧
        (backWorld4.roots i ≠ some p →
          ¬ ((backWorld4.mem p).ph_child = some n ∧ (backWorld4.mem p).ph_list = some n)) ∧
        (∀ q, Member backWorld4.mem (backWorld4.roots i) q →
          (backWorld4.mem q).ph_child = some n → q = p) ∧
        (∀ q, Member backWorld4.mem (backWorld4.roots i) q → backWorld4.roots i ≠ some q →
          (backWorld4.mem q).ph_list = some n → q = p)) ∧
    ∀ op, Pre backWorld4 op →
      ∃ N, ∀ fuel, N ≤ fuel →
        ∃ w', step diffCmp fuel backWorld4 op = some w' ∧ ∀ i, BackOK w'.mem (w'.roots i) :=
  back_pointer_consistency diffCmp diffCmp_ok backWorld4 backWorld4_reachable

/-! ## General key updates and the two consumers -/

/-- C21 (decrease-at as a general key update): for a well-formed heap and a
member `x` whose key the caller has changed to any value, raised as well as
lowered, the removal step gives the same tree under the new keys as under the
old ones (the key of `x` is never consulted), and `ph_decrease_at` returns for
all sufficiently large fuel with the heap `pushHeap key' x (removeHeap key x r
c)`: the single node `x`, entering with an empty child list, paired with what
the removal left.  The result is well-formed under the new keys, has exactly
the old members, each once, nodes outside the heap are not written, and full
extraction yields every member once with keys nondecreasing. -/
theorem ph_decrease_at_general (heap : PH_HEAP) (key key' : Nat → Int) (m : Mem) (r x : Nat)
    (c : Forest) (fuel : Nat) (hcmp : CmpOK heap key') (hwf : HeapRep key heap m r c)
    (hx : x ∈ r :: c.nodes) (hk : ∀ y, y ≠ x → key' y = key y)
    (hfuel : c.nodes.length + 1 < fuel) :
    removeHeap key' x r c = removeHeap key x r c ∧
    ∃ heap' m', ph_decrease_at fuel heap m x = some (heap', m') ∧
      heap'.ph_cmp = heap.ph_cmp ∧
      (∀ y, y ∉ r :: c.nodes → m' y = m y) ∧
      HeapRep key' heap' m' (pushHeap key' x (removeHeap key x r c)).1
        (pushHeap key' x (removeHeap key x r c)).2 ∧
      ((pushHeap key' x (removeHeap key x r c)).1 ::
        (pushHeap key' x (removeHeap key x r c)).2.nodes).Perm (r :: c.nodes) ∧
      (∀ y, Member m' heap'.ph_root y ↔ y ∈ r :: c.nodes) ∧
      ∃ hf mf out, pop_all fuel heap' m' = some (hf, mf, out) ∧ hf.ph_root = none ∧
        out.Perm (r :: c.nodes) ∧ (out.map key').Sorted (· ≤ ·) := by
  refine ⟨removeHeap_congr x hk hwf.2.2.1, ?_⟩
  obtain ⟨heap', m', hrun, hc, hfr, hrep, hperm⟩ :=
    ph_decrease_at_exact hcmp fuel hk hwf hx (by omega)
  have hlen := hperm.length_eq
  simp only [List.length_cons] at hlen
  obtain ⟨hf, mf, out, hpop, hroot, hp, hsorted, _⟩ :=
    pop_all_sorted (fun a b => by rw [hc]; exact hcmp a b) fuel hrep (by omega)
  exact ⟨heap', m', hrun, hc, hfr, hrep, hperm,
    fun y => (Member_iff hrep y).trans hperm.mem_iff, hf, mf, out, hpop, hroot,
    hp.trans hperm, hsorted⟩

/-- Witness for C21: in the heap built from 10, 20, 30 the key of the root
(node 0) is raised to 35; after `ph_decrease_at` the pops yield 20, 30, 35. -/
theorem ph_decrease_at_general_witness :
    (removeHeap raisedKey 0 0 (.node 2 .nil (.node 1 .nil .nil)) =
        removeHeap decKey 0 0 (.node 2 .nil (.node 1 .nil .nil)) ∧
      ∃ heap' m',
        ph_decrease_at 4 ⟨decDemo.1.ph_root, ph_cmp raisedKey⟩ decDemo.2 0 = some (heap', m') ∧
        heap'.ph_cmp = ph_cmp raisedKey ∧
        (∀ y, y ∉ 0 :: (Forest.node 2 .nil (.node 1 .nil .nil)).nodes → m' y = decDemo.2 y) ∧
        HeapRep raisedKey heap' m'
          (pushHeap raisedKey 0 (removeHeap decKey 0 0 (.node 2 .nil (.node 1 .nil .nil)))).1
          (pushHeap raisedKey 0 (removeHeap decKey 0 0 (.node 2 .nil (.node 1 .nil .nil)))).2 ∧
        ((pushHeap raisedKey 0 (removeHeap decKey 0 0 (.node 2 .nil (.node 1 .nil .nil)))).1 ::
          (pushHeap raisedKey 0
            (removeHeap decKey 0 0 (.node 2 .nil (.node 1 .nil .nil)))).2.nodes).Perm
          (0 :: (Forest.node 2 .nil (.node 1 .nil .nil)).nodes) ∧
        (∀ y, Member m' heap'.ph_root y ↔
          y ∈ 0 :: (Forest.node 2 .nil (.node 1 .nil .nil)).nodes) ∧
        ∃ hf mf out, pop_all 4 heap' m' = some (hf, mf, out) ∧ hf.ph_root = none ∧
          out.Perm (0 :: (Forest.node 2 .nil (.node 1 .nil .nil)).nodes) ∧
          (out.map raisedKey).Sorted (· ≤ ·)) ∧
    ((ph_decrease_at 4 ⟨decDemo.1.ph_root, ph_cmp raisedKey⟩ decDemo.2 0).bind
        (fun s => pop_all 4 s.1 s.2)).map (fun s => s.2.2.map raisedKey) = some [20, 30, 35] :=
  ⟨ph_decrease_at_general ⟨decDemo.1.ph_root, ph_cmp raisedKey⟩ decKey raisedKey decDemo.2 0 0
      (.node 2 .nil (.node 1 .nil .nil)) 4
      (ph_cmp_ok _ (keysOf_bounded _ _ _ (by decide) (by decide)))
      (by decide) (by decide)
      (fun y hy => by
        rcases y with _ | _ | _ | y
        · exact absurd rfl hy
        · rfl
        · rfl
        · rfl)
      (by decide),
    by decide⟩

/-- C22 (failing input): for the maze file with the single row `" S E"` the
first iteration of `astar` dequeues the start cell 1 and queues its
neighbours, cell 0 with score 4 and cell 2 (next to the end) with score 2.
With `cmp` returning `p2->fscore - p1->fscore` and the default
`PH_ISGREATER` the root is then cell 0, the queued cell that has the largest
score: `PH_ISGREATER(cell 0, cell 2)` holds and `astar` dequeues cell 0
next. -/
theorem astar_dequeues_largest_fscore :
    (Maze.astar_step 4 Maze.rowMaze 1).map (fun s => (s.1.ph_root, s.2)) =
      some (some 0, true) ∧
    (Maze.astar_step 4 Maze.rowMaze 1).map (fun s => (s.1.fscore 0, s.1.fscore 2)) =
      some (4, 2) ∧
    (Maze.astar_step 4 Maze.rowMaze 1).map
      (fun s => (s.1.flag 0 &&& Maze.TOP, s.1.flag 2 &&& Maze.TOP)) = some (4, 4) ∧
    (Maze.astar_step 4 Maze.rowMaze 1).map (fun s => (s.1.mem 0, s.1.mem 2)) =
      some (⟨none, some 2, none⟩, ⟨none, none, some 0⟩) ∧
    (Maze.astar_step 4 Maze.rowMaze 1).map
      (fun s => PH_ISGREATER (Maze.heapOfData s.1) 0 2) = some true := by
  decide

/-- C23 (failing input): for the keys `INT_MIN` and 1 the subtraction wraps,
`ph_cmp` returns `INT_MAX`, a positive value, although `INT_MIN < 1`; the sort
demo (`insert_data` followed by `sort_data`) then prints 1 before
`INT_MIN`. -/
theorem ph_cmp_overflow_breaks_sort :
    ph_cmp extremeKey 0 1 = 2147483647 ∧ extremeKey 0 < extremeKey 1 ∧
    (sort_data 4 (insert_data ⟨none, ph_cmp extremeKey⟩ zeroMem 0 1).1
        (insert_data ⟨none, ph_cmp extremeKey⟩ zeroMem 0 1).2).map
      (fun s => s.2.2.map extremeKey) = some [1, -2147483648] := by
  decide

end PHeap
